import Mathlib

/-!
# Block-sparse BLAS dispatch (`btas/SDblas.h`) over a shallow embedding

The development embeds the block-sparse layer of
`c++98_with_blitz/include/btas/SDblas.h` (the level-1 routines copy, dot and
axpy, and the contraction drivers) together with the dense kernels of
`include/btas/DENSE/TBLAS.h` it dispatches to.

Conventions of the embedding

* C++ `int` tags and bounds are `Int` and the arithmetic on them is exact;
  extents of a shape are `Nat`, the `int` extents of a `TinyVector` being
  non-negative. The task-list constructions of the contraction routines are
  given a second time with every `int` of the source reduced to its 32 bits
  (`int32`, the definitions named `_int32`); the two agree when the totals the
  routine computes with are values of `int` (`ThreadSDgemm_tasks_int32_eq`,
  `ThreadSDgemv_tasks_int32_eq`, `ThreadSDger_tasks_int32_eq`); the
  statements on the range and the distinctness of the destination tags and on
  the "could not be allocated" branch are made on the `_int32` constructions,
  under that hypothesis.
* `%` and `/` by `0` have no value: `checkedMod` and `checkedDiv` are `none`
  there, and so are `SDdimd` and `SDdidm` and the checked task-list
  constructions when they reach one. The `%` of the matching loops of
  `ThreadSDgemm` and `ThreadSDgemv`, never reached with a stride of `0`, is
  `Int.tmod`.
* `double` scalars are exact integers (`Int`): statements about block contents
  are statements in exact arithmetic.
* `shared_ptr<DArray<N> >` operands of a task are the block values; the
  destination pointer of a task is the tag of the block in the destination
  tensor.  This is the reading in which `a`, `b` and `c` are distinct tensors.
* A routine that can `BTAS_THROW` returns `Except (BtasError × SDArray) _`, the
  error carrying the destination tensor as it is at the throw.
* The preprocessor symbol `SERIAL`, which selects the serial loop of a level-1
  driver in place of the threaded one, is the `Bool` argument `serial`.
-/

namespace btas

/-! ## Dense arrays and the dense kernels -/

/-- Transposition flag `BTAS_TRANSPOSE` of the BLAS-like interfaces (the
`CBLAS_TRANSPOSE` values). -/
inductive BTAS_TRANSPOSE where
  | NoTrans
  | Trans
  | ConjTrans
deriving DecidableEq, Repr

/-- The fatal conditions raised through `BTAS_THROW`. -/
inductive BtasError where
  /-- the "size of c mismatched" throw and its siblings in the drivers -/
  | shapeMismatch
  /-- the "required block could not be allocated / reserved" throw -/
  | blockUnavailable
  /-- a dense kernel rejected the shape of its destination -/
  | denseShapeMismatch
  /-- a task was run whose destination pointer is not a block of the tensor -/
  | unboundDestination
deriving DecidableEq, Repr

/-- Dense array `DArray<N>`: extents and row-major contents. `N` is the length
of `shape`; a default-constructed array has all extents `0` and no element. -/
structure DArray where
  shape : List Nat
  data : List Int
deriving DecidableEq, Repr

namespace DArray

/-- Number of elements, `size()`. -/
def size (a : DArray) : Nat := a.data.length

/-- Number of dimensions (the template parameter `N`). -/
def rank (a : DArray) : Nat := a.shape.length

/-- The array of the given shape with every element `0`
(`resize(shape)` followed by `= 0`). -/
def zeros (shape : List Nat) : DArray :=
  { shape := shape, data := List.replicate shape.prod 0 }

end DArray

/-- Modelled from the spec: `gemm_contract_shape` of `btas/contract_shape.h` is
not among the sources. It is the pure function that splits the two shapes by
the transpose mode and returns the contracted extents and the output shape
(free extents of `a` followed by free extents of `b`); `K` is the contracted
rank `(NA + NB - NC) / 2`. -/
def gemm_contract_shape (transa transb : BTAS_TRANSPOSE) (K : Nat)
    (a_shape b_shape : List Nat) : List Nat × List Nat :=
  let NA := a_shape.length
  let NB := b_shape.length
  let rows := if transa = .NoTrans then a_shape.take (NA - K) else a_shape.drop K
  let contracts := if transa = .NoTrans then a_shape.drop (NA - K) else a_shape.take K
  let cols := if transb = .NoTrans then b_shape.drop K else b_shape.take (NB - K)
  (contracts, rows ++ cols)

/-- Element `i` of a raw buffer (`ptr[i]`); reading past the end is not
something the kernels do on well-shaped operands and yields `0` here. -/
def at0 (buf : List Int) (i : Nat) : Int := buf.getD i 0

/-- Row-major `cblas_dgemm`: the `M × N` result
`alpha * op(a) * op(b) + beta * c` with leading dimensions `lda`, `ldb`, `ldc`. -/
def detail.gemm (transa transb : BTAS_TRANSPOSE) (M N K : Nat) (alpha : Int)
    (a : List Int) (lda : Nat) (b : List Int) (ldb : Nat) (beta : Int)
    (c : List Int) (ldc : Nat) : List Int :=
  (List.range M).flatMap fun i =>
    (List.range N).map fun j =>
      alpha * ((List.range K).map fun k =>
          (if transa = .NoTrans then at0 a (i * lda + k) else at0 a (k * lda + i)) *
          (if transb = .NoTrans then at0 b (k * ldb + j) else at0 b (j * ldb + k))).sum
        + beta * at0 c (i * ldc + j)

/-- `Gemm` of `DENSE/TBLAS.h`: `c := alpha * a * b + beta * c`.
`none` is the `BTAS_THROW` on a non-empty `c` of another shape. -/
def Gemm (transa transb : BTAS_TRANSPOSE) (alpha : Int) (a b : DArray) (beta : Int)
    (c : DArray) : Option DArray :=
  let L := a.rank
  let K := (L + b.rank - c.rank) / 2
  if a.size = 0 ∨ b.size = 0 then some c
  else
    let (idxcon, shapeC) := gemm_contract_shape transa transb K a.shape b.shape
    if 0 < c.size ∧ c.shape ≠ shapeC then none
    else
      let c1 := if 0 < c.size then c else DArray.zeros shapeC
      let rowsA := (shapeC.take (L - K)).prod
      let colsA := idxcon.prod
      let colsB := (shapeC.drop (L - K)).prod
      let ldA := if transa = .NoTrans then colsA else rowsA
      let ldB := if transb = .NoTrans then colsB else colsA
      some { shape := c1.shape
             data := detail.gemm transa transb rowsA colsB colsA alpha a.data ldA
                       b.data ldB beta c1.data colsB }

/-- Modelled from the spec: `Dgemm` of `btas/Dblas.h` is not among the sources;
it is the thin wrapper of the vendor kernel for `double`, i.e. the dense `Gemm`
of `DENSE/TBLAS.h`. -/
def Dgemm (transa transb : BTAS_TRANSPOSE) (alpha : Int) (a b : DArray) (beta : Int)
    (c : DArray) : Option DArray :=
  Gemm transa transb alpha a b beta c

/-- Modelled from the spec: `gemv_contract_shape` of `btas/contract_shape.h` is
not among the sources. The output shape of a matrix-vector contraction: the
extents of `a` that are not contracted with `x` (the leading ones for
`NoTrans`, the trailing ones otherwise). -/
def gemv_contract_shape (transa : BTAS_TRANSPOSE) (a_shape x_shape : List Nat) : List Nat :=
  if transa = .NoTrans then a_shape.take (a_shape.length - x_shape.length)
  else a_shape.drop x_shape.length

/-- Modelled from the spec: `ger_contract_shape` of `btas/contract_shape.h` is
not among the sources. The output shape of an outer product is the
concatenation of the two shapes. -/
def ger_contract_shape (x_shape y_shape : List Nat) : List Nat := x_shape ++ y_shape

/-- Row-major `cblas_dgemv` with unit increments on an `M × N` matrix:
`alpha * op(a) * x + beta * y`. -/
def detail.gemv (transa : BTAS_TRANSPOSE) (M N : Nat) (alpha : Int) (a : List Int)
    (lda : Nat) (x : List Int) (beta : Int) (y : List Int) : List Int :=
  if transa = .NoTrans then
    (List.range M).map fun i =>
      alpha * ((List.range N).map fun k => at0 a (i * lda + k) * at0 x k).sum + beta * at0 y i
  else
    (List.range N).map fun j =>
      alpha * ((List.range M).map fun k => at0 a (k * lda + j) * at0 x k).sum + beta * at0 y j

/-- Row-major `cblas_dger` with unit increments: `alpha * x * y^T + a`. -/
def detail.ger (M N : Nat) (alpha : Int) (x y : List Int) (a : List Int) (lda : Nat) :
    List Int :=
  (List.range M).flatMap fun i =>
    (List.range N).map fun j => alpha * (at0 x i * at0 y j) + at0 a (i * lda + j)

/-- `Gemv` of `DENSE/TBLAS.h`: `y := alpha * a * x + beta * y`. -/
def Gemv (transa : BTAS_TRANSPOSE) (alpha : Int) (a x : DArray) (beta : Int)
    (y : DArray) : Option DArray :=
  if a.size = 0 ∨ x.size = 0 then some y
  else
    let shapeY := gemv_contract_shape transa a.shape x.shape
    if 0 < y.size ∧ y.shape ≠ shapeY then none
    else
      let y1 := if 0 < y.size then y else DArray.zeros shapeY
      let colsA0 := x.shape.prod
      let rowsA0 := a.size / colsA0
      let rowsA := if transa ≠ .NoTrans then colsA0 else rowsA0
      let colsA := if transa ≠ .NoTrans then rowsA0 else colsA0
      some { shape := y1.shape
             data := detail.gemv transa rowsA colsA alpha a.data colsA x.data beta y1.data }

/-- `Ger` of `DENSE/TBLAS.h`: `a := alpha * x ^ y + a`. -/
def Ger (alpha : Int) (x y : DArray) (a : DArray) : Option DArray :=
  if x.size = 0 ∨ y.size = 0 then some a
  else
    let shapeA := ger_contract_shape x.shape y.shape
    if 0 < a.size ∧ a.shape ≠ shapeA then none
    else
      let a1 := if 0 < a.size then a else DArray.zeros shapeA
      let rowsA := x.size
      let colsA := y.size
      some { shape := a1.shape
             data := detail.ger rowsA colsA alpha x.data y.data a1.data colsA }

/-- Modelled from the spec: `Dgemv` of `btas/Dblas.h` is not among the sources;
it is the dense `Gemv` of `DENSE/TBLAS.h` for `double`. -/
def Dgemv (transa : BTAS_TRANSPOSE) (alpha : Int) (a x : DArray) (beta : Int)
    (y : DArray) : Option DArray :=
  Gemv transa alpha a x beta y

/-- Modelled from the spec: `Dger` of `btas/Dblas.h` is not among the sources;
it is the dense `Ger` of `DENSE/TBLAS.h` for `double`. -/
def Dger (alpha : Int) (x y : DArray) (a : DArray) : Option DArray :=
  Ger alpha x y a

/-- `Scal` of `DENSE/TBLAS.h`: `x := alpha * x` (nothing to do on an empty `x`). -/
def Scal (alpha : Int) (x : DArray) : DArray :=
  if x.size = 0 then x else { x with data := x.data.map (alpha * ·) }

/-- Modelled from the spec: `Dscal` of `btas/Dblas.h` is not among the sources;
it is the dense `Scal` for `double`. -/
def Dscal (alpha : Int) (x : DArray) : DArray := Scal alpha x

/-! ## The block container `SDArray<N>` -/

/-- Modelled from the spec: `SDArray<N>` of `btas/SDArray.h` is not among the
sources. The block-sparse array of the data model: declared block-grid shape,
the stored blocks as a mapping in ascending tag order, the legality predicate
`allowed` owned by the tensor, and the dense shape implied by the coordinate of
a tag (the shape of the block a reservation allocates there). -/
structure SDArray where
  shape : List Nat
  store : List (Int × DArray)
  allowed : Int → Bool
  blockShape : Int → List Nat

namespace SDArray

/-- Modelled from the spec: `size()`, the number of stored blocks. -/
def size (x : SDArray) : Nat := x.store.length

/-- Tags of the stored blocks, in iteration order. -/
def tags (x : SDArray) : List Int := x.store.map Prod.fst

/-- Modelled from the spec: `size_total()`, the product of the declared
extents, i.e. the number of tags of the block grid. -/
def size_total (x : SDArray) : Nat := x.shape.prod

/-- Modelled from the spec: `find(tag)`, block-or-absent, does not allocate. -/
def find (x : SDArray) (tag : Int) : Option DArray :=
  (x.store.find? fun p => p.1 == tag).map Prod.snd

/-- Modelled from the spec: `lower_bound(tag)`, the position of the first
stored block whose tag is not less than `tag` (`size()` stands for `end()`). -/
def lower_bound (x : SDArray) (tag : Int) : Nat :=
  (x.store.takeWhile fun p => decide (p.1 < tag)).length

/-- Modelled from the spec: `upper_bound(tag)`, the position of the first
stored block whose tag is greater than `tag`. -/
def upper_bound (x : SDArray) (tag : Int) : Nat :=
  (x.store.takeWhile fun p => decide (p.1 ≤ tag)).length

/-- The blocks visited by `for(it = lo; it != up; ++it)`. -/
def slab (x : SDArray) (lo up : Nat) : List (Int × DArray) :=
  (x.store.drop lo).take (up - lo)

/-- Insertion of a new entry into the ordered mapping. -/
def insertBlock (tag : Int) (blk : DArray) : List (Int × DArray) → List (Int × DArray)
  | [] => [(tag, blk)]
  | p :: ps => if tag < p.1 then (tag, blk) :: p :: ps else p :: insertBlock tag blk ps

/-- Modelled from the spec: `reserve(tag)` returns the existing block if
present; otherwise, if the tag is legally within the declared shape
(`allowed(tag)` and `0 <= tag < size_total()`), allocates a new all-zero block
of the shape implied by the tag and stores it; otherwise returns absent
(`none`, the `end()` iterator). The result is the container after the call;
the iterator is the tag itself. -/
def reserve (x : SDArray) (tag : Int) : Option SDArray :=
  match x.find tag with
  | some _ => some x
  | none =>
    if x.allowed tag ∧ 0 ≤ tag ∧ tag < (x.size_total : Int) then
      some { x with store := insertBlock tag (DArray.zeros (x.blockShape tag)) x.store }
    else none

/-- Modelled from the spec: `resize(shape)` rebinds the declared shape; the
resize is destructive, no block is kept. -/
def resize (x : SDArray) (shape : List Nat) : SDArray :=
  { x with shape := shape, store := [] }

/-- Assignment through the pointer held by a stored entry: the block at `tag`
is replaced by `blk`. -/
def setBlock (x : SDArray) (tag : Int) (blk : DArray) : SDArray :=
  { x with store := x.store.map fun p => if p.1 == tag then (p.1, blk) else p }

/-- Modelled from the spec: `transpose_view(K)` reinterprets the block-tag
layout without copying data: the first `K` grid dimensions are moved last, so
the block at tag `r * cols + c` (with `r` over the first `K` dimensions) is
seen at tag `c * rows + r`; the blocks themselves are shared. -/
def transpose_view (x : SDArray) (K : Nat) : SDArray :=
  let rows : Int := ((x.shape.take K).prod : Nat)
  let cols : Int := ((x.shape.drop K).prod : Nat)
  { x with
    shape := x.shape.drop K ++ x.shape.take K
    store := x.store.foldl
      (fun acc p => insertBlock (p.1.tmod cols * rows + p.1.tdiv cols) p.2 acc) [] }

/-- Stored tags are strictly ascending (the ordering of `std::map`). -/
def Sorted (x : SDArray) : Prop := x.tags.Pairwise (· < ·)

/-- The tag invariant of the data model: every stored tag is non-negative and
smaller than the product of the declared extents. -/
def TagsInRange (x : SDArray) : Prop :=
  ∀ t ∈ x.tags, 0 ≤ t ∧ t < (x.size_total : Int)

instance (x : SDArray) : Decidable x.Sorted := by
  unfold Sorted; infer_instance

instance (x : SDArray) : Decidable x.TagsInRange := by
  unfold TagsInRange; infer_instance

end SDArray

/-- A routine that may throw while it owns the destination tensor: the error
carries the tensor as it is at the throw. -/
abbrev Outcome (α : Type) := Except (BtasError × SDArray) α

/-- The destination tensor after the call, whether it returned or threw. -/
def Outcome.final : Outcome SDArray → SDArray
  | .ok c => c
  | .error e => e.2

/-- A counted or iterator loop whose body may throw: the bodies run in list
order and the first throw leaves the loop. -/
def forLoop {ι σ ε : Type} (body : ι → σ → Except ε σ) : List ι → σ → Except ε σ
  | [], s => .ok s
  | i :: is, s =>
    match body i s with
    | .ok s1 => forLoop body is s1
    | .error e => .error e

/-- Modelled from the spec: `parallel_call(task_list)` runs every task of the
list to completion through its `call()`; here in list order, a throw of a task
aborting the call. -/
def parallel_call {τ : Type} (call : τ → SDArray → Outcome SDArray)
    (task_list : List τ) (c : SDArray) : Outcome SDArray :=
  forLoop call task_list c

/-! ## Task argument lists -/

/-- `Dgemm_arglist<NA, NB, NC>`: the operand pairs of one destination block
with their weights and the fixed parameters of the call. The members
`m_arglist` and `m_c_ptr` with `size()`, `set()` and the base `add()` belong to
`T_contraction_arglist` of `btas/arglist.h`, which is not among the sources;
they are modelled from the spec: the list of operand pairs and the single
destination block reference of a task. -/
structure Dgemm_arglist where
  m_arglist : List (DArray × DArray)
  m_c_ptr : Option Int
  m_scale : List Int
  m_transa : BTAS_TRANSPOSE
  m_transb : BTAS_TRANSPOSE
  m_alpha : Int
  m_beta : Int
deriving DecidableEq, Repr

namespace Dgemm_arglist

/-- Constructor `Dgemm_arglist(transa, transb, alpha, beta)`. -/
def new (transa transb : BTAS_TRANSPOSE) (alpha beta : Int) : Dgemm_arglist :=
  { m_arglist := [], m_c_ptr := none, m_scale := [],
    m_transa := transa, m_transb := transb, m_alpha := alpha, m_beta := beta }

/-- Member `add(a_ptr, b_ptr, scale)`. -/
def add (l : Dgemm_arglist) (a b : DArray) (scale : Int) : Dgemm_arglist :=
  { l with m_scale := l.m_scale ++ [scale], m_arglist := l.m_arglist ++ [(a, b)] }

/-- Member `size()`: number of operand pairs. -/
def size (l : Dgemm_arglist) : Nat := l.m_arglist.length

/-- Member `set(c_ptr)`: binds the destination block. -/
def set (l : Dgemm_arglist) (c_tag : Int) : Dgemm_arglist :=
  { l with m_c_ptr := some c_tag }

/-- The loop of `call()` on the destination block: one `Dgemm` per operand
pair, in list order; `.error` carries the block as it is when a `Dgemm` throws. -/
def callLoop (l : Dgemm_arglist) : List ((DArray × DArray) × Int) → DArray →
    Except DArray DArray
  | [], c => .ok c
  | (ab, s) :: rest, c =>
    match Dgemm l.m_transa l.m_transb (s * l.m_alpha) ab.1 ab.2 l.m_beta c with
    | some c1 => callLoop l rest c1
    | none => .error c

/-- Member `call()`, acting on the tensor that owns the destination block. -/
def call (l : Dgemm_arglist) (c : SDArray) : Outcome SDArray :=
  match l.m_c_ptr with
  | none => .error (.unboundDestination, c)
  | some tag =>
    match c.find tag with
    | none => .error (.unboundDestination, c)
    | some blk =>
      match callLoop l (l.m_arglist.zip l.m_scale) blk with
      | .ok blk1 => .ok (c.setBlock tag blk1)
      | .error blk1 => .error (.denseShapeMismatch, c.setBlock tag blk1)

end Dgemm_arglist

/-- `Dgemv_arglist<NA, NB, NC>`, over the same base members as `Dgemm_arglist`. -/
structure Dgemv_arglist where
  m_arglist : List (DArray × DArray)
  m_c_ptr : Option Int
  m_scale : List Int
  m_transa : BTAS_TRANSPOSE
  m_alpha : Int
  m_beta : Int
deriving DecidableEq, Repr

namespace Dgemv_arglist

/-- Constructor `Dgemv_arglist(transa, alpha, beta)`. -/
def new (transa : BTAS_TRANSPOSE) (alpha beta : Int) : Dgemv_arglist :=
  { m_arglist := [], m_c_ptr := none, m_scale := [],
    m_transa := transa, m_alpha := alpha, m_beta := beta }

/-- Member `add(a_ptr, b_ptr, scale)`. -/
def add (l : Dgemv_arglist) (a b : DArray) (scale : Int) : Dgemv_arglist :=
  { l with m_scale := l.m_scale ++ [scale], m_arglist := l.m_arglist ++ [(a, b)] }

/-- Member `size()`: number of operand pairs. -/
def size (l : Dgemv_arglist) : Nat := l.m_arglist.length

/-- Member `set(c_ptr)`: binds the destination block. -/
def set (l : Dgemv_arglist) (c_tag : Int) : Dgemv_arglist :=
  { l with m_c_ptr := some c_tag }

/-- The loop of `call()` on the destination block: one `Dgemv` per operand pair. -/
def callLoop (l : Dgemv_arglist) : List ((DArray × DArray) × Int) → DArray →
    Except DArray DArray
  | [], c => .ok c
  | (ab, s) :: rest, c =>
    match Dgemv l.m_transa (s * l.m_alpha) ab.1 ab.2 l.m_beta c with
    | some c1 => callLoop l rest c1
    | none => .error c

/-- Member `call()`, acting on the tensor that owns the destination block. -/
def call (l : Dgemv_arglist) (c : SDArray) : Outcome SDArray :=
  match l.m_c_ptr with
  | none => .error (.unboundDestination, c)
  | some tag =>
    match c.find tag with
    | none => .error (.unboundDestination, c)
    | some blk =>
      match callLoop l (l.m_arglist.zip l.m_scale) blk with
      | .ok blk1 => .ok (c.setBlock tag blk1)
      | .error blk1 => .error (.denseShapeMismatch, c.setBlock tag blk1)

end Dgemv_arglist

/-- `Dger_arglist<NA, NB, NC>`, over the same base members as `Dgemm_arglist`. -/
structure Dger_arglist where
  m_arglist : List (DArray × DArray)
  m_c_ptr : Option Int
  m_scale : List Int
  m_alpha : Int
deriving DecidableEq, Repr

namespace Dger_arglist

/-- Constructor `Dger_arglist(alpha)`. -/
def new (alpha : Int) : Dger_arglist :=
  { m_arglist := [], m_c_ptr := none, m_scale := [], m_alpha := alpha }

/-- Member `add(a_ptr, b_ptr, scale)`. -/
def add (l : Dger_arglist) (a b : DArray) (scale : Int) : Dger_arglist :=
  { l with m_scale := l.m_scale ++ [scale], m_arglist := l.m_arglist ++ [(a, b)] }

/-- Member `size()`: number of operand pairs. -/
def size (l : Dger_arglist) : Nat := l.m_arglist.length

/-- Member `set(c_ptr)`: binds the destination block. -/
def set (l : Dger_arglist) (c_tag : Int) : Dger_arglist :=
  { l with m_c_ptr := some c_tag }

/-- The loop of `call()` on the destination block: one `Dger` per operand pair. -/
def callLoop (l : Dger_arglist) : List ((DArray × DArray) × Int) → DArray →
    Except DArray DArray
  | [], c => .ok c
  | (ab, s) :: rest, c =>
    match Dger (s * l.m_alpha) ab.1 ab.2 c with
    | some c1 => callLoop l rest c1
    | none => .error c

/-- Member `call()`, acting on the tensor that owns the destination block. -/
def call (l : Dger_arglist) (c : SDArray) : Outcome SDArray :=
  match l.m_c_ptr with
  | none => .error (.unboundDestination, c)
  | some tag =>
    match c.find tag with
    | none => .error (.unboundDestination, c)
    | some blk =>
      match callLoop l (l.m_arglist.zip l.m_scale) blk with
      | .ok blk1 => .ok (c.setBlock tag blk1)
      | .error blk1 => .error (.denseShapeMismatch, c.setBlock tag blk1)

end Dger_arglist

/-! ## Block-pair matching and dispatch: `ThreadSDgemm` -/

/-- The matching loops of `ThreadSDgemm` over the row slab of `a` and the
column slab of `b`: a pair is added when the contracted sub-tags agree. -/
def ThreadSDgemm_match (stride : Int) (rowSlab colSlab : List (Int × DArray))
    (gemm_list : Dgemm_arglist) : Dgemm_arglist :=
  rowSlab.foldl (fun gl ia =>
    colSlab.foldl (fun gl ib =>
      if ia.1.tmod stride = ib.1.tmod stride then gl.add ia.2 ib.2 1 else gl) gl) gemm_list

/-- Body of the loop over the destination columns `j` of `ThreadSDgemm`, the
`int` values `c_tag`, `b_lbound` and `b_ubound` in exact arithmetic
(`ThreadSDgemm_col_int32` has them at the width of `int`). -/
def ThreadSDgemm_col (transa transb : BTAS_TRANSPOSE) (alpha : Int) (a b : SDArray)
    (stride : Int) (c_irow : Int) (ialo iaup : Nat) (j : Nat)
    (st : List Dgemm_arglist × SDArray) : Outcome (List Dgemm_arglist × SDArray) :=
  let c_tag : Int := c_irow + j
  if !st.2.allowed c_tag then .ok st
  else
    let b_lbound : Int := j * stride
    let b_ubound : Int := b_lbound + stride - 1
    let iblo := b.lower_bound b_lbound
    let ibup := b.upper_bound b_ubound
    if iblo = ibup then .ok st
    else
      let gemm_list := ThreadSDgemm_match stride (a.slab ialo iaup) (b.slab iblo ibup)
        (Dgemm_arglist.new transa transb alpha 1)
      if gemm_list.size = 0 then .ok st
      else
        match st.2.reserve c_tag with
        | none => .error (.blockUnavailable, st.2)
        | some c1 => .ok (st.1 ++ [gemm_list.set c_tag], c1)

/-- Body of the loop over the destination rows `i` of `ThreadSDgemm`, the
`int` values `a_lbound`, `a_ubound` and `c_irow` in exact arithmetic
(`ThreadSDgemm_row_int32` has them at the width of `int`). -/
def ThreadSDgemm_row (transa transb : BTAS_TRANSPOSE) (alpha : Int) (a b : SDArray)
    (stride : Int) (ncols : Nat) (i : Nat)
    (st : List Dgemm_arglist × SDArray) : Outcome (List Dgemm_arglist × SDArray) :=
  let a_lbound : Int := i * stride
  let a_ubound : Int := a_lbound + stride - 1
  let ialo := a.lower_bound a_lbound
  let iaup := a.upper_bound a_ubound
  if ialo = iaup then .ok st
  else
    let c_irow : Int := i * ncols
    forLoop (ThreadSDgemm_col transa transb alpha a b stride c_irow ialo iaup)
      (List.range ncols) st

/-- Contracted rank `K = (NA + NB - NC) / 2` of the three tensors. -/
def contractedRank (a b c : SDArray) : Nat :=
  (a.shape.length + b.shape.length - c.shape.length) / 2

/-- `nrows` of `ThreadSDgemm`: product of the first `NA - K` extents of `a`. -/
def gemm_nrows (a b c : SDArray) : Nat :=
  (a.shape.take (a.shape.length - contractedRank a b c)).prod

/-- `stride` of `ThreadSDgemm`: product of the last `K` extents of `a`. -/
def gemm_stride (a b c : SDArray) : Nat :=
  (a.shape.drop (a.shape.length - contractedRank a b c)).prod

/-- `ncols` of `ThreadSDgemm`: product of the first `NB - K` extents of `b`. -/
def gemm_ncols (a b c : SDArray) : Nat :=
  (b.shape.take (b.shape.length - contractedRank a b c)).prod

/-- The task-list construction of `ThreadSDgemm` (everything before
`parallel_call`): the task list and the destination with its reserved blocks. -/
def ThreadSDgemm_tasks (transa transb : BTAS_TRANSPOSE) (alpha : Int) (a b c : SDArray) :
    Outcome (List Dgemm_arglist × SDArray) :=
  forLoop (ThreadSDgemm_row transa transb alpha a b (gemm_stride a b c) (gemm_ncols a b c))
    (List.range (gemm_nrows a b c)) ([], c)

/-- `ThreadSDgemm(transa, transb, alpha, a, b, c)`. -/
def ThreadSDgemm (transa transb : BTAS_TRANSPOSE) (alpha : Int) (a b c : SDArray) :
    Outcome SDArray :=
  match ThreadSDgemm_tasks transa transb alpha a b c with
  | .error e => .error e
  | .ok (task_list, c1) => parallel_call Dgemm_arglist.call task_list c1

/-- `SerialSDscal` / `ThreadSDscal`: every stored block is scaled in place. -/
def SDscal (alpha : Int) (x : SDArray) : SDArray :=
  { x with store := x.store.map fun p => (p.1, Dscal alpha p.2) }

/-- `SDgemm(transa, transb, alpha, a, b, beta, c)`. -/
def SDgemm (transa transb : BTAS_TRANSPOSE) (alpha : Int) (a b : SDArray) (beta : Int)
    (c : SDArray) : Outcome SDArray :=
  let K := contractedRank a b c
  let c_shape := (gemm_contract_shape transa transb K a.shape b.shape).2
  if 0 < c.size ∧ c_shape ≠ c.shape then .error (.shapeMismatch, c)
  else
    let c1 := if 0 < c.size then SDscal beta c else c.resize c_shape
    if transa = .NoTrans ∧ transb = .NoTrans then
      ThreadSDgemm transa transb alpha a (b.transpose_view K) c1
    else if transa = .NoTrans ∧ transb ≠ .NoTrans then
      ThreadSDgemm transa transb alpha a b c1
    else if transa ≠ .NoTrans ∧ transb = .NoTrans then
      ThreadSDgemm transa transb alpha (a.transpose_view K) (b.transpose_view K) c1
    else
      ThreadSDgemm transa transb alpha (a.transpose_view K) b c1

/-! ## Block-pair matching and dispatch: `ThreadSDgemv`, `ThreadSDger` -/

/-- The matching loop of `ThreadSDgemv` over the row slab of `a`: the partner
of an `a` block is the `b` block at its contracted sub-tag, when stored. -/
def ThreadSDgemv_match (b : SDArray) (stride : Int) (rowSlab : List (Int × DArray))
    (gemv_list : Dgemv_arglist) : Dgemv_arglist :=
  rowSlab.foldl (fun gl ia =>
    match b.find (ia.1.tmod stride) with
    | some ib => gl.add ia.2 ib 1
    | none => gl) gemv_list

/-- Body of the loop over the destination rows `i` of `ThreadSDgemv`, the
`int` values `a_lbound` and `a_ubound` in exact arithmetic
(`ThreadSDgemv_row_int32` has them at the width of `int`). -/
def ThreadSDgemv_row (transa : BTAS_TRANSPOSE) (alpha : Int) (a b : SDArray)
    (stride : Int) (i : Nat)
    (st : List Dgemv_arglist × SDArray) : Outcome (List Dgemv_arglist × SDArray) :=
  let a_lbound : Int := i * stride
  let a_ubound : Int := a_lbound + stride - 1
  let ialo := a.lower_bound a_lbound
  let iaup := a.upper_bound a_ubound
  if ialo = iaup then .ok st
  else if !st.2.allowed i then .ok st
  else
    let gemv_list := ThreadSDgemv_match b stride (a.slab ialo iaup)
      (Dgemv_arglist.new transa alpha 1)
    if gemv_list.size = 0 then .ok st
    else
      match st.2.reserve i with
      | none => .error (.blockUnavailable, st.2)
      | some c1 => .ok (st.1 ++ [gemv_list.set i], c1)

/-- `nrows` of `ThreadSDgemv`: product of the first `NC` extents of `a`. -/
def gemv_nrows (a c : SDArray) : Nat := (a.shape.take c.shape.length).prod

/-- `stride` of `ThreadSDgemv`: product of all extents of `b`. -/
def gemv_stride (b : SDArray) : Nat := b.shape.prod

/-- The task-list construction of `ThreadSDgemv`. -/
def ThreadSDgemv_tasks (transa : BTAS_TRANSPOSE) (alpha : Int) (a b c : SDArray) :
    Outcome (List Dgemv_arglist × SDArray) :=
  forLoop (ThreadSDgemv_row transa alpha a b (gemv_stride b))
    (List.range (gemv_nrows a c)) ([], c)

/-- `ThreadSDgemv(transa, alpha, a, b, c)`. -/
def ThreadSDgemv (transa : BTAS_TRANSPOSE) (alpha : Int) (a b c : SDArray) :
    Outcome SDArray :=
  match ThreadSDgemv_tasks transa alpha a b c with
  | .error e => .error e
  | .ok (task_list, c1) => parallel_call Dgemv_arglist.call task_list c1

/-- Body of the inner loop of `ThreadSDger` over the blocks of `b`, `int c_tag`
in exact arithmetic (`ThreadSDger_col_int32` has it at the width of `int`). -/
def ThreadSDger_col (alpha : Int) (c_irow : Int) (ia ib : Int × DArray)
    (st : List Dger_arglist × SDArray) : Outcome (List Dger_arglist × SDArray) :=
  let c_tag : Int := c_irow + ib.1
  if !st.2.allowed c_tag then .ok st
  else
    let ger_list := (Dger_arglist.new alpha).add ia.2 ib.2 1
    match st.2.reserve c_tag with
    | none => .error (.blockUnavailable, st.2)
    | some c1 => .ok (st.1 ++ [ger_list.set c_tag], c1)

/-- Body of the outer loop of `ThreadSDger` over the blocks of `a`, `int c_irow`
in exact arithmetic (`ThreadSDger_row_int32` has it at the width of `int`). -/
def ThreadSDger_row (alpha : Int) (b : SDArray) (stride : Int) (ia : Int × DArray)
    (st : List Dger_arglist × SDArray) : Outcome (List Dger_arglist × SDArray) :=
  let c_irow : Int := ia.1 * stride
  forLoop (ThreadSDger_col alpha c_irow ia) b.store st

/-- The task-list construction of `ThreadSDger`. -/
def ThreadSDger_tasks (alpha : Int) (a b c : SDArray) :
    Outcome (List Dger_arglist × SDArray) :=
  forLoop (ThreadSDger_row alpha b (b.shape.prod : Nat)) a.store ([], c)

/-- `ThreadSDger(alpha, a, b, c)`. -/
def ThreadSDger (alpha : Int) (a b c : SDArray) : Outcome SDArray :=
  match ThreadSDger_tasks alpha a b c with
  | .error e => .error e
  | .ok (task_list, c1) => parallel_call Dger_arglist.call task_list c1

/-- `SDgemv(transa, alpha, a, b, beta, c)`. -/
def SDgemv (transa : BTAS_TRANSPOSE) (alpha : Int) (a b : SDArray) (beta : Int)
    (c : SDArray) : Outcome SDArray :=
  let c_shape := gemv_contract_shape transa a.shape b.shape
  if 0 < c.size ∧ c_shape ≠ c.shape then .error (.shapeMismatch, c)
  else
    let c1 := if 0 < c.size then SDscal beta c else c.resize c_shape
    if transa = .NoTrans then ThreadSDgemv transa alpha a b c1
    else ThreadSDgemv transa alpha (a.transpose_view b.shape.length) b c1

/-- `SDger(alpha, a, b, c)`. -/
def SDger (alpha : Int) (a b c : SDArray) : Outcome SDArray :=
  let c_shape := ger_contract_shape a.shape b.shape
  if 0 < c.size ∧ c_shape ≠ c.shape then .error (.shapeMismatch, c)
  else
    let c1 := if 0 < c.size then c else c.resize c_shape
    ThreadSDger alpha a b c1

/-! ## Closed forms used to state the results -/

/-- The destination after reserving the given tags one after the other
(a reservation that returns absent leaves the tensor as it is). -/
def reserveAll (c : SDArray) (ts : List Int) : SDArray :=
  ts.foldl (fun c t => (c.reserve t).getD c) c

/-- The operand pairs matched between a row slab of `a` and a column slab of
`b`: every pair of blocks with equal contracted sub-tag, the `a` blocks
outermost, both in slab order. -/
def gemmPairs (stride : Int) (rowSlab colSlab : List (Int × DArray)) :
    List (DArray × DArray) :=
  rowSlab.flatMap fun ia =>
    (colSlab.filter fun ib => decide (ia.1.tmod stride = ib.1.tmod stride)).map
      fun ib => (ia.2, ib.2)

/-- The operand pairs matched between a row slab of `a` and the vector `b`. -/
def gemvPairs (b : SDArray) (stride : Int) (rowSlab : List (Int × DArray)) :
    List (DArray × DArray) :=
  rowSlab.filterMap fun ia => (b.find (ia.1.tmod stride)).map fun ib => (ia.2, ib)

/-- The stored blocks of `x` whose tag lies in `[i * stride, i * stride + stride - 1]`. -/
def rowSlab (x : SDArray) (stride : Int) (i : Nat) : List (Int × DArray) :=
  x.slab (x.lower_bound (i * stride)) (x.upper_bound (i * stride + stride - 1))



/-- The task `ThreadSDgemm` builds for the destination block `(i, j)`. -/
def gemmTask (transa transb : BTAS_TRANSPOSE) (alpha : Int) (a b : SDArray)
    (stride : Int) (ncols : Nat) (i j : Nat) : Dgemm_arglist :=
  (ThreadSDgemm_match stride (rowSlab a stride i) (rowSlab b stride j)
    (Dgemm_arglist.new transa transb alpha 1)).set ((i : Int) * ncols + j)

/-- The tests a destination column `j` passes in row `i` of `ThreadSDgemm`
before its block is reserved: legality, a non-empty column slab, a match. -/
def gemmColPasses (al : Int → Bool) (a b : SDArray) (stride : Int) (ncols : Nat)
    (i j : Nat) : Bool :=
  al ((i : Int) * ncols + j) &&
  (decide (b.lower_bound (j * stride) ≠ b.upper_bound (j * stride + stride - 1)) &&
   decide (gemmPairs stride (rowSlab a stride i) (rowSlab b stride j) ≠ []))

/-- The destination columns `j` of row `i` for which `ThreadSDgemm` builds a
task, in loop order; none when the row slab of `a` is empty. -/
def gemmRowCols (al : Int → Bool) (a b : SDArray) (stride : Int) (ncols : Nat) (i : Nat) :
    List Nat :=
  if a.lower_bound (i * stride) = a.upper_bound (i * stride + stride - 1) then []
  else (List.range ncols).filter (gemmColPasses al a b stride ncols i)

/-- The destination blocks `(i, j)` for which `ThreadSDgemm` builds a task, in
the order of the two loops. -/
def gemmDests (al : Int → Bool) (a b : SDArray) (stride : Int) (ncols nrows : Nat) :
    List (Nat × Nat) :=
  (List.range nrows).flatMap fun i =>
    (gemmRowCols al a b stride ncols i).map fun j => (i, j)

/-- The part of a tensor that no task touches: tags, shape, legality. -/
def SDArray.SameFrame (c1 c : SDArray) : Prop :=
  c1.tags = c.tags ∧ c1.allowed = c.allowed ∧ c1.shape = c.shape ∧
    c1.blockShape = c.blockShape

/-- The destination `c1` holds, besides tags of `c`, only tags that `c` allows. -/
def OnlyAllowedNew (c c1 : SDArray) : Prop :=
  c1.allowed = c.allowed ∧ ∀ t ∈ c1.tags, t ∈ c.tags ∨ c.allowed t = true

/-- The destination tensor held by the outcome of a task-list construction,
whether it returned or threw. -/
def outState {τ : Type} : Outcome (List τ × SDArray) → SDArray
  | .ok st => st.2
  | .error e => e.2

/-- The task `ThreadSDgemv` builds for the destination block `i`. -/
def gemvTask (transa : BTAS_TRANSPOSE) (alpha : Int) (a b : SDArray) (stride : Int)
    (i : Nat) : Dgemv_arglist :=
  (ThreadSDgemv_match b stride (rowSlab a stride i) (Dgemv_arglist.new transa alpha 1)).set i

/-- The tests a destination row `i` passes in `ThreadSDgemv` before its block
is reserved: a non-empty row slab, legality, a match. -/
def gemvRowPasses (al : Int → Bool) (a b : SDArray) (stride : Int) (i : Nat) : Bool :=
  decide (a.lower_bound (i * stride) ≠ a.upper_bound (i * stride + stride - 1)) &&
  (al i && decide (gemvPairs b stride (rowSlab a stride i) ≠ []))

/-- The destination rows for which `ThreadSDgemv` builds a task, in loop order. -/
def gemvDests (al : Int → Bool) (a b : SDArray) (stride : Int) (nrows : Nat) : List Nat :=
  (List.range nrows).filter (gemvRowPasses al a b stride)

/-- The task `ThreadSDger` builds for the pair of stored entries `(ia, ib)`. -/
def gerTask (alpha : Int) (stride : Int) (ia ib : Int × DArray) : Dger_arglist :=
  ((Dger_arglist.new alpha).add ia.2 ib.2 1).set (ia.1 * stride + ib.1)

/-- The pairs of stored entries for which `ThreadSDger` builds a task, in loop
order: every pair whose destination tag is allowed. -/
def gerDests (al : Int → Bool) (a b : SDArray) (stride : Int) :
    List ((Int × DArray) × (Int × DArray)) :=
  a.store.flatMap fun ia =>
    (b.store.filter fun ib => al (ia.1 * stride + ib.1)).map fun ib => (ia, ib)

/-! ## Tensors of the worked scenario -/

/-- The dense `2 × 2` identity block. -/
def eye2 : DArray := { shape := [2, 2], data := [1, 0, 0, 1] }

/-- The dense `2 × 2` block of ones. -/
def ones2 : DArray := { shape := [2, 2], data := [1, 1, 1, 1] }

/-- Block-diagonal `a` on a `2 × 2` block grid: identity blocks at tags `0` and `3`. -/
def scenarioA : SDArray :=
  { shape := [2, 2], store := [(0, eye2), (3, eye2)],
    allowed := fun _ => true, blockShape := fun _ => [2, 2] }

/-- Full `b` on a `2 × 2` block grid: a block of ones at every tag. -/
def scenarioB : SDArray :=
  { shape := [2, 2], store := [(0, ones2), (1, ones2), (2, ones2), (3, ones2)],
    allowed := fun _ => true, blockShape := fun _ => [2, 2] }

/-- An empty destination of rank `2` in which every tag is allowed and whose
blocks are `2 × 2`; `x`, `y` are the extents it declares before the call. -/
def scenarioC (x y : Nat) : SDArray :=
  { shape := [x, y], store := [], allowed := fun _ => true, blockShape := fun _ => [2, 2] }

/-- A non-empty destination of a declared shape that no contraction of the
scenario operands produces. -/
def scenarioD : SDArray :=
  { shape := [3, 3], store := [(0, ones2)], allowed := fun _ => true,
    blockShape := fun _ => [2, 2] }

/-- A dense vector of two ones. -/
def onesVec2 : DArray := { shape := [2], data := [1, 1] }

/-- A block vector `b` on a grid of two blocks, both stored. -/
def scenarioV : SDArray :=
  { shape := [2], store := [(0, onesVec2), (1, onesVec2)],
    allowed := fun _ => true, blockShape := fun _ => [2] }

/-- An empty destination of rank `1` (declared extent `x`) in which every tag
is allowed and whose blocks are vectors of length `2`. -/
def scenarioY (x : Nat) : SDArray :=
  { shape := [x], store := [], allowed := fun _ => true, blockShape := fun _ => [2] }

/-- An empty destination of rank `3` for the outer product of the scenario
operands `scenarioA` and `scenarioV`. -/
def scenarioG : SDArray :=
  { shape := [2, 2, 2], store := [], allowed := fun _ => true,
    blockShape := fun _ => [2, 2, 2] }

/-- The common shape of `call()` of the three contraction argument lists: the
destination pointer and the kernel loop on the destination block. -/
def blockCall (ptr : Option Int) (run : DArray → Except DArray DArray) (c : SDArray) :
    Outcome SDArray :=
  match ptr with
  | none => .error (.unboundDestination, c)
  | some tag =>
    match c.find tag with
    | none => .error (.unboundDestination, c)
    | some blk =>
      match run blk with
      | .ok blk1 => .ok (c.setBlock tag blk1)
      | .error blk1 => .error (.denseShapeMismatch, c.setBlock tag blk1)

/-- What a run of tasks returns, `none` when one of them throws. -/
def returned (r : Outcome SDArray) : Option SDArray :=
  match r with
  | .ok c => some c
  | .error _ => none

/-- A dense array whose buffer has as many elements as its shape says. -/
def DArray.WF (d : DArray) : Prop := d.data.length = d.shape.prod

instance (d : DArray) : Decidable d.WF := by
  unfold DArray.WF; infer_instance

/-- Entry `idx` (row-major) of the matrix product `op(a) * op(b)` as `Gemm`
of `DENSE/TBLAS.h` lays it out for a destination of rank `cRank`: the sum over
the contracted index `k` of `op(a)[i, k] * op(b)[k, j]`, `i = idx / colsB`,
`j = idx % colsB`. -/
def Gemm_product (transa transb : BTAS_TRANSPOSE) (a b : DArray) (cRank : Nat)
    (idx : Nat) : Int :=
  let L := a.rank
  let K := (L + b.rank - cRank) / 2
  let shapes := gemm_contract_shape transa transb K a.shape b.shape
  let rowsA := (shapes.2.take (L - K)).prod
  let colsA := shapes.1.prod
  let colsB := (shapes.2.drop (L - K)).prod
  let ldA := if transa = .NoTrans then colsA else rowsA
  let ldB := if transb = .NoTrans then colsB else colsA
  ((List.range colsA).map fun k =>
    (if transa = .NoTrans then at0 a.data (idx / colsB * ldA + k)
      else at0 a.data (k * ldA + idx / colsB)) *
    (if transb = .NoTrans then at0 b.data (k * ldB + idx % colsB)
      else at0 b.data (idx % colsB * ldB + k))).sum

/-- The operands `SDgemm` hands to `ThreadSDgemm`: `a` is viewed transposed
when `transa` is not `NoTrans`, `b` when `transb` is `NoTrans`. -/
def gemmOperands (transa transb : BTAS_TRANSPOSE) (K : Nat) (a b : SDArray) :
    SDArray × SDArray :=
  (if transa = .NoTrans then a else a.transpose_view K,
   if transb = .NoTrans then b.transpose_view K else b)

/-- Single-block operand `a` of the degenerate dense case: grid `1 × 1`, the
identity block at tag `0`. -/
def singleA : SDArray :=
  { shape := [1, 1], store := [(0, eye2)], allowed := fun _ => true,
    blockShape := fun _ => [2, 2] }

/-- Single-block operand `b` of the degenerate dense case: grid `1 × 1`, the
block of ones at tag `0`. -/
def singleB : SDArray :=
  { shape := [1, 1], store := [(0, ones2)], allowed := fun _ => true,
    blockShape := fun _ => [2, 2] }

/-- The kernel loops of all tasks of a list whose destination is the block at
tag `t`, applied to that block in list order. -/
def blockRuns (tasks : List (Option Int × (DArray → Except DArray DArray))) (t : Int)
    (d : DArray) : Except DArray DArray :=
  match tasks with
  | [] => .ok d
  | task :: rest =>
    if task.1 = some t then
      match task.2 d with
      | .ok d1 => blockRuns rest t d1
      | .error e => .error e
    else blockRuns rest t d

/-- The sum, over the operand pairs of the tasks whose destination is tag `t`,
of entry `idx` of the dense product `op(A) * op(B)` of the pair. -/
def gemmContribution (tasks : List Dgemm_arglist) (t : Int) (cRank idx : Nat) : Int :=
  ((tasks.filter fun task => decide (task.m_c_ptr = some t)).flatMap fun task =>
    task.m_arglist.map fun ab =>
      Gemm_product task.m_transa task.m_transb ab.1 ab.2 cRank idx).sum

/-- Entry `idx` of the matrix-vector product `op(a) * x` as `Gemv` of
`DENSE/TBLAS.h` lays it out. -/
def Gemv_product (transa : BTAS_TRANSPOSE) (a x : DArray) (idx : Nat) : Int :=
  let colsA0 := x.shape.prod
  let rowsA0 := a.size / colsA0
  let rowsA := if transa ≠ .NoTrans then colsA0 else rowsA0
  let colsA := if transa ≠ .NoTrans then rowsA0 else colsA0
  if transa = .NoTrans then
    ((List.range colsA).map fun k => at0 a.data (idx * colsA + k) * at0 x.data k).sum
  else
    ((List.range rowsA).map fun k => at0 a.data (k * colsA + idx) * at0 x.data k).sum

/-- The matrix block `a` has as many rows (columns, when transposed) as the
output shape of its product with `x` has elements. -/
def GemvFits (transa : BTAS_TRANSPOSE) (a x : DArray) : Prop :=
  a.size / x.shape.prod = (gemv_contract_shape transa a.shape x.shape).prod

instance (transa : BTAS_TRANSPOSE) (a x : DArray) : Decidable (GemvFits transa a x) := by
  unfold GemvFits; infer_instance

/-- The sum, over the operand pairs of the tasks whose destination is tag `t`,
of entry `idx` of the dense product `op(A) * x` of the pair. -/
def gemvContribution (tasks : List Dgemv_arglist) (t : Int) (idx : Nat) : Int :=
  ((tasks.filter fun task => decide (task.m_c_ptr = some t)).flatMap fun task =>
    task.m_arglist.map fun ab => Gemv_product task.m_transa ab.1 ab.2 idx).sum

/-- The operand `SDgemv` hands to `ThreadSDgemv` in place of `a`: a transposed
view when `transa` is not `NoTrans`. -/
def gemvOperand (transa : BTAS_TRANSPOSE) (a b : SDArray) : SDArray :=
  if transa = .NoTrans then a else a.transpose_view b.shape.length

/-- The dense `2 × 2` block with every entry `3`. -/
def threes2 : DArray := { shape := [2, 2], data := [3, 3, 3, 3] }

/-- The destination `scenarioB` after `SDgemm(NoTrans, NoTrans, 1, a, b, 2, c)`
on the scenario operands: every block is `2 * ones + ones`. -/
def scenarioB3 : SDArray :=
  { shape := [2, 2], store := [(0, threes2), (1, threes2), (2, threes2), (3, threes2)],
    allowed := fun _ => true, blockShape := fun _ => [2, 2] }

/-! ## Dense level-1 kernels: `Copy`, `Axpy`, `Dot` -/

/-- Modelled from the spec: `clear()` of the dense container (`DENSE/TArray.h`
is not among the sources) releases the elements and leaves the
default-constructed array, every extent `0`. -/
def DArray.clear (y : DArray) : DArray :=
  { shape := List.replicate y.rank 0, data := [] }

/-- `detail::copy(n, x, 1, y, 1)`: the first `n` elements of `y` are
overwritten by those of `x`. -/
def detail.copy (n : Nat) (x y : List Int) : List Int :=
  (List.range y.length).map fun i => if i < n then at0 x i else at0 y i

/-- `detail::axpy(n, alpha, x, 1, y, 1)`: `y[i] += alpha * x[i]` for `i < n`. -/
def detail.axpy (n : Nat) (alpha : Int) (x y : List Int) : List Int :=
  (List.range y.length).map fun i =>
    if i < n then alpha * at0 x i + at0 y i else at0 y i

/-- `detail::dot(n, x, 1, y, 1)`: the sum of `x[i] * y[i]` over `i < n`. -/
def detail.dot (n : Nat) (x y : List Int) : Int :=
  ((List.range n).map fun i => at0 x i * at0 y i).sum

/-- `Copy` of `DENSE/TBLAS.h`: `y := x`; an empty `x` clears `y`. The buffer
that `resize` hands out is overwritten in full, its elements are `0` here. -/
def Copy (x y : DArray) : DArray :=
  if x.size = 0 then y.clear
  else
    { shape := x.shape
      data := detail.copy x.size x.data (DArray.zeros x.shape).data }

/-- `Axpy` of `DENSE/TBLAS.h`: `y := alpha * x + y`. Nothing is done for an
empty `x`; an empty `y` is resized to the shape of `x` and zero-filled; `none`
is the `BTAS_THROW` on a non-empty `y` of another shape. -/
def Axpy (alpha : Int) (x y : DArray) : Option DArray :=
  if x.size = 0 then some y
  else if 0 < y.size then
    if x.shape = y.shape then
      some { y with data := detail.axpy x.size alpha x.data y.data }
    else none
  else
    some { shape := x.shape
           data := detail.axpy x.size alpha x.data (DArray.zeros x.shape).data }

/-- `Dot` of `DENSE/TBLAS.h`: the dot product of `x` and `y`; `none` is the
`BTAS_THROW` on operands of different shapes. -/
def Dot (x y : DArray) : Option Int :=
  if x.shape = y.shape then some (detail.dot x.size x.data y.data) else none

/-- Modelled from the spec: `Dcopy` of `btas/Dblas.h` is not among the sources;
it is the dense `Copy` of `DENSE/TBLAS.h` for `double`. -/
def Dcopy (x y : DArray) : DArray := Copy x y

/-- Modelled from the spec: `Daxpy` of `btas/Dblas.h` is not among the sources;
it is the dense `Axpy` of `DENSE/TBLAS.h` for `double`. -/
def Daxpy (alpha : Int) (x y : DArray) : Option DArray := Axpy alpha x y

/-- Modelled from the spec: `Ddot` of `btas/Dblas.h` is not among the sources;
it is the dense `Dot` of `DENSE/TBLAS.h` for `double`. -/
def Ddot (x y : DArray) : Option Int := Dot x y

/-! ## Level 1 on block tensors: copy, dot, axpy -/

/-- A dense kernel applied to a destination block, as the step of a `call()`:
`.error` carries the block as it is when the kernel throws. -/
def kernelRun (kernel : DArray → Option DArray) (d : DArray) : Except DArray DArray :=
  match kernel d with
  | some d1 => .ok d1
  | none => .error d

/-- Body of the loop of `SerialSDcopy` over the stored blocks of `x`.
`BTAS_THROW(Do_up_cast, ...)` throws when `Do_up_cast` is false. -/
def SerialSDcopy_body (Do_up_cast : Bool) (ix : Int × DArray) (y : SDArray) :
    Outcome SDArray :=
  match y.reserve ix.1 with
  | some y1 => blockCall (some ix.1) (kernelRun fun d => some (Dcopy ix.2 d)) y1
  | none => if Do_up_cast then .ok y else .error (.blockUnavailable, y)

/-- `SerialSDcopy(x, y, Do_up_cast)`. -/
def SerialSDcopy (x y : SDArray) (Do_up_cast : Bool) : Outcome SDArray :=
  forLoop (SerialSDcopy_body Do_up_cast) x.store y

/-- Body of the loop of `SerialSDdot`: the running sum `xysum`; a tag of `x`
that `y` does not store is passed over (`find`, no allocation). -/
def SerialSDdot_body (y : SDArray) (ix : Int × DArray) (xysum : Int) :
    Except BtasError Int :=
  match y.find ix.1 with
  | none => .ok xysum
  | some iy =>
    match Ddot ix.2 iy with
    | some v => .ok (xysum + v)
    | none => .error .denseShapeMismatch

/-- `SerialSDdot(x, y)`. -/
def SerialSDdot (x y : SDArray) : Except BtasError Int :=
  forLoop (SerialSDdot_body y) x.store 0

/-- Body of the loop of `SerialSDaxpy` over the stored blocks of `x`. -/
def SerialSDaxpy_body (alpha : Int) (ix : Int × DArray) (y : SDArray) : Outcome SDArray :=
  match y.reserve ix.1 with
  | none => .error (.blockUnavailable, y)
  | some y1 => blockCall (some ix.1) (kernelRun (Daxpy alpha ix.2)) y1

/-- `SerialSDaxpy(alpha, x, y)`. -/
def SerialSDaxpy (alpha : Int) (x y : SDArray) : Outcome SDArray :=
  forLoop (SerialSDaxpy_body alpha) x.store y

/-- `Dcopy_arglist<N>`. The member `m_arglist` belongs to
`T_replication_arglist` of `btas/arglist.h`, which is not among the sources; it
is modelled from the spec: the pair of the source block (shared, read only)
and the destination block reference of the task. -/
structure Dcopy_arglist where
  m_arglist : DArray × Int
deriving DecidableEq, Repr

/-- Member `call()` of `Dcopy_arglist`, acting on the tensor that owns the
destination block. -/
def Dcopy_arglist.call (l : Dcopy_arglist) (y : SDArray) : Outcome SDArray :=
  blockCall (some l.m_arglist.2) (kernelRun fun d => some (Dcopy l.m_arglist.1 d)) y

/-- `Daxpy_arglist<N>`, over the same base member as `Dcopy_arglist`. -/
structure Daxpy_arglist where
  m_alpha : Int
  m_arglist : DArray × Int
deriving DecidableEq, Repr

/-- Member `call()` of `Daxpy_arglist`. -/
def Daxpy_arglist.call (l : Daxpy_arglist) (y : SDArray) : Outcome SDArray :=
  blockCall (some l.m_arglist.2) (kernelRun (Daxpy l.m_alpha l.m_arglist.1)) y

/-- Body of the loop of `ThreadSDcopy` over the stored blocks of `x`. -/
def ThreadSDcopy_body (Do_up_cast : Bool) (ix : Int × DArray)
    (st : List Dcopy_arglist × SDArray) : Outcome (List Dcopy_arglist × SDArray) :=
  match st.2.reserve ix.1 with
  | some y1 => .ok (st.1 ++ [⟨(ix.2, ix.1)⟩], y1)
  | none => if Do_up_cast then .ok st else .error (.blockUnavailable, st.2)

/-- The task-list construction of `ThreadSDcopy`. -/
def ThreadSDcopy_tasks (x y : SDArray) (Do_up_cast : Bool) :
    Outcome (List Dcopy_arglist × SDArray) :=
  forLoop (ThreadSDcopy_body Do_up_cast) x.store ([], y)

/-- `ThreadSDcopy(x, y, Do_up_cast)`. -/
def ThreadSDcopy (x y : SDArray) (Do_up_cast : Bool) : Outcome SDArray :=
  match ThreadSDcopy_tasks x y Do_up_cast with
  | .error e => .error e
  | .ok (task_list, y1) => parallel_call Dcopy_arglist.call task_list y1

/-- Body of the loop of `ThreadSDaxpy` over the stored blocks of `x`. -/
def ThreadSDaxpy_body (alpha : Int) (ix : Int × DArray)
    (st : List Daxpy_arglist × SDArray) : Outcome (List Daxpy_arglist × SDArray) :=
  match st.2.reserve ix.1 with
  | none => .error (.blockUnavailable, st.2)
  | some y1 => .ok (st.1 ++ [⟨alpha, (ix.2, ix.1)⟩], y1)

/-- The task-list construction of `ThreadSDaxpy`. -/
def ThreadSDaxpy_tasks (alpha : Int) (x y : SDArray) :
    Outcome (List Daxpy_arglist × SDArray) :=
  forLoop (ThreadSDaxpy_body alpha) x.store ([], y)

/-- `ThreadSDaxpy(alpha, x, y)`. -/
def ThreadSDaxpy (alpha : Int) (x y : SDArray) : Outcome SDArray :=
  match ThreadSDaxpy_tasks alpha x y with
  | .error e => .error e
  | .ok (task_list, y1) => parallel_call Daxpy_arglist.call task_list y1

/-- `SDcopy(x, y, Do_up_cast)`. The flag `serial` is the preprocessor symbol
`SERIAL`, which selects the serial loop in place of the threaded one. -/
def SDcopy (serial : Bool) (x y : SDArray) (Do_up_cast : Bool) : Outcome SDArray :=
  if Do_up_cast then
    if x.shape ≠ y.shape then .error (.shapeMismatch, y)
    else if serial then SerialSDcopy x y Do_up_cast else ThreadSDcopy x y Do_up_cast
  else
    let y1 := y.resize x.shape
    if serial then SerialSDcopy x y1 Do_up_cast else ThreadSDcopy x y1 Do_up_cast

/-- `SDdot(x, y)`; it reads both operands and has no tensor to return. -/
def SDdot (x y : SDArray) : Except BtasError Int :=
  if x.shape ≠ y.shape then .error .shapeMismatch
  else SerialSDdot x y

/-- `SDaxpy(alpha, x, y)`, with the flag `serial` as in `SDcopy`. -/
def SDaxpy (serial : Bool) (alpha : Int) (x y : SDArray) : Outcome SDArray :=
  if 0 < y.size ∧ x.shape ≠ y.shape then .error (.shapeMismatch, y)
  else
    let y1 := if 0 < y.size then y else y.resize x.shape
    if serial then SerialSDaxpy alpha x y1 else ThreadSDaxpy alpha x y1

/-! ## Closed forms of the level-1 loops -/

/-- The common shape of the serial level-1 loop bodies: reserve the tag of the
source block, then run the dense kernel on the destination block; `tolerate`
says whether a reservation that returns absent is passed over. -/
def l1Body (kernel : DArray → DArray → Option DArray) (tolerate : Bool)
    (ix : Int × DArray) (y : SDArray) : Outcome SDArray :=
  match y.reserve ix.1 with
  | some y1 => blockCall (some ix.1) (kernelRun (kernel ix.2)) y1
  | none => if tolerate then .ok y else .error (.blockUnavailable, y)

/-- The common shape of the threaded level-1 task-list constructions. -/
def l1TaskBody {τ : Type} (mk : Int × DArray → τ) (tolerate : Bool)
    (ix : Int × DArray) (st : List τ × SDArray) : Outcome (List τ × SDArray) :=
  match st.2.reserve ix.1 with
  | some y1 => .ok (st.1 ++ [mk ix], y1)
  | none => if tolerate then .ok st else .error (.blockUnavailable, st.2)

/-- The task of a source block run on the destination tensor. -/
def l1Run (kernel : DArray → DArray → Option DArray) (ix : Int × DArray)
    (y : SDArray) : Outcome SDArray :=
  blockCall (some ix.1) (kernelRun (kernel ix.2)) y

/-- The stored blocks of a source whose tag can be reserved in `y`. -/
def reservableBlocks (y : SDArray) (xs : List (Int × DArray)) : List (Int × DArray) :=
  xs.filter fun ix => (y.reserve ix.1).isSome

/-- The block a level-1 kernel finds at tag `t` of `y`: the stored block, or
the all-zero block a reservation allocates there. -/
def destBlock (y : SDArray) (t : Int) : DArray :=
  (y.find t).getD (DArray.zeros (y.blockShape t))

/-- The pairs of blocks `(x[t], y[t])` over the tags stored in both tensors,
in the iteration order of `x`. -/
def commonBlocks (x y : SDArray) : List (DArray × DArray) :=
  x.store.filterMap fun ix => (y.find ix.1).map fun iy => (ix.2, iy)

/-- The dense dot products of a list of block pairs added up in list order,
starting from `acc`; a `Ddot` that throws ends the sum. -/
def sumDots : List (DArray × DArray) → Int → Except BtasError Int
  | [], acc => .ok acc
  | pr :: rest, acc =>
    match Ddot pr.1 pr.2 with
    | some v => sumDots rest (acc + v)
    | none => .error .denseShapeMismatch

/-- Every stored block is a well-formed dense array. -/
def SDArray.BlocksWF (x : SDArray) : Prop := ∀ p ∈ x.store, p.2.WF

instance (x : SDArray) : Decidable x.BlocksWF := by
  unfold SDArray.BlocksWF; infer_instance

/-! ## Tensors of the level-1 scenarios -/

/-- The empty rank-3 destination `scenarioG` with a legality predicate that
rejects every tag. -/
def closedG : SDArray := { scenarioG with allowed := fun _ => false }

/-- The common shape of the threaded level-1 routines: the task-list
construction, then `parallel_call` on the tasks. -/
def l1Thread {τ : Type} (mk : Int × DArray → τ) (call : τ → SDArray → Outcome SDArray)
    (tolerate : Bool) (xs : List (Int × DArray)) (y : SDArray) : Outcome SDArray :=
  match forLoop (l1TaskBody mk tolerate) xs ([], y) with
  | .error e => .error e
  | .ok (task_list, y1) => parallel_call call task_list y1

/-- Source of the level-1 scenarios: a block vector on a grid of two blocks,
both stored. -/
def pairX : SDArray :=
  { shape := [2], store := [(0, ⟨[2], [1, 2]⟩), (1, ⟨[2], [3, 4]⟩)],
    allowed := fun _ => true, blockShape := fun _ => [2] }

/-- An empty destination on the grid of `pairX` whose legality predicate allows
tag `0` only. -/
def gateY : SDArray :=
  { shape := [2], store := [], allowed := fun t => t == 0, blockShape := fun _ => [2] }

/-- The kind of error a call throws, `none` when it returns. -/
def thrown {α : Type} (r : Outcome α) : Option BtasError :=
  match r with
  | .ok _ => none
  | .error e => some e.1

/-- A destination on the grid of `pairX` that stores the block at tag `0` only. -/
def halfY : SDArray :=
  { shape := [2], store := [(0, ⟨[2], [10, 20]⟩)],
    allowed := fun _ => true, blockShape := fun _ => [2] }

/-- The tensor `halfY + 2 * pairX`. -/
def halfY2 : SDArray :=
  { shape := [2], store := [(0, ⟨[2], [12, 24]⟩), (1, ⟨[2], [6, 8]⟩)],
    allowed := fun _ => true, blockShape := fun _ => [2] }

/-- A destination on the grid of `pairX` that allows tag `0` only and stores
there a block of three elements, which does not fit the blocks of `pairX`. -/
def misfitY : SDArray :=
  { shape := [2], store := [(0, ⟨[3], [5, 6, 7]⟩)],
    allowed := fun t => t == 0, blockShape := fun _ => [2] }

/-- The tensor `halfY` with an all-zero block added at tag `1`. -/
def halfY0 : SDArray :=
  { shape := [2], store := [(0, ⟨[2], [10, 20]⟩), (1, ⟨[2], [0, 0]⟩)],
    allowed := fun _ => true, blockShape := fun _ => [2] }

/-- All-zero blocks at the two tags of `pairX`, in the frame of `scenarioY 2`. -/
def zeroPair : SDArray :=
  { shape := [2], store := [(0, ⟨[2], [0, 0]⟩), (1, ⟨[2], [0, 0]⟩)],
    allowed := fun _ => true, blockShape := fun _ => [2] }

/-- The tensor `3 * pairX` in the frame of `scenarioY 2`. -/
def triplePair : SDArray :=
  { shape := [2], store := [(0, ⟨[2], [3, 6]⟩), (1, ⟨[2], [9, 12]⟩)],
    allowed := fun _ => true, blockShape := fun _ => [2] }

/-- The tags stored in both `x` and `y`, in the iteration order of `x`. -/
def commonTags (x y : SDArray) : List Int :=
  x.tags.filter fun t => decide (t ∈ y.tags)

/-- A rank-2 tensor that stores one block without elements, of shape `0 × 3`. -/
def hollowX : SDArray :=
  { shape := [1, 1], store := [(0, ⟨[0, 3], []⟩)],
    allowed := fun _ => true, blockShape := fun _ => [0, 3] }

/-- An empty rank-2 destination in which every tag is allowed. -/
def hollowY : SDArray :=
  { shape := [1, 1], store := [], allowed := fun _ => true, blockShape := fun _ => [2, 2] }

/-- What `SDcopy(hollowX, hollowY)` leaves in the destination: the block at
tag `0` has been cleared by `Dcopy`. -/
def hollowCopy : SDArray :=
  { shape := [1, 1], store := [(0, ⟨[0, 0], []⟩)],
    allowed := fun _ => true, blockShape := fun _ => [2, 2] }

/-- The copy of `pairX` in the frame of `halfY`. -/
def pairCopy : SDArray :=
  { shape := [2], store := [(0, ⟨[2], [1, 2]⟩), (1, ⟨[2], [3, 4]⟩)],
    allowed := fun _ => true, blockShape := fun _ => [2] }

/-! ## Dense arrays of the kernel scenarios -/

/-- A `2 × 0` matrix: no element, the second (contracted) extent is `0`. -/
def thinA : DArray := { shape := [2, 0], data := [] }

/-- A `0 × 2` matrix: no element, the first (contracted) extent is `0`. -/
def thinB : DArray := { shape := [0, 2], data := [] }

/-- The default-constructed rank-2 array: no element, extents `0`. -/
def none2 : DArray := { shape := [0, 0], data := [] }

/-- A vector of two elements. -/
def vec12 : DArray := { shape := [2], data := [1, 2] }

/-- Another vector of two elements. -/
def vec1020 : DArray := { shape := [2], data := [10, 20] }

/-- A `1 × 3` matrix of ones. -/
def row3 : DArray := { shape := [1, 3], data := [1, 1, 1] }

/-! ## Level 1 on block tensors: scal -/

/-- `SerialSDscal(alpha, x)`: the loop visits the stored entries of `x` and
scales the block of each in place. -/
def SerialSDscal (alpha : Int) (x : SDArray) : SDArray :=
  { x with store := x.store.map fun ix => (ix.1, Dscal alpha ix.2) }

/-- `Dscal_arglist<N>`, over the same base member as `Dcopy_arglist`; both
pointers of the pair are the block that is scaled. -/
structure Dscal_arglist where
  m_alpha : Int
  m_arglist : DArray × Int
deriving DecidableEq, Repr

/-- Member `call()` of `Dscal_arglist`: `Dscal` on the second block of the pair. -/
def Dscal_arglist.call (l : Dscal_arglist) (x : SDArray) : Outcome SDArray :=
  blockCall (some l.m_arglist.2) (kernelRun fun d => some (Dscal l.m_alpha d)) x

/-- The task list of `ThreadSDscal`: one task per stored block, in iteration
order. -/
def ThreadSDscal_tasks (alpha : Int) (x : SDArray) : List Dscal_arglist :=
  x.store.map fun ix => ⟨alpha, (ix.2, ix.1)⟩

/-- `ThreadSDscal(alpha, x)`. -/
def ThreadSDscal (alpha : Int) (x : SDArray) : Outcome SDArray :=
  parallel_call Dscal_arglist.call (ThreadSDscal_tasks alpha x) x

/-- A tensor with two stored blocks on a grid of three. -/
def gapX : SDArray :=
  { shape := [3], store := [(0, ⟨[2], [1, 2]⟩), (2, ⟨[2], [3, 4]⟩)],
    allowed := fun _ => true, blockShape := fun _ => [2] }

/-- The destination `gateY` with an all-zero block allocated at tag `0`. -/
def gateY0 : SDArray :=
  { shape := [2], store := [(0, ⟨[2], [0, 0]⟩)],
    allowed := fun t => t == 0, blockShape := fun _ => [2] }

/-- The destination `gateY` with the block of `pairX` written at tag `0`. -/
def gateY1 : SDArray :=
  { shape := [2], store := [(0, ⟨[2], [1, 2]⟩)],
    allowed := fun t => t == 0, blockShape := fun _ => [2] }

/-- The value of a destination element after the terms have been accumulated
one by one with the element multiplied by `beta` before each addition
(`c := term + beta * c`), starting from `d0`. -/
def betaChain (beta : Int) (terms : List Int) (d0 : Int) : Int :=
  terms.foldl (fun acc t => t + beta * acc) d0

/-- The block-index tuple of a tag, least significant extent first, over the
extents listed in the same order. -/
def unflattenTag : List Nat → Int → List Int
  | [], _ => []
  | n :: rest, tag => tag.tmod (n : Int) :: unflattenTag rest (tag.tdiv (n : Int))

/-- Modelled from the spec: `SDArray::index(tag)`, the block-index tuple whose
row-major flattening over the declared shape is the block tag. -/
def SDArray.index (x : SDArray) (tag : Int) : List Int :=
  (unflattenTag x.shape.reverse tag).reverse

/-- The scaling functor `f_scale`: a weight for the index triple of an `a`
block, a `b` block and the destination block. -/
abbrev ScaleFunctor := List Int → List Int → List Int → Int

/-- The matching loop of the `f_scale` overload of `ThreadSDgemv`: as
`ThreadSDgemv_match`, each pair added with the weight of its index triple. -/
def ThreadSDgemv_match_f_scale (f_scale : ScaleFunctor) (a b : SDArray)
    (c_index : List Int) (stride : Int) (rowSlab : List (Int × DArray))
    (gemv_list : Dgemv_arglist) : Dgemv_arglist :=
  rowSlab.foldl (fun gl ia =>
    match b.find (ia.1.tmod stride) with
    | some ib => gl.add ia.2 ib
        (f_scale (a.index ia.1) (b.index (ia.1.tmod stride)) c_index)
    | none => gl) gemv_list

/-- Body of the loop over the destination rows `i` of the `f_scale` overload
of `ThreadSDgemv`. -/
def ThreadSDgemv_row_f_scale (f_scale : ScaleFunctor) (transa : BTAS_TRANSPOSE)
    (alpha : Int) (a b : SDArray) (stride : Int) (i : Nat)
    (st : List Dgemv_arglist × SDArray) : Outcome (List Dgemv_arglist × SDArray) :=
  let a_lbound : Int := i * stride
  let a_ubound : Int := a_lbound + stride - 1
  let ialo := a.lower_bound a_lbound
  let iaup := a.upper_bound a_ubound
  if ialo = iaup then .ok st
  else if !st.2.allowed i then .ok st
  else
    let c_index := st.2.index i
    let gemv_list := ThreadSDgemv_match_f_scale f_scale a b c_index stride
      (a.slab ialo iaup) (Dgemv_arglist.new transa alpha 1)
    if gemv_list.size = 0 then .ok st
    else
      match st.2.reserve i with
      | none => .error (.blockUnavailable, st.2)
      | some c1 => .ok (st.1 ++ [gemv_list.set i], c1)

/-- The task-list construction of the `f_scale` overload of `ThreadSDgemv`. -/
def ThreadSDgemv_tasks_f_scale (f_scale : ScaleFunctor) (transa : BTAS_TRANSPOSE)
    (alpha : Int) (a b c : SDArray) : Outcome (List Dgemv_arglist × SDArray) :=
  forLoop (ThreadSDgemv_row_f_scale f_scale transa alpha a b (gemv_stride b))
    (List.range (gemv_nrows a c)) ([], c)

/-- `ThreadSDgemv(f_scale, transa, alpha, a, b, c)`. -/
def ThreadSDgemv_f_scale (f_scale : ScaleFunctor) (transa : BTAS_TRANSPOSE) (alpha : Int)
    (a b c : SDArray) : Outcome SDArray :=
  match ThreadSDgemv_tasks_f_scale f_scale transa alpha a b c with
  | .error e => .error e
  | .ok (task_list, c1) => parallel_call Dgemv_arglist.call task_list c1

/-- Body of the inner loop of the `f_scale` overload of `ThreadSDger`. -/
def ThreadSDger_col_f_scale (f_scale : ScaleFunctor) (alpha : Int) (b : SDArray)
    (c_irow : Int) (a_index : List Int) (ia ib : Int × DArray)
    (st : List Dger_arglist × SDArray) : Outcome (List Dger_arglist × SDArray) :=
  let c_tag : Int := c_irow + ib.1
  if !st.2.allowed c_tag then .ok st
  else
    let ger_list := (Dger_arglist.new alpha).add ia.2 ib.2
      (f_scale a_index (b.index ib.1) (st.2.index c_tag))
    match st.2.reserve c_tag with
    | none => .error (.blockUnavailable, st.2)
    | some c1 => .ok (st.1 ++ [ger_list.set c_tag], c1)

/-- Body of the outer loop of the `f_scale` overload of `ThreadSDger`. -/
def ThreadSDger_row_f_scale (f_scale : ScaleFunctor) (alpha : Int) (a b : SDArray)
    (stride : Int) (ia : Int × DArray)
    (st : List Dger_arglist × SDArray) : Outcome (List Dger_arglist × SDArray) :=
  let c_irow : Int := ia.1 * stride
  let a_index := a.index ia.1
  forLoop (ThreadSDger_col_f_scale f_scale alpha b c_irow a_index ia) b.store st

/-- The task-list construction of the `f_scale` overload of `ThreadSDger`. -/
def ThreadSDger_tasks_f_scale (f_scale : ScaleFunctor) (alpha : Int) (a b c : SDArray) :
    Outcome (List Dger_arglist × SDArray) :=
  forLoop (ThreadSDger_row_f_scale f_scale alpha a b (b.shape.prod : Nat)) a.store ([], c)

/-- `ThreadSDger(f_scale, alpha, a, b, c)`. -/
def ThreadSDger_f_scale (f_scale : ScaleFunctor) (alpha : Int) (a b c : SDArray) :
    Outcome SDArray :=
  match ThreadSDger_tasks_f_scale f_scale alpha a b c with
  | .error e => .error e
  | .ok (task_list, c1) => parallel_call Dger_arglist.call task_list c1

/-- The matching loops of the `f_scale` overload of `ThreadSDgemm`: as
`ThreadSDgemm_match`, each pair added with the weight of its index triple. -/
def ThreadSDgemm_match_f_scale (f_scale : ScaleFunctor) (a b c : SDArray) (c_tag : Int)
    (stride : Int) (rowSlab colSlab : List (Int × DArray))
    (gemm_list : Dgemm_arglist) : Dgemm_arglist :=
  rowSlab.foldl (fun gl ia =>
    let a_index := a.index ia.1
    colSlab.foldl (fun gl ib =>
      if ia.1.tmod stride = ib.1.tmod stride then
        gl.add ia.2 ib.2 (f_scale a_index (b.index ib.1) (c.index c_tag))
      else gl) gl) gemm_list

/-- Body of the loop over the destination columns `j` of the `f_scale`
overload of `ThreadSDgemm`. -/
def ThreadSDgemm_col_f_scale (f_scale : ScaleFunctor) (transa transb : BTAS_TRANSPOSE)
    (alpha : Int) (a b : SDArray) (stride : Int) (c_irow : Int) (ialo iaup : Nat) (j : Nat)
    (st : List Dgemm_arglist × SDArray) : Outcome (List Dgemm_arglist × SDArray) :=
  let c_tag : Int := c_irow + j
  if !st.2.allowed c_tag then .ok st
  else
    let b_lbound : Int := j * stride
    let b_ubound : Int := b_lbound + stride - 1
    let iblo := b.lower_bound b_lbound
    let ibup := b.upper_bound b_ubound
    if iblo = ibup then .ok st
    else
      let gemm_list := ThreadSDgemm_match_f_scale f_scale a b st.2 c_tag stride
        (a.slab ialo iaup) (b.slab iblo ibup) (Dgemm_arglist.new transa transb alpha 1)
      if gemm_list.size = 0 then .ok st
      else
        match st.2.reserve c_tag with
        | none => .error (.blockUnavailable, st.2)
        | some c1 => .ok (st.1 ++ [gemm_list.set c_tag], c1)

/-- Body of the loop over the destination rows `i` of the `f_scale` overload
of `ThreadSDgemm`. -/
def ThreadSDgemm_row_f_scale (f_scale : ScaleFunctor) (transa transb : BTAS_TRANSPOSE)
    (alpha : Int) (a b : SDArray) (stride : Int) (ncols : Nat) (i : Nat)
    (st : List Dgemm_arglist × SDArray) : Outcome (List Dgemm_arglist × SDArray) :=
  let a_lbound : Int := i * stride
  let a_ubound : Int := a_lbound + stride - 1
  let ialo := a.lower_bound a_lbound
  let iaup := a.upper_bound a_ubound
  if ialo = iaup then .ok st
  else
    let c_irow : Int := i * ncols
    forLoop (ThreadSDgemm_col_f_scale f_scale transa transb alpha a b stride c_irow ialo iaup)
      (List.range ncols) st

/-- The task-list construction of the `f_scale` overload of `ThreadSDgemm`. -/
def ThreadSDgemm_tasks_f_scale (f_scale : ScaleFunctor) (transa transb : BTAS_TRANSPOSE)
    (alpha : Int) (a b c : SDArray) : Outcome (List Dgemm_arglist × SDArray) :=
  forLoop (ThreadSDgemm_row_f_scale f_scale transa transb alpha a b (gemm_stride a b c)
      (gemm_ncols a b c))
    (List.range (gemm_nrows a b c)) ([], c)

/-- `ThreadSDgemm(f_scale, transa, transb, alpha, a, b, c)`. -/
def ThreadSDgemm_f_scale (f_scale : ScaleFunctor) (transa transb : BTAS_TRANSPOSE)
    (alpha : Int) (a b c : SDArray) : Outcome SDArray :=
  match ThreadSDgemm_tasks_f_scale f_scale transa transb alpha a b c with
  | .error e => .error e
  | .ok (task_list, c1) => parallel_call Dgemm_arglist.call task_list c1

/-- Two loop states, or two thrown errors, related: both loops returned with
related states, or both threw the same error with the same tensor. -/
def ExceptRel {σ1 σ2 ε : Type} (R : σ1 → σ2 → Prop) : Except ε σ1 → Except ε σ2 → Prop
  | .ok s1, .ok s2 => R s1 s2
  | .error e1, .error e2 => e1 = e2
  | _, _ => False

/-- Two task-list constructions select the same tasks: both throw the same
error leaving the same destination, or both return, with the same destination
(the same blocks reserved) and task lists that agree, task by task in list
order, in everything `key` reads from a task. -/
def SameSelection {τ κ : Type} (key : τ → κ)
    (o1 o2 : Outcome (List τ × SDArray)) : Prop :=
  ExceptRel (fun s1 s2 => s1.1.map key = s2.1.map key ∧ s1.2 = s2.2) o1 o2

/-- The weight `f_scale` of the worked example: the destination row index plus
twice the column index of the `b` block plus `1`. -/
def scenarioF : ScaleFunctor := fun _ ib ic => ic.headD 0 + 2 * ib.getLastD 0 + 1

/-- A `Dgemm` task without its per-pair weights: destination, operand pairs in
list order, and the fixed parameters. -/
def Dgemm_arglist.unweighted (l : Dgemm_arglist) : Dgemm_arglist := { l with m_scale := [] }

/-- A `Dgemv` task without its per-pair weights. -/
def Dgemv_arglist.unweighted (l : Dgemv_arglist) : Dgemv_arglist := { l with m_scale := [] }

/-- A `Dger` task without its per-pair weights. -/
def Dger_arglist.unweighted (l : Dger_arglist) : Dger_arglist := { l with m_scale := [] }

/-- A `Dgemm` task of two operand pairs with the weights `1` and `2`, with
`alpha = 3` and `beta = 1`, bound to the destination tag `0`. -/
def pairTask : Dgemm_arglist :=
  { m_arglist := [(eye2, ones2), (ones2, eye2)], m_c_ptr := some 0, m_scale := [1, 2],
    m_transa := .NoTrans, m_transb := .NoTrans, m_alpha := 3, m_beta := 1 }

/-! ## Dense diagonal multiplication: `Dimm` -/

/-- Modelled from the spec: `detail::scal(n, alpha, x + off, 1)` of the BLAS
package header, which is not among the sources: the `n` elements of the buffer
from position `off` on are multiplied by `alpha`. -/
def detail.scal (n : Nat) (alpha : Int) (x : List Int) (off : Nat) : List Int :=
  (List.range x.length).map fun p =>
    if off ≤ p ∧ p < off + n then alpha * at0 x p else at0 x p

/-- The inner loop of `__T_dimm_helper<M, N, true>::call` over the columns
`j`: the state is the position of `ptrA` and the buffer of `a`; `ptrB` is at
`b.data() + j`. Each step does `(*ptrA) *= (*ptrB)` and advances `ptrA`. -/
def T_dimm_helper_true.cols (b : List Int) (colsA : Nat) (st : Nat × List Int) :
    Nat × List Int :=
  (List.range colsA).foldl
    (fun st j => (st.1 + 1, st.2.set st.1 (at0 st.2 st.1 * at0 b j))) st

/-- `__T_dimm_helper<M, N, true>::call(a, b)`, (general matrix) x (diagonal
matrix) for `M > N`: the result is `a` after the call; `none` is the
`BTAS_THROW` on a `b` whose shape is not the trailing `N` extents of `a`. -/
def T_dimm_helper_true.call (a b : DArray) : Option DArray :=
  let M := a.rank
  let N := b.rank
  let shapeB := a.shape.drop (M - N)
  if b.shape ≠ shapeB then none
  else
    let rowsA := (a.shape.take (M - N)).prod
    let colsA := b.size
    some { a with
      data := ((List.range rowsA).foldl
        (fun st _ => T_dimm_helper_true.cols b.data colsA st) (0, a.data)).2 }

/-- `__T_dimm_helper<M, N, false>::call(a, b)`, (diagonal matrix) x (general
matrix) for `M <= N`: the result is `b` after the call; `none` is the
`BTAS_THROW` on an `a` whose shape is not the leading `M` extents of `b`. The
loop state is the position of `ptrA`, the position of `ptrB` and the buffer
of `b`. -/
def T_dimm_helper_false.call (a b : DArray) : Option DArray :=
  let M := a.rank
  let shapeA := b.shape.take M
  if a.shape ≠ shapeA then none
  else
    let rowsB := a.size
    let colsB := (b.shape.drop M).prod
    some { b with
      data := ((List.range rowsB).foldl
        (fun (st : Nat × Nat × List Int) _ =>
          (st.1 + 1, st.2.1 + colsB, detail.scal colsB (at0 a.data st.1) st.2.2 st.2.1))
        (0, 0, b.data)).2.2 }

/-- `Dimm(a, b)` of `DENSE/TBLAS.h`: the helper is chosen by `M > N`, the
ranks of `a` and `b`. The result is the pair of `a` and `b` after the call
(the arguments are `const` references, written through `const_cast`). -/
def Dimm (a b : DArray) : Option (DArray × DArray) :=
  if b.rank < a.rank then (T_dimm_helper_true.call a b).map fun a1 => (a1, b)
  else (T_dimm_helper_false.call a b).map fun b1 => (a, b1)

/-- A dense `2 × 3` array with the elements `1 .. 6`. -/
def grid23 : DArray := { shape := [2, 3], data := [1, 2, 3, 4, 5, 6] }

/-- A dense vector of three elements. -/
def diag3 : DArray := { shape := [3], data := [10, 20, 30] }

/-- A dense vector of two elements. -/
def diag2 : DArray := { shape := [2], data := [10, 20] }

/-! ## Division and remainder by zero -/

/-- The C++ expression `x % s` as a partial operation: it has no value when
`s` is `0` (division by zero). -/
def checkedMod (x s : Int) : Option Int := if s = 0 then none else some (x.tmod s)

/-- A loop whose body may throw or divide by zero: `none` is a division by
zero, which ends the run; otherwise as `forLoop`. -/
def forLoopChecked {ι σ ε : Type} (body : ι → σ → Option (Except ε σ)) :
    List ι → σ → Option (Except ε σ)
  | [], s => some (.ok s)
  | i :: is, s =>
    match body i s with
    | none => none
    | some (.ok s1) => forLoopChecked body is s1
    | some (.error e) => some (.error e)

/-! ## Multiplication by a block-diagonal tensor: `SDdimd`, `SDdidm` -/

/-- The matching loops of `ThreadSDgemm` with every `%` evaluated through
`checkedMod`. -/
def ThreadSDgemm_match_checked (stride : Int) (rowSlab colSlab : List (Int × DArray))
    (gemm_list : Dgemm_arglist) : Option Dgemm_arglist :=
  rowSlab.foldlM (fun gl ia =>
    colSlab.foldlM (fun gl ib =>
      match checkedMod ia.1 stride, checkedMod ib.1 stride with
      | some ra, some rb => some (if ra = rb then gl.add ia.2 ib.2 1 else gl)
      | _, _ => none) gl) gemm_list

/-- Body of the loop over `j` of `ThreadSDgemm`, with the modulo checked. -/
def ThreadSDgemm_col_checked (transa transb : BTAS_TRANSPOSE) (alpha : Int) (a b : SDArray)
    (stride : Int) (c_irow : Int) (ialo iaup : Nat) (j : Nat)
    (st : List Dgemm_arglist × SDArray) :
    Option (Outcome (List Dgemm_arglist × SDArray)) :=
  let c_tag : Int := c_irow + j
  if !st.2.allowed c_tag then some (.ok st)
  else
    let b_lbound : Int := j * stride
    let b_ubound : Int := b_lbound + stride - 1
    let iblo := b.lower_bound b_lbound
    let ibup := b.upper_bound b_ubound
    if iblo = ibup then some (.ok st)
    else
      match ThreadSDgemm_match_checked stride (a.slab ialo iaup) (b.slab iblo ibup)
          (Dgemm_arglist.new transa transb alpha 1) with
      | none => none
      | some gemm_list =>
        if gemm_list.size = 0 then some (.ok st)
        else
          match st.2.reserve c_tag with
          | none => some (.error (.blockUnavailable, st.2))
          | some c1 => some (.ok (st.1 ++ [gemm_list.set c_tag], c1))

/-- Body of the loop over `i` of `ThreadSDgemm`, with the modulo checked. -/
def ThreadSDgemm_row_checked (transa transb : BTAS_TRANSPOSE) (alpha : Int) (a b : SDArray)
    (stride : Int) (ncols : Nat) (i : Nat)
    (st : List Dgemm_arglist × SDArray) :
    Option (Outcome (List Dgemm_arglist × SDArray)) :=
  let a_lbound : Int := i * stride
  let a_ubound : Int := a_lbound + stride - 1
  let ialo := a.lower_bound a_lbound
  let iaup := a.upper_bound a_ubound
  if ialo = iaup then some (.ok st)
  else
    let c_irow : Int := i * ncols
    forLoopChecked (ThreadSDgemm_col_checked transa transb alpha a b stride c_irow ialo iaup)
      (List.range ncols) st

/-- The task-list construction of `ThreadSDgemm`, with the modulo checked. -/
def ThreadSDgemm_tasks_checked (transa transb : BTAS_TRANSPOSE) (alpha : Int)
    (a b c : SDArray) : Option (Outcome (List Dgemm_arglist × SDArray)) :=
  forLoopChecked
    (ThreadSDgemm_row_checked transa transb alpha a b (gemm_stride a b c) (gemm_ncols a b c))
    (List.range (gemm_nrows a b c)) ([], c)

/-- The matching loop of `ThreadSDgemv` with `%` evaluated through
`checkedMod`. -/
def ThreadSDgemv_match_checked (b : SDArray) (stride : Int) (rowSlab : List (Int × DArray))
    (gemv_list : Dgemv_arglist) : Option Dgemv_arglist :=
  rowSlab.foldlM (fun gl ia =>
    match checkedMod ia.1 stride with
    | none => none
    | some r =>
      match b.find r with
      | some ib => some (gl.add ia.2 ib 1)
      | none => some gl) gemv_list

/-- Body of the loop over `i` of `ThreadSDgemv`, with the modulo checked. -/
def ThreadSDgemv_row_checked (transa : BTAS_TRANSPOSE) (alpha : Int) (a b : SDArray)
    (stride : Int) (i : Nat)
    (st : List Dgemv_arglist × SDArray) :
    Option (Outcome (List Dgemv_arglist × SDArray)) :=
  let a_lbound : Int := i * stride
  let a_ubound : Int := a_lbound + stride - 1
  let ialo := a.lower_bound a_lbound
  let iaup := a.upper_bound a_ubound
  if ialo = iaup then some (.ok st)
  else if !st.2.allowed i then some (.ok st)
  else
    match ThreadSDgemv_match_checked b stride (a.slab ialo iaup)
        (Dgemv_arglist.new transa alpha 1) with
    | none => none
    | some gemv_list =>
      if gemv_list.size = 0 then some (.ok st)
      else
        match st.2.reserve i with
        | none => some (.error (.blockUnavailable, st.2))
        | some c1 => some (.ok (st.1 ++ [gemv_list.set i], c1))

/-- The task-list construction of `ThreadSDgemv`, with the modulo checked. -/
def ThreadSDgemv_tasks_checked (transa : BTAS_TRANSPOSE) (alpha : Int) (a b c : SDArray) :
    Option (Outcome (List Dgemv_arglist × SDArray)) :=
  forLoopChecked (ThreadSDgemv_row_checked transa alpha a b (gemv_stride b))
    (List.range (gemv_nrows a c)) ([], c)

/-- A rank-2 block tensor whose second declared extent is `0`, so that the
stride of a contraction over it is `0`; it stores a block all the same. -/
def flatA : SDArray :=
  { shape := [2, 0], store := [(0, eye2)], allowed := fun _ => true,
    blockShape := fun _ => [2, 2] }

/-! ## The estimated cost of a `Dgemm` task -/

/-- Member `Dgemm_arglist::mf_compute_flops(a, b)`: the number of elements of
`a` multiplied, extent by extent (`std::accumulate` with
`std::multiplies<long>`), by the free extents of `b`. `NC` is the rank of the
destination (the template parameter); the `long` of the source is the
unbounded natural number here. -/
def Dgemm_arglist.mf_compute_flops (l : Dgemm_arglist) (NC : Nat) (a b : DArray) : Nat :=
  let K := (a.rank + b.rank - NC) / 2
  let b_shape := b.shape
  let flops := a.size
  if l.m_transb = .NoTrans then
    (b_shape.drop K).foldl (fun acc e => acc * e) flops
  else
    (b_shape.take (b.rank - K)).foldl (fun acc e => acc * e) flops

/-- Modelled from the spec: the costs that `add` hands to the base class
`T_contraction_arglist::add(a_ptr, b_ptr, flops)` of `btas/arglist.h`, which is
not among the sources: one estimated operation count per operand pair, in the
order of the pairs. -/
def Dgemm_arglist.costs (l : Dgemm_arglist) (NC : Nat) : List Nat :=
  l.m_arglist.map fun p => l.mf_compute_flops NC p.1 p.2

/-- Modelled from the spec: the estimated cost of a task, the sum of the costs
recorded for its operand pairs. -/
def Dgemm_arglist.m_flops (l : Dgemm_arglist) (NC : Nat) : Nat := (l.costs NC).sum

/-- Modelled from the spec: a load-aware execution strategy takes the tasks in
the order of decreasing estimated cost. -/
def scheduleByCost {τ : Type} (cost : τ → Nat) (task_list : List τ) : List τ :=
  task_list.insertionSort fun x y => cost y ≤ cost x

/-- A dense `3 × 2` array of ones. -/
def ones32 : DArray := { shape := [3, 2], data := [1, 1, 1, 1, 1, 1] }

/-- A dense `2 × 5` array of ones. -/
def ones25 : DArray := { shape := [2, 5], data := [1, 1, 1, 1, 1, 1, 1, 1, 1, 1] }

/-- A dense `5 × 2` array of ones. -/
def ones52 : DArray := { shape := [5, 2], data := [1, 1, 1, 1, 1, 1, 1, 1, 1, 1] }

/-! ## The general contraction interface: `SDblas_wrapper` -/

/-- The largest value of the C++ `int` of the source (32 bits). -/
def INT_MAX : Int := 2147483647

/-- The integer `x` is a value of the C++ `int`. -/
def FitsInt (x : Int) : Prop := -INT_MAX - 1 ≤ x ∧ x ≤ INT_MAX

instance (x : Int) : Decidable (FitsInt x) := by
  unfold FitsInt; infer_instance

/-- The value of an `int` expression whose exact value is `x`: `x` itself
when it is a value of `int`, and its two's complement reduction to 32 bits
otherwise (signed overflow has no value defined by C++; the statements that
use `int32` assume that none occurs). -/
def int32 (x : Int) : Int := (x + 2147483648) % 4294967296 - 2147483648

/-- The call `std::accumulate(first, last, 1, std::multiplies<int>())` on the
extents of a shape: the left fold of the `int` product. -/
def intProd (extents : List Nat) : Int :=
  extents.foldl (fun (acc : Int) (n : Nat) => int32 (acc * (n : Int))) 1

/-- Body of the inner loop of `ThreadSDger` over the blocks of `b`, with
`int c_tag` at the width of `int`. -/
def ThreadSDger_col_int32 (alpha : Int) (c_irow : Int) (ia ib : Int × DArray)
    (st : List Dger_arglist × SDArray) : Outcome (List Dger_arglist × SDArray) :=
  let c_tag : Int := int32 (c_irow + ib.1)
  if !st.2.allowed c_tag then .ok st
  else
    let ger_list := (Dger_arglist.new alpha).add ia.2 ib.2 1
    match st.2.reserve c_tag with
    | none => .error (.blockUnavailable, st.2)
    | some c1 => .ok (st.1 ++ [ger_list.set c_tag], c1)

/-- Body of the outer loop of `ThreadSDger` over the blocks of `a`, with
`int c_irow` at the width of `int`. -/
def ThreadSDger_row_int32 (alpha : Int) (b : SDArray) (stride : Int) (ia : Int × DArray)
    (st : List Dger_arglist × SDArray) : Outcome (List Dger_arglist × SDArray) :=
  let c_irow : Int := int32 (ia.1 * stride)
  forLoop (ThreadSDger_col_int32 alpha c_irow ia) b.store st

/-- The task-list construction of `ThreadSDger` with every `int` of the source
(`stride`, `c_irow`, `c_tag`) at the width of `int`. -/
def ThreadSDger_tasks_int32 (alpha : Int) (a b c : SDArray) :
    Outcome (List Dger_arglist × SDArray) :=
  let stride : Int := intProd b.shape
  forLoop (ThreadSDger_row_int32 alpha b stride) a.store ([], c)

/-- `ThreadSDger(alpha, a, b, c)` with every `int` at the width of `int`. -/
def ThreadSDger_int32 (alpha : Int) (a b c : SDArray) : Outcome SDArray :=
  match ThreadSDger_tasks_int32 alpha a b c with
  | .error e => .error e
  | .ok (task_list, c1) => parallel_call Dger_arglist.call task_list c1

/-- Body of the loop over the destination columns `j` of `ThreadSDgemm`, with
`c_tag`, `b_lbound` and `b_ubound` at the width of `int`. -/
def ThreadSDgemm_col_int32 (transa transb : BTAS_TRANSPOSE) (alpha : Int) (a b : SDArray)
    (stride : Int) (c_irow : Int) (ialo iaup : Nat) (j : Nat)
    (st : List Dgemm_arglist × SDArray) : Outcome (List Dgemm_arglist × SDArray) :=
  let c_tag : Int := int32 (c_irow + j)
  if !st.2.allowed c_tag then .ok st
  else
    let b_lbound : Int := int32 (j * stride)
    let b_ubound : Int := int32 (int32 (b_lbound + stride) - 1)
    let iblo := b.lower_bound b_lbound
    let ibup := b.upper_bound b_ubound
    if iblo = ibup then .ok st
    else
      let gemm_list := ThreadSDgemm_match stride (a.slab ialo iaup) (b.slab iblo ibup)
        (Dgemm_arglist.new transa transb alpha 1)
      if gemm_list.size = 0 then .ok st
      else
        match st.2.reserve c_tag with
        | none => .error (.blockUnavailable, st.2)
        | some c1 => .ok (st.1 ++ [gemm_list.set c_tag], c1)

/-- Body of the loop over the destination rows `i` of `ThreadSDgemm`, with
`a_lbound`, `a_ubound` and `c_irow` at the width of `int`. -/
def ThreadSDgemm_row_int32 (transa transb : BTAS_TRANSPOSE) (alpha : Int) (a b : SDArray)
    (stride : Int) (ncols : Int) (i : Nat)
    (st : List Dgemm_arglist × SDArray) : Outcome (List Dgemm_arglist × SDArray) :=
  let a_lbound : Int := int32 (i * stride)
  let a_ubound : Int := int32 (int32 (a_lbound + stride) - 1)
  let ialo := a.lower_bound a_lbound
  let iaup := a.upper_bound a_ubound
  if ialo = iaup then .ok st
  else
    let c_irow : Int := int32 (i * ncols)
    forLoop (ThreadSDgemm_col_int32 transa transb alpha a b stride c_irow ialo iaup)
      (List.range ncols.toNat) st

/-- The task-list construction of `ThreadSDgemm` with every `int` of the
source (`nrows`, `stride`, `ncols`, the bounds and the destination tag) at the
width of `int`; the counters `i` and `j` run from `0` below an `int`. -/
def ThreadSDgemm_tasks_int32 (transa transb : BTAS_TRANSPOSE) (alpha : Int)
    (a b c : SDArray) : Outcome (List Dgemm_arglist × SDArray) :=
  let nrows : Int := intProd (a.shape.take (a.shape.length - contractedRank a b c))
  let stride : Int := intProd (a.shape.drop (a.shape.length - contractedRank a b c))
  let ncols : Int := intProd (b.shape.take (b.shape.length - contractedRank a b c))
  forLoop (ThreadSDgemm_row_int32 transa transb alpha a b stride ncols)
    (List.range nrows.toNat) ([], c)

/-- `ThreadSDgemm(transa, transb, alpha, a, b, c)` with every `int` at the
width of `int`. -/
def ThreadSDgemm_int32 (transa transb : BTAS_TRANSPOSE) (alpha : Int) (a b c : SDArray) :
    Outcome SDArray :=
  match ThreadSDgemm_tasks_int32 transa transb alpha a b c with
  | .error e => .error e
  | .ok (task_list, c1) => parallel_call Dgemm_arglist.call task_list c1

/-- Body of the loop over the destination rows `i` of `ThreadSDgemv`, with
`a_lbound` and `a_ubound` at the width of `int`. -/
def ThreadSDgemv_row_int32 (transa : BTAS_TRANSPOSE) (alpha : Int) (a b : SDArray)
    (stride : Int) (i : Nat)
    (st : List Dgemv_arglist × SDArray) : Outcome (List Dgemv_arglist × SDArray) :=
  let a_lbound : Int := int32 (i * stride)
  let a_ubound : Int := int32 (int32 (a_lbound + stride) - 1)
  let ialo := a.lower_bound a_lbound
  let iaup := a.upper_bound a_ubound
  if ialo = iaup then .ok st
  else if !st.2.allowed i then .ok st
  else
    let gemv_list := ThreadSDgemv_match b stride (a.slab ialo iaup)
      (Dgemv_arglist.new transa alpha 1)
    if gemv_list.size = 0 then .ok st
    else
      match st.2.reserve i with
      | none => .error (.blockUnavailable, st.2)
      | some c1 => .ok (st.1 ++ [gemv_list.set i], c1)

/-- The task-list construction of `ThreadSDgemv` with every `int` of the
source (`nrows`, `stride` and the bounds) at the width of `int`. -/
def ThreadSDgemv_tasks_int32 (transa : BTAS_TRANSPOSE) (alpha : Int) (a b c : SDArray) :
    Outcome (List Dgemv_arglist × SDArray) :=
  let nrows : Int := intProd (a.shape.take c.shape.length)
  let stride : Int := intProd b.shape
  forLoop (ThreadSDgemv_row_int32 transa alpha a b stride) (List.range nrows.toNat) ([], c)

/-- `ThreadSDgemv(transa, alpha, a, b, c)` with every `int` at the width of
`int`. -/
def ThreadSDgemv_int32 (transa : BTAS_TRANSPOSE) (alpha : Int) (a b c : SDArray) :
    Outcome SDArray :=
  match ThreadSDgemv_tasks_int32 transa alpha a b c with
  | .error e => .error e
  | .ok (task_list, c1) => parallel_call Dgemv_arglist.call task_list c1

/-- The totals `ThreadSDgemm` computes with are values of `int`:
`nrows * stride`, the total of `a`; `ncols * stride`, the total of `b` when
the contracted extents of `a` and `b` agree; and `nrows * ncols`, the total
of a destination of the contraction shape. -/
def gemmFitsInt (a b c : SDArray) : Prop :=
  ((gemm_nrows a b c * gemm_stride a b c : Nat) : Int) ≤ INT_MAX ∧
  ((gemm_ncols a b c * gemm_stride a b c : Nat) : Int) ≤ INT_MAX ∧
  ((gemm_nrows a b c * gemm_ncols a b c : Nat) : Int) ≤ INT_MAX

instance (a b c : SDArray) : Decidable (gemmFitsInt a b c) := by
  unfold gemmFitsInt; infer_instance

/-- The totals `ThreadSDgemv` computes with are values of `int`:
`nrows * stride`, the total of `a` when its trailing extents are those of `b`,
and `nrows`, the total of a destination of the contraction shape. -/
def gemvFitsInt (a b c : SDArray) : Prop :=
  ((gemv_nrows a c * gemv_stride b : Nat) : Int) ≤ INT_MAX ∧
  ((gemv_nrows a c : Nat) : Int) ≤ INT_MAX

instance (a b c : SDArray) : Decidable (gemvFitsInt a b c) := by
  unfold gemvFitsInt; infer_instance

/-- The total of the outer product of `a` and `b`, `total(a) * total(b)`, is a
value of `int`. -/
def gerFitsInt (a b : SDArray) : Prop :=
  ((a.size_total * b.size_total : Nat) : Int) ≤ INT_MAX

instance (a b : SDArray) : Decidable (gerFitsInt a b) := by
  unfold gerFitsInt; infer_instance

/-- An empty destination on a `2 × 2` grid in which every tag is allowed and
whose blocks are `3 × 3`: no product of two `2 × 2` blocks fits a block of
it. -/
def wideC : SDArray :=
  { shape := [2, 2], store := [], allowed := fun _ => true, blockShape := fun _ => [3, 3] }

/-! ## Lemmas on the ordered mapping -/

theorem takeWhile_length_mono (l : List (Int × DArray)) (p q : Int × DArray → Bool)
    (h : ∀ x, p x = true → q x = true) :
    (l.takeWhile p).length ≤ (l.takeWhile q).length := by
  induction l with
  | nil => simp
  | cons x xs ih =>
    by_cases hp : p x = true
    · simp [List.takeWhile_cons, hp, h x hp, ih]
    · simp [List.takeWhile_cons, hp]

namespace SDArray

theorem lower_le_upper (x : SDArray) (lo hi : Int) (h : lo ≤ hi + 1) :
    x.lower_bound lo ≤ x.upper_bound hi :=
  takeWhile_length_mono x.store _ _ (by
    intro p hp
    simp only [decide_eq_true_eq] at hp ⊢
    omega)

theorem upper_le_size (x : SDArray) (hi : Int) : x.upper_bound hi ≤ x.store.length :=
  (List.takeWhile_sublist _).length_le

theorem lower_eq_upper_iff (x : SDArray) (lo hi : Int) (h : lo ≤ hi + 1) :
    x.lower_bound lo = x.upper_bound hi ↔
      x.slab (x.lower_bound lo) (x.upper_bound hi) = [] := by
  have h1 := x.lower_le_upper lo hi h
  have h2 := x.upper_le_size hi
  unfold slab
  constructor
  · intro e; simp [e]
  · intro e
    rw [List.take_eq_nil_iff] at e
    rcases e with e | e
    · omega
    · rw [List.drop_eq_nil_iff] at e
      omega

end SDArray

/-! ## Lemmas on loops -/

theorem forLoop_invariant {ι σ ε : Type} (body : ι → σ → Except ε σ)
    (P : σ → Prop) (Q : ε → Prop)
    (hbody : ∀ i s, P s → match body i s with
      | .ok s1 => P s1
      | .error e => Q e)
    (l : List ι) (s : σ) (hs : P s) :
    match forLoop body l s with
    | .ok s1 => P s1
    | .error e => Q e := by
  induction l generalizing s with
  | nil => simpa [forLoop] using hs
  | cons i is ih =>
    have hb := hbody i s hs
    unfold forLoop
    cases hres : body i s with
    | ok s1 =>
      rw [hres] at hb
      exact ih s1 hb
    | error e =>
      rw [hres] at hb
      exact hb

theorem forLoop_append {ι σ ε : Type} (body : ι → σ → Except ε σ) (l1 l2 : List ι) (s : σ) :
    forLoop body (l1 ++ l2) s =
      match forLoop body l1 s with
      | .ok s1 => forLoop body l2 s1
      | .error e => .error e := by
  induction l1 generalizing s with
  | nil => simp [forLoop]
  | cons i is ih =>
    simp only [List.cons_append, forLoop]
    cases body i s with
    | ok s1 => exact ih s1
    | error e => rfl

/-! ## Lemmas on reservation -/

namespace SDArray

theorem find_eq_none_iff (x : SDArray) (t : Int) : x.find t = none ↔ t ∉ x.tags := by
  unfold find tags
  simp only [Option.map_eq_none', List.find?_eq_none, beq_iff_eq, List.mem_map, not_exists,
    not_and]

theorem find_isSome_iff (x : SDArray) (t : Int) : (x.find t).isSome = true ↔ t ∈ x.tags := by
  rw [← not_iff_not, ← find_eq_none_iff]
  cases x.find t <;> simp

theorem mem_insertBlock (t : Int) (blk : DArray) (l : List (Int × DArray)) (p : Int × DArray) :
    p ∈ insertBlock t blk l ↔ p = (t, blk) ∨ p ∈ l := by
  induction l with
  | nil => simp [insertBlock]
  | cons q qs ih =>
    unfold insertBlock
    split
    · simp
    · simp only [List.mem_cons, ih]
      tauto

theorem tags_insertBlock (t : Int) (blk : DArray) (l : List (Int × DArray)) (q : Int) :
    q ∈ (insertBlock t blk l).map Prod.fst ↔ q = t ∨ q ∈ l.map Prod.fst := by
  simp only [List.mem_map, mem_insertBlock]
  constructor
  · rintro ⟨p, hp | hp, rfl⟩
    · left; rw [hp]
    · right; exact ⟨p, hp, rfl⟩
  · rintro (rfl | ⟨p, hp, rfl⟩)
    · exact ⟨(q, blk), Or.inl rfl, rfl⟩
    · exact ⟨p, Or.inr hp, rfl⟩

/-- What a successful reservation leaves behind. -/
theorem reserve_some (x x1 : SDArray) (t : Int) (h : x.reserve t = some x1) :
    x1.allowed = x.allowed ∧ x1.shape = x.shape ∧ x1.blockShape = x.blockShape ∧
      (∀ q, q ∈ x1.tags ↔ q ∈ x.tags ∨ q = t) ∧ (t ∉ x.tags → x.allowed t = true) := by
  unfold reserve at h
  cases hf : x.find t with
  | some blk =>
    rw [hf] at h
    simp only [Option.some.injEq] at h
    subst h
    have ht : t ∈ x.tags := (find_isSome_iff x t).1 (by simp [hf])
    refine ⟨rfl, rfl, rfl, ?_, fun hn => absurd ht hn⟩
    intro q
    constructor
    · exact Or.inl
    · rintro (hq | rfl)
      · exact hq
      · exact ht
  | none =>
    rw [hf] at h
    simp only at h
    split at h
    · rename_i hc
      simp only [Option.some.injEq] at h
      subst h
      refine ⟨rfl, rfl, rfl, ?_, fun _ => hc.1⟩
      intro q
      simp only [tags, tags_insertBlock]
      tauto
    · exact absurd h (by simp)

theorem reserve_isSome_iff (x : SDArray) (t : Int) :
    (x.reserve t).isSome = true ↔
      t ∈ x.tags ∨ (x.allowed t = true ∧ 0 ≤ t ∧ t < (x.size_total : Int)) := by
  unfold reserve
  cases hf : x.find t with
  | some blk =>
    have ht : t ∈ x.tags := (find_isSome_iff x t).1 (by simp [hf])
    simp [ht]
  | none =>
    have ht : t ∉ x.tags := (find_eq_none_iff x t).1 hf
    simp only [ht, false_or]
    split <;> simp_all

theorem reserve_isSome_mono (x x1 : SDArray) (t q : Int) (h : x.reserve t = some x1)
    (hq : (x.reserve q).isSome = true) : (x1.reserve q).isSome = true := by
  obtain ⟨h1, h2, _, h4, _⟩ := reserve_some x x1 t h
  rw [reserve_isSome_iff] at hq ⊢
  rw [h1, size_total, h2, h4]
  unfold size_total at hq
  tauto

end SDArray

/-! ## Lemmas on `reserveAll` and on loops that reserve -/

theorem reserveAll_nil (c : SDArray) : reserveAll c [] = c := rfl

theorem reserveAll_cons (c : SDArray) (t : Int) (ts : List Int) :
    reserveAll c (t :: ts) = reserveAll ((c.reserve t).getD c) ts := rfl

theorem reserveAll_append (c : SDArray) (ts us : List Int) :
    reserveAll c (ts ++ us) = reserveAll (reserveAll c ts) us := by
  unfold reserveAll; rw [List.foldl_append]

theorem reserve_getD_frame (c : SDArray) (t : Int) :
    ((c.reserve t).getD c).allowed = c.allowed ∧ ((c.reserve t).getD c).shape = c.shape ∧
      ((c.reserve t).getD c).blockShape = c.blockShape := by
  cases h : c.reserve t with
  | none => simp
  | some c1 =>
    obtain ⟨h1, h2, h3, _, _⟩ := SDArray.reserve_some c c1 t h
    simp [h1, h2, h3]

theorem reserveAll_frame (c : SDArray) (ts : List Int) :
    (reserveAll c ts).allowed = c.allowed ∧ (reserveAll c ts).shape = c.shape ∧
      (reserveAll c ts).blockShape = c.blockShape := by
  induction ts generalizing c with
  | nil => simp [reserveAll_nil]
  | cons t ts ih =>
    rw [reserveAll_cons]
    obtain ⟨h1, h2, h3⟩ := reserve_getD_frame c t
    obtain ⟨i1, i2, i3⟩ := ih ((c.reserve t).getD c)
    exact ⟨i1.trans h1, i2.trans h2, i3.trans h3⟩

theorem reserveAll_reservable (c : SDArray) (ts : List Int) (q : Int)
    (hq : (c.reserve q).isSome = true) : ((reserveAll c ts).reserve q).isSome = true := by
  induction ts generalizing c with
  | nil => simpa [reserveAll_nil] using hq
  | cons t ts ih =>
    rw [reserveAll_cons]
    apply ih
    cases h : c.reserve t with
    | none => simpa using hq
    | some c1 => simpa using SDArray.reserve_isSome_mono c c1 t q h hq

/-- Tags after a run of reservations: nothing but old tags and requested tags. -/
theorem mem_tags_reserveAll (c : SDArray) (ts : List Int) (q : Int)
    (h : q ∈ (reserveAll c ts).tags) : q ∈ c.tags ∨ q ∈ ts := by
  induction ts generalizing c with
  | nil => exact Or.inl h
  | cons t ts ih =>
    rw [reserveAll_cons] at h
    rcases ih _ h with h1 | h1
    · cases hr : c.reserve t with
      | none => rw [hr] at h1; exact Or.inl h1
      | some c1 =>
        rw [hr] at h1
        obtain ⟨_, _, _, h4, _⟩ := SDArray.reserve_some c c1 t hr
        rcases (h4 q).1 h1 with h5 | h5
        · exact Or.inl h5
        · exact Or.inr (by simp [h5])
    · exact Or.inr (List.mem_cons_of_mem _ h1)

theorem tags_subset_reserveAll (c : SDArray) (ts : List Int) (q : Int) (h : q ∈ c.tags) :
    q ∈ (reserveAll c ts).tags := by
  induction ts generalizing c with
  | nil => exact h
  | cons t ts ih =>
    rw [reserveAll_cons]
    apply ih
    cases hr : c.reserve t with
    | none => exact h
    | some c1 =>
      obtain ⟨_, _, _, h4, _⟩ := SDArray.reserve_some c c1 t hr
      exact (h4 q).2 (Or.inl h)

/-- Tags after a run of reservations that all succeed: the old tags and the
requested tags. -/
theorem mem_tags_reserveAll_iff (c : SDArray) (ts : List Int)
    (hr : ∀ t ∈ ts, (c.reserve t).isSome = true) (q : Int) :
    q ∈ (reserveAll c ts).tags ↔ q ∈ c.tags ∨ q ∈ ts := by
  constructor
  · exact mem_tags_reserveAll c ts q
  · rintro (h | h)
    · exact tags_subset_reserveAll c ts q h
    · induction ts generalizing c with
      | nil => simp at h
      | cons t ts ih =>
        rw [reserveAll_cons]
        have ht := hr t (List.mem_cons_self _ _)
        obtain ⟨c1, hc1⟩ := Option.isSome_iff_exists.1 ht
        rw [hc1]
        simp only [Option.getD_some]
        rcases List.mem_cons.1 h with rfl | h
        · apply tags_subset_reserveAll
          exact ((SDArray.reserve_some c c1 q hc1).2.2.2.1 q).2 (Or.inr rfl)
        · exact ih c1 (fun u hu =>
            SDArray.reserve_isSome_mono c c1 t u hc1 (hr u (List.mem_cons_of_mem _ hu))) h

/-- A loop whose bodies append tasks and reserve tags appends and reserves the
concatenation. -/
theorem forLoop_spec {ι τ : Type}
    (body : ι → List τ × SDArray → Outcome (List τ × SDArray))
    (f : ι → List τ) (g : ι → List Int) (al : Int → Bool)
    (hbody : ∀ i st st1, st.2.allowed = al → body i st = .ok st1 →
      st1 = (st.1 ++ f i, reserveAll st.2 (g i)))
    (l : List ι) (st st1 : List τ × SDArray) (hal : st.2.allowed = al)
    (h : forLoop body l st = .ok st1) :
    st1 = (st.1 ++ l.flatMap f, reserveAll st.2 (l.flatMap g)) := by
  induction l generalizing st with
  | nil =>
    simp only [forLoop, Except.ok.injEq] at h
    simp [← h, reserveAll_nil]
  | cons i is ih =>
    unfold forLoop at h
    cases hb : body i st with
    | error e => rw [hb] at h; exact absurd h (by simp)
    | ok s1 =>
      rw [hb] at h
      have e1 := hbody i st s1 hal hb
      have hal1 : s1.2.allowed = al := by
        rw [e1]; exact (reserveAll_frame st.2 (g i)).1.trans hal
      have e2 := ih s1 hal1 h
      rw [e2, e1]
      simp [List.flatMap_cons, reserveAll_append, List.append_assoc]

/-- A loop whose bodies only fail on a failed reservation succeeds when every
tag it reserves can be reserved at the start. -/
theorem forLoop_ok {ι τ : Type}
    (body : ι → List τ × SDArray → Outcome (List τ × SDArray))
    (f : ι → List τ) (g : ι → List Int) (al : Int → Bool)
    (hbody : ∀ i st st1, st.2.allowed = al → body i st = .ok st1 →
      st1 = (st.1 ++ f i, reserveAll st.2 (g i)))
    (hok : ∀ i st, st.2.allowed = al → (∀ t ∈ g i, (st.2.reserve t).isSome = true) →
      ∃ st1, body i st = .ok st1)
    (l : List ι) (st : List τ × SDArray) (hal : st.2.allowed = al)
    (hr : ∀ t ∈ l.flatMap g, (st.2.reserve t).isSome = true) :
    ∃ st1, forLoop body l st = .ok st1 := by
  induction l generalizing st with
  | nil => exact ⟨st, rfl⟩
  | cons i is ih =>
    obtain ⟨s1, hs1⟩ := hok i st hal (fun t ht => hr t (by
      rw [List.flatMap_cons]; exact List.mem_append_left _ ht))
    have e1 := hbody i st s1 hal hs1
    have hal1 : s1.2.allowed = al := by
      rw [e1]; exact (reserveAll_frame st.2 (g i)).1.trans hal
    have hr1 : ∀ t ∈ is.flatMap g, (s1.2.reserve t).isSome = true := by
      intro t ht
      rw [e1]
      exact reserveAll_reservable st.2 (g i) t (hr t (by
        rw [List.flatMap_cons]; exact List.mem_append_right _ ht))
    obtain ⟨s2, hs2⟩ := ih s1 hal1 hr1
    exact ⟨s2, by unfold forLoop; rw [hs1]; exact hs2⟩

/-! ## The task-list construction of `ThreadSDgemm` in closed form -/

theorem ThreadSDgemm_match_inner (stride : Int) (ia : Int × DArray)
    (colSlab : List (Int × DArray)) (gl : Dgemm_arglist) :
    colSlab.foldl (fun gl ib =>
        if ia.1.tmod stride = ib.1.tmod stride then gl.add ia.2 ib.2 1 else gl) gl
      = { gl with
          m_arglist := gl.m_arglist ++
            (colSlab.filter fun ib => decide (ia.1.tmod stride = ib.1.tmod stride)).map
              fun ib => (ia.2, ib.2)
          m_scale := gl.m_scale ++ List.replicate
            ((colSlab.filter fun ib => decide (ia.1.tmod stride = ib.1.tmod stride)).map
              fun ib => (ia.2, ib.2)).length 1 } := by
  induction colSlab generalizing gl with
  | nil => simp
  | cons ib ibs ih =>
    rw [List.foldl_cons, ih]
    by_cases h : ia.1.tmod stride = ib.1.tmod stride
    · simp [h, Dgemm_arglist.add, List.filter_cons, List.replicate_succ]
    · simp [h, List.filter_cons]

/-- The matching loops add exactly the pairs of `gemmPairs`, each with weight `1`. -/
theorem ThreadSDgemm_match_eq (stride : Int) (rowSlab colSlab : List (Int × DArray))
    (gl : Dgemm_arglist) :
    ThreadSDgemm_match stride rowSlab colSlab gl
      = { gl with
          m_arglist := gl.m_arglist ++ gemmPairs stride rowSlab colSlab
          m_scale := gl.m_scale ++ List.replicate (gemmPairs stride rowSlab colSlab).length 1 } := by
  unfold ThreadSDgemm_match
  induction rowSlab generalizing gl with
  | nil => simp [gemmPairs]
  | cons ia ias ih =>
    rw [List.foldl_cons, ThreadSDgemm_match_inner, ih]
    simp [gemmPairs, List.flatMap_cons, List.append_assoc]

theorem ThreadSDgemm_match_size (stride : Int) (rowSlab colSlab : List (Int × DArray))
    (transa transb : BTAS_TRANSPOSE) (alpha beta : Int) :
    (ThreadSDgemm_match stride rowSlab colSlab
        (Dgemm_arglist.new transa transb alpha beta)).size
      = (gemmPairs stride rowSlab colSlab).length := by
  rw [ThreadSDgemm_match_eq]
  simp [Dgemm_arglist.size, Dgemm_arglist.new]

theorem ThreadSDgemm_col_spec (transa transb : BTAS_TRANSPOSE) (alpha : Int) (a b : SDArray)
    (stride : Int) (ncols i : Nat) (al : Int → Bool) (j : Nat)
    (st st1 : List Dgemm_arglist × SDArray) (hal : st.2.allowed = al)
    (h : ThreadSDgemm_col transa transb alpha a b stride ((i : Int) * ncols)
      (a.lower_bound (i * stride)) (a.upper_bound (i * stride + stride - 1)) j st = .ok st1) :
    st1 = (st.1 ++ (if gemmColPasses al a b stride ncols i j
              then [gemmTask transa transb alpha a b stride ncols i j] else []),
           reserveAll st.2 (if gemmColPasses al a b stride ncols i j
              then [(i : Int) * ncols + j] else [])) := by
  unfold ThreadSDgemm_col at h
  simp only [hal] at h
  unfold gemmColPasses
  by_cases h1 : al ((i : Int) * ncols + j) = true
  · by_cases h2 : b.lower_bound (j * stride) = b.upper_bound (j * stride + stride - 1)
    · simp only [h1, h2] at h ⊢
      simp only [Bool.not_true, Bool.false_eq_true, ↓reduceIte, Except.ok.injEq] at h
      simp [← h, reserveAll_nil]
    · by_cases h3 : gemmPairs stride (rowSlab a stride i) (rowSlab b stride j) = []
      · have h3s := ThreadSDgemm_match_size stride (rowSlab a stride i) (rowSlab b stride j)
          transa transb alpha 1
        rw [h3] at h3s
        simp only [rowSlab, List.length_nil] at h3s
        simp only [h1, h2, h3s] at h
        simp only [Bool.not_true, Bool.false_eq_true, ↓reduceIte, Except.ok.injEq] at h
        simp [← h, h3, reserveAll_nil]
      · have h3s := ThreadSDgemm_match_size stride (rowSlab a stride i) (rowSlab b stride j)
          transa transb alpha 1
        have h3n : (gemmPairs stride (rowSlab a stride i) (rowSlab b stride j)).length ≠ 0 := by
          simpa using h3
        rw [← h3s] at h3n
        simp only [rowSlab] at h3n
        simp only [h1, h2, h3n] at h
        simp only [Bool.not_true, Bool.false_eq_true, ↓reduceIte] at h
        cases hr : st.2.reserve ((i : Int) * ncols + j) with
        | none => rw [hr] at h; exact absurd h (by simp)
        | some c1 =>
          rw [hr] at h
          simp only [Except.ok.injEq] at h
          simp only [rowSlab] at h3
          simp [← h, h1, h2, h3, reserveAll, hr, gemmTask, rowSlab]
  · simp only [h1] at h ⊢
    simp only [Bool.not_eq_true] at h1
    simp only [h1, Bool.not_false, ↓reduceIte, Except.ok.injEq] at h
    simp [← h, reserveAll_nil]

theorem flatMap_ite_singleton {α β : Type} (l : List α) (p : α → Bool) (f : α → β) :
    (l.flatMap fun x => if p x then [f x] else []) = (l.filter p).map f := by
  induction l with
  | nil => rfl
  | cons x xs ih =>
    rw [List.flatMap_cons, ih]
    by_cases h : p x = true <;> simp [List.filter_cons, h]

theorem ThreadSDgemm_col_ok (transa transb : BTAS_TRANSPOSE) (alpha : Int) (a b : SDArray)
    (stride : Int) (ncols i : Nat) (al : Int → Bool) (j : Nat)
    (st : List Dgemm_arglist × SDArray) (hal : st.2.allowed = al)
    (hr : ∀ t ∈ (if gemmColPasses al a b stride ncols i j then [(i : Int) * ncols + j] else []),
      (st.2.reserve t).isSome = true) :
    ∃ st1, ThreadSDgemm_col transa transb alpha a b stride ((i : Int) * ncols)
      (a.lower_bound (i * stride)) (a.upper_bound (i * stride + stride - 1)) j st = .ok st1 := by
  unfold ThreadSDgemm_col
  simp only [hal]
  split
  · exact ⟨_, rfl⟩
  · rename_i h1
    split
    · exact ⟨_, rfl⟩
    · rename_i h2
      split
      · exact ⟨_, rfl⟩
      · rename_i h3
        have hp : gemmColPasses al a b stride ncols i j = true := by
          unfold gemmColPasses
          rw [ThreadSDgemm_match_size] at h3
          simp only [Bool.not_eq_true, Bool.not_eq_false_eq_eq_true] at h1
          simp only [Bool.and_eq_true, decide_eq_true_eq]
          refine ⟨h1, h2, ?_⟩
          intro e
          apply h3
          simp only [rowSlab] at e
          rw [e]; rfl
        have := hr ((i : Int) * ncols + j) (by simp [hp])
        obtain ⟨c1, hc1⟩ := Option.isSome_iff_exists.1 this
        rw [hc1]
        exact ⟨_, rfl⟩

/-- Tasks appended and tags reserved by row `i` of `ThreadSDgemm`. -/
theorem ThreadSDgemm_row_spec (transa transb : BTAS_TRANSPOSE) (alpha : Int) (a b : SDArray)
    (stride : Int) (ncols : Nat) (al : Int → Bool) (i : Nat)
    (st st1 : List Dgemm_arglist × SDArray) (hal : st.2.allowed = al)
    (h : ThreadSDgemm_row transa transb alpha a b stride ncols i st = .ok st1) :
    st1 = (st.1 ++ (gemmRowCols al a b stride ncols i).map
              (fun j => gemmTask transa transb alpha a b stride ncols i j),
           reserveAll st.2 ((gemmRowCols al a b stride ncols i).map
              fun j : Nat => (i : Int) * (ncols : Int) + (j : Int))) := by
  unfold ThreadSDgemm_row at h
  unfold gemmRowCols
  by_cases h0 : a.lower_bound (i * stride) = a.upper_bound (i * stride + stride - 1)
  · simp only [h0, ↓reduceIte, Except.ok.injEq] at h
    simp [h0, ← h, reserveAll_nil]
  · simp only [h0, ↓reduceIte] at h
    have := forLoop_spec _ _ _ al
      (ThreadSDgemm_col_spec transa transb alpha a b stride ncols i al) (List.range ncols)
      st st1 hal h
    rw [this, flatMap_ite_singleton, flatMap_ite_singleton]
    simp [h0]

theorem ThreadSDgemm_row_ok (transa transb : BTAS_TRANSPOSE) (alpha : Int) (a b : SDArray)
    (stride : Int) (ncols : Nat) (al : Int → Bool) (i : Nat)
    (st : List Dgemm_arglist × SDArray) (hal : st.2.allowed = al)
    (hr : ∀ t ∈ (gemmRowCols al a b stride ncols i).map (fun j : Nat => (i : Int) * (ncols : Int) + (j : Int)),
      (st.2.reserve t).isSome = true) :
    ∃ st1, ThreadSDgemm_row transa transb alpha a b stride ncols i st = .ok st1 := by
  unfold ThreadSDgemm_row
  unfold gemmRowCols at hr
  by_cases h0 : a.lower_bound (i * stride) = a.upper_bound (i * stride + stride - 1)
  · simp only [h0, ↓reduceIte]
    exact ⟨_, rfl⟩
  · simp only [h0, ↓reduceIte] at hr ⊢
    apply forLoop_ok _ _ _ al
      (ThreadSDgemm_col_spec transa transb alpha a b stride ncols i al)
      (ThreadSDgemm_col_ok transa transb alpha a b stride ncols i al) _ st hal
    rw [flatMap_ite_singleton]
    exact hr

/-- The task list `ThreadSDgemm` builds and the tags it reserves, in closed
form: one task per destination of `gemmDests`, in loop order. -/
theorem ThreadSDgemm_tasks_spec (transa transb : BTAS_TRANSPOSE) (alpha : Int)
    (a b c : SDArray) (st1 : List Dgemm_arglist × SDArray)
    (h : ThreadSDgemm_tasks transa transb alpha a b c = .ok st1) :
    st1 = ((gemmDests c.allowed a b (gemm_stride a b c) (gemm_ncols a b c)
              (gemm_nrows a b c)).map
              (fun ij => gemmTask transa transb alpha a b (gemm_stride a b c)
                (gemm_ncols a b c) ij.1 ij.2),
           reserveAll c ((gemmDests c.allowed a b (gemm_stride a b c) (gemm_ncols a b c)
              (gemm_nrows a b c)).map
              fun ij : Nat × Nat => (ij.1 : Int) * (gemm_ncols a b c : Int) + (ij.2 : Int))) := by
  unfold ThreadSDgemm_tasks at h
  have := forLoop_spec _ _ _ c.allowed
    (ThreadSDgemm_row_spec transa transb alpha a b (gemm_stride a b c) (gemm_ncols a b c)
      c.allowed) (List.range (gemm_nrows a b c)) ([], c) st1 rfl h
  rw [this]
  simp [gemmDests, List.map_flatMap, Function.comp_def]

theorem ThreadSDgemm_tasks_ok (transa transb : BTAS_TRANSPOSE) (alpha : Int)
    (a b c : SDArray)
    (hr : ∀ ij ∈ gemmDests c.allowed a b (gemm_stride a b c) (gemm_ncols a b c)
        (gemm_nrows a b c),
      (c.reserve ((ij.1 : Int) * (gemm_ncols a b c) + ij.2)).isSome = true) :
    ∃ st1, ThreadSDgemm_tasks transa transb alpha a b c = .ok st1 := by
  unfold ThreadSDgemm_tasks
  apply forLoop_ok _ _ _ c.allowed
    (ThreadSDgemm_row_spec transa transb alpha a b (gemm_stride a b c) (gemm_ncols a b c)
      c.allowed)
    (ThreadSDgemm_row_ok transa transb alpha a b (gemm_stride a b c) (gemm_ncols a b c)
      c.allowed) _ ([], c) rfl
  intro t ht
  simp only [List.mem_flatMap, List.mem_map, List.mem_range] at ht
  obtain ⟨i, hi, j, hj, rfl⟩ := ht
  apply hr (i, j)
  simp only [gemmDests, List.mem_flatMap, List.mem_map, List.mem_range]
  exact ⟨i, hi, j, hj, rfl⟩

/-! ## Running tasks never changes the set of stored tags -/

namespace SDArray

theorem tags_setBlock (c : SDArray) (t : Int) (blk : DArray) :
    (c.setBlock t blk).tags = c.tags := by
  unfold setBlock tags
  simp only [List.map_map]
  apply List.map_congr_left
  intro p _
  simp only [Function.comp_apply]
  split <;> rfl

theorem sameFrame_refl (c : SDArray) : SameFrame c c := ⟨rfl, rfl, rfl, rfl⟩

theorem sameFrame_trans {c2 c1 c : SDArray} (h2 : SameFrame c2 c1) (h1 : SameFrame c1 c) :
    SameFrame c2 c :=
  ⟨h2.1.trans h1.1, h2.2.1.trans h1.2.1, h2.2.2.1.trans h1.2.2.1, h2.2.2.2.trans h1.2.2.2⟩

theorem sameFrame_setBlock (c : SDArray) (t : Int) (blk : DArray) :
    SameFrame (c.setBlock t blk) c := ⟨tags_setBlock c t blk, rfl, rfl, rfl⟩

end SDArray

theorem Dgemm_call_frame (l : Dgemm_arglist) (c : SDArray) :
    SDArray.SameFrame (Outcome.final (l.call c)) c := by
  unfold Dgemm_arglist.call
  split
  · exact SDArray.sameFrame_refl c
  · split
    · exact SDArray.sameFrame_refl c
    · split
      · exact SDArray.sameFrame_setBlock c _ _
      · exact SDArray.sameFrame_setBlock c _ _

theorem Dgemv_call_frame (l : Dgemv_arglist) (c : SDArray) :
    SDArray.SameFrame (Outcome.final (l.call c)) c := by
  unfold Dgemv_arglist.call
  split
  · exact SDArray.sameFrame_refl c
  · split
    · exact SDArray.sameFrame_refl c
    · split
      · exact SDArray.sameFrame_setBlock c _ _
      · exact SDArray.sameFrame_setBlock c _ _

theorem Dger_call_frame (l : Dger_arglist) (c : SDArray) :
    SDArray.SameFrame (Outcome.final (l.call c)) c := by
  unfold Dger_arglist.call
  split
  · exact SDArray.sameFrame_refl c
  · split
    · exact SDArray.sameFrame_refl c
    · split
      · exact SDArray.sameFrame_setBlock c _ _
      · exact SDArray.sameFrame_setBlock c _ _

/-- Whatever the tasks do and whether or not one of them throws, the tensor
keeps its tags, shape and legality through `parallel_call`. -/
theorem parallel_call_frame {τ : Type} (call : τ → SDArray → Outcome SDArray)
    (hcall : ∀ t c, SDArray.SameFrame (Outcome.final (call t c)) c)
    (task_list : List τ) (c : SDArray) :
    SDArray.SameFrame (Outcome.final (parallel_call call task_list c)) c := by
  unfold parallel_call
  have := forLoop_invariant call (fun c1 => SDArray.SameFrame c1 c)
    (fun e => SDArray.SameFrame e.2 c) (by
      intro t c1 h1
      have h2 := hcall t c1
      cases hc : call t c1 with
      | ok c2 => rw [hc] at h2; exact SDArray.sameFrame_trans h2 h1
      | error e => rw [hc] at h2; exact SDArray.sameFrame_trans h2 h1) task_list c (SDArray.sameFrame_refl c)
  cases hf : forLoop call task_list c with
  | ok c2 => rw [hf] at this; exact this
  | error e => rw [hf] at this; exact this

/-! ## Slabs and tag arithmetic -/

theorem rowSlab_eq_nil_iff (x : SDArray) (stride i : Nat) :
    x.lower_bound ((i : Int) * stride) = x.upper_bound ((i : Int) * stride + stride - 1) ↔
      rowSlab x stride i = [] :=
  x.lower_eq_upper_iff _ _ (by omega)

theorem mem_tags_iff (x : SDArray) (t : Int) : t ∈ x.tags ↔ ∃ blk, (t, blk) ∈ x.store := by
  unfold SDArray.tags
  simp only [List.mem_map]
  constructor
  · rintro ⟨p, hp, rfl⟩; exact ⟨p.2, hp⟩
  · rintro ⟨blk, h⟩; exact ⟨(t, blk), h, rfl⟩

theorem mem_gemmDests (al : Int → Bool) (a b : SDArray) (stride ncols nrows : Nat)
    (i j : Nat) :
    (i, j) ∈ gemmDests al a b stride ncols nrows ↔
      i < nrows ∧ j < ncols ∧ rowSlab a stride i ≠ [] ∧
        al ((i : Int) * ncols + j) = true ∧ rowSlab b stride j ≠ [] ∧
        gemmPairs stride (rowSlab a stride i) (rowSlab b stride j) ≠ [] := by
  unfold gemmDests gemmRowCols gemmColPasses
  simp only [List.mem_flatMap, List.mem_range, List.mem_map, Prod.mk.injEq]
  have hA := rowSlab_eq_nil_iff a stride
  have hB := rowSlab_eq_nil_iff b stride
  constructor
  · rintro ⟨i1, hi1, j1, hj1, rfl, rfl⟩
    split at hj1
    · simp at hj1
    · rename_i h0
      simp only [List.mem_filter, List.mem_range, Bool.and_eq_true, decide_eq_true_eq] at hj1
      exact ⟨hi1, hj1.1, fun e => h0 ((hA i1).2 e), hj1.2.1,
        fun e => hj1.2.2.1 ((hB j1).2 e), hj1.2.2.2⟩
  · rintro ⟨h1, h2, h3, h4, h5, h6⟩
    have h3a : ¬ a.lower_bound ((i : Int) * stride)
        = a.upper_bound ((i : Int) * stride + stride - 1) := fun e => h3 ((hA i).1 e)
    refine ⟨i, h1, j, ?_, rfl, rfl⟩
    simp only [h3a, ↓reduceIte, List.mem_filter, List.mem_range, Bool.and_eq_true,
      decide_eq_true_eq]
    exact ⟨h2, h4, fun e => h5 ((hB j).1 e), h6⟩

/-- Row-major destination tags determine the block: `i * ncols + j` with
`j < ncols` is injective. -/
theorem grid_tag_inj (ncols i j i1 j1 : Nat) (hj : j < ncols) (hj1 : j1 < ncols)
    (h : (i : Int) * ncols + j = (i1 : Int) * ncols + j1) : i = i1 ∧ j = j1 := by
  have h2 : i * ncols + j = i1 * ncols + j1 := by exact_mod_cast h
  have e1 : (i * ncols + j) / ncols = i := by
    rw [Nat.mul_comm, Nat.mul_add_div (by omega), Nat.div_eq_of_lt hj]; rfl
  have e2 : (i1 * ncols + j1) / ncols = i1 := by
    rw [Nat.mul_comm, Nat.mul_add_div (by omega), Nat.div_eq_of_lt hj1]; rfl
  have hi : i = i1 := by rw [← e1, ← e2, h2]
  subst hi
  exact ⟨rfl, by omega⟩

/-! ## Stored tags of the destination after `ThreadSDgemm` -/

/-- Tags of the destination after `ThreadSDgemm`, whether or not a dense kernel
throws: the tags after the task-list construction. -/
theorem ThreadSDgemm_final_tags (transa transb : BTAS_TRANSPOSE) (alpha : Int)
    (a b c : SDArray) (st1 : List Dgemm_arglist × SDArray)
    (h : ThreadSDgemm_tasks transa transb alpha a b c = .ok st1) :
    SDArray.SameFrame (Outcome.final (ThreadSDgemm transa transb alpha a b c)) st1.2 := by
  unfold ThreadSDgemm
  rw [h]
  exact parallel_call_frame _ Dgemm_call_frame st1.1 st1.2

/-- The reservations of `ThreadSDgemm` all succeed when every allowed
destination tag of the grid can be reserved. -/
theorem gemmDests_reservable (a b c : SDArray)
    (hres : ∀ i j : Nat, i < gemm_nrows a b c → j < gemm_ncols a b c →
      c.allowed ((i : Int) * (gemm_ncols a b c : Int) + (j : Int)) = true →
      (c.reserve ((i : Int) * (gemm_ncols a b c : Int) + (j : Int))).isSome = true) :
    ∀ ij ∈ gemmDests c.allowed a b (gemm_stride a b c) (gemm_ncols a b c) (gemm_nrows a b c),
      (c.reserve ((ij.1 : Int) * (gemm_ncols a b c : Int) + (ij.2 : Int))).isSome = true := by
  rintro ⟨i, j⟩ hij
  rw [mem_gemmDests] at hij
  exact hres i j hij.1 hij.2.1 hij.2.2.2.1

theorem scenario_dispatch (x y : Nat) :
    SDgemm .NoTrans .NoTrans 1 scenarioA scenarioB 0 (scenarioC x y)
      = ThreadSDgemm .NoTrans .NoTrans 1 scenarioA (scenarioB.transpose_view 1)
          (scenarioC 2 2) := by
  have h1 : contractedRank scenarioA scenarioB (scenarioC x y) = 1 := by
    simp [contractedRank, scenarioA, scenarioB, scenarioC]
  have h2 : (gemm_contract_shape .NoTrans .NoTrans 1 scenarioA.shape scenarioB.shape).2
      = [2, 2] := by decide
  have h3 : (scenarioC x y).size = 0 := rfl
  unfold SDgemm
  simp only [h1, h2, h3, Nat.lt_irrefl, false_and, ↓reduceIte, and_self]
  rfl

/-- C2. The worked scenario: `a` block-diagonal with identity blocks at tags
`0` and `3`, `b` with a block of ones at each of its four tags, `c` empty with
every tag allowed. `SDgemm(NoTrans, NoTrans, 1, a, b, 0, c)` returns and leaves
`c` with the `2 × 2` grid shape and blocks exactly at tags `0, 1, 2, 3`, each
the `2 × 2` block of ones, the corresponding block of `b`. -/
theorem SDgemm_scenario (x y : Nat) :
    ∃ c1, SDgemm .NoTrans .NoTrans 1 scenarioA scenarioB 0 (scenarioC x y) = .ok c1 ∧
      c1.shape = [2, 2] ∧
      c1.store = [(0, ones2), (1, ones2), (2, ones2), (3, ones2)] ∧
      ∀ t ∈ [(0 : Int), 1, 2, 3], c1.find t = scenarioB.find t := by
  refine ⟨⟨[2, 2], [(0, ones2), (1, ones2), (2, ones2), (3, ones2)], fun _ => true,
    fun _ => [2, 2]⟩, ?_, rfl, rfl, by decide⟩
  rw [scenario_dispatch]
  rfl

/-! ## Only allowed tags are ever populated -/

theorem forLoop_outState {ι τ : Type}
    (body : ι → List τ × SDArray → Outcome (List τ × SDArray)) (P : SDArray → Prop)
    (hbody : ∀ i st, P st.2 → P (outState (body i st)))
    (l : List ι) (st : List τ × SDArray) (h : P st.2) :
    P (outState (forLoop body l st)) := by
  induction l generalizing st with
  | nil => exact h
  | cons i is ih =>
    have hb := hbody i st h
    unfold forLoop
    cases hres : body i st with
    | ok s1 =>
      rw [hres] at hb
      exact ih s1 hb
    | error e =>
      rw [hres] at hb
      exact hb

theorem onlyAllowedNew_refl (c : SDArray) : OnlyAllowedNew c c :=
  ⟨rfl, fun _ h => Or.inl h⟩

theorem onlyAllowedNew_reserve {c c1 c2 : SDArray} {t : Int} (h : OnlyAllowedNew c c1)
    (hal : c1.allowed t = true) (hr : c1.reserve t = some c2) : OnlyAllowedNew c c2 := by
  obtain ⟨h1, _, _, h4, _⟩ := SDArray.reserve_some c1 c2 t hr
  refine ⟨h1.trans h.1, ?_⟩
  intro q hq
  rcases (h4 q).1 hq with hq | rfl
  · exact h.2 q hq
  · right; rw [← h.1]; exact hal

theorem onlyAllowedNew_frame {c c1 c2 : SDArray} (h : OnlyAllowedNew c c1)
    (hf : SDArray.SameFrame c2 c1) : OnlyAllowedNew c c2 :=
  ⟨hf.2.1.trans h.1, fun t ht => h.2 t (hf.1 ▸ ht)⟩

theorem ThreadSDgemm_col_allowed (transa transb : BTAS_TRANSPOSE) (alpha : Int)
    (a b c : SDArray) (stride c_irow : Int) (ialo iaup j : Nat)
    (st : List Dgemm_arglist × SDArray) (h : OnlyAllowedNew c st.2) :
    OnlyAllowedNew c
      (outState (ThreadSDgemm_col transa transb alpha a b stride c_irow ialo iaup j st)) := by
  unfold ThreadSDgemm_col
  simp only
  split
  · exact h
  · rename_i hal
    split
    · exact h
    · split
      · exact h
      · split
        · exact h
        · rename_i c1 hr
          simp only [Bool.not_eq_true, Bool.not_eq_false_eq_eq_true] at hal
          exact onlyAllowedNew_reserve h hal hr

theorem ThreadSDgemm_row_allowed (transa transb : BTAS_TRANSPOSE) (alpha : Int)
    (a b c : SDArray) (stride : Int) (ncols i : Nat)
    (st : List Dgemm_arglist × SDArray) (h : OnlyAllowedNew c st.2) :
    OnlyAllowedNew c
      (outState (ThreadSDgemm_row transa transb alpha a b stride ncols i st)) := by
  unfold ThreadSDgemm_row
  simp only
  split
  · exact h
  · exact forLoop_outState _ (OnlyAllowedNew c)
      (fun j st hst => ThreadSDgemm_col_allowed transa transb alpha a b c stride _ _ _ j st hst)
      _ st h

/-- Whether it returns or throws, `ThreadSDgemm` adds only allowed tags. -/
theorem ThreadSDgemm_allowed (transa transb : BTAS_TRANSPOSE) (alpha : Int)
    (a b c : SDArray) :
    OnlyAllowedNew c (Outcome.final (ThreadSDgemm transa transb alpha a b c)) := by
  have h := forLoop_outState _ (OnlyAllowedNew c)
    (fun i st hst => ThreadSDgemm_row_allowed transa transb alpha a b c
      (gemm_stride a b c) (gemm_ncols a b c) i st hst)
    (List.range (gemm_nrows a b c)) (([] : List Dgemm_arglist), c) (onlyAllowedNew_refl c)
  unfold ThreadSDgemm
  unfold ThreadSDgemm_tasks
  cases hf : forLoop (ThreadSDgemm_row transa transb alpha a b (gemm_stride a b c)
      (gemm_ncols a b c)) (List.range (gemm_nrows a b c)) (([] : List Dgemm_arglist), c) with
  | error e =>
    rw [hf] at h
    exact h
  | ok st1 =>
    rw [hf] at h
    exact onlyAllowedNew_frame h (parallel_call_frame _ Dgemm_call_frame st1.1 st1.2)

theorem SDscal_frame (beta : Int) (c : SDArray) : SDArray.SameFrame (SDscal beta c) c := by
  refine ⟨?_, rfl, rfl, rfl⟩
  unfold SDscal SDArray.tags
  simp [List.map_map, Function.comp_def]

/-- The destination handed to the dispatch routine by a level-2/3 driver: it
holds no tag that `c` did not hold and has the legality predicate of `c`. -/
theorem driver_dest_tags (beta : Int) (c : SDArray) (c_shape : List Nat) :
    OnlyAllowedNew c (if 0 < c.size then SDscal beta c else c.resize c_shape) := by
  split
  · exact onlyAllowedNew_frame (onlyAllowedNew_refl c) (SDscal_frame beta c)
  · exact ⟨rfl, fun t ht => by simp [SDArray.resize, SDArray.tags] at ht⟩

theorem onlyAllowedNew_trans {c c1 c2 : SDArray} (h1 : OnlyAllowedNew c c1)
    (h2 : OnlyAllowedNew c1 c2) : OnlyAllowedNew c c2 := by
  refine ⟨h2.1.trans h1.1, ?_⟩
  intro t ht
  rcases h2.2 t ht with h | h
  · exact h1.2 t h
  · right; rw [← h1.1]; exact h

/-- C4. For every `a`, `b` and `c`: every tag that is stored in `c` after
`SDgemm` (whether the call returned or threw) and was not stored before the
call is allowed by the legality predicate of `c`. -/
theorem SDgemm_only_allowed (transa transb : BTAS_TRANSPOSE) (alpha : Int) (a b : SDArray)
    (beta : Int) (c : SDArray) :
    ∀ t ∈ (Outcome.final (SDgemm transa transb alpha a b beta c)).tags,
      t ∉ c.tags → c.allowed t = true := by
  have key : OnlyAllowedNew c (Outcome.final (SDgemm transa transb alpha a b beta c)) := by
    unfold SDgemm
    simp only
    split
    · exact onlyAllowedNew_refl c
    · have hd := driver_dest_tags beta c
        (gemm_contract_shape transa transb (contractedRank a b c) a.shape b.shape).2
      split
      · exact onlyAllowedNew_trans hd (ThreadSDgemm_allowed _ _ _ _ _ _)
      · split
        · exact onlyAllowedNew_trans hd (ThreadSDgemm_allowed _ _ _ _ _ _)
        · split
          · exact onlyAllowedNew_trans hd (ThreadSDgemm_allowed _ _ _ _ _ _)
          · exact onlyAllowedNew_trans hd (ThreadSDgemm_allowed _ _ _ _ _ _)
  intro t ht hn
  rcases key.2 t ht with h | h
  · exact absurd h hn
  · exact h

/-! ## The task-list constructions of `ThreadSDgemv` and `ThreadSDger` in closed form -/

/-- The matching loop adds exactly the pairs of `gemvPairs`, each with weight `1`. -/
theorem ThreadSDgemv_match_eq (b : SDArray) (stride : Int) (rowSlab : List (Int × DArray))
    (gl : Dgemv_arglist) :
    ThreadSDgemv_match b stride rowSlab gl
      = { gl with
          m_arglist := gl.m_arglist ++ gemvPairs b stride rowSlab
          m_scale := gl.m_scale ++ List.replicate (gemvPairs b stride rowSlab).length 1 } := by
  unfold ThreadSDgemv_match
  induction rowSlab generalizing gl with
  | nil => simp [gemvPairs]
  | cons ia ias ih =>
    rw [List.foldl_cons, ih]
    cases hf : b.find (ia.1.tmod stride) with
    | none => simp [gemvPairs, List.filterMap_cons, hf]
    | some ib =>
      simp [gemvPairs, List.filterMap_cons, hf, Dgemv_arglist.add, List.replicate_succ,
        List.append_assoc]

theorem ThreadSDgemv_match_size (b : SDArray) (stride : Int) (rowSlab : List (Int × DArray))
    (transa : BTAS_TRANSPOSE) (alpha beta : Int) :
    (ThreadSDgemv_match b stride rowSlab (Dgemv_arglist.new transa alpha beta)).size
      = (gemvPairs b stride rowSlab).length := by
  rw [ThreadSDgemv_match_eq]
  simp [Dgemv_arglist.size, Dgemv_arglist.new]

theorem ThreadSDgemv_row_spec (transa : BTAS_TRANSPOSE) (alpha : Int) (a b : SDArray)
    (stride : Int) (al : Int → Bool) (i : Nat)
    (st st1 : List Dgemv_arglist × SDArray) (hal : st.2.allowed = al)
    (h : ThreadSDgemv_row transa alpha a b stride i st = .ok st1) :
    st1 = (st.1 ++ (if gemvRowPasses al a b stride i
              then [gemvTask transa alpha a b stride i] else []),
           reserveAll st.2 (if gemvRowPasses al a b stride i then [(i : Int)] else [])) := by
  unfold ThreadSDgemv_row at h
  simp only [hal] at h
  unfold gemvRowPasses
  have h3s := ThreadSDgemv_match_size b stride (rowSlab a stride i) transa alpha 1
  simp only [rowSlab] at h3s
  by_cases h0 : a.lower_bound (i * stride) = a.upper_bound (i * stride + stride - 1)
  · simp only [h0, ↓reduceIte, Except.ok.injEq] at h
    simp [h0, ← h, reserveAll_nil]
  · by_cases h1 : al i = true
    · by_cases h3 : gemvPairs b stride (rowSlab a stride i) = []
      · simp only [rowSlab] at h3
        rw [h3, List.length_nil] at h3s
        simp only [h0, h1, h3s] at h
        simp only [Bool.not_true, Bool.false_eq_true, ↓reduceIte, Except.ok.injEq] at h
        simp [← h, rowSlab, h3, reserveAll_nil]
      · have h3n : (gemvPairs b stride (rowSlab a stride i)).length ≠ 0 := by
          simpa using h3
        simp only [rowSlab] at h3n h3
        rw [← h3s] at h3n
        simp only [h0, h1, h3n] at h
        simp only [Bool.not_true, Bool.false_eq_true, ↓reduceIte] at h
        cases hr : st.2.reserve (i : Int) with
        | none => rw [hr] at h; exact absurd h (by simp)
        | some c1 =>
          rw [hr] at h
          simp only [Except.ok.injEq] at h
          simp [← h, h0, h1, h3, reserveAll, hr, gemvTask, rowSlab]
    · simp only [h0, h1] at h ⊢
      simp only [Bool.not_eq_true] at h1
      simp only [h1, Bool.not_false, ↓reduceIte, Except.ok.injEq] at h
      simp [← h, reserveAll_nil]

theorem ThreadSDgemv_row_ok (transa : BTAS_TRANSPOSE) (alpha : Int) (a b : SDArray)
    (stride : Int) (al : Int → Bool) (i : Nat)
    (st : List Dgemv_arglist × SDArray) (hal : st.2.allowed = al)
    (hr : ∀ t ∈ (if gemvRowPasses al a b stride i then [(i : Int)] else []),
      (st.2.reserve t).isSome = true) :
    ∃ st1, ThreadSDgemv_row transa alpha a b stride i st = .ok st1 := by
  unfold ThreadSDgemv_row
  simp only [hal]
  split
  · exact ⟨_, rfl⟩
  · rename_i h0
    split
    · exact ⟨_, rfl⟩
    · rename_i h1
      split
      · exact ⟨_, rfl⟩
      · rename_i h3
        have hp : gemvRowPasses al a b stride i = true := by
          unfold gemvRowPasses
          rw [ThreadSDgemv_match_size] at h3
          simp only [Bool.not_eq_true, Bool.not_eq_false_eq_eq_true] at h1
          simp only [Bool.and_eq_true, decide_eq_true_eq]
          refine ⟨h0, h1, ?_⟩
          intro e
          apply h3
          simp only [rowSlab] at e
          rw [e]; rfl
        have := hr (i : Int) (by simp [hp])
        obtain ⟨c1, hc1⟩ := Option.isSome_iff_exists.1 this
        rw [hc1]
        exact ⟨_, rfl⟩

/-- The task list `ThreadSDgemv` builds and the tags it reserves, in closed form. -/
theorem ThreadSDgemv_tasks_spec (transa : BTAS_TRANSPOSE) (alpha : Int)
    (a b c : SDArray) (st1 : List Dgemv_arglist × SDArray)
    (h : ThreadSDgemv_tasks transa alpha a b c = .ok st1) :
    st1 = ((gemvDests c.allowed a b (gemv_stride b) (gemv_nrows a c)).map
              (fun i => gemvTask transa alpha a b (gemv_stride b) i),
           reserveAll c ((gemvDests c.allowed a b (gemv_stride b) (gemv_nrows a c)).map
              fun i : Nat => (i : Int))) := by
  unfold ThreadSDgemv_tasks at h
  have := forLoop_spec _ _ _ c.allowed
    (ThreadSDgemv_row_spec transa alpha a b (gemv_stride b) c.allowed)
    (List.range (gemv_nrows a c)) ([], c) st1 rfl h
  rw [this, flatMap_ite_singleton, flatMap_ite_singleton]
  simp [gemvDests]

theorem ThreadSDgemv_tasks_ok (transa : BTAS_TRANSPOSE) (alpha : Int) (a b c : SDArray)
    (hr : ∀ i ∈ gemvDests c.allowed a b (gemv_stride b) (gemv_nrows a c),
      (c.reserve (i : Int)).isSome = true) :
    ∃ st1, ThreadSDgemv_tasks transa alpha a b c = .ok st1 := by
  unfold ThreadSDgemv_tasks
  apply forLoop_ok _ _ _ c.allowed
    (ThreadSDgemv_row_spec transa alpha a b (gemv_stride b) c.allowed)
    (ThreadSDgemv_row_ok transa alpha a b (gemv_stride b) c.allowed) _ ([], c) rfl
  intro t ht
  rw [flatMap_ite_singleton] at ht
  simp only [List.mem_map] at ht
  obtain ⟨i, hi, rfl⟩ := ht
  exact hr i hi

theorem ThreadSDger_col_spec (alpha : Int) (stride : Int) (al : Int → Bool)
    (ia ib : Int × DArray) (st st1 : List Dger_arglist × SDArray) (hal : st.2.allowed = al)
    (h : ThreadSDger_col alpha (ia.1 * stride) ia ib st = .ok st1) :
    st1 = (st.1 ++ (if al (ia.1 * stride + ib.1) then [gerTask alpha stride ia ib] else []),
           reserveAll st.2 (if al (ia.1 * stride + ib.1) then [ia.1 * stride + ib.1] else [])) := by
  unfold ThreadSDger_col at h
  simp only [hal] at h
  by_cases h1 : al (ia.1 * stride + ib.1) = true
  · simp only [h1, Bool.not_true, Bool.false_eq_true, ↓reduceIte] at h ⊢
    cases hr : st.2.reserve (ia.1 * stride + ib.1) with
    | none => rw [hr] at h; exact absurd h (by simp)
    | some c1 =>
      rw [hr] at h
      simp only [Except.ok.injEq] at h
      simp [← h, reserveAll, hr, gerTask]
  · simp only [h1] at h ⊢
    simp only [Bool.not_eq_true] at h1
    simp only [h1, Bool.not_false, ↓reduceIte, Except.ok.injEq] at h
    simp [← h, reserveAll_nil]

theorem ThreadSDger_col_ok (alpha : Int) (stride : Int) (al : Int → Bool)
    (ia ib : Int × DArray) (st : List Dger_arglist × SDArray) (hal : st.2.allowed = al)
    (hr : ∀ t ∈ (if al (ia.1 * stride + ib.1) then [ia.1 * stride + ib.1] else []),
      (st.2.reserve t).isSome = true) :
    ∃ st1, ThreadSDger_col alpha (ia.1 * stride) ia ib st = .ok st1 := by
  unfold ThreadSDger_col
  simp only [hal]
  split
  · exact ⟨_, rfl⟩
  · rename_i h1
    simp only [Bool.not_eq_true, Bool.not_eq_false_eq_eq_true] at h1
    have := hr (ia.1 * stride + ib.1) (by simp [h1])
    obtain ⟨c1, hc1⟩ := Option.isSome_iff_exists.1 this
    rw [hc1]
    exact ⟨_, rfl⟩

theorem ThreadSDger_row_spec (alpha : Int) (b : SDArray) (stride : Int) (al : Int → Bool)
    (ia : Int × DArray) (st st1 : List Dger_arglist × SDArray) (hal : st.2.allowed = al)
    (h : ThreadSDger_row alpha b stride ia st = .ok st1) :
    st1 = (st.1 ++ ((b.store.filter fun ib => al (ia.1 * stride + ib.1)).map
              fun ib => gerTask alpha stride ia ib),
           reserveAll st.2 ((b.store.filter fun ib => al (ia.1 * stride + ib.1)).map
              fun ib => ia.1 * stride + ib.1)) := by
  unfold ThreadSDger_row at h
  have := forLoop_spec _ _ _ al (ThreadSDger_col_spec alpha stride al ia) b.store st st1 hal h
  rw [this, flatMap_ite_singleton, flatMap_ite_singleton]

theorem ThreadSDger_row_ok (alpha : Int) (b : SDArray) (stride : Int) (al : Int → Bool)
    (ia : Int × DArray) (st : List Dger_arglist × SDArray) (hal : st.2.allowed = al)
    (hr : ∀ t ∈ (b.store.filter fun ib => al (ia.1 * stride + ib.1)).map
        (fun ib => ia.1 * stride + ib.1), (st.2.reserve t).isSome = true) :
    ∃ st1, ThreadSDger_row alpha b stride ia st = .ok st1 := by
  unfold ThreadSDger_row
  apply forLoop_ok _ _ _ al (ThreadSDger_col_spec alpha stride al ia)
    (ThreadSDger_col_ok alpha stride al ia) _ st hal
  rw [flatMap_ite_singleton]
  exact hr

/-- The task list `ThreadSDger` builds and the tags it reserves, in closed form. -/
theorem ThreadSDger_tasks_spec (alpha : Int) (a b c : SDArray)
    (st1 : List Dger_arglist × SDArray) (h : ThreadSDger_tasks alpha a b c = .ok st1) :
    st1 = ((gerDests c.allowed a b (b.shape.prod : Nat)).map
              (fun p => gerTask alpha (b.shape.prod : Nat) p.1 p.2),
           reserveAll c ((gerDests c.allowed a b (b.shape.prod : Nat)).map
              fun p => p.1.1 * ((b.shape.prod : Nat) : Int) + p.2.1)) := by
  unfold ThreadSDger_tasks at h
  have := forLoop_spec _ _ _ c.allowed
    (ThreadSDger_row_spec alpha b (b.shape.prod : Nat) c.allowed) a.store ([], c) st1 rfl h
  rw [this]
  simp [gerDests, List.map_flatMap, Function.comp_def]

theorem ThreadSDger_tasks_ok (alpha : Int) (a b c : SDArray)
    (hr : ∀ p ∈ gerDests c.allowed a b (b.shape.prod : Nat),
      (c.reserve (p.1.1 * ((b.shape.prod : Nat) : Int) + p.2.1)).isSome = true) :
    ∃ st1, ThreadSDger_tasks alpha a b c = .ok st1 := by
  unfold ThreadSDger_tasks
  apply forLoop_ok _ _ _ c.allowed
    (ThreadSDger_row_spec alpha b (b.shape.prod : Nat) c.allowed)
    (ThreadSDger_row_ok alpha b (b.shape.prod : Nat) c.allowed) _ ([], c) rfl
  intro t ht
  simp only [List.mem_flatMap, List.mem_map, List.mem_filter] at ht
  obtain ⟨ia, hia, ib, ⟨hib, hal⟩, rfl⟩ := ht
  apply hr (ia, ib)
  simp only [gerDests, List.mem_flatMap, List.mem_map, List.mem_filter]
  exact ⟨ia, hia, ib, ⟨hib, hal⟩, rfl⟩

/-! ## Shape validation of the level-2/3 drivers -/

/-- C5. `SDgemm`, `SDgemv` and `SDger` on a destination that holds at least one
block and whose declared shape differs from the contraction shape computed
from `a` and `b`: the call throws the shape-mismatch error, and the tensor at
the throw is `c` itself (nothing scaled, nothing reserved: same shape, same
stored blocks). -/
theorem drivers_shape_mismatch (transa transb : BTAS_TRANSPOSE) (alpha : Int)
    (a b : SDArray) (beta : Int) (c : SDArray) (hc : 0 < c.size) :
    ((gemm_contract_shape transa transb (contractedRank a b c) a.shape b.shape).2 ≠ c.shape →
        SDgemm transa transb alpha a b beta c = .error (.shapeMismatch, c)) ∧
    (gemv_contract_shape transa a.shape b.shape ≠ c.shape →
        SDgemv transa alpha a b beta c = .error (.shapeMismatch, c)) ∧
    (ger_contract_shape a.shape b.shape ≠ c.shape →
        SDger alpha a b c = .error (.shapeMismatch, c)) := by
  refine ⟨?_, ?_, ?_⟩
  · intro h
    unfold SDgemm
    simp only
    rw [if_pos ⟨hc, h⟩]
  · intro h
    unfold SDgemv
    simp only
    rw [if_pos ⟨hc, h⟩]
  · intro h
    unfold SDger
    simp only
    rw [if_pos ⟨hc, h⟩]

/-- Witness of C5: a destination of shape `3 × 3` holding one block, with the
scenario operands. -/
theorem drivers_shape_mismatch_witness :
    0 < scenarioD.size ∧
      SDgemm .NoTrans .NoTrans 1 scenarioA scenarioB 0 scenarioD
        = .error (.shapeMismatch, scenarioD) ∧
      SDgemv .NoTrans 1 scenarioA scenarioB 0 scenarioD = .error (.shapeMismatch, scenarioD) ∧
      SDger 1 scenarioA scenarioB scenarioD = .error (.shapeMismatch, scenarioD) :=
  have h := drivers_shape_mismatch .NoTrans .NoTrans 1 scenarioA scenarioB 0 scenarioD
    (by decide)
  ⟨by decide, h.1 (by decide), h.2.1 (by decide), h.2.2 (by decide)⟩

/-! ## One task per destination -/

theorem gemmDests_nodup (al : Int → Bool) (a b : SDArray) (stride : Int) (ncols nrows : Nat) :
    (gemmDests al a b stride ncols nrows).Nodup := by
  unfold gemmDests
  rw [List.nodup_flatMap]
  constructor
  · intro i _
    apply List.Nodup.map_on
    · intro x _ y _ h
      exact (Prod.mk.inj h).2
    · unfold gemmRowCols
      split
      · exact List.nodup_nil
      · exact (List.nodup_range ncols).filter _
  · apply (List.nodup_range nrows).pairwise_of_forall_ne
    intro i _ i1 _ hne
    simp only [Function.onFun]
    intro p hp hp1
    simp only [List.mem_map] at hp hp1
    obtain ⟨j, _, rfl⟩ := hp
    obtain ⟨j1, _, h⟩ := hp1
    exact hne (Prod.mk.inj h).1.symm

theorem mem_gemmDests_lt (al : Int → Bool) (a b : SDArray) (stride ncols nrows : Nat)
    (ij : Nat × Nat) (h : ij ∈ gemmDests al a b stride ncols nrows) :
    ij.1 < nrows ∧ ij.2 < ncols := by
  have := (mem_gemmDests al a b stride ncols nrows ij.1 ij.2).1 h
  exact ⟨this.1, this.2.1⟩

/-- Destination tags of the tasks of `ThreadSDgemm` are pairwise distinct. -/
theorem gemmDests_tags_nodup (al : Int → Bool) (a b : SDArray) (stride ncols nrows : Nat) :
    ((gemmDests al a b stride ncols nrows).map
      fun ij : Nat × Nat => (ij.1 : Int) * (ncols : Int) + (ij.2 : Int)).Nodup := by
  apply List.Nodup.map_on _ (gemmDests_nodup al a b stride ncols nrows)
  intro x hx y hy h
  have hx1 := mem_gemmDests_lt al a b stride ncols nrows x hx
  have hy1 := mem_gemmDests_lt al a b stride ncols nrows y hy
  obtain ⟨h1, h2⟩ := grid_tag_inj ncols x.1 x.2 y.1 y.2 hx1.2 hy1.2 h
  exact Prod.ext h1 h2

theorem gemmTask_ptr (transa transb : BTAS_TRANSPOSE) (alpha : Int) (a b : SDArray)
    (stride : Int) (ncols i j : Nat) :
    (gemmTask transa transb alpha a b stride ncols i j).m_c_ptr
      = some ((i : Int) * (ncols : Int) + (j : Int)) := rfl

theorem gemvTask_ptr (transa : BTAS_TRANSPOSE) (alpha : Int) (a b : SDArray)
    (stride : Int) (i : Nat) :
    (gemvTask transa alpha a b stride i).m_c_ptr = some (i : Int) := rfl

theorem mem_gemvDests (al : Int → Bool) (a b : SDArray) (stride nrows i : Nat) :
    i ∈ gemvDests al a b stride nrows ↔
      i < nrows ∧ rowSlab a stride i ≠ [] ∧ al (i : Int) = true ∧
        gemvPairs b stride (rowSlab a stride i) ≠ [] := by
  unfold gemvDests gemvRowPasses
  simp only [List.mem_filter, List.mem_range, Bool.and_eq_true, decide_eq_true_eq]
  have hA := rowSlab_eq_nil_iff a stride i
  constructor
  · rintro ⟨h1, h2, h3, h4⟩
    exact ⟨h1, fun e => h2 (hA.2 e), h3, h4⟩
  · rintro ⟨h1, h2, h3, h4⟩
    exact ⟨h1, fun e => h2 (hA.1 e), h3, h4⟩

theorem ThreadSDgemv_final_tags (transa : BTAS_TRANSPOSE) (alpha : Int)
    (a b c : SDArray) (st1 : List Dgemv_arglist × SDArray)
    (h : ThreadSDgemv_tasks transa alpha a b c = .ok st1) :
    SDArray.SameFrame (Outcome.final (ThreadSDgemv transa alpha a b c)) st1.2 := by
  unfold ThreadSDgemv
  rw [h]
  exact parallel_call_frame _ Dgemv_call_frame st1.1 st1.2

theorem store_nodup_of_sorted (x : SDArray) (hs : x.Sorted) : x.store.Nodup := by
  have h : x.tags.Nodup := List.Pairwise.nodup hs
  exact List.Nodup.of_map _ h

theorem store_entry_unique (x : SDArray) (hs : x.Sorted) (p q : Int × DArray)
    (hp : p ∈ x.store) (hq : q ∈ x.store) (h : p.1 = q.1) : p = q := by
  have hnd : x.tags.Nodup := List.Pairwise.nodup hs
  exact List.inj_on_of_nodup_map hnd hp hq h

/-- The outer-product destination tag `ta * stride + tb` with `0 <= tb < stride`
determines `ta` and `tb`. -/
theorem ger_tag_inj (s ta ta1 tb tb1 : Int) (h0 : 0 ≤ tb) (h1 : tb < s)
    (h2 : 0 ≤ tb1) (h3 : tb1 < s) (h : ta * s + tb = ta1 * s + tb1) :
    ta = ta1 ∧ tb = tb1 := by
  have hs : 0 < s := by omega
  have e1 : (ta * s + tb) / s = ta ∧ (ta * s + tb) % s = tb := by
    rw [Int.ediv_emod_unique hs]
    exact ⟨by rw [Int.mul_comm, Int.add_comm], h0, h1⟩
  have e2 : (ta * s + tb) / s = ta1 ∧ (ta * s + tb) % s = tb1 := by
    rw [Int.ediv_emod_unique hs]
    exact ⟨by rw [h, Int.mul_comm, Int.add_comm], h2, h3⟩
  exact ⟨e1.1.symm.trans e2.1, e1.2.symm.trans e2.2⟩

theorem gerDests_nodup (al : Int → Bool) (a b : SDArray) (stride : Int)
    (ha : a.Sorted) (hb : b.Sorted) : (gerDests al a b stride).Nodup := by
  unfold gerDests
  rw [List.nodup_flatMap]
  constructor
  · intro ia _
    apply List.Nodup.map_on
    · intro x _ y _ h
      exact (Prod.mk.inj h).2
    · exact (store_nodup_of_sorted b hb).filter _
  · apply (store_nodup_of_sorted a ha).pairwise_of_forall_ne
    intro ia _ ia1 _ hne
    simp only [Function.onFun]
    intro p hp hp1
    simp only [List.mem_map] at hp hp1
    obtain ⟨ib, _, rfl⟩ := hp
    obtain ⟨ib1, _, h⟩ := hp1
    exact hne (Prod.mk.inj h).1.symm

theorem mem_gerDests (al : Int → Bool) (a b : SDArray) (stride : Int)
    (p : (Int × DArray) × (Int × DArray)) :
    p ∈ gerDests al a b stride ↔
      p.1 ∈ a.store ∧ p.2 ∈ b.store ∧ al (p.1.1 * stride + p.2.1) = true := by
  unfold gerDests
  simp only [List.mem_flatMap, List.mem_map, List.mem_filter]
  constructor
  · rintro ⟨ia, hia, ib, ⟨hib, hal⟩, rfl⟩
    exact ⟨hia, hib, hal⟩
  · rintro ⟨h1, h2, h3⟩
    exact ⟨p.1, h1, p.2, ⟨h2, h3⟩, rfl⟩

/-- Witness of C4 on the worked scenario: tag `3` is stored after the call, was
not stored before, and is allowed. -/
theorem SDgemm_only_allowed_witness :
    (3 : Int) ∈ (Outcome.final
        (SDgemm .NoTrans .NoTrans 1 scenarioA scenarioB 0 (scenarioC 2 2))).tags ∧
      (3 : Int) ∉ (scenarioC 2 2).tags ∧ (scenarioC 2 2).allowed 3 = true :=
  ⟨by decide, by decide,
    SDgemm_only_allowed .NoTrans .NoTrans 1 scenarioA scenarioB 0 (scenarioC 2 2) 3
      (by decide) (by decide)⟩

/-! ## Independence of the execution order -/

theorem Dgemm_call_eq_blockCall (l : Dgemm_arglist) (c : SDArray) :
    l.call c = blockCall l.m_c_ptr (l.callLoop (l.m_arglist.zip l.m_scale)) c := rfl

namespace SDArray

theorem find_setBlock_ne (c : SDArray) (t q : Int) (blk : DArray) (h : t ≠ q) :
    (c.setBlock t blk).find q = c.find q := by
  unfold find setBlock
  simp only
  congr 1
  induction c.store with
  | nil => rfl
  | cons p ps ih =>
    rw [List.map_cons, List.find?_cons, List.find?_cons, ih]
    by_cases hp : p.1 = t
    · have hq : (t == q) = false := by simpa using h
      simp [hp, hq]
    · simp [hp]

theorem setBlock_comm (c : SDArray) (t q : Int) (b1 b2 : DArray) (h : t ≠ q) :
    (c.setBlock t b1).setBlock q b2 = (c.setBlock q b2).setBlock t b1 := by
  unfold setBlock
  simp only [List.map_map]
  congr 1
  apply List.map_congr_left
  intro p _
  simp only [Function.comp_apply]
  by_cases hp : p.1 = t
  · have hq : ¬ p.1 = q := fun e => h (hp.symm.trans e)
    simp [hp, h]
  · by_cases hq : p.1 = q
    · simp [hp, hq, h.symm]
    · simp [hp, hq]

end SDArray

theorem returned_blockCall (t : Int) (run : DArray → Except DArray DArray) (c : SDArray) :
    returned (blockCall (some t) run c)
      = ((c.find t).bind fun blk => (run blk).toOption).map (c.setBlock t) := by
  unfold blockCall
  simp only
  cases c.find t with
  | none => rfl
  | some blk =>
    simp only [Option.some_bind]
    cases run blk <;> rfl

theorem returned_blockCall_none (run : DArray → Except DArray DArray) (c : SDArray) :
    returned (blockCall none run c) = none := rfl

/-- Two tasks with different destination pointers commute. -/
theorem blockCall_comm (p1 p2 : Option Int) (r1 r2 : DArray → Except DArray DArray)
    (c : SDArray) (h : p1 ≠ p2) :
    (returned (blockCall p1 r1 c)).bind (fun c1 => returned (blockCall p2 r2 c1))
      = (returned (blockCall p2 r2 c)).bind (fun c1 => returned (blockCall p1 r1 c1)) := by
  cases p1 with
  | none =>
    simp only [returned_blockCall_none, Option.none_bind]
    cases returned (blockCall p2 r2 c) <;> rfl
  | some t1 =>
    cases p2 with
    | none =>
      simp only [returned_blockCall_none, Option.none_bind]
      cases returned (blockCall (some t1) r1 c) <;> rfl
    | some t2 =>
      have hne : t1 ≠ t2 := fun e => h (by rw [e])
      simp only [returned_blockCall]
      cases h1 : (c.find t1).bind fun blk => (r1 blk).toOption with
      | none =>
        cases h2 : (c.find t2).bind fun blk => (r2 blk).toOption with
        | none => rfl
        | some b2 =>
          simp only [Option.map_none', Option.map_some', Option.none_bind, Option.some_bind]
          rw [SDArray.find_setBlock_ne c t2 t1 b2 hne.symm, h1]
          rfl
      | some b1 =>
        simp only [Option.map_some', Option.some_bind]
        rw [SDArray.find_setBlock_ne c t1 t2 b1 hne]
        cases h2 : (c.find t2).bind fun blk => (r2 blk).toOption with
        | none => rfl
        | some b2 =>
          simp only [Option.map_some', Option.some_bind]
          rw [SDArray.find_setBlock_ne c t2 t1 b2 hne.symm, h1]
          simp only [Option.map_some']
          rw [SDArray.setBlock_comm c t1 t2 b1 b2 hne]

theorem returned_forLoop_cons {τ : Type} (call : τ → SDArray → Outcome SDArray)
    (t : τ) (ts : List τ) (c : SDArray) :
    returned (forLoop call (t :: ts) c)
      = (returned (call t c)).bind fun c1 => returned (forLoop call ts c1) := by
  rw [forLoop]
  cases call t c with
  | ok c1 => rfl
  | error e => rfl

/-- Tasks that commute pairwise may be run in any order: either every order
throws, or every order returns the same tensor. -/
theorem returned_forLoop_perm {τ : Type} (call : τ → SDArray → Outcome SDArray)
    (key : τ → Option Int)
    (hcomm : ∀ x y c, key x ≠ key y →
      (returned (call x c)).bind (fun c1 => returned (call y c1))
        = (returned (call y c)).bind (fun c1 => returned (call x c1)))
    (l1 l2 : List τ) (hp : l1.Perm l2) (hnd : (l2.map key).Nodup) (c : SDArray) :
    returned (forLoop call l1 c) = returned (forLoop call l2 c) := by
  induction hp generalizing c with
  | nil => rfl
  | cons x _ ih =>
    rw [returned_forLoop_cons, returned_forLoop_cons]
    rw [List.map_cons, List.nodup_cons] at hnd
    congr 1
    funext c1
    exact ih hnd.2 c1
  | swap x y l =>
    simp only [returned_forLoop_cons]
    rw [← Option.bind_assoc, ← Option.bind_assoc]
    have hne : key y ≠ key x := by
      simp only [List.map_cons, List.nodup_cons, List.mem_cons, not_or] at hnd
      exact fun e => hnd.1.1 e.symm
    rw [hcomm y x c hne]
  | trans h1 h2 ih1 ih2 =>
    rw [ih1 ((h2.map key).nodup_iff.2 hnd), ih2 hnd]

/-- C8. For `a`, `b`, `c` distinct tensors: the task list built by
`ThreadSDgemm` may be executed in any order. For every permutation of the
tasks the execution returns exactly when the execution in list order returns,
with the same tensor (same stored tags, same contents of every block); and
whether or not a dense kernel throws, the stored tag set is the same. -/
theorem ThreadSDgemm_order_independent (transa transb : BTAS_TRANSPOSE) (alpha : Int)
    (a b c : SDArray) (st1 : List Dgemm_arglist × SDArray)
    (h : ThreadSDgemm_tasks transa transb alpha a b c = .ok st1)
    (tl : List Dgemm_arglist) (hp : tl.Perm st1.1) :
    returned (parallel_call Dgemm_arglist.call tl st1.2)
        = returned (parallel_call Dgemm_arglist.call st1.1 st1.2) ∧
      (Outcome.final (parallel_call Dgemm_arglist.call tl st1.2)).tags
        = (Outcome.final (parallel_call Dgemm_arglist.call st1.1 st1.2)).tags := by
  constructor
  · unfold parallel_call
    apply returned_forLoop_perm Dgemm_arglist.call (fun task => task.m_c_ptr) _ tl st1.1 hp
    · have hspec := ThreadSDgemm_tasks_spec transa transb alpha a b c st1 h
      have hptr : (st1.1.map fun task => task.m_c_ptr)
          = ((gemmDests c.allowed a b (gemm_stride a b c) (gemm_ncols a b c)
              (gemm_nrows a b c)).map fun ij : Nat × Nat =>
                (ij.1 : Int) * (gemm_ncols a b c : Int) + (ij.2 : Int)).map some := by
        rw [hspec]
        simp [List.map_map, Function.comp_def, gemmTask_ptr]
      rw [hptr]
      exact (gemmDests_tags_nodup _ _ _ _ _ _).map (Option.some_injective _)
    · intro x y c1 hxy
      rw [Dgemm_call_eq_blockCall, Dgemm_call_eq_blockCall]
      simp only [Dgemm_call_eq_blockCall]
      exact blockCall_comm _ _ _ _ c1 hxy
  · rw [(parallel_call_frame _ Dgemm_call_frame tl st1.2).1,
      (parallel_call_frame _ Dgemm_call_frame st1.1 st1.2).1]

/-- Witness of C8 on the worked scenario: the four tasks run in reverse order
return what they return in list order. -/
theorem ThreadSDgemm_order_independent_witness :
    ∃ st1, ThreadSDgemm_tasks .NoTrans .NoTrans 1 scenarioA scenarioB (scenarioC 2 2)
        = .ok st1 ∧ st1.1.reverse.Perm st1.1 ∧
      returned (parallel_call Dgemm_arglist.call st1.1.reverse st1.2)
        = returned (parallel_call Dgemm_arglist.call st1.1 st1.2) := by
  obtain ⟨st1, hst⟩ := ThreadSDgemm_tasks_ok .NoTrans .NoTrans 1 scenarioA scenarioB
    (scenarioC 2 2) (by decide)
  exact ⟨st1, hst, List.reverse_perm _,
    (ThreadSDgemm_order_independent .NoTrans .NoTrans 1 scenarioA scenarioB (scenarioC 2 2)
      st1 hst st1.1.reverse (List.reverse_perm _)).1⟩

/-! ## Entries of the dense kernels -/

theorem flatMap_range_map {β : Type} (M N : Nat) (h : Nat → Nat → β) :
    ((List.range M).flatMap fun i => (List.range N).map fun j => h i j)
      = (List.range (M * N)).map fun idx => h (idx / N) (idx % N) := by
  rcases Nat.eq_zero_or_pos N with hN | hN
  · subst hN
    simp
  · induction M with
    | zero => simp
    | succ M ih =>
      rw [List.range_succ, List.flatMap_append, ih, Nat.succ_mul, List.range_add,
        List.map_append]
      congr 1
      simp only [List.flatMap_cons, List.flatMap_nil, List.append_nil, List.map_map]
      apply List.map_congr_left
      intro j hj
      rw [List.mem_range] at hj
      simp only [Function.comp_apply]
      have e1 : (M * N + j) / N = M := by
        rw [Nat.mul_comm, Nat.mul_add_div hN, Nat.div_eq_of_lt hj]; rfl
      have e2 : (M * N + j) % N = j := by
        rw [Nat.mul_comm, Nat.mul_add_mod, Nat.mod_eq_of_lt hj]
      rw [e1, e2]

theorem at0_map_range (n : Nat) (f : Nat → Int) (idx : Nat) (h : idx < n) :
    at0 ((List.range n).map f) idx = f idx := by
  unfold at0
  rw [List.getD_eq_getElem _ _ (by simpa using h)]
  simp

theorem length_detail_gemm (transa transb : BTAS_TRANSPOSE) (M N K : Nat) (alpha : Int)
    (a : List Int) (lda : Nat) (b : List Int) (ldb : Nat) (beta : Int) (c : List Int)
    (ldc : Nat) :
    (detail.gemm transa transb M N K alpha a lda b ldb beta c ldc).length = M * N := by
  unfold detail.gemm
  rw [flatMap_range_map]
  simp

/-- Entry `idx` of the result of the row-major kernel with `ldc = N`. -/
theorem at0_detail_gemm (transa transb : BTAS_TRANSPOSE) (M N K : Nat) (alpha : Int)
    (a : List Int) (lda : Nat) (b : List Int) (ldb : Nat) (beta : Int) (c : List Int)
    (idx : Nat) (h : idx < M * N) :
    at0 (detail.gemm transa transb M N K alpha a lda b ldb beta c N) idx
      = alpha * ((List.range K).map fun k =>
          (if transa = .NoTrans then at0 a (idx / N * lda + k) else at0 a (k * lda + idx / N)) *
          (if transb = .NoTrans then at0 b (k * ldb + idx % N)
            else at0 b (idx % N * ldb + k))).sum
        + beta * at0 c idx := by
  unfold detail.gemm
  rw [flatMap_range_map, at0_map_range _ _ _ h, Nat.div_add_mod']

theorem at0_replicate_zero (n idx : Nat) : at0 (List.replicate n 0) idx = 0 := by
  unfold at0
  by_cases h : idx < n
  · rw [List.getD_eq_getElem _ _ (by simpa using h)]
    simp
  · rw [List.getD_eq_default _ _ (by simpa using h)]

/-- What `Gemm` returns: nothing changes when an operand has no element;
otherwise the destination (zero-filled at the contraction shape when it had no
element) receives `alpha * op(a) * op(b) + beta * c` entry by entry. -/
theorem Gemm_some (transa transb : BTAS_TRANSPOSE) (alpha : Int) (a b : DArray) (beta : Int)
    (c c1 : DArray) (h : Gemm transa transb alpha a b beta c = some c1) :
    ((a.size = 0 ∨ b.size = 0) ∧ c1 = c) ∨
    (a.size ≠ 0 ∧ b.size ≠ 0 ∧
      c1.shape = (if 0 < c.size then c.shape
        else (gemm_contract_shape transa transb ((a.rank + b.rank - c.rank) / 2)
          a.shape b.shape).2) ∧
      c1.data.length = (gemm_contract_shape transa transb ((a.rank + b.rank - c.rank) / 2)
          a.shape b.shape).2.prod ∧
      ∀ idx < c1.data.length,
        at0 c1.data idx = alpha * Gemm_product transa transb a b c.rank idx
          + beta * (if 0 < c.size then at0 c.data idx else 0)) := by
  unfold Gemm at h
  simp only at h
  split at h
  · rename_i h0
    left
    exact ⟨h0, (Option.some.inj h).symm⟩
  · rename_i h0
    rw [not_or] at h0
    right
    split at h
    · exact absurd h (by simp)
    · simp only [Option.some.injEq] at h
      subst h
      have hlen := length_detail_gemm transa transb
        (((gemm_contract_shape transa transb ((a.rank + b.rank - c.rank) / 2) a.shape
          b.shape).2.take (a.rank - (a.rank + b.rank - c.rank) / 2)).prod)
        (((gemm_contract_shape transa transb ((a.rank + b.rank - c.rank) / 2) a.shape
          b.shape).2.drop (a.rank - (a.rank + b.rank - c.rank) / 2)).prod)
      refine ⟨h0.1, h0.2, ?_, ?_, ?_⟩
      · simp only
        split <;> rfl
      · simp only
        rw [hlen, List.prod_take_mul_prod_drop]
      · simp only
        intro idx hidx
        rw [hlen] at hidx
        rw [at0_detail_gemm _ _ _ _ _ _ _ _ _ _ _ _ _ hidx]
        unfold Gemm_product
        simp only
        congr 2
        split
        · rfl
        · exact at0_replicate_zero _ _

/-! ## The degenerate dense case: one block per operand -/

theorem ThreadSDgemm_single (transa transb : BTAS_TRANSPOSE) (alpha : Int)
    (a b c : SDArray) (a0 b0 : DArray) (ha : a.store = [(0, a0)]) (hb : b.store = [(0, b0)])
    (hn : gemm_nrows a b c = 1) (hs : gemm_stride a b c = 1) (hm : gemm_ncols a b c = 1)
    (hc : c.store = []) (hal : c.allowed 0 = true) (hsz : c.size_total = 1) :
    ThreadSDgemm transa transb alpha a b c =
      match Dgemm transa transb alpha a0 b0 1 (DArray.zeros (c.blockShape 0)) with
      | some blk => .ok { c with store := [(0, blk)] }
      | none => .error (.denseShapeMismatch,
          { c with store := [(0, DArray.zeros (c.blockShape 0))] }) := by
  have hres : c.reserve 0
      = some { c with store := [(0, DArray.zeros (c.blockShape 0))] } := by
    unfold SDArray.reserve SDArray.find
    simp [hc, hal, hsz, SDArray.insertBlock]
  have htasks : ThreadSDgemm_tasks transa transb alpha a b c
      = .ok ([{ m_arglist := [(a0, b0)], m_c_ptr := some 0, m_scale := [1],
                m_transa := transa, m_transb := transb, m_alpha := alpha, m_beta := 1 }],
             { c with store := [(0, DArray.zeros (c.blockShape 0))] }) := by
    unfold ThreadSDgemm_tasks
    rw [hn, hs, hm]
    have hr1 : List.range 1 = [0] := rfl
    simp only [hr1, forLoop, ThreadSDgemm_row, ThreadSDgemm_col,
      SDArray.lower_bound, SDArray.upper_bound, SDArray.slab, ha, hb]
    simp [hal, hres, ThreadSDgemm_match, Dgemm_arglist.new, Dgemm_arglist.add,
      Dgemm_arglist.size, Dgemm_arglist.set, List.takeWhile_cons]
  unfold ThreadSDgemm
  rw [htasks]
  simp only [parallel_call, forLoop, Dgemm_arglist.call, SDArray.find, List.find?_cons,
    beq_self_eq_true, Option.map_some', List.zip_cons_cons, List.zip_nil_right,
    Dgemm_arglist.callLoop, one_mul]
  cases Dgemm transa transb alpha a0 b0 1 (DArray.zeros (c.blockShape 0)) with
  | none => simp [SDArray.setBlock]
  | some blk => simp [SDArray.setBlock]

theorem prod_take_ones (l : List Nat) (h : ∀ e ∈ l, e = 1) (n : Nat) : (l.take n).prod = 1 :=
  List.prod_eq_one fun e he => h e (List.mem_of_mem_take he)

theorem prod_drop_ones (l : List Nat) (h : ∀ e ∈ l, e = 1) (n : Nat) : (l.drop n).prod = 1 :=
  List.prod_eq_one fun e he => h e (List.mem_of_mem_drop he)

theorem transpose_view_single (x : SDArray) (K : Nat) (x0 : DArray)
    (hx : ∀ e ∈ x.shape, e = 1) (hs : x.store = [(0, x0)]) :
    (x.transpose_view K).store = [(0, x0)] ∧ ∀ e ∈ (x.transpose_view K).shape, e = 1 := by
  unfold SDArray.transpose_view
  simp only [hs, prod_take_ones x.shape hx, prod_drop_ones x.shape hx, List.foldl_cons,
    List.foldl_nil, SDArray.insertBlock, List.mem_append]
  constructor
  · rfl
  · rintro e (he | he)
    · exact hx e (List.mem_of_mem_drop he)
    · exact hx e (List.mem_of_mem_take he)

/-- On a destination filled with zeros the result of `Gemm` does not depend on
`beta`. -/
theorem Gemm_zeros_beta (transa transb : BTAS_TRANSPOSE) (alpha : Int) (a b : DArray)
    (beta beta1 : Int) (sh : List Nat) :
    Gemm transa transb alpha a b beta (DArray.zeros sh)
      = Gemm transa transb alpha a b beta1 (DArray.zeros sh) := by
  unfold Gemm
  simp only
  split
  · rfl
  · split
    · rfl
    · have hz : ∀ idx, at0 (if 0 < (DArray.zeros sh).size then DArray.zeros sh
          else DArray.zeros (gemm_contract_shape transa transb
            ((a.rank + b.rank - (DArray.zeros sh).rank) / 2) a.shape b.shape).2).data idx
          = 0 := by
        intro idx
        split <;> exact at0_replicate_zero _ _
      congr 2
      unfold detail.gemm
      simp only [hz, mul_zero]

/-- C3. Block tensors `a` and `b` whose block grids have extent `1` in every
dimension and that store their single block (tag `0`), and an empty `c` in
which tag `0` is allowed: `SDgemm(NoTrans, NoTrans, alpha, a, b, beta, c)` leaves
`c` with exactly one block, at tag `0`, which is what the dense `Dgemm` computes
on the two blocks with the reserved zero block as destination (and throws when
that `Dgemm` throws); on a zero destination the result of `Dgemm` does not
depend on its `beta`, and for operands with elements it is, entry by entry,
`alpha` times the dense matrix product. -/
theorem SDgemm_single_block (alpha beta : Int) (a b c : SDArray) (a0 b0 : DArray)
    (ha : ∀ e ∈ a.shape, e = 1) (hb : ∀ e ∈ b.shape, e = 1)
    (has : a.store = [(0, a0)]) (hbs : b.store = [(0, b0)])
    (hc : c.size = 0) (hal : c.allowed 0 = true) :
    (SDgemm .NoTrans .NoTrans alpha a b beta c =
      match Dgemm .NoTrans .NoTrans alpha a0 b0 1 (DArray.zeros (c.blockShape 0)) with
      | some blk => .ok { c with
          shape := (gemm_contract_shape .NoTrans .NoTrans (contractedRank a b c)
            a.shape b.shape).2
          store := [(0, blk)] }
      | none => .error (.denseShapeMismatch, { c with
          shape := (gemm_contract_shape .NoTrans .NoTrans (contractedRank a b c)
            a.shape b.shape).2
          store := [(0, DArray.zeros (c.blockShape 0))] })) ∧
    (∀ beta1 : Int,
      Dgemm .NoTrans .NoTrans alpha a0 b0 beta1 (DArray.zeros (c.blockShape 0))
        = Dgemm .NoTrans .NoTrans alpha a0 b0 1 (DArray.zeros (c.blockShape 0))) ∧
    (∀ blk, Dgemm .NoTrans .NoTrans alpha a0 b0 1 (DArray.zeros (c.blockShape 0)) = some blk →
      a0.size ≠ 0 → b0.size ≠ 0 → ∀ idx < blk.data.length,
        at0 blk.data idx
          = alpha * Gemm_product .NoTrans .NoTrans a0 b0 (c.blockShape 0).length idx) := by
  refine ⟨?_, ?_, ?_⟩
  · obtain ⟨hts, htsh⟩ := transpose_view_single b (contractedRank a b c) b0 hb hbs
    have hcs : (gemm_contract_shape .NoTrans .NoTrans (contractedRank a b c)
        a.shape b.shape).2.prod = 1 := by
      simp only [gemm_contract_shape, ↓reduceIte, List.prod_append,
        prod_take_ones a.shape ha, prod_drop_ones b.shape hb, Nat.mul_one]
    unfold SDgemm
    simp only [hc, Nat.lt_irrefl, false_and, ↓reduceIte, and_self]
    have key := ThreadSDgemm_single .NoTrans .NoTrans alpha a
      (b.transpose_view (contractedRank a b c))
      (c.resize (gemm_contract_shape .NoTrans .NoTrans (contractedRank a b c)
        a.shape b.shape).2) a0 b0 has hts
      (prod_take_ones a.shape ha _) (prod_drop_ones a.shape ha _)
      (prod_take_ones _ htsh _) rfl hal hcs
    rw [key]
    rfl
  · intro beta1
    exact Gemm_zeros_beta .NoTrans .NoTrans alpha a0 b0 beta1 1 (c.blockShape 0)
  · intro blk hblk ha0 hb0 idx hidx
    rcases Gemm_some .NoTrans .NoTrans alpha a0 b0 1 _ blk hblk with ⟨h0, _⟩ | h1
    · rcases h0 with h0 | h0
      · exact absurd h0 ha0
      · exact absurd h0 hb0
    · obtain ⟨_, _, _, _, h5⟩ := h1
      rw [h5 idx hidx]
      have hz : (if 0 < (DArray.zeros (c.blockShape 0)).size
          then at0 (DArray.zeros (c.blockShape 0)).data idx else 0) = 0 := by
        split
        · exact at0_replicate_zero _ _
        · rfl
      rw [hz]
      simp [DArray.rank, DArray.zeros]

/-- Witness of C3: the identity block against the block of ones with
`alpha = 3`, `beta = 5`. -/
theorem SDgemm_single_block_witness :
    (∀ e ∈ singleA.shape, e = 1) ∧ (∀ e ∈ singleB.shape, e = 1) ∧
      singleA.store = [(0, eye2)] ∧ singleB.store = [(0, ones2)] ∧
      (scenarioC 0 0).size = 0 ∧ (scenarioC 0 0).allowed 0 = true ∧
      Dgemm .NoTrans .NoTrans 3 eye2 ones2 1 (DArray.zeros ((scenarioC 0 0).blockShape 0))
        = some { shape := [2, 2], data := [3, 3, 3, 3] } ∧
      (SDgemm .NoTrans .NoTrans 3 singleA singleB 5 (scenarioC 0 0) =
        match Dgemm .NoTrans .NoTrans 3 eye2 ones2 1
            (DArray.zeros ((scenarioC 0 0).blockShape 0)) with
        | some blk => .ok { scenarioC 0 0 with
            shape := (gemm_contract_shape .NoTrans .NoTrans
              (contractedRank singleA singleB (scenarioC 0 0)) singleA.shape singleB.shape).2
            store := [(0, blk)] }
        | none => .error (.denseShapeMismatch, { scenarioC 0 0 with
            shape := (gemm_contract_shape .NoTrans .NoTrans
              (contractedRank singleA singleB (scenarioC 0 0)) singleA.shape singleB.shape).2
            store := [(0, DArray.zeros ((scenarioC 0 0).blockShape 0))] })) :=
  ⟨by decide, by decide, rfl, rfl, rfl, rfl, by decide,
    (SDgemm_single_block 3 5 singleA singleB (scenarioC 0 0) eye2 ones2
      (by decide) (by decide) rfl rfl rfl rfl).1⟩

/-! ## Block contents through reservation and task execution -/

namespace SDArray

theorem find?_insertBlock (q t : Int) (blk : DArray) (l : List (Int × DArray))
    (hq : q ∉ l.map Prod.fst) :
    (insertBlock q blk l).find? (fun p => p.1 == t)
      = if q = t then some (q, blk) else l.find? (fun p => p.1 == t) := by
  induction l with
  | nil =>
    simp only [insertBlock, List.find?_cons, List.find?_nil]
    by_cases h : q = t
    · simp [h]
    · have hb : (q == t) = false := by simpa using h
      simp [h, hb]
  | cons p ps ih =>
    simp only [List.map_cons, List.mem_cons, not_or] at hq
    unfold insertBlock
    by_cases h1 : q < p.1
    · simp only [h1, ↓reduceIte, List.find?_cons]
      by_cases h : q = t
      · simp [h]
      · have hb : (q == t) = false := by simpa using h
        simp [h, hb]
    · simp only [h1, ↓reduceIte, List.find?_cons, ih hq.2]
      by_cases h2 : p.1 = t
      · have h3 : ¬ q = t := fun e => hq.1 (e.trans h2.symm)
        simp [h2, h3]
      · have hb : (p.1 == t) = false := by simpa using h2
        simp [hb]

/-- A reservation keeps every stored block and stores a zero block of the
implied shape at a new tag. -/
theorem find_reserve (c c1 : SDArray) (q t : Int) (h : c.reserve q = some c1) :
    c1.find t = if t ∈ c.tags then c.find t
      else if q = t then some (DArray.zeros (c.blockShape q)) else none := by
  unfold reserve at h
  cases hf : c.find q with
  | some blk =>
    rw [hf] at h
    simp only [Option.some.injEq] at h
    subst h
    by_cases ht : t ∈ c.tags
    · simp [ht]
    · have hq : q ∈ c.tags := (find_isSome_iff c q).1 (by simp [hf])
      have hne : ¬ q = t := fun e => ht (e ▸ hq)
      simp [ht, hne, (find_eq_none_iff c t).2 ht]
  | none =>
    rw [hf] at h
    simp only at h
    split at h
    · simp only [Option.some.injEq] at h
      subst h
      have hq : q ∉ c.store.map Prod.fst := (find_eq_none_iff c q).1 hf
      unfold find
      simp only
      rw [find?_insertBlock q t _ _ hq]
      by_cases ht : t ∈ c.tags
      · have hne : ¬ q = t := fun e => hq (e ▸ ht)
        simp [ht, hne]
      · have hnone := (find_eq_none_iff c t).2 ht
        unfold find at hnone
        by_cases hqt : q = t
        · simp [ht, hqt]
        · simp [ht, hqt, hnone]
    · exact absurd h (by simp)

theorem find?_map_set (l : List (Int × DArray)) (t : Int) (d blk : DArray)
    (h : (l.find? fun p => p.1 == t).map Prod.snd = some d) :
    ((l.map fun p => if p.1 == t then (p.1, blk) else p).find? fun p => p.1 == t).map Prod.snd
      = some blk := by
  induction l with
  | nil => simp at h
  | cons p ps ih =>
    rw [List.map_cons, List.find?_cons]
    rw [List.find?_cons] at h
    by_cases hp : p.1 = t
    · simp [hp]
    · have hp1 : (p.1 == t) = false := by simpa using hp
      simp only [hp1] at h
      simp only [hp1, Bool.false_eq_true, ↓reduceIte]
      exact ih h

theorem find_setBlock_eq (c : SDArray) (t : Int) (d blk : DArray) (h : c.find t = some d) :
    (c.setBlock t blk).find t = some blk :=
  find?_map_set c.store t d blk h

end SDArray

theorem reserveAll_find_old (c : SDArray) (ts : List Int) (t : Int) (ht : t ∈ c.tags) :
    (reserveAll c ts).find t = c.find t := by
  induction ts generalizing c with
  | nil => rfl
  | cons q qs ih =>
    rw [reserveAll_cons]
    cases hr : c.reserve q with
    | none => exact ih c ht
    | some c1 =>
      simp only [Option.getD_some]
      have h1 : t ∈ c1.tags := ((SDArray.reserve_some c c1 q hr).2.2.2.1 t).2 (Or.inl ht)
      rw [ih c1 h1, SDArray.find_reserve c c1 q t hr, if_pos ht]

theorem reserveAll_find_new (c : SDArray) (ts : List Int) (t : Int) (ht : t ∉ c.tags)
    (hin : t ∈ (reserveAll c ts).tags) :
    (reserveAll c ts).find t = some (DArray.zeros (c.blockShape t)) := by
  induction ts generalizing c with
  | nil => exact absurd hin ht
  | cons q qs ih =>
    rw [reserveAll_cons] at hin ⊢
    cases hr : c.reserve q with
    | none =>
      rw [hr] at hin
      exact ih c ht hin
    | some c1 =>
      rw [hr] at hin
      simp only [Option.getD_some] at hin ⊢
      obtain ⟨_, _, h3, h4, _⟩ := SDArray.reserve_some c c1 q hr
      by_cases hqt : q = t
      · have h1 : t ∈ c1.tags := (h4 t).2 (Or.inr hqt.symm)
        rw [reserveAll_find_old c1 qs t h1, SDArray.find_reserve c c1 q t hr, if_neg ht,
          if_pos hqt, hqt]
      · have h1 : t ∉ c1.tags := by
          intro hmem
          rcases (h4 t).1 hmem with e | e
          · exact ht e
          · exact hqt e.symm
        rw [ih c1 h1 hin, h3]

theorem find_SDscal (beta : Int) (c : SDArray) (t : Int) :
    (SDscal beta c).find t = (c.find t).map (Dscal beta) := by
  unfold SDscal SDArray.find
  simp only
  induction c.store with
  | nil => rfl
  | cons p ps ih =>
    rw [List.map_cons, List.find?_cons, List.find?_cons]
    by_cases hp : p.1 = t
    · simp [hp]
    · have hp1 : (p.1 == t) = false := by simpa using hp
      simp only [hp1]
      exact ih

/-- The block at tag `t` after a run of tasks that returns: the kernel loops of
the tasks bound to `t`, applied in list order to the block the run started with. -/
theorem forLoop_blockCall_find {τ : Type} (call : τ → SDArray → Outcome SDArray)
    (key : τ → Option Int) (run : τ → DArray → Except DArray DArray)
    (hcall : ∀ x c, call x c = blockCall (key x) (run x) c)
    (tasks : List τ) (c c1 : SDArray) (t : Int) (d : DArray)
    (h : returned (forLoop call tasks c) = some c1) (hd : c.find t = some d) :
    ∃ d1, blockRuns (tasks.map fun x => (key x, run x)) t d = .ok d1 ∧ c1.find t = some d1 := by
  induction tasks generalizing c d with
  | nil =>
    simp only [forLoop, returned, Option.some.injEq] at h
    subst h
    exact ⟨d, rfl, hd⟩
  | cons x xs ih =>
    rw [returned_forLoop_cons, hcall] at h
    cases hk : key x with
    | none =>
      rw [hk, returned_blockCall_none] at h
      exact absurd h (by simp)
    | some q =>
      rw [hk, returned_blockCall] at h
      cases hq : (c.find q).bind fun blk => (run x blk).toOption with
      | none =>
        rw [hq] at h
        exact absurd h (by simp)
      | some bq =>
        rw [hq] at h
        simp only [Option.map_some', Option.some_bind] at h
        simp only [List.map_cons, blockRuns, hk]
        by_cases hqt : q = t
        · subst hqt
          rw [hd, Option.some_bind] at hq
          have hrun : run x d = .ok bq := by
            cases hr : run x d with
            | ok y => rw [hr] at hq; simp only [Except.toOption, Option.some.injEq] at hq; rw [hq]
            | error e => rw [hr] at hq; simp [Except.toOption] at hq
          simp only [↓reduceIte, hrun]
          exact ih (c.setBlock q bq) bq h (SDArray.find_setBlock_eq c q d bq hd)
        · have hqt1 : ¬ some q = some t := fun e => hqt (Option.some.inj e)
          simp only [hqt1, ↓reduceIte]
          exact ih (c.setBlock q bq) d h (by rw [SDArray.find_setBlock_ne c q t bq hqt]; exact hd)

/-! ## Accumulation of block products with `beta = 1` -/

theorem at0_nil (i : Nat) : at0 [] i = 0 := rfl

theorem Gemm_product_zero (transa transb : BTAS_TRANSPOSE) (a b : DArray) (cRank idx : Nat)
    (h : a.size = 0 ∨ b.size = 0) : Gemm_product transa transb a b cRank idx = 0 := by
  unfold Gemm_product
  simp only
  apply List.sum_eq_zero
  intro x hx
  simp only [List.mem_map] at hx
  obtain ⟨k, _, rfl⟩ := hx
  rcases h with h | h
  · have ha : a.data = [] := List.length_eq_zero.1 h
    simp [ha, at0_nil]
  · have hb : b.data = [] := List.length_eq_zero.1 h
    simp [hb, at0_nil]

/-- One `Gemm` with `beta = 1` on a non-empty destination adds
`alpha * op(a) * op(b)` to it, entry by entry, and keeps its shape. -/
theorem Gemm_adds (transa transb : BTAS_TRANSPOSE) (alpha : Int) (a b d d1 : DArray)
    (h : Gemm transa transb alpha a b 1 d = some d1) (hwf : d.WF) (hsz : 0 < d.size) :
    d1.shape = d.shape ∧ d1.WF ∧ 0 < d1.size ∧
      ∀ idx < d.data.length,
        at0 d1.data idx = at0 d.data idx + alpha * Gemm_product transa transb a b d.rank idx := by
  rcases Gemm_some transa transb alpha a b 1 d d1 h with ⟨h0, rfl⟩ | ⟨h1, h2, h3, h4, h5⟩
  · refine ⟨rfl, hwf, hsz, ?_⟩
    intro idx _
    rw [Gemm_product_zero transa transb a b _ idx h0]
    simp
  · have hfit : d.shape = (gemm_contract_shape transa transb
        ((a.rank + b.rank - d.rank) / 2) a.shape b.shape).2 := by
      unfold Gemm at h
      simp only at h
      rw [if_neg (by rw [not_or]; exact ⟨h1, h2⟩)] at h
      by_contra hne
      rw [if_pos ⟨hsz, hne⟩] at h
      exact absurd h (by simp)
    rw [if_pos hsz] at h3
    have hlen : d1.data.length = d.data.length := by
      rw [h4, ← hfit]; exact hwf.symm
    refine ⟨h3, ?_, ?_, ?_⟩
    · unfold DArray.WF
      rw [h3, hlen]; exact hwf
    · unfold DArray.size
      rw [hlen]; exact hsz
    · intro idx hidx
      rw [h5 idx (by rw [hlen]; exact hidx), if_pos hsz]
      ring

theorem Dgemm_callLoop_adds (l : Dgemm_arglist) (hb : l.m_beta = 1)
    (pairs : List ((DArray × DArray) × Int)) (d d1 : DArray)
    (h : l.callLoop pairs d = .ok d1) (hwf : d.WF) (hsz : 0 < d.size) :
    d1.shape = d.shape ∧ d1.WF ∧ 0 < d1.size ∧
      ∀ idx < d.data.length,
        at0 d1.data idx = at0 d.data idx + (pairs.map fun ps =>
          ps.2 * l.m_alpha * Gemm_product l.m_transa l.m_transb ps.1.1 ps.1.2 d.rank idx).sum := by
  induction pairs generalizing d with
  | nil =>
    simp only [Dgemm_arglist.callLoop, Except.ok.injEq] at h
    subst h
    exact ⟨rfl, hwf, hsz, fun idx _ => by simp⟩
  | cons ps rest ih =>
    obtain ⟨ab, s⟩ := ps
    simp only [Dgemm_arglist.callLoop, hb] at h
    cases hg : Dgemm l.m_transa l.m_transb (s * l.m_alpha) ab.1 ab.2 1 d with
    | none => rw [hg] at h; exact absurd h (by simp)
    | some d2 =>
      rw [hg] at h
      simp only at h
      obtain ⟨g1, g2, g3, g4⟩ := Gemm_adds _ _ _ _ _ d d2 hg hwf hsz
      obtain ⟨i1, i2, i3, i4⟩ := ih d2 h g2 g3
      have hlen : d2.data.length = d.data.length := by
        rw [g2, g1]; exact hwf.symm
      have hrank : d2.rank = d.rank := by unfold DArray.rank; rw [g1]
      refine ⟨i1.trans g1, i2, i3, ?_⟩
      intro idx hidx
      rw [i4 idx (by rw [hlen]; exact hidx), g4 idx hidx, hrank]
      simp only [List.map_cons, List.sum_cons]
      ring

/-- The kernel loops of a list of `Dgemm` tasks with `beta = 1`: the block at
`t` receives the weighted products of all operand pairs bound to `t`. -/
theorem Dgemm_blockRuns_adds (tasks : List Dgemm_arglist) (hb : ∀ x ∈ tasks, x.m_beta = 1)
    (t : Int) (d d1 : DArray)
    (h : blockRuns (tasks.map fun x =>
      (x.m_c_ptr, x.callLoop (x.m_arglist.zip x.m_scale))) t d = .ok d1)
    (hwf : d.WF) (hsz : 0 < d.size) :
    d1.shape = d.shape ∧ d1.WF ∧ 0 < d1.size ∧
      ∀ idx < d.data.length,
        at0 d1.data idx = at0 d.data idx +
          ((tasks.filter fun x => decide (x.m_c_ptr = some t)).flatMap fun x =>
            (x.m_arglist.zip x.m_scale).map fun ps =>
              ps.2 * x.m_alpha * Gemm_product x.m_transa x.m_transb ps.1.1 ps.1.2
                d.rank idx).sum := by
  induction tasks generalizing d with
  | nil =>
    simp only [List.map_nil, blockRuns, Except.ok.injEq] at h
    subst h
    exact ⟨rfl, hwf, hsz, fun idx _ => by simp⟩
  | cons x xs ih =>
    have hbx := hb x (List.mem_cons_self _ _)
    have hbxs : ∀ y ∈ xs, y.m_beta = 1 := fun y hy => hb y (List.mem_cons_of_mem _ hy)
    simp only [List.map_cons, blockRuns] at h
    by_cases hk : x.m_c_ptr = some t
    · simp only [hk, ↓reduceIte] at h
      cases hr : x.callLoop (x.m_arglist.zip x.m_scale) d with
      | error e => rw [hr] at h; exact absurd h (by simp)
      | ok d2 =>
        rw [hr] at h
        simp only at h
        obtain ⟨g1, g2, g3, g4⟩ := Dgemm_callLoop_adds x hbx _ d d2 hr hwf hsz
        obtain ⟨i1, i2, i3, i4⟩ := ih hbxs d2 h g2 g3
        have hlen : d2.data.length = d.data.length := by
          rw [g2, g1]; exact hwf.symm
        have hrank : d2.rank = d.rank := by unfold DArray.rank; rw [g1]
        refine ⟨i1.trans g1, i2, i3, ?_⟩
        intro idx hidx
        rw [i4 idx (by rw [hlen]; exact hidx), g4 idx hidx, hrank]
        simp only [List.filter_cons, hk, decide_True, ↓reduceIte, List.flatMap_cons,
          List.sum_append]
        ring
    · simp only [hk, ↓reduceIte] at h
      obtain ⟨i1, i2, i3, i4⟩ := ih hbxs d h hwf hsz
      refine ⟨i1, i2, i3, ?_⟩
      intro idx hidx
      rw [i4 idx hidx]
      simp only [List.filter_cons, hk, decide_False, Bool.false_eq_true, ↓reduceIte]

theorem Gemv_product_zero (transa : BTAS_TRANSPOSE) (a x : DArray) (idx : Nat)
    (h : a.size = 0 ∨ x.size = 0) : Gemv_product transa a x idx = 0 := by
  unfold Gemv_product
  simp only
  split
  all_goals
    apply List.sum_eq_zero
    intro y hy
    simp only [List.mem_map] at hy
    obtain ⟨k, _, rfl⟩ := hy
    rcases h with h | h
    · have ha : a.data = [] := List.length_eq_zero.1 h
      simp [ha, at0_nil]
    · have hb : x.data = [] := List.length_eq_zero.1 h
      simp [hb, at0_nil]

theorem length_detail_gemv (transa : BTAS_TRANSPOSE) (M N : Nat) (alpha : Int)
    (a : List Int) (lda : Nat) (x : List Int) (beta : Int) (y : List Int) :
    (detail.gemv transa M N alpha a lda x beta y).length
      = if transa = .NoTrans then M else N := by
  unfold detail.gemv
  split <;> simp

/-- One `Gemv` with `beta = 1` on a non-empty destination adds
`alpha * op(a) * x` to it, entry by entry, and keeps its shape. -/
theorem Gemv_adds (transa : BTAS_TRANSPOSE) (alpha : Int) (a x d d1 : DArray)
    (h : Gemv transa alpha a x 1 d = some d1) (hwf : d.WF) (hsz : 0 < d.size)
    (hfit : GemvFits transa a x) :
    d1.shape = d.shape ∧ d1.WF ∧ 0 < d1.size ∧
      ∀ idx < d.data.length,
        at0 d1.data idx = at0 d.data idx + alpha * Gemv_product transa a x idx := by
  unfold Gemv at h
  unfold GemvFits at hfit
  unfold DArray.WF at hwf
  simp only [DArray.size] at h hsz hfit
  split at h
  · rename_i h0
    simp only [Option.some.injEq] at h
    subst h
    refine ⟨rfl, hwf, hsz, ?_⟩
    intro idx _
    rw [Gemv_product_zero transa a x idx h0]
    simp
  · split at h
    · exact absurd h (by simp)
    · rename_i h0 h1
      have hshape : d.shape = gemv_contract_shape transa a.shape x.shape := by
        by_contra hne
        exact h1 ⟨hsz, hne⟩
      simp only [Option.some.injEq, if_pos hsz] at h
      have hlen : d1.data.length = d.data.length := by
        rw [← h]
        simp only
        rw [length_detail_gemv, hwf, hshape, ← hfit]
        by_cases ht : transa = .NoTrans <;> simp [ht]
      have hsh : d1.shape = d.shape := by rw [← h]
      refine ⟨hsh, ?_, ?_, ?_⟩
      · unfold DArray.WF
        rw [hlen, hsh]; exact hwf
      · unfold DArray.size
        rw [hlen]; exact hsz
      · intro idx hidx
        have hidx1 := hidx
        rw [← hlen, ← h] at hidx1
        simp only [length_detail_gemv] at hidx1
        rw [← h]
        unfold detail.gemv Gemv_product
        by_cases ht : transa = .NoTrans
        · simp only [ht, ↓reduceIte, ne_eq, not_true_eq_false, DArray.size] at hidx1 ⊢
          rw [at0_map_range _ _ _ hidx1]
          ring
        · simp only [ht, ↓reduceIte, ne_eq, not_false_eq_true, DArray.size] at hidx1 ⊢
          rw [at0_map_range _ _ _ hidx1]
          ring

theorem Dgemv_callLoop_adds (l : Dgemv_arglist) (hb : l.m_beta = 1)
    (pairs : List ((DArray × DArray) × Int)) (d d1 : DArray)
    (h : l.callLoop pairs d = .ok d1) (hwf : d.WF) (hsz : 0 < d.size)
    (hfit : ∀ ps ∈ pairs, GemvFits l.m_transa ps.1.1 ps.1.2) :
    d1.shape = d.shape ∧ d1.WF ∧ 0 < d1.size ∧
      ∀ idx < d.data.length,
        at0 d1.data idx = at0 d.data idx + (pairs.map fun ps =>
          ps.2 * l.m_alpha * Gemv_product l.m_transa ps.1.1 ps.1.2 idx).sum := by
  induction pairs generalizing d with
  | nil =>
    simp only [Dgemv_arglist.callLoop, Except.ok.injEq] at h
    subst h
    exact ⟨rfl, hwf, hsz, fun idx _ => by simp⟩
  | cons ps rest ih =>
    have hfit0 := hfit ps (List.mem_cons_self _ _)
    have hfit1 : ∀ qs ∈ rest, GemvFits l.m_transa qs.1.1 qs.1.2 :=
      fun qs hqs => hfit qs (List.mem_cons_of_mem _ hqs)
    obtain ⟨ab, s⟩ := ps
    simp only [Dgemv_arglist.callLoop, hb] at h
    cases hg : Dgemv l.m_transa (s * l.m_alpha) ab.1 ab.2 1 d with
    | none => rw [hg] at h; exact absurd h (by simp)
    | some d2 =>
      rw [hg] at h
      simp only at h
      obtain ⟨g1, g2, g3, g4⟩ := Gemv_adds _ _ _ _ d d2 hg hwf hsz hfit0
      obtain ⟨i1, i2, i3, i4⟩ := ih d2 h g2 g3 hfit1
      have hlen : d2.data.length = d.data.length := by
        rw [g2, g1]; exact hwf.symm
      refine ⟨i1.trans g1, i2, i3, ?_⟩
      intro idx hidx
      rw [i4 idx (by rw [hlen]; exact hidx), g4 idx hidx]
      simp only [List.map_cons, List.sum_cons]
      ring

/-- The kernel loops of a list of `Dgemv` tasks with `beta = 1`: the block at
`t` receives the weighted products of all operand pairs bound to `t`. -/
theorem Dgemv_blockRuns_adds (tasks : List Dgemv_arglist) (hb : ∀ x ∈ tasks, x.m_beta = 1)
    (t : Int)
    (hfit : ∀ x ∈ tasks, x.m_c_ptr = some t →
      ∀ ps ∈ x.m_arglist.zip x.m_scale, GemvFits x.m_transa ps.1.1 ps.1.2)
    (d d1 : DArray)
    (h : blockRuns (tasks.map fun x =>
      (x.m_c_ptr, x.callLoop (x.m_arglist.zip x.m_scale))) t d = .ok d1)
    (hwf : d.WF) (hsz : 0 < d.size) :
    d1.shape = d.shape ∧ d1.WF ∧ 0 < d1.size ∧
      ∀ idx < d.data.length,
        at0 d1.data idx = at0 d.data idx +
          ((tasks.filter fun x => decide (x.m_c_ptr = some t)).flatMap fun x =>
            (x.m_arglist.zip x.m_scale).map fun ps =>
              ps.2 * x.m_alpha * Gemv_product x.m_transa ps.1.1 ps.1.2 idx).sum := by
  induction tasks generalizing d with
  | nil =>
    simp only [List.map_nil, blockRuns, Except.ok.injEq] at h
    subst h
    exact ⟨rfl, hwf, hsz, fun idx _ => by simp⟩
  | cons x xs ih =>
    have hbx := hb x (List.mem_cons_self _ _)
    have hbxs : ∀ y ∈ xs, y.m_beta = 1 := fun y hy => hb y (List.mem_cons_of_mem _ hy)
    have hfx := hfit x (List.mem_cons_self _ _)
    have hfxs : ∀ y ∈ xs, y.m_c_ptr = some t → ∀ ps ∈ y.m_arglist.zip y.m_scale,
        GemvFits y.m_transa ps.1.1 ps.1.2 := fun y hy => hfit y (List.mem_cons_of_mem _ hy)
    simp only [List.map_cons, blockRuns] at h
    by_cases hk : x.m_c_ptr = some t
    · simp only [hk, ↓reduceIte] at h
      cases hr : x.callLoop (x.m_arglist.zip x.m_scale) d with
      | error e => rw [hr] at h; exact absurd h (by simp)
      | ok d2 =>
        rw [hr] at h
        simp only at h
        obtain ⟨g1, g2, g3, g4⟩ := Dgemv_callLoop_adds x hbx _ d d2 hr hwf hsz (hfx hk)
        obtain ⟨i1, i2, i3, i4⟩ := ih hbxs hfxs d2 h g2 g3
        have hlen : d2.data.length = d.data.length := by
          rw [g2, g1]; exact hwf.symm
        refine ⟨i1.trans g1, i2, i3, ?_⟩
        intro idx hidx
        rw [i4 idx (by rw [hlen]; exact hidx), g4 idx hidx]
        simp only [List.filter_cons, hk, decide_True, ↓reduceIte, List.flatMap_cons,
          List.sum_append]
        ring
    · simp only [hk, ↓reduceIte] at h
      obtain ⟨i1, i2, i3, i4⟩ := ih hbxs hfxs d h hwf hsz
      refine ⟨i1, i2, i3, ?_⟩
      intro idx hidx
      rw [i4 idx hidx]
      simp only [List.filter_cons, hk, decide_False, Bool.false_eq_true, ↓reduceIte]

/-! ## The drivers: scaling by `beta`, then accumulation -/

theorem SDgemm_eq_dispatch (transa transb : BTAS_TRANSPOSE) (alpha : Int) (a b : SDArray)
    (beta : Int) (c : SDArray) :
    SDgemm transa transb alpha a b beta c =
      if 0 < c.size ∧
          (gemm_contract_shape transa transb (contractedRank a b c) a.shape b.shape).2
            ≠ c.shape then
        .error (.shapeMismatch, c)
      else
        ThreadSDgemm transa transb alpha
          (gemmOperands transa transb (contractedRank a b c) a b).1
          (gemmOperands transa transb (contractedRank a b c) a b).2
          (if 0 < c.size then SDscal beta c
            else c.resize (gemm_contract_shape transa transb (contractedRank a b c)
              a.shape b.shape).2) := by
  unfold SDgemm gemmOperands
  simp only
  split
  · rfl
  · by_cases h1 : transa = .NoTrans <;> by_cases h2 : transb = .NoTrans <;> simp [h1, h2]

theorem SDgemv_eq_dispatch (transa : BTAS_TRANSPOSE) (alpha : Int) (a b : SDArray)
    (beta : Int) (c : SDArray) :
    SDgemv transa alpha a b beta c =
      if 0 < c.size ∧ gemv_contract_shape transa a.shape b.shape ≠ c.shape then
        .error (.shapeMismatch, c)
      else
        ThreadSDgemv transa alpha (gemvOperand transa a b) b
          (if 0 < c.size then SDscal beta c
            else c.resize (gemv_contract_shape transa a.shape b.shape)) := by
  unfold SDgemv gemvOperand
  simp only
  split
  · rfl
  · by_cases h1 : transa = .NoTrans <;> simp [h1]

theorem zip_replicate_map {α β : Type} (l : List α) (f : α × Int → β) :
    ((l.zip (List.replicate l.length (1 : Int))).map f) = l.map fun x => f (x, 1) := by
  induction l with
  | nil => rfl
  | cons x xs ih => simp [List.replicate_succ, ih]

theorem gemmTask_fields (transa transb : BTAS_TRANSPOSE) (alpha : Int) (a b : SDArray)
    (stride : Int) (ncols i j : Nat) :
    (gemmTask transa transb alpha a b stride ncols i j).m_beta = 1 ∧
    (gemmTask transa transb alpha a b stride ncols i j).m_alpha = alpha ∧
    (gemmTask transa transb alpha a b stride ncols i j).m_transa = transa ∧
    (gemmTask transa transb alpha a b stride ncols i j).m_transb = transb ∧
    (gemmTask transa transb alpha a b stride ncols i j).m_scale
      = List.replicate (gemmTask transa transb alpha a b stride ncols i j).m_arglist.length 1 := by
  unfold gemmTask
  rw [ThreadSDgemm_match_eq]
  simp [Dgemm_arglist.set, Dgemm_arglist.new]

theorem gemvTask_fields (transa : BTAS_TRANSPOSE) (alpha : Int) (a b : SDArray)
    (stride : Int) (i : Nat) :
    (gemvTask transa alpha a b stride i).m_beta = 1 ∧
    (gemvTask transa alpha a b stride i).m_alpha = alpha ∧
    (gemvTask transa alpha a b stride i).m_transa = transa ∧
    (gemvTask transa alpha a b stride i).m_scale
      = List.replicate (gemvTask transa alpha a b stride i).m_arglist.length 1 := by
  unfold gemvTask
  rw [ThreadSDgemv_match_eq]
  simp [Dgemv_arglist.set, Dgemv_arglist.new]

theorem gemm_weighted_sum (tasks : List Dgemm_arglist) (alpha : Int)
    (h : ∀ x ∈ tasks, x.m_alpha = alpha ∧ x.m_scale = List.replicate x.m_arglist.length 1)
    (t : Int) (r idx : Nat) :
    ((tasks.filter fun x => decide (x.m_c_ptr = some t)).flatMap fun x =>
      (x.m_arglist.zip x.m_scale).map fun ps =>
        ps.2 * x.m_alpha * Gemm_product x.m_transa x.m_transb ps.1.1 ps.1.2 r idx).sum
      = alpha * gemmContribution tasks t r idx := by
  unfold gemmContribution
  induction tasks with
  | nil => simp
  | cons x xs ih =>
    have hx := h x (List.mem_cons_self _ _)
    have ih1 := ih fun y hy => h y (List.mem_cons_of_mem _ hy)
    by_cases hk : x.m_c_ptr = some t
    · simp only [List.filter_cons, hk, decide_True, ↓reduceIte, List.flatMap_cons,
        List.sum_append, ih1, mul_add]
      congr 1
      rw [hx.2, zip_replicate_map, hx.1]
      simp only [one_mul]
      rw [← List.sum_map_mul_left]
    · simp only [List.filter_cons, hk, decide_False, Bool.false_eq_true, ↓reduceIte]
      exact ih1

theorem gemv_weighted_sum (tasks : List Dgemv_arglist) (alpha : Int)
    (h : ∀ x ∈ tasks, x.m_alpha = alpha ∧ x.m_scale = List.replicate x.m_arglist.length 1)
    (t : Int) (idx : Nat) :
    ((tasks.filter fun x => decide (x.m_c_ptr = some t)).flatMap fun x =>
      (x.m_arglist.zip x.m_scale).map fun ps =>
        ps.2 * x.m_alpha * Gemv_product x.m_transa ps.1.1 ps.1.2 idx).sum
      = alpha * gemvContribution tasks t idx := by
  unfold gemvContribution
  induction tasks with
  | nil => simp
  | cons x xs ih =>
    have hx := h x (List.mem_cons_self _ _)
    have ih1 := ih fun y hy => h y (List.mem_cons_of_mem _ hy)
    by_cases hk : x.m_c_ptr = some t
    · simp only [List.filter_cons, hk, decide_True, ↓reduceIte, List.flatMap_cons,
        List.sum_append, ih1, mul_add]
      congr 1
      rw [hx.2, zip_replicate_map, hx.1]
      simp only [one_mul]
      rw [← List.sum_map_mul_left]
    · simp only [List.filter_cons, hk, decide_False, Bool.false_eq_true, ↓reduceIte]
      exact ih1

theorem Dgemv_call_eq_blockCall (l : Dgemv_arglist) (c : SDArray) :
    l.call c = blockCall l.m_c_ptr (l.callLoop (l.m_arglist.zip l.m_scale)) c := rfl

theorem returned_eq_some (r : Outcome SDArray) (c : SDArray) (h : r = .ok c) :
    returned r = some c := by
  rw [h]; rfl

/-- Contents of the destination blocks after a `ThreadSDgemm` that returns:
every task has `beta = 1`, and a non-empty block `d` the task-list
construction leaves at tag `t` ends as `d + alpha * (sum of the products of
the operand pairs bound to t)`. -/
theorem ThreadSDgemm_block_contents (transa transb : BTAS_TRANSPOSE) (alpha : Int)
    (a b c c1 : SDArray) (h : ThreadSDgemm transa transb alpha a b c = .ok c1) :
    ∃ st1, ThreadSDgemm_tasks transa transb alpha a b c = .ok st1 ∧
      (∀ task ∈ st1.1, task.m_beta = 1) ∧
      ∀ t d, st1.2.find t = some d → d.WF → 0 < d.size →
        ∃ blk, c1.find t = some blk ∧ blk.shape = d.shape ∧
          ∀ idx < d.data.length,
            at0 blk.data idx = at0 d.data idx + alpha * gemmContribution st1.1 t d.rank idx := by
  unfold ThreadSDgemm at h
  cases hst : ThreadSDgemm_tasks transa transb alpha a b c with
  | error e => rw [hst] at h; exact absurd h (by simp)
  | ok st1 =>
    rw [hst] at h
    simp only at h
    have hspec := ThreadSDgemm_tasks_spec transa transb alpha a b c st1 hst
    have hfields : ∀ x ∈ st1.1, x.m_beta = 1 ∧ x.m_alpha = alpha ∧
        x.m_scale = List.replicate x.m_arglist.length 1 := by
      intro x hx
      rw [hspec] at hx
      simp only [List.mem_map] at hx
      obtain ⟨ij, _, rfl⟩ := hx
      have := gemmTask_fields transa transb alpha a b (gemm_stride a b c) (gemm_ncols a b c)
        ij.1 ij.2
      exact ⟨this.1, this.2.1, this.2.2.2.2⟩
    refine ⟨st1, rfl, fun x hx => (hfields x hx).1, ?_⟩
    intro t d hd hwf hsz
    obtain ⟨d1, hrun, hfind⟩ := forLoop_blockCall_find Dgemm_arglist.call
      (fun x => x.m_c_ptr) (fun x => x.callLoop (x.m_arglist.zip x.m_scale))
      Dgemm_call_eq_blockCall st1.1 st1.2 c1 t d (returned_eq_some _ _ h) hd
    obtain ⟨g1, _, _, g4⟩ := Dgemm_blockRuns_adds st1.1 (fun x hx => (hfields x hx).1) t d d1
      hrun hwf hsz
    refine ⟨d1, hfind, g1, ?_⟩
    intro idx hidx
    rw [g4 idx hidx, gemm_weighted_sum st1.1 alpha (fun x hx => (hfields x hx).2)]

/-- Contents of the destination blocks after a `ThreadSDgemv` that returns. -/
theorem ThreadSDgemv_block_contents (transa : BTAS_TRANSPOSE) (alpha : Int)
    (a b c c1 : SDArray) (h : ThreadSDgemv transa alpha a b c = .ok c1) :
    ∃ st1, ThreadSDgemv_tasks transa alpha a b c = .ok st1 ∧
      (∀ task ∈ st1.1, task.m_beta = 1) ∧
      ∀ t d, st1.2.find t = some d → d.WF → 0 < d.size →
        (∀ task ∈ st1.1, task.m_c_ptr = some t →
          ∀ ab ∈ task.m_arglist, GemvFits transa ab.1 ab.2) →
        ∃ blk, c1.find t = some blk ∧ blk.shape = d.shape ∧
          ∀ idx < d.data.length,
            at0 blk.data idx = at0 d.data idx + alpha * gemvContribution st1.1 t idx := by
  unfold ThreadSDgemv at h
  cases hst : ThreadSDgemv_tasks transa alpha a b c with
  | error e => rw [hst] at h; exact absurd h (by simp)
  | ok st1 =>
    rw [hst] at h
    simp only at h
    have hspec := ThreadSDgemv_tasks_spec transa alpha a b c st1 hst
    have hfields : ∀ x ∈ st1.1, x.m_beta = 1 ∧ x.m_alpha = alpha ∧ x.m_transa = transa ∧
        x.m_scale = List.replicate x.m_arglist.length 1 := by
      intro x hx
      rw [hspec] at hx
      simp only [List.mem_map] at hx
      obtain ⟨i, _, rfl⟩ := hx
      exact gemvTask_fields transa alpha a b (gemv_stride b) i
    refine ⟨st1, rfl, fun x hx => (hfields x hx).1, ?_⟩
    intro t d hd hwf hsz hfit
    obtain ⟨d1, hrun, hfind⟩ := forLoop_blockCall_find Dgemv_arglist.call
      (fun x => x.m_c_ptr) (fun x => x.callLoop (x.m_arglist.zip x.m_scale))
      Dgemv_call_eq_blockCall st1.1 st1.2 c1 t d (returned_eq_some _ _ h) hd
    obtain ⟨g1, _, _, g4⟩ := Dgemv_blockRuns_adds st1.1 (fun x hx => (hfields x hx).1) t
      (by
        intro x hx hk ps hps
        rw [(hfields x hx).2.2.1]
        exact hfit x hx hk ps.1 (List.of_mem_zip hps).1) d d1 hrun hwf hsz
    refine ⟨d1, hfind, g1, ?_⟩
    intro idx hidx
    rw [g4 idx hidx, gemv_weighted_sum st1.1 alpha
      (fun x hx => ⟨(hfields x hx).2.1, (hfields x hx).2.2.2⟩)]

/-- `Dscal` on a non-empty block: same shape, every entry multiplied. -/
theorem Dscal_entries (beta : Int) (d : DArray) (hwf : d.WF) (hsz : 0 < d.size) :
    (Dscal beta d).shape = d.shape ∧ (Dscal beta d).WF ∧ 0 < (Dscal beta d).size ∧
      (Dscal beta d).data.length = d.data.length ∧
      ∀ idx < d.data.length, at0 (Dscal beta d).data idx = beta * at0 d.data idx := by
  unfold Dscal Scal
  have hne : ¬ d.size = 0 := by omega
  simp only [hne, ↓reduceIte]
  refine ⟨trivial, ?_, ?_, ?_, ?_⟩
  · unfold DArray.WF
    simpa using hwf
  · unfold DArray.size
    simpa using hsz
  · simp
  · intro idx hidx
    unfold at0
    rw [List.getD_eq_getElem _ _ (by simpa using hidx), List.getD_eq_getElem _ _ hidx]
    simp

theorem zeros_facts (sh : List Nat) :
    (DArray.zeros sh).WF ∧ (DArray.zeros sh).size = sh.prod ∧
      (DArray.zeros sh).data.length = sh.prod ∧ (DArray.zeros sh).rank = sh.length ∧
      (DArray.zeros sh).shape = sh ∧ ∀ idx, at0 (DArray.zeros sh).data idx = 0 := by
  unfold DArray.zeros DArray.WF DArray.size DArray.rank
  simp only [List.length_replicate, true_and]
  exact fun idx => at0_replicate_zero _ _

/-- Blocks of the destination of `SDgemm`/`SDgemv` before the dispatch, on a
destination that holds blocks: the blocks of `c`, each scaled by `beta`. -/
theorem scaled_dest_find (beta : Int) (c : SDArray) (ts : List Int) (t : Int) (old : DArray)
    (h : c.find t = some old) :
    (reserveAll (SDscal beta c) ts).find t = some (Dscal beta old) := by
  have hfind : (SDscal beta c).find t = some (Dscal beta old) := by
    rw [find_SDscal, h]; rfl
  have hmem : t ∈ (SDscal beta c).tags :=
    (SDArray.find_isSome_iff _ t).1 (by rw [hfind]; rfl)
  rw [reserveAll_find_old _ ts t hmem, hfind]

theorem new_dest_find (beta : Int) (c : SDArray) (ts : List Int) (t : Int)
    (h : c.find t = none) (hin : t ∈ (reserveAll (SDscal beta c) ts).tags) :
    (reserveAll (SDscal beta c) ts).find t = some (DArray.zeros (c.blockShape t)) := by
  have hnot : t ∉ (SDscal beta c).tags := by
    rw [(SDscal_frame beta c).1]
    exact (SDArray.find_eq_none_iff c t).1 h
  exact reserveAll_find_new _ ts t hnot hin

/-- C6. `SDgemm` and `SDgemv` on a destination that already holds blocks and
has the contraction shape (the call returns): the dispatch runs on the
destination scaled once by `beta`, every task carries `beta = 1`, and so every
non-empty block stored before the call ends as
`beta * C_old + alpha * (sum of the products of its matched operand pairs)`
entry by entry (just `beta * C_old` when it has no task), while a block that
is new starts from zero and ends as `alpha * (sum of products)`. When the
destination holds no block on entry, `beta` has no effect on the result. -/
theorem drivers_beta_once (transa transb : BTAS_TRANSPOSE) (alpha : Int) (a b : SDArray)
    (beta : Int) (c : SDArray) :
    (∀ c1, 0 < c.size → SDgemm transa transb alpha a b beta c = .ok c1 →
      ∃ st1, ThreadSDgemm_tasks transa transb alpha
          (gemmOperands transa transb (contractedRank a b c) a b).1
          (gemmOperands transa transb (contractedRank a b c) a b).2 (SDscal beta c)
          = .ok st1 ∧
        (∀ task ∈ st1.1, task.m_beta = 1) ∧
        (∀ t old, c.find t = some old → old.WF → 0 < old.size →
          ∃ blk, c1.find t = some blk ∧ blk.shape = old.shape ∧
            ∀ idx < old.data.length, at0 blk.data idx
              = beta * at0 old.data idx + alpha * gemmContribution st1.1 t old.rank idx) ∧
        (∀ t, c.find t = none → t ∈ c1.tags → 0 < (c.blockShape t).prod →
          ∃ blk, c1.find t = some blk ∧ blk.shape = c.blockShape t ∧
            ∀ idx < (c.blockShape t).prod, at0 blk.data idx
              = alpha * gemmContribution st1.1 t (c.blockShape t).length idx)) ∧
    (∀ c1, 0 < c.size → SDgemv transa alpha a b beta c = .ok c1 →
      ∃ st1, ThreadSDgemv_tasks transa alpha (gemvOperand transa a b) b (SDscal beta c)
          = .ok st1 ∧
        (∀ task ∈ st1.1, task.m_beta = 1) ∧
        (∀ t old, c.find t = some old → old.WF → 0 < old.size →
          (∀ task ∈ st1.1, task.m_c_ptr = some t →
            ∀ ab ∈ task.m_arglist, GemvFits transa ab.1 ab.2) →
          ∃ blk, c1.find t = some blk ∧ blk.shape = old.shape ∧
            ∀ idx < old.data.length, at0 blk.data idx
              = beta * at0 old.data idx + alpha * gemvContribution st1.1 t idx) ∧
        (∀ t, c.find t = none → t ∈ c1.tags → 0 < (c.blockShape t).prod →
          (∀ task ∈ st1.1, task.m_c_ptr = some t →
            ∀ ab ∈ task.m_arglist, GemvFits transa ab.1 ab.2) →
          ∃ blk, c1.find t = some blk ∧ blk.shape = c.blockShape t ∧
            ∀ idx < (c.blockShape t).prod, at0 blk.data idx
              = alpha * gemvContribution st1.1 t idx)) ∧
    (c.size = 0 → ∀ beta1 : Int,
      SDgemm transa transb alpha a b beta c = SDgemm transa transb alpha a b beta1 c ∧
      SDgemv transa alpha a b beta c = SDgemv transa alpha a b beta1 c) := by
  refine ⟨?_, ?_, ?_⟩
  · intro c1 hsz h
    rw [SDgemm_eq_dispatch] at h
    split at h
    · exact absurd h (by simp)
    · obtain ⟨st1, hst, hbeta, hblk⟩ := ThreadSDgemm_block_contents _ _ _ _ _ _ c1 h
      have hspec := ThreadSDgemm_tasks_spec _ _ _ _ _ _ st1 hst
      have hframe := ThreadSDgemm_final_tags _ _ _ _ _ _ st1 hst
      rw [h] at hframe
      obtain ⟨ts, hst2⟩ : ∃ ts, st1.2 = reserveAll (SDscal beta c) ts :=
        ⟨_, congrArg Prod.snd hspec⟩
      refine ⟨st1, hst, hbeta, ?_, ?_⟩
      · intro t old hold hwf hpos
        obtain ⟨s1, s2, s3, s4, s5⟩ := Dscal_entries beta old hwf hpos
        have hfind : st1.2.find t = some (Dscal beta old) := by
          rw [hst2]; exact scaled_dest_find beta c _ t old hold
        obtain ⟨blk, b1, b2, b3⟩ := hblk t _ hfind s2 s3
        refine ⟨blk, b1, b2.trans s1, ?_⟩
        intro idx hidx
        have hrank : (Dscal beta old).rank = old.rank := by unfold DArray.rank; rw [s1]
        rw [b3 idx (by rw [s4]; exact hidx), s5 idx hidx, hrank]
      · intro t hnone hin hpos
        obtain ⟨z1, z2, z3, z4, z5, z6⟩ := zeros_facts (c.blockShape t)
        have hfind : st1.2.find t = some (DArray.zeros (c.blockShape t)) := by
          rw [hst2]
          apply new_dest_find beta c _ t hnone
          rw [← hst2, ← hframe.1]
          exact hin
        obtain ⟨blk, b1, b2, b3⟩ := hblk t _ hfind z1 (by rw [z2]; exact hpos)
        refine ⟨blk, b1, b2.trans z5, ?_⟩
        intro idx hidx
        rw [b3 idx (by rw [z3]; exact hidx), z6 idx, z4, zero_add]
  · intro c1 hsz h
    rw [SDgemv_eq_dispatch] at h
    split at h
    · exact absurd h (by simp)
    · obtain ⟨st1, hst, hbeta, hblk⟩ := ThreadSDgemv_block_contents _ _ _ _ _ c1 h
      have hspec := ThreadSDgemv_tasks_spec _ _ _ _ _ st1 hst
      have hframe := ThreadSDgemv_final_tags _ _ _ _ _ st1 hst
      rw [h] at hframe
      obtain ⟨ts, hst2⟩ : ∃ ts, st1.2 = reserveAll (SDscal beta c) ts :=
        ⟨_, congrArg Prod.snd hspec⟩
      refine ⟨st1, hst, hbeta, ?_, ?_⟩
      · intro t old hold hwf hpos hfit
        obtain ⟨s1, s2, s3, s4, s5⟩ := Dscal_entries beta old hwf hpos
        have hfind : st1.2.find t = some (Dscal beta old) := by
          rw [hst2]; exact scaled_dest_find beta c _ t old hold
        obtain ⟨blk, b1, b2, b3⟩ := hblk t _ hfind s2 s3 hfit
        refine ⟨blk, b1, b2.trans s1, ?_⟩
        intro idx hidx
        rw [b3 idx (by rw [s4]; exact hidx), s5 idx hidx]
      · intro t hnone hin hpos hfit
        obtain ⟨z1, z2, z3, z4, z5, z6⟩ := zeros_facts (c.blockShape t)
        have hfind : st1.2.find t = some (DArray.zeros (c.blockShape t)) := by
          rw [hst2]
          apply new_dest_find beta c _ t hnone
          rw [← hst2, ← hframe.1]
          exact hin
        obtain ⟨blk, b1, b2, b3⟩ := hblk t _ hfind z1 (by rw [z2]; exact hpos) hfit
        refine ⟨blk, b1, b2.trans z5, ?_⟩
        intro idx hidx
        rw [b3 idx (by rw [z3]; exact hidx), z6 idx, zero_add]
  · intro hc beta1
    rw [SDgemm_eq_dispatch, SDgemm_eq_dispatch, SDgemv_eq_dispatch, SDgemv_eq_dispatch]
    simp [hc]

/-- Witness of C6: the scenario operands accumulated with `alpha = 1`,
`beta = 2` onto a destination that holds a block of ones at every tag. -/
theorem drivers_beta_once_witness :
    0 < scenarioB.size ∧
      SDgemm .NoTrans .NoTrans 1 scenarioA scenarioB 2 scenarioB = .ok scenarioB3 ∧
      ∃ st1, ThreadSDgemm_tasks .NoTrans .NoTrans 1
          (gemmOperands .NoTrans .NoTrans (contractedRank scenarioA scenarioB scenarioB)
            scenarioA scenarioB).1
          (gemmOperands .NoTrans .NoTrans (contractedRank scenarioA scenarioB scenarioB)
            scenarioA scenarioB).2 (SDscal 2 scenarioB) = .ok st1 ∧
        ∀ task ∈ st1.1, task.m_beta = 1 := by
  have h : SDgemm .NoTrans .NoTrans 1 scenarioA scenarioB 2 scenarioB = .ok scenarioB3 := rfl
  obtain ⟨st1, h1, h2, _⟩ :=
    (drivers_beta_once .NoTrans .NoTrans 1 scenarioA scenarioB 2 scenarioB).1 scenarioB3
      (by decide) h
  exact ⟨by decide, h, st1, h1, h2⟩


/-! ## `SDger` into a destination that allows no block -/

theorem gerDests_eq_nil (al : Int → Bool) (a b : SDArray) (stride : Int)
    (hal : ∀ ia ∈ a.store, ∀ ib ∈ b.store, al (ia.1 * stride + ib.1) = false) :
    gerDests al a b stride = [] := by
  apply List.eq_nil_iff_forall_not_mem.mpr
  intro p hp
  rw [mem_gerDests] at hp
  have := hal p.1 hp.1 p.2 hp.2.1
  rw [hp.2.2] at this
  exact Bool.noConfusion this

/-- C11: when the destination holds no block and its legality predicate
rejects the tag of every block pair, `SDger` returns, the destination has the
shape `a.shape ++ b.shape`, it stores no block, and the task list is empty. -/
theorem SDger_nothing_allowed (alpha : Int) (a b c : SDArray) (hc : c.size = 0)
    (hal : ∀ ia ∈ a.store, ∀ ib ∈ b.store,
      c.allowed (ia.1 * ((b.shape.prod : Nat) : Int) + ib.1) = false) :
    SDger alpha a b c = .ok (c.resize (a.shape ++ b.shape)) ∧
    (c.resize (a.shape ++ b.shape)).shape = a.shape ++ b.shape ∧
    (c.resize (a.shape ++ b.shape)).store = [] ∧
    ThreadSDger_tasks alpha a b (c.resize (a.shape ++ b.shape))
      = .ok ([], c.resize (a.shape ++ b.shape)) := by
  have hnil : gerDests (c.resize (a.shape ++ b.shape)).allowed a b (b.shape.prod : Nat) = [] :=
    gerDests_eq_nil _ a b _ hal
  have htasks : ThreadSDger_tasks alpha a b (c.resize (a.shape ++ b.shape))
      = .ok ([], c.resize (a.shape ++ b.shape)) := by
    obtain ⟨st1, hst⟩ := ThreadSDger_tasks_ok alpha a b (c.resize (a.shape ++ b.shape))
      (by rw [hnil]; intro p hp; cases hp)
    have hspec := ThreadSDger_tasks_spec alpha a b _ st1 hst
    rw [hnil] at hspec
    rw [hst, hspec]
    rfl
  refine ⟨?_, rfl, rfl, htasks⟩
  unfold SDger ger_contract_shape
  have h0 : ¬ 0 < c.size := by omega
  simp only [h0, false_and, if_false]
  unfold ThreadSDger
  rw [htasks]
  rfl

theorem SDger_nothing_allowed_witness :
    SDger 2 scenarioA scenarioV closedG
        = .ok (closedG.resize (scenarioA.shape ++ scenarioV.shape)) ∧
    (closedG.resize (scenarioA.shape ++ scenarioV.shape)).shape
        = scenarioA.shape ++ scenarioV.shape ∧
    (closedG.resize (scenarioA.shape ++ scenarioV.shape)).store = [] ∧
    ThreadSDger_tasks 2 scenarioA scenarioV
        (closedG.resize (scenarioA.shape ++ scenarioV.shape))
      = .ok ([], closedG.resize (scenarioA.shape ++ scenarioV.shape)) :=
  SDger_nothing_allowed 2 scenarioA scenarioV closedG (by decide)
    (fun _ _ _ _ => rfl)


/-! ## Reservation and block assignment in the level-1 loops -/

namespace SDArray

/-- A successful reservation does not change which tags can be reserved. -/
theorem reserve_isSome_congr (c c1 : SDArray) (q : Int) (h : c.reserve q = some c1)
    (t : Int) : (c1.reserve t).isSome = (c.reserve t).isSome := by
  obtain ⟨hal, hsh, _, htags, _⟩ := reserve_some c c1 q h
  have hq : (c.reserve q).isSome = true := by rw [h]; rfl
  rw [Bool.eq_iff_iff, reserve_isSome_iff, reserve_isSome_iff, htags, hal]
  have hst : c1.size_total = c.size_total := by unfold size_total; rw [hsh]
  rw [hst]
  constructor
  · rintro ((h1 | h1) | h1)
    · exact Or.inl h1
    · subst h1
      exact (reserve_isSome_iff c t).mp hq
    · exact Or.inr h1
  · rintro (h1 | h1)
    · exact Or.inl (Or.inl h1)
    · exact Or.inr h1

/-- Tensors with the same tags, shape and legality reserve the same tags. -/
theorem sameFrame_reserve_isSome (c1 c : SDArray) (h : SameFrame c1 c) (t : Int) :
    (c1.reserve t).isSome = (c.reserve t).isSome := by
  obtain ⟨htags, hal, hsh, _⟩ := h
  rw [Bool.eq_iff_iff, reserve_isSome_iff, reserve_isSome_iff, htags, hal]
  have hst : c1.size_total = c.size_total := by unfold size_total; rw [hsh]
  rw [hst]

theorem mem_tags_of_reserve (c c1 : SDArray) (q : Int) (h : c.reserve q = some c1) :
    q ∈ c1.tags := by
  obtain ⟨_, _, _, htags, _⟩ := reserve_some c c1 q h
  exact (htags q).mpr (Or.inr rfl)

theorem find_of_mem_tags (c : SDArray) (t : Int) (h : t ∈ c.tags) : ∃ d, c.find t = some d := by
  have := (find_isSome_iff c t).mpr h
  cases hf : c.find t with
  | none => rw [hf] at this; exact Bool.noConfusion this
  | some d => exact ⟨d, rfl⟩

theorem map_set_insertBlock (q t : Int) (z b : DArray) (hqt : q ≠ t)
    (l : List (Int × DArray)) :
    (insertBlock q z l).map (fun p => if p.1 == t then (p.1, b) else p)
      = insertBlock q z (l.map fun p => if p.1 == t then (p.1, b) else p) := by
  have hb : (q == t) = false := by simpa using hqt
  induction l with
  | nil =>
    simp only [insertBlock, List.map_cons, List.map_nil, hb]
    rfl
  | cons p ps ih =>
    by_cases hlt : q < p.1
    · have h2 : q < (if (p.1 == t) = true then (p.1, b) else p).1 := by
        split <;> exact hlt
      simp only [insertBlock, List.map_cons, if_pos hlt, if_pos h2, hb]
      simp
    · have h2 : ¬ q < (if (p.1 == t) = true then (p.1, b) else p).1 := by
        split <;> exact hlt
      simp only [insertBlock, List.map_cons, if_neg hlt, if_neg h2, ih]

/-- Assigning a stored block and reserving a tag can be done in either order. -/
theorem reserve_setBlock (c : SDArray) (t q : Int) (b : DArray) (ht : t ∈ c.tags) :
    (c.setBlock t b).reserve q = (c.reserve q).map fun c1 => c1.setBlock t b := by
  obtain ⟨d, hd⟩ := find_of_mem_tags c t ht
  cases hq : c.find q with
  | some dq =>
    have h1 : c.reserve q = some c := by unfold reserve; rw [hq]
    have h2 : ∃ e, (c.setBlock t b).find q = some e := by
      by_cases hqt : t = q
      · subst hqt; exact ⟨b, find_setBlock_eq c t d b hd⟩
      · exact ⟨dq, by rw [find_setBlock_ne c t q b hqt, hq]⟩
    obtain ⟨e, he⟩ := h2
    rw [h1]
    unfold reserve
    rw [he]
    rfl
  | none =>
    have hqt : q ≠ t := by
      intro h; subst h; rw [hd] at hq; cases hq
    have h2 : (c.setBlock t b).find q = none := by
      rw [find_setBlock_ne c t q b (Ne.symm hqt), hq]
    unfold reserve
    rw [h2, hq]
    have hcond : ((c.setBlock t b).allowed q = true ∧ 0 ≤ q ∧ q < ((c.setBlock t b).size_total : Int))
        ↔ (c.allowed q = true ∧ 0 ≤ q ∧ q < (c.size_total : Int)) := Iff.rfl
    by_cases hc : c.allowed q = true ∧ 0 ≤ q ∧ q < (c.size_total : Int)
    · rw [if_pos hc, if_pos (hcond.mpr hc)]
      simp only [Option.map_some', setBlock]
      rw [map_set_insertBlock q t _ b hqt]
    · rw [if_neg hc, if_neg (fun h => hc (hcond.mp h))]
      rfl

end SDArray

theorem reserveAll_setBlock (c : SDArray) (t : Int) (b : DArray) (ts : List Int)
    (ht : t ∈ c.tags) :
    reserveAll (c.setBlock t b) ts = (reserveAll c ts).setBlock t b := by
  induction ts generalizing c with
  | nil => rfl
  | cons q qs ih =>
    rw [reserveAll_cons, reserveAll_cons, SDArray.reserve_setBlock c t q b ht]
    cases hq : c.reserve q with
    | none => exact ih c ht
    | some c1 =>
      have : t ∈ c1.tags := by
        obtain ⟨_, _, _, htags, _⟩ := SDArray.reserve_some c c1 q hq
        exact (htags t).mpr (Or.inl ht)
      exact ih c1 this

theorem forLoop_map {ι κ σ ε : Type} (body : κ → σ → Except ε σ) (f : ι → κ)
    (l : List ι) (s : σ) :
    forLoop body (l.map f) s = forLoop (fun i => body (f i)) l s := by
  induction l generalizing s with
  | nil => rfl
  | cons i is ih =>
    simp only [List.map_cons, forLoop]
    cases body (f i) s with
    | ok s1 => exact ih s1
    | error e => rfl

theorem reservableBlocks_congr (c1 c : SDArray)
    (h : ∀ t, (c1.reserve t).isSome = (c.reserve t).isSome) (xs : List (Int × DArray)) :
    reservableBlocks c1 xs = reservableBlocks c xs := by
  unfold reservableBlocks
  congr 1
  funext ix
  exact h ix.1

theorem reservableBlocks_cons_some (c : SDArray) (p : Int × DArray) (ps : List (Int × DArray))
    (h : (c.reserve p.1).isSome = true) :
    reservableBlocks c (p :: ps) = p :: reservableBlocks c ps := by
  unfold reservableBlocks
  simp only [List.filter_cons, h, if_true]

theorem reservableBlocks_cons_none (c : SDArray) (p : Int × DArray) (ps : List (Int × DArray))
    (h : c.reserve p.1 = none) :
    reservableBlocks c (p :: ps) = reservableBlocks c ps := by
  unfold reservableBlocks
  simp only [List.filter_cons, h, Option.isSome_none]
  rfl

theorem reservableBlocks_all (c : SDArray) (xs : List (Int × DArray))
    (h : ∀ p ∈ xs, (c.reserve p.1).isSome = true) : reservableBlocks c xs = xs := by
  unfold reservableBlocks
  exact List.filter_eq_self.mpr h

theorem mem_reservableBlocks (c : SDArray) (xs : List (Int × DArray)) (p : Int × DArray) :
    p ∈ reservableBlocks c xs ↔ p ∈ xs ∧ (c.reserve p.1).isSome = true := by
  unfold reservableBlocks
  exact List.mem_filter

/-- The task list and the reservations of a level-1 task-list construction
that returns: one task per source block whose tag can be reserved, in the
iteration order of the source. -/
theorem l1Tasks_spec {τ : Type} (mk : Int × DArray → τ) (tol : Bool)
    (xs : List (Int × DArray)) (st st1 : List τ × SDArray)
    (h : forLoop (l1TaskBody mk tol) xs st = .ok st1) :
    st1 = (st.1 ++ (reservableBlocks st.2 xs).map mk,
           reserveAll st.2 ((reservableBlocks st.2 xs).map Prod.fst)) := by
  induction xs generalizing st with
  | nil =>
    simp only [forLoop] at h
    cases h
    simp [reservableBlocks, reserveAll_nil]
  | cons p ps ih =>
    simp only [forLoop, l1TaskBody] at h
    cases hr : st.2.reserve p.1 with
    | some y1 =>
      rw [hr] at h
      simp only at h
      have h1 := ih _ h
      have hsome : (st.2.reserve p.1).isSome = true := by rw [hr]; rfl
      rw [reservableBlocks_cons_some _ _ _ hsome]
      rw [reservableBlocks_congr y1 st.2 (SDArray.reserve_isSome_congr st.2 y1 p.1 hr)] at h1
      rw [h1]
      simp only [List.map_cons, reserveAll_cons, hr, Option.getD_some, List.append_assoc,
        List.singleton_append]
    | none =>
      rw [hr] at h
      simp only at h
      rw [reservableBlocks_cons_none _ _ _ hr]
      cases tol with
      | true => simp only [if_true] at h; exact ih _ h
      | false => simp at h

/-- A level-1 task-list construction returns when every tag of the source can
be reserved, or when a reservation that returns absent is passed over. -/
theorem l1Tasks_ok {τ : Type} (mk : Int × DArray → τ) (tol : Bool)
    (xs : List (Int × DArray)) (st : List τ × SDArray)
    (hr : tol = true ∨ ∀ p ∈ xs, (st.2.reserve p.1).isSome = true) :
    ∃ st1, forLoop (l1TaskBody mk tol) xs st = .ok st1 := by
  induction xs generalizing st with
  | nil => exact ⟨st, rfl⟩
  | cons p ps ih =>
    simp only [forLoop, l1TaskBody]
    cases hp : st.2.reserve p.1 with
    | some y1 =>
      simp only
      apply ih
      rcases hr with hr | hr
      · exact Or.inl hr
      · right
        intro q hq
        show (y1.reserve q.1).isSome = true
        rw [SDArray.reserve_isSome_congr st.2 y1 p.1 hp]
        exact hr q (List.mem_cons_of_mem _ hq)
    | none =>
      simp only
      rcases hr with hr | hr
      · subst hr
        simp only [if_true]
        exact ih st (Or.inl rfl)
      · have := hr p (List.mem_cons_self _ _)
        rw [hp] at this
        exact Bool.noConfusion this

/-- Without tolerance a level-1 task-list construction throws
"could not be reserved" as soon as a tag of the source cannot be reserved. -/
theorem l1Tasks_error {τ : Type} (mk : Int × DArray → τ)
    (xs : List (Int × DArray)) (st : List τ × SDArray) (p : Int × DArray) (hp : p ∈ xs)
    (hr : (st.2.reserve p.1).isSome = false) :
    ∃ s, forLoop (l1TaskBody mk false) xs st = .error (.blockUnavailable, s) := by
  induction xs generalizing st with
  | nil => cases hp
  | cons a as ih =>
    simp only [forLoop, l1TaskBody]
    cases ha : st.2.reserve a.1 with
    | none => exact ⟨st.2, by simp⟩
    | some y1 =>
      simp only
      rcases List.mem_cons.mp hp with h | h
      · subst h; rw [ha] at hr; exact Bool.noConfusion hr
      · apply ih _ h
        show (y1.reserve p.1).isSome = false
        rw [SDArray.reserve_isSome_congr st.2 y1 a.1 ha]
        exact hr

/-- The only throw of a level-1 task-list construction is "could not be
reserved". -/
theorem l1Tasks_error_kind {τ : Type} (mk : Int × DArray → τ) (tol : Bool)
    (xs : List (Int × DArray)) (st : List τ × SDArray) (e : BtasError × SDArray)
    (h : forLoop (l1TaskBody mk tol) xs st = .error e) :
    e.1 = .blockUnavailable ∧ tol = false := by
  have := forLoop_invariant (l1TaskBody mk tol) (fun _ => True)
    (fun e => e.1 = .blockUnavailable ∧ tol = false) (by
      intro i s _
      unfold l1TaskBody
      cases s.2.reserve i.1 with
      | some y1 => trivial
      | none =>
        cases tol with
        | true => trivial
        | false => exact ⟨rfl, rfl⟩) xs st trivial
  rw [h] at this
  exact this


/-! ## Serial and threaded level-1 loops return the same tensor -/

theorem returned_some_iff (r : Outcome SDArray) (c : SDArray) :
    returned r = some c ↔ r = .ok c := by
  cases r with
  | ok c1 => simp [returned]
  | error e => simp [returned]

theorem returned_none_iff (r : Outcome SDArray) :
    returned r = none ↔ ∃ e, r = .error e := by
  cases r with
  | ok c1 => simp [returned]
  | error e => simp [returned]

theorem kernelRun_toOption (kernel : DArray → Option DArray) (d : DArray) :
    (kernelRun kernel d).toOption = kernel d := by
  unfold kernelRun
  cases kernel d <;> rfl

theorem kernelRun_ok_iff (kernel : DArray → Option DArray) (d d1 : DArray) :
    kernelRun kernel d = .ok d1 ↔ kernel d = some d1 := by
  unfold kernelRun
  cases kernel d <;> simp

theorem l1Body_some (kernel : DArray → DArray → Option DArray) (tol : Bool)
    (ix : Int × DArray) (y y1 : SDArray) (h : y.reserve ix.1 = some y1) :
    l1Body kernel tol ix y = l1Run kernel ix y1 := by
  unfold l1Body l1Run
  rw [h]

theorem returned_l1Run (kernel : DArray → DArray → Option DArray) (ix : Int × DArray)
    (y : SDArray) :
    returned (l1Run kernel ix y)
      = ((y.find ix.1).bind fun d => kernel ix.2 d).map (y.setBlock ix.1) := by
  unfold l1Run
  rw [returned_blockCall]
  simp only [kernelRun_toOption]

theorem blockCall_frame (ptr : Option Int) (run : DArray → Except DArray DArray)
    (c : SDArray) : SDArray.SameFrame (Outcome.final (blockCall ptr run c)) c := by
  unfold blockCall
  split
  · exact SDArray.sameFrame_refl c
  · split
    · exact SDArray.sameFrame_refl c
    · split
      · exact SDArray.sameFrame_setBlock c _ _
      · exact SDArray.sameFrame_setBlock c _ _

theorem l1Run_frame (kernel : DArray → DArray → Option DArray) (ix : Int × DArray)
    (y : SDArray) : SDArray.SameFrame (Outcome.final (l1Run kernel ix y)) y :=
  blockCall_frame _ _ _

/-- The serial level-1 loop returns what the tasks of the reservable source
blocks return when they run after all the reservations. -/
theorem l1_serial_returned (kernel : DArray → DArray → Option DArray) (tol : Bool)
    (xs : List (Int × DArray)) (y : SDArray)
    (hr : tol = true ∨ ∀ p ∈ xs, (y.reserve p.1).isSome = true) :
    returned (forLoop (l1Body kernel tol) xs y)
      = returned (forLoop (l1Run kernel) (reservableBlocks y xs)
          (reserveAll y ((reservableBlocks y xs).map Prod.fst))) := by
  induction xs generalizing y with
  | nil => rfl
  | cons p ps ih =>
    cases hp : y.reserve p.1 with
    | none =>
      have htol : tol = true := by
        rcases hr with hr | hr
        · exact hr
        · have := hr p (List.mem_cons_self _ _)
          rw [hp] at this
          exact Bool.noConfusion this
      rw [reservableBlocks_cons_none _ _ _ hp]
      have hstep : forLoop (l1Body kernel tol) (p :: ps) y = forLoop (l1Body kernel tol) ps y := by
        simp only [forLoop, l1Body, hp, htol, if_true]
      rw [hstep]
      exact ih y (Or.inl htol)
    | some y1 =>
      have hsome : (y.reserve p.1).isSome = true := by rw [hp]; rfl
      have hmem : p.1 ∈ y1.tags := SDArray.mem_tags_of_reserve y y1 p.1 hp
      rw [reservableBlocks_cons_some _ _ _ hsome, List.map_cons, reserveAll_cons, hp,
        Option.getD_some, returned_forLoop_cons, returned_forLoop_cons,
        l1Body_some _ _ _ _ _ hp, returned_l1Run, returned_l1Run,
        reserveAll_find_old y1 _ p.1 hmem]
      cases hb : (y1.find p.1).bind (fun d => kernel p.2 d) with
      | none => rfl
      | some b =>
        simp only [Option.map_some', Option.some_bind]
        have hcong : ∀ t, ((y1.setBlock p.1 b).reserve t).isSome = (y.reserve t).isSome := by
          intro t
          rw [SDArray.sameFrame_reserve_isSome _ _ (SDArray.sameFrame_setBlock y1 p.1 b),
            SDArray.reserve_isSome_congr y y1 p.1 hp]
        have hr2 : tol = true ∨ ∀ q ∈ ps, ((y1.setBlock p.1 b).reserve q.1).isSome = true := by
          rcases hr with hr | hr
          · exact Or.inl hr
          · right
            intro q hq
            rw [hcong]
            exact hr q (List.mem_cons_of_mem _ hq)
        rw [ih (y1.setBlock p.1 b) hr2, reservableBlocks_congr _ _ hcong,
          reserveAll_setBlock y1 p.1 b _ hmem]

/-- Without tolerance the serial level-1 loop returns only when every tag of
the source can be reserved. -/
theorem l1_serial_returned_reservable (kernel : DArray → DArray → Option DArray)
    (xs : List (Int × DArray)) (y y' : SDArray)
    (h : returned (forLoop (l1Body kernel false) xs y) = some y') :
    ∀ p ∈ xs, (y.reserve p.1).isSome = true := by
  induction xs generalizing y with
  | nil => intro p hp; cases hp
  | cons a as ih =>
    cases ha : y.reserve a.1 with
    | none =>
      simp [forLoop, l1Body, ha, returned] at h
    | some y1 =>
      rw [returned_forLoop_cons, l1Body_some _ _ _ _ _ ha, returned_l1Run] at h
      cases hb : (y1.find a.1).bind (fun d => kernel a.2 d) with
      | none => rw [hb] at h; simp at h
      | some b =>
        rw [hb] at h
        simp only [Option.map_some', Option.some_bind] at h
        have h2 := ih _ h
        intro p hp
        rcases List.mem_cons.mp hp with hpa | hpa
        · subst hpa; rw [ha]; rfl
        · rw [← SDArray.reserve_isSome_congr y y1 a.1 ha,
            ← SDArray.sameFrame_reserve_isSome _ _ (SDArray.sameFrame_setBlock y1 a.1 b)]
          exact h2 p hpa

/-- The threaded level-1 routine returns exactly when the serial loop returns,
and then the same tensor. -/
theorem l1_thread_returned {τ : Type} (mk : Int × DArray → τ)
    (call : τ → SDArray → Outcome SDArray) (kernel : DArray → DArray → Option DArray)
    (tol : Bool) (hcall : ∀ ix c, call (mk ix) c = l1Run kernel ix c)
    (xs : List (Int × DArray)) (y : SDArray) :
    returned (l1Thread mk call tol xs y) = returned (forLoop (l1Body kernel tol) xs y) := by
  by_cases hr : tol = true ∨ ∀ p ∈ xs, (y.reserve p.1).isSome = true
  · obtain ⟨st1, hst⟩ := l1Tasks_ok mk tol xs ([], y) hr
    have hspec := l1Tasks_spec mk tol xs ([], y) st1 hst
    rw [l1_serial_returned kernel tol xs y hr]
    unfold l1Thread
    rw [hst, hspec]
    simp only [List.nil_append, parallel_call]
    rw [forLoop_map]
    have hfun : (fun i => call (mk i)) = l1Run kernel := by
      funext ix c
      exact hcall ix c
    rw [hfun]
  · have htol : tol = false := by
      cases tol with
      | true => exact absurd (Or.inl rfl) hr
      | false => rfl
    subst htol
    have hex : ∃ p ∈ xs, (y.reserve p.1).isSome = false := by
      by_contra hne
      apply hr
      right
      intro p hp
      cases hs : (y.reserve p.1).isSome with
      | true => rfl
      | false => exact absurd ⟨p, hp, hs⟩ hne
    obtain ⟨p, hp, hpr⟩ := hex
    obtain ⟨s, hs⟩ := l1Tasks_error mk xs ([], y) p hp hpr
    have h1 : returned (l1Thread mk call false xs y) = none := by
      unfold l1Thread
      rw [hs]
      rfl
    rw [h1]
    cases h2 : returned (forLoop (l1Body kernel false) xs y) with
    | none => rfl
    | some y' =>
      have := l1_serial_returned_reservable kernel xs y y' h2 p hp
      rw [hpr] at this
      exact Bool.noConfusion this

theorem blockRuns_not_mem (K : List (Int × DArray))
    (run : Int × DArray → DArray → Except DArray DArray) (t : Int) (d : DArray)
    (h : t ∉ K.map Prod.fst) :
    blockRuns (K.map fun p => (some p.1, run p)) t d = .ok d := by
  induction K with
  | nil => rfl
  | cons a as ih =>
    have ha : ¬ some a.1 = some t := by
      intro e
      exact h (by rw [← Option.some.inj e]; exact List.mem_map_of_mem _ (List.mem_cons_self _ _))
    simp only [List.map_cons, blockRuns, ha, if_false]
    exact ih (fun hm => h (by
      rw [List.map_cons]
      exact List.mem_cons_of_mem _ hm))

/-- With one task per tag, the block at the tag of a task goes through the
kernel of that task and no other. -/
theorem blockRuns_nodup (K : List (Int × DArray))
    (run : Int × DArray → DArray → Except DArray DArray) (p : Int × DArray) (hp : p ∈ K)
    (hnd : (K.map Prod.fst).Nodup) (d : DArray) :
    blockRuns (K.map fun p => (some p.1, run p)) p.1 d = run p d := by
  induction K with
  | nil => cases hp
  | cons a as ih =>
    rw [List.map_cons, List.nodup_cons] at hnd
    by_cases hap : a.1 = p.1
    · have hpa : p = a := by
        rcases List.mem_cons.mp hp with h | h
        · exact h
        · exact absurd (by rw [hap]; exact List.mem_map_of_mem _ h) hnd.1
      subst hpa
      simp only [List.map_cons, blockRuns, if_true]
      cases hrun : run p d with
      | error e => rfl
      | ok d1 => exact blockRuns_not_mem as run p.1 d1 hnd.1
    · have hne : ¬ some a.1 = some p.1 := fun e => hap (Option.some.inj e)
      simp only [List.map_cons, blockRuns, hne, if_false]
      rcases List.mem_cons.mp hp with h | h
      · exact absurd (by rw [h]) hap
      · exact ih h hnd.2

theorem destBlock_of_find (y : SDArray) (t : Int) (d : DArray) (h : y.find t = some d) :
    destBlock y t = d := by
  unfold destBlock
  rw [h]
  rfl

theorem destBlock_of_not_mem (y : SDArray) (t : Int) (h : t ∉ y.tags) :
    destBlock y t = DArray.zeros (y.blockShape t) := by
  unfold destBlock
  rw [(SDArray.find_eq_none_iff y t).mpr h]
  rfl

/-- The destination of a level-1 loop that returns, serial or threaded: it
keeps shape and legality; its tags are the old ones and the reservable tags of
the source; the block at a reservable tag of the source is the result of the
dense kernel on the block found there (the stored one, or the zero block a
reservation allocates); every other block is as before. -/
theorem l1_returned_find (kernel : DArray → DArray → Option DArray) (tol : Bool)
    (xs : List (Int × DArray)) (y y' : SDArray) (hnd : (xs.map Prod.fst).Nodup)
    (h : returned (forLoop (l1Body kernel tol) xs y) = some y') :
    (y'.allowed = y.allowed ∧ y'.shape = y.shape ∧ y'.blockShape = y.blockShape) ∧
    (∀ t, t ∈ y'.tags ↔ t ∈ y.tags ∨ ∃ p ∈ xs, p.1 = t ∧ (y.reserve t).isSome = true) ∧
    (∀ p ∈ xs, (y.reserve p.1).isSome = true →
      ∃ d1, kernel p.2 (destBlock y p.1) = some d1 ∧ y'.find p.1 = some d1) ∧
    (∀ t, (∀ p ∈ xs, p.1 = t → (y.reserve t).isSome = false) → y'.find t = y.find t) := by
  have hr : tol = true ∨ ∀ p ∈ xs, (y.reserve p.1).isSome = true := by
    cases tol with
    | true => exact Or.inl rfl
    | false => exact Or.inr (l1_serial_returned_reservable kernel xs y y' h)
  rw [l1_serial_returned kernel tol xs y hr] at h
  have hKres : ∀ t ∈ (reservableBlocks y xs).map Prod.fst, (y.reserve t).isSome = true := by
    intro t ht
    obtain ⟨p, hp, hpt⟩ := List.mem_map.mp ht
    rw [← hpt]
    exact ((mem_reservableBlocks y xs p).mp hp).2
  have hKnd : ((reservableBlocks y xs).map Prod.fst).Nodup := by
    unfold reservableBlocks
    exact List.Nodup.sublist (List.Sublist.map _ (List.filter_sublist _)) hnd
  have hok := (returned_some_iff _ _).mp h
  have hframe : SDArray.SameFrame y'
      (reserveAll y ((reservableBlocks y xs).map Prod.fst)) := by
    have := parallel_call_frame (l1Run kernel) (l1Run_frame kernel) (reservableBlocks y xs)
      (reserveAll y ((reservableBlocks y xs).map Prod.fst))
    unfold parallel_call at this
    rw [hok] at this
    exact this
  obtain ⟨hftags, hfal, hfsh, hfbs⟩ := hframe
  obtain ⟨hral, hrsh, hrbs⟩ := reserveAll_frame y ((reservableBlocks y xs).map Prod.fst)
  have htags : ∀ t, t ∈ y'.tags ↔
      t ∈ y.tags ∨ ∃ p ∈ xs, p.1 = t ∧ (y.reserve t).isSome = true := by
    intro t
    rw [hftags, mem_tags_reserveAll_iff y _ hKres]
    constructor
    · rintro (h1 | h1)
      · exact Or.inl h1
      · obtain ⟨p, hp, hpt⟩ := List.mem_map.mp h1
        have := (mem_reservableBlocks y xs p).mp hp
        exact Or.inr ⟨p, this.1, hpt, by rw [← hpt]; exact this.2⟩
    · rintro (h1 | ⟨p, hp, hpt, hres⟩)
      · exact Or.inl h1
      · right
        rw [← hpt]
        exact List.mem_map_of_mem _ ((mem_reservableBlocks y xs p).mpr ⟨hp, by rw [hpt]; exact hres⟩)
  have hfind := fun t d => forLoop_blockCall_find (l1Run kernel) (fun p => some p.1)
    (fun p => kernelRun (kernel p.2)) (fun _ _ => rfl) (reservableBlocks y xs)
    (reserveAll y ((reservableBlocks y xs).map Prod.fst)) y' t d h
  refine ⟨⟨by rw [hfal, hral], by rw [hfsh, hrsh], by rw [hfbs, hrbs]⟩, htags, ?_, ?_⟩
  · intro p hp hres
    have hpK : p ∈ reservableBlocks y xs := (mem_reservableBlocks y xs p).mpr ⟨hp, hres⟩
    have hstart : (reserveAll y ((reservableBlocks y xs).map Prod.fst)).find p.1
        = some (destBlock y p.1) := by
      by_cases hmem : p.1 ∈ y.tags
      · rw [reserveAll_find_old y _ p.1 hmem]
        obtain ⟨d, hd⟩ := SDArray.find_of_mem_tags y p.1 hmem
        rw [hd, destBlock_of_find y p.1 d hd]
      · rw [destBlock_of_not_mem y p.1 hmem]
        apply reserveAll_find_new y _ p.1 hmem
        rw [mem_tags_reserveAll_iff y _ hKres]
        exact Or.inr (List.mem_map_of_mem _ hpK)
    obtain ⟨d1, hrun, hd1⟩ := hfind p.1 _ hstart
    rw [blockRuns_nodup (reservableBlocks y xs) (fun p => kernelRun (kernel p.2)) p hpK hKnd,
      kernelRun_ok_iff] at hrun
    exact ⟨d1, hrun, hd1⟩
  · intro t ht
    have htK : t ∉ (reservableBlocks y xs).map Prod.fst := by
      intro hm
      obtain ⟨p, hp, hpt⟩ := List.mem_map.mp hm
      have := (mem_reservableBlocks y xs p).mp hp
      have h2 := ht p this.1 hpt
      rw [← hpt, this.2] at h2
      exact Bool.noConfusion h2
    by_cases hmem : t ∈ y.tags
    · obtain ⟨d, hd⟩ := SDArray.find_of_mem_tags y t hmem
      obtain ⟨d1, hrun, hd1⟩ := hfind t d (by rw [reserveAll_find_old y _ t hmem]; exact hd)
      rw [blockRuns_not_mem _ _ t d htK] at hrun
      cases hrun
      rw [hd1, hd]
    · rw [(SDArray.find_eq_none_iff y t).mpr hmem, SDArray.find_eq_none_iff, htags]
      rintro (h1 | ⟨p, hp, hpt, hres⟩)
      · exact hmem h1
      · rw [ht p hp hpt] at hres
        exact Bool.noConfusion hres


/-! ## The level-1 routines as instances of the common loops -/

theorem SerialSDcopy_eq (x y : SDArray) (Do_up_cast : Bool) :
    SerialSDcopy x y Do_up_cast
      = forLoop (l1Body (fun a d => some (Dcopy a d)) Do_up_cast) x.store y := rfl

theorem ThreadSDcopy_eq (x y : SDArray) (Do_up_cast : Bool) :
    ThreadSDcopy x y Do_up_cast
      = l1Thread (fun ix => (⟨(ix.2, ix.1)⟩ : Dcopy_arglist)) Dcopy_arglist.call
          Do_up_cast x.store y := by
  have hbody : ThreadSDcopy_body Do_up_cast
      = l1TaskBody (fun ix => (⟨(ix.2, ix.1)⟩ : Dcopy_arglist)) Do_up_cast := rfl
  unfold ThreadSDcopy ThreadSDcopy_tasks l1Thread
  rw [hbody]
  cases forLoop (l1TaskBody (fun ix => (⟨(ix.2, ix.1)⟩ : Dcopy_arglist)) Do_up_cast)
    x.store ([], y) with
  | error e => rfl
  | ok st => rfl

theorem SerialSDaxpy_eq (alpha : Int) (x y : SDArray) :
    SerialSDaxpy alpha x y = forLoop (l1Body (Daxpy alpha) false) x.store y := by
  have hbody : SerialSDaxpy_body alpha = l1Body (Daxpy alpha) false := by
    funext ix c
    unfold SerialSDaxpy_body l1Body
    cases c.reserve ix.1 <;> rfl
  unfold SerialSDaxpy
  rw [hbody]

theorem ThreadSDaxpy_eq (alpha : Int) (x y : SDArray) :
    ThreadSDaxpy alpha x y
      = l1Thread (fun ix => (⟨alpha, (ix.2, ix.1)⟩ : Daxpy_arglist)) Daxpy_arglist.call
          false x.store y := by
  have hbody : ThreadSDaxpy_body alpha
      = l1TaskBody (fun ix => (⟨alpha, (ix.2, ix.1)⟩ : Daxpy_arglist)) false := by
    funext ix st
    unfold ThreadSDaxpy_body l1TaskBody
    cases st.2.reserve ix.1 <;> rfl
  unfold ThreadSDaxpy ThreadSDaxpy_tasks l1Thread
  rw [hbody]
  cases forLoop (l1TaskBody (fun ix => (⟨alpha, (ix.2, ix.1)⟩ : Daxpy_arglist)) false)
    x.store ([], y) with
  | error e => rfl
  | ok st => rfl

/-- `ThreadSDcopy` returns exactly when `SerialSDcopy` returns, and then the
same tensor. -/
theorem ThreadSDcopy_returned (x y : SDArray) (Do_up_cast : Bool) :
    returned (ThreadSDcopy x y Do_up_cast) = returned (SerialSDcopy x y Do_up_cast) := by
  rw [ThreadSDcopy_eq, SerialSDcopy_eq]
  exact l1_thread_returned (fun ix => (⟨(ix.2, ix.1)⟩ : Dcopy_arglist)) Dcopy_arglist.call
    (fun a d => some (Dcopy a d)) Do_up_cast (fun _ _ => rfl) x.store y

/-- `ThreadSDaxpy` returns exactly when `SerialSDaxpy` returns, and then the
same tensor. -/
theorem ThreadSDaxpy_returned (alpha : Int) (x y : SDArray) :
    returned (ThreadSDaxpy alpha x y) = returned (SerialSDaxpy alpha x y) := by
  rw [ThreadSDaxpy_eq, SerialSDaxpy_eq]
  exact l1_thread_returned (fun ix => (⟨alpha, (ix.2, ix.1)⟩ : Daxpy_arglist))
    Daxpy_arglist.call (Daxpy alpha) false (fun _ _ => rfl) x.store y

/-! ## Throws of the level-1 loops -/

theorem blockCall_error_kind (ptr : Option Int) (run : DArray → Except DArray DArray)
    (c : SDArray) (e : BtasError × SDArray) (h : blockCall ptr run c = .error e) :
    e.1 = .denseShapeMismatch ∨ e.1 = .unboundDestination := by
  unfold blockCall at h
  split at h
  · cases h; exact Or.inr rfl
  · split at h
    · cases h; exact Or.inr rfl
    · split at h
      · cases h
      · cases h; exact Or.inl rfl

/-- A run of tasks throws nothing but what a task throws: the error of a
dense kernel, or an unbound destination. -/
theorem forLoop_blockCall_error_kind {τ : Type} (call : τ → SDArray → Outcome SDArray)
    (key : τ → Option Int) (run : τ → DArray → Except DArray DArray)
    (hcall : ∀ x c, call x c = blockCall (key x) (run x) c)
    (tasks : List τ) (c : SDArray) (e : BtasError × SDArray)
    (h : forLoop call tasks c = .error e) :
    e.1 = .denseShapeMismatch ∨ e.1 = .unboundDestination := by
  have := forLoop_invariant call (fun _ => True)
    (fun e => e.1 = .denseShapeMismatch ∨ e.1 = .unboundDestination) (by
      intro x s _
      cases hx : call x s with
      | ok s1 => trivial
      | error e1 =>
        rw [hcall] at hx
        exact blockCall_error_kind _ _ _ _ hx) tasks c trivial
  rw [h] at this
  exact this

/-- The block a reservation returns is stored, so the kernel of the serial
loop body always finds its destination. -/
theorem l1Run_after_reserve (kernel : DArray → DArray → Option DArray) (ix : Int × DArray)
    (y y1 : SDArray) (h : y.reserve ix.1 = some y1) :
    ∃ d, y1.find ix.1 = some d ∧
      l1Run kernel ix y1 = match kernel ix.2 d with
        | some d1 => .ok (y1.setBlock ix.1 d1)
        | none => .error (.denseShapeMismatch, y1.setBlock ix.1 d) := by
  obtain ⟨d, hd⟩ := SDArray.find_of_mem_tags y1 ix.1 (SDArray.mem_tags_of_reserve y y1 ix.1 h)
  refine ⟨d, hd, ?_⟩
  unfold l1Run blockCall kernelRun
  simp only [hd]
  cases kernel ix.2 d <;> rfl

/-- The serial loop without tolerance never returns when a tag of the source
cannot be reserved: it throws "could not be reserved", unless a dense kernel
throws on an earlier block. -/
theorem l1_serial_error (kernel : DArray → DArray → Option DArray)
    (xs : List (Int × DArray)) (y : SDArray) (p : Int × DArray) (hp : p ∈ xs)
    (hr : (y.reserve p.1).isSome = false) :
    ∃ e s, forLoop (l1Body kernel false) xs y = .error (e, s) ∧
      (e = .blockUnavailable ∨
        (e = .denseShapeMismatch ∧ ∃ q ∈ xs, ∃ d, kernel q.2 d = none)) := by
  induction xs generalizing y with
  | nil => cases hp
  | cons a as ih =>
    cases ha : y.reserve a.1 with
    | none =>
      refine ⟨.blockUnavailable, y, ?_, Or.inl rfl⟩
      simp [forLoop, l1Body, ha]
    | some y1 =>
      obtain ⟨d, hd, hrun⟩ := l1Run_after_reserve kernel a y y1 ha
      simp only [forLoop, l1Body_some _ _ _ _ _ ha, hrun]
      cases hk : kernel a.2 d with
      | none =>
        exact ⟨.denseShapeMismatch, _, rfl, Or.inr ⟨rfl, a, List.mem_cons_self _ _, d, hk⟩⟩
      | some d1 =>
        simp only
        rcases List.mem_cons.mp hp with h | h
        · subst h; rw [ha] at hr; exact Bool.noConfusion hr
        · have hr2 : ((y1.setBlock a.1 d1).reserve p.1).isSome = false := by
            rw [SDArray.sameFrame_reserve_isSome _ _ (SDArray.sameFrame_setBlock y1 a.1 d1),
              SDArray.reserve_isSome_congr y y1 a.1 ha]
            exact hr
          obtain ⟨e, s, hes, hkind⟩ := ih _ h hr2
          refine ⟨e, s, hes, ?_⟩
          rcases hkind with hkind | ⟨hkind, q, hq, hqd⟩
          · exact Or.inl hkind
          · exact Or.inr ⟨hkind, q, List.mem_cons_of_mem _ hq, hqd⟩

/-- The serial loop throws "could not be reserved" only without tolerance and
only when a tag of the source cannot be reserved. -/
theorem l1_serial_blockUnavailable (kernel : DArray → DArray → Option DArray) (tol : Bool)
    (xs : List (Int × DArray)) (y s : SDArray)
    (h : forLoop (l1Body kernel tol) xs y = .error (.blockUnavailable, s)) :
    tol = false ∧ ∃ p ∈ xs, (y.reserve p.1).isSome = false := by
  induction xs generalizing y with
  | nil => simp [forLoop] at h
  | cons a as ih =>
    cases ha : y.reserve a.1 with
    | none =>
      cases tol with
      | true =>
        simp only [forLoop, l1Body, ha, if_true] at h
        obtain ⟨h1, p, hp, hpr⟩ := ih _ h
        exact absurd h1 (by simp)
      | false =>
        exact ⟨rfl, a, List.mem_cons_self _ _, by rw [ha]; rfl⟩
    | some y1 =>
      obtain ⟨d, hd, hrun⟩ := l1Run_after_reserve kernel a y y1 ha
      simp only [forLoop, l1Body_some _ _ _ _ _ ha, hrun] at h
      cases hk : kernel a.2 d with
      | none =>
        rw [hk] at h
        simp at h
      | some d1 =>
        rw [hk] at h
        simp only at h
        obtain ⟨h1, p, hp, hpr⟩ := ih _ h
        refine ⟨h1, p, List.mem_cons_of_mem _ hp, ?_⟩
        rw [← SDArray.reserve_isSome_congr y y1 a.1 ha,
          ← SDArray.sameFrame_reserve_isSome _ _ (SDArray.sameFrame_setBlock y1 a.1 d1)]
        exact hpr

/-- The threaded routine without tolerance throws "could not be reserved"
exactly when a tag of the source cannot be reserved. -/
theorem l1_thread_blockUnavailable {τ : Type} (mk : Int × DArray → τ)
    (call : τ → SDArray → Outcome SDArray) (key : τ → Option Int)
    (run : τ → DArray → Except DArray DArray)
    (hcall : ∀ x c, call x c = blockCall (key x) (run x) c)
    (xs : List (Int × DArray)) (y : SDArray) :
    (∃ s, l1Thread mk call false xs y = .error (.blockUnavailable, s)) ↔
      ∃ p ∈ xs, (y.reserve p.1).isSome = false := by
  constructor
  · rintro ⟨s, hs⟩
    by_contra hne
    have hall : ∀ p ∈ xs, (y.reserve p.1).isSome = true := by
      intro p hp
      cases hps : (y.reserve p.1).isSome with
      | true => rfl
      | false => exact absurd ⟨p, hp, hps⟩ hne
    obtain ⟨st1, hst⟩ := l1Tasks_ok mk false xs ([], y) (Or.inr hall)
    unfold l1Thread at hs
    rw [hst] at hs
    simp only [parallel_call] at hs
    have := forLoop_blockCall_error_kind call key run hcall _ _ _ hs
    simp at this
  · rintro ⟨p, hp, hpr⟩
    obtain ⟨s, hs⟩ := l1Tasks_error mk xs ([], y) p hp hpr
    refine ⟨s, ?_⟩
    unfold l1Thread
    rw [hs]

/-! ## The level-1 loops keep the declared shape -/

theorem l1_serial_shape (kernel : DArray → DArray → Option DArray) (tol : Bool)
    (xs : List (Int × DArray)) (y : SDArray) :
    (Outcome.final (forLoop (l1Body kernel tol) xs y)).shape = y.shape ∧
      ∀ s, forLoop (l1Body kernel tol) xs y ≠ .error (.shapeMismatch, s) := by
  have := forLoop_invariant (l1Body kernel tol) (fun c => c.shape = y.shape)
    (fun e => e.2.shape = y.shape ∧ e.1 ≠ .shapeMismatch) (by
      intro ix c hc
      cases hres : c.reserve ix.1 with
      | none =>
        cases tol with
        | true => simp only [l1Body, hres, if_true]; exact hc
        | false =>
          simp only [l1Body, hres]
          exact ⟨hc, by simp⟩
      | some y1 =>
        rw [l1Body_some _ _ _ _ _ hres]
        obtain ⟨_, hsh, _⟩ := SDArray.reserve_some c y1 ix.1 hres
        have hfr := l1Run_frame kernel ix y1
        cases hrun : l1Run kernel ix y1 with
        | ok c2 =>
          rw [hrun] at hfr
          have hfr2 : c2.shape = y1.shape := hfr.2.2.1
          show c2.shape = y.shape
          rw [hfr2, hsh, hc]
        | error e =>
          rw [hrun] at hfr
          have hfr2 : e.2.shape = y1.shape := hfr.2.2.1
          refine ⟨?_, ?_⟩
          · show e.2.shape = y.shape
            rw [hfr2, hsh, hc]
          · rcases blockCall_error_kind _ _ _ _ hrun with h1 | h1 <;> rw [h1] <;> simp) xs y rfl
  cases hf : forLoop (l1Body kernel tol) xs y with
  | ok c =>
    rw [hf] at this
    exact ⟨this, by intro s; simp⟩
  | error e =>
    rw [hf] at this
    refine ⟨this.1, ?_⟩
    intro s hs
    cases hs
    exact this.2 rfl

theorem l1_thread_shape {τ : Type} (mk : Int × DArray → τ)
    (call : τ → SDArray → Outcome SDArray) (key : τ → Option Int)
    (run : τ → DArray → Except DArray DArray)
    (hcall : ∀ x c, call x c = blockCall (key x) (run x) c) (tol : Bool)
    (xs : List (Int × DArray)) (y : SDArray) :
    (Outcome.final (l1Thread mk call tol xs y)).shape = y.shape ∧
      ∀ s, l1Thread mk call tol xs y ≠ .error (.shapeMismatch, s) := by
  have hbuild := forLoop_invariant (l1TaskBody mk tol) (fun st => st.2.shape = y.shape)
    (fun e => e.2.shape = y.shape ∧ e.1 ≠ .shapeMismatch) (by
      intro ix st hst
      unfold l1TaskBody
      cases hres : st.2.reserve ix.1 with
      | none =>
        cases tol with
        | true => exact hst
        | false => exact ⟨hst, by simp⟩
      | some y1 =>
        obtain ⟨_, hsh, _⟩ := SDArray.reserve_some st.2 y1 ix.1 hres
        show y1.shape = y.shape
        rw [hsh, hst]) xs ([], y) rfl
  unfold l1Thread
  cases hb : forLoop (l1TaskBody mk tol) xs ([], y) with
  | error e =>
    rw [hb] at hbuild
    refine ⟨hbuild.1, ?_⟩
    intro s hs
    cases hs
    exact hbuild.2 rfl
  | ok st =>
    rw [hb] at hbuild
    obtain ⟨tl, y1⟩ := st
    simp only at hbuild ⊢
    have hfr := parallel_call_frame call (fun t c => by
      rw [hcall]; exact blockCall_frame _ _ _) tl y1
    refine ⟨by rw [hfr.2.2.1, hbuild], ?_⟩
    intro s hs
    unfold parallel_call at hs
    have := forLoop_blockCall_error_kind call key run hcall _ _ _ hs
    simp at this


/-! ## Entries of the dense level-1 kernels -/

theorem at0_of_length_le (l : List Int) (i : Nat) (h : l.length ≤ i) : at0 l i = 0 := by
  unfold at0
  rw [List.getD_eq_default _ _ h]

theorem list_eq_of_at0 (l1 l2 : List Int) (hlen : l1.length = l2.length)
    (h : ∀ i, at0 l1 i = at0 l2 i) : l1 = l2 := by
  apply List.ext_getElem hlen
  intro i h1 h2
  have := h i
  unfold at0 at this
  rw [List.getD_eq_getElem _ _ h1, List.getD_eq_getElem _ _ h2] at this
  exact this

theorem darray_eq_of_entries (d1 d : DArray) (hw1 : d1.WF) (hw : d.WF)
    (hsh : d1.shape = d.shape) (h : ∀ i, at0 d1.data i = at0 d.data i) : d1 = d := by
  have hlen : d1.data.length = d.data.length := by
    unfold DArray.WF at hw1 hw
    rw [hw1, hw, hsh]
  have hdata := list_eq_of_at0 _ _ hlen h
  cases d1
  cases d
  simp only at hsh hdata
  rw [hsh, hdata]

theorem length_copy (n : Nat) (x y : List Int) : (detail.copy n x y).length = y.length := by
  unfold detail.copy
  simp

theorem length_axpy (n : Nat) (alpha : Int) (x y : List Int) :
    (detail.axpy n alpha x y).length = y.length := by
  unfold detail.axpy
  simp

theorem at0_copy (n : Nat) (x y : List Int) (i : Nat) (h : i < y.length) :
    at0 (detail.copy n x y) i = if i < n then at0 x i else at0 y i := by
  unfold detail.copy
  rw [at0_map_range _ _ _ h]

theorem at0_axpy (n : Nat) (alpha : Int) (x y : List Int) (i : Nat) (h : i < y.length) :
    at0 (detail.axpy n alpha x y) i
      = if i < n then alpha * at0 x i + at0 y i else at0 y i := by
  unfold detail.axpy
  rw [at0_map_range _ _ _ h]

/-- `Copy` of a well-formed array with elements makes the destination equal to it. -/
theorem Copy_eq (x y : DArray) (hw : x.WF) (hpos : 0 < x.size) : Copy x y = x := by
  unfold Copy
  rw [if_neg (by omega)]
  have hz := zeros_facts x.shape
  refine darray_eq_of_entries ⟨x.shape, detail.copy x.size x.data (DArray.zeros x.shape).data⟩ x ?_ hw rfl ?_
  rotate_left
  · intro i
    simp only
    by_cases hi : i < (DArray.zeros x.shape).data.length
    · rw [at0_copy _ _ _ _ hi]
      have : i < x.size := by
        unfold DArray.size
        unfold DArray.WF at hw
        rw [hw, ← hz.2.2.1]
        exact hi
      rw [if_pos this]
    · have h1 : (detail.copy x.size x.data (DArray.zeros x.shape).data).length ≤ i := by
        rw [length_copy]; omega
      rw [at0_of_length_le _ _ h1, at0_of_length_le]
      unfold DArray.WF at hw
      rw [hw, ← hz.2.2.1]
      omega
  · unfold DArray.WF
    simp only
    rw [length_copy]
    exact hz.2.2.1

theorem Dcopy_eq (x y : DArray) (hw : x.WF) (hpos : 0 < x.size) : Dcopy x y = x :=
  Copy_eq x y hw hpos

/-- Entries of `Axpy` when it returns: every element is `alpha * x[i] + y[i]`
(an element an array does not have counting as `0`); the result has the shape
of a non-empty `y`, else of a non-empty `x`; an empty `x` changes nothing. -/
theorem Axpy_entries (alpha : Int) (x y d1 : DArray) (hx : x.WF) (hy : y.WF)
    (h : Axpy alpha x y = some d1) :
    d1.WF ∧ (0 < x.size → d1.shape = x.shape) ∧ (0 < y.size → d1.shape = y.shape) ∧
      (x.size = 0 → d1 = y) ∧
      ∀ i, at0 d1.data i = alpha * at0 x.data i + at0 y.data i := by
  unfold DArray.WF at hx hy
  unfold Axpy at h
  split at h
  · rename_i h0
    cases h
    refine ⟨hy, fun hp => absurd h0 (by omega), fun _ => rfl, fun _ => rfl, ?_⟩
    intro i
    have : x.data = [] := List.length_eq_zero.mp h0
    rw [this, at0_nil]
    ring
  · rename_i h0
    split at h
    · rename_i hy0
      split at h
      · rename_i hsh
        cases h
        have hlen : y.data.length = x.data.length := by rw [hx, hy, hsh]
        refine ⟨?_, fun _ => hsh.symm, fun _ => rfl, fun hp => absurd hp h0, ?_⟩
        · unfold DArray.WF
          simp only
          rw [length_axpy]
          exact hy
        · intro i
          simp only
          by_cases hi : i < y.data.length
          · rw [at0_axpy _ _ _ _ _ hi, if_pos (by unfold DArray.size; omega)]
          · rw [at0_of_length_le _ _ (by rw [length_axpy]; omega),
              at0_of_length_le x.data i (by omega), at0_of_length_le y.data i (by omega)]
            ring
      · cases h
    · rename_i hy0
      cases h
      have hz := zeros_facts x.shape
      have hyd : y.data = [] := List.length_eq_zero.mp (by unfold DArray.size at hy0; omega)
      refine ⟨?_, fun _ => rfl, fun hp => absurd hp hy0, fun hp => absurd hp h0, ?_⟩
      · unfold DArray.WF
        simp only
        rw [length_axpy]
        exact hz.2.2.1
      · intro i
        simp only
        rw [hyd, at0_nil]
        by_cases hi : i < (DArray.zeros x.shape).data.length
        · rw [at0_axpy _ _ _ _ _ hi, if_pos (by unfold DArray.size; rw [hx, ← hz.2.2.1]; exact hi),
            hz.2.2.2.2.2]
        · rw [at0_of_length_le _ _ (by rw [length_axpy]; omega),
            at0_of_length_le x.data i (by rw [hx, ← hz.2.2.1]; omega)]
          ring

theorem Daxpy_entries (alpha : Int) (x y d1 : DArray) (hx : x.WF) (hy : y.WF)
    (h : Daxpy alpha x y = some d1) :
    d1.WF ∧ (0 < x.size → d1.shape = x.shape) ∧ (0 < y.size → d1.shape = y.shape) ∧
      (x.size = 0 → d1 = y) ∧
      ∀ i, at0 d1.data i = alpha * at0 x.data i + at0 y.data i :=
  Axpy_entries alpha x y d1 hx hy h

/-- `Dot` of two arrays of one shape is their dot product. -/
theorem Ddot_of_shape (x y : DArray) (h : x.shape = y.shape) :
    Ddot x y = some (detail.dot x.size x.data y.data) := by
  unfold Ddot Dot
  rw [if_pos h]

theorem Ddot_none_iff (x y : DArray) : Ddot x y = none ↔ x.shape ≠ y.shape := by
  unfold Ddot Dot
  by_cases h : x.shape = y.shape
  · simp [h]
  · simp [h]

/-! ## Blocks found in a sorted tensor -/

namespace SDArray

theorem mem_store_of_find (x : SDArray) (t : Int) (d : DArray) (h : x.find t = some d) :
    (t, d) ∈ x.store := by
  unfold find at h
  cases hf : x.store.find? (fun p => p.1 == t) with
  | none => rw [hf] at h; cases h
  | some p =>
    rw [hf] at h
    simp only [Option.map_some', Option.some.injEq] at h
    have hm := List.mem_of_find?_eq_some hf
    have hp := List.find?_some hf
    have hp1 : p.1 = t := by simpa using hp
    have : p = (t, d) := by
      cases p
      simp only at hp1 h
      rw [hp1, h]
    rw [← this]
    exact hm

theorem find_of_mem_store (x : SDArray) (hs : x.Sorted) (p : Int × DArray)
    (hp : p ∈ x.store) : x.find p.1 = some p.2 := by
  have hmem : p.1 ∈ x.tags := List.mem_map_of_mem _ hp
  obtain ⟨d, hd⟩ := find_of_mem_tags x p.1 hmem
  have hq := mem_store_of_find x p.1 d hd
  have := store_entry_unique x hs p (p.1, d) hp hq rfl
  rw [hd]
  rw [this]

theorem wf_of_find (x : SDArray) (hw : x.BlocksWF) (t : Int) (d : DArray)
    (h : x.find t = some d) : d.WF :=
  hw (t, d) (mem_store_of_find x t d h)

theorem store_keys_nodup (x : SDArray) (hs : x.Sorted) : (x.store.map Prod.fst).Nodup :=
  List.Pairwise.nodup hs

theorem resize_of_empty (y : SDArray) (sh : List Nat) (h0 : y.size = 0) (hsh : sh = y.shape) :
    y.resize sh = y := by
  have : y.store = [] := List.length_eq_zero.mp h0
  cases y
  simp only at this hsh
  simp only [resize, this, hsh]

end SDArray


/-! ## Shape handling of `SDcopy` and `SDaxpy` -/

theorem copy_loops_shape (serial : Bool) (x y : SDArray) (Do_up_cast : Bool) :
    (Outcome.final (if serial = true then SerialSDcopy x y Do_up_cast
        else ThreadSDcopy x y Do_up_cast)).shape = y.shape ∧
      ∀ s, (if serial = true then SerialSDcopy x y Do_up_cast
        else ThreadSDcopy x y Do_up_cast) ≠ .error (.shapeMismatch, s) := by
  cases serial with
  | true =>
    simp only [if_true]
    rw [SerialSDcopy_eq]
    exact l1_serial_shape _ _ _ _
  | false =>
    simp only [Bool.false_eq_true, if_false]
    rw [ThreadSDcopy_eq]
    exact l1_thread_shape _ Dcopy_arglist.call (fun l => some l.m_arglist.2)
      (fun l => kernelRun fun d => some (Dcopy l.m_arglist.1 d)) (fun _ _ => rfl) _ _ _

theorem axpy_loops_shape (serial : Bool) (alpha : Int) (x y : SDArray) :
    (Outcome.final (if serial = true then SerialSDaxpy alpha x y
        else ThreadSDaxpy alpha x y)).shape = y.shape ∧
      ∀ s, (if serial = true then SerialSDaxpy alpha x y
        else ThreadSDaxpy alpha x y) ≠ .error (.shapeMismatch, s) := by
  cases serial with
  | true =>
    simp only [if_true]
    rw [SerialSDaxpy_eq]
    exact l1_serial_shape _ _ _ _
  | false =>
    simp only [Bool.false_eq_true, if_false]
    rw [ThreadSDaxpy_eq]
    exact l1_thread_shape _ Daxpy_arglist.call (fun l => some l.m_arglist.2)
      (fun l => kernelRun (Daxpy l.m_alpha l.m_arglist.1)) (fun _ _ => rfl) _ _ _

theorem SDcopy_no_up_cast (serial : Bool) (x y : SDArray) :
    SDcopy serial x y false
      = if serial = true then SerialSDcopy x (y.resize x.shape) false
        else ThreadSDcopy x (y.resize x.shape) false := by
  unfold SDcopy
  simp only [Bool.false_eq_true, if_false]

theorem SDcopy_up_cast (serial : Bool) (x y : SDArray) (h : x.shape = y.shape) :
    SDcopy serial x y true
      = if serial = true then SerialSDcopy x y true else ThreadSDcopy x y true := by
  unfold SDcopy
  simp only [if_true, ne_eq, h, not_true_eq_false, if_false]

theorem SDaxpy_loops (serial : Bool) (alpha : Int) (x y : SDArray)
    (h : ¬ (0 < y.size ∧ x.shape ≠ y.shape)) :
    SDaxpy serial alpha x y
      = if serial = true
        then SerialSDaxpy alpha x (if 0 < y.size then y else y.resize x.shape)
        else ThreadSDaxpy alpha x (if 0 < y.size then y else y.resize x.shape) := by
  unfold SDaxpy
  rw [if_neg h]

/-- C13: `SDcopy` without up-cast leaves `y`, whether it returns or throws,
with the shape of `x`, whatever shape `y` declared, and never throws the
shape-mismatch error; `SDcopy` with up-cast throws the shape-mismatch error if
and only if the shapes of `x` and `y` differ, and the tensor at that throw is
`y` itself (no block reserved, none written). -/
theorem SDcopy_shape (serial : Bool) (x y : SDArray) :
    ((Outcome.final (SDcopy serial x y false)).shape = x.shape ∧
      ∀ s, SDcopy serial x y false ≠ .error (.shapeMismatch, s)) ∧
    ((∃ s, SDcopy serial x y true = .error (.shapeMismatch, s)) ↔ x.shape ≠ y.shape) ∧
    (x.shape ≠ y.shape → SDcopy serial x y true = .error (.shapeMismatch, y)) := by
  have hmis : x.shape ≠ y.shape → SDcopy serial x y true = .error (.shapeMismatch, y) := by
    intro h
    unfold SDcopy
    simp only [if_true]
    rw [if_pos h]
  refine ⟨?_, ⟨?_, fun h => ⟨y, hmis h⟩⟩, hmis⟩
  · rw [SDcopy_no_up_cast]
    exact copy_loops_shape serial x (y.resize x.shape) false
  · rintro ⟨s, hs⟩ heq
    rw [SDcopy_up_cast serial x y heq] at hs
    exact (copy_loops_shape serial x y true).2 s hs

/-- C17: `SDaxpy` throws the shape-mismatch error if and only if `y` holds at
least one block and the shape of `y` differs from the shape of `x`; when `y`
holds no block the call is the call on `y` resized to the shape of `x`, the
destination ends with the shape of `x` whatever shape it declared, and no
shape-mismatch error is thrown. -/
theorem SDaxpy_shape (serial : Bool) (alpha : Int) (x y : SDArray) :
    ((∃ s, SDaxpy serial alpha x y = .error (.shapeMismatch, s)) ↔
        (0 < y.size ∧ y.shape ≠ x.shape)) ∧
    (0 < y.size ∧ y.shape ≠ x.shape →
        SDaxpy serial alpha x y = .error (.shapeMismatch, y)) ∧
    (y.size = 0 →
        SDaxpy serial alpha x y = SDaxpy serial alpha x (y.resize x.shape) ∧
        (Outcome.final (SDaxpy serial alpha x y)).shape = x.shape ∧
        ∀ s, SDaxpy serial alpha x y ≠ .error (.shapeMismatch, s)) := by
  have hmis : 0 < y.size ∧ y.shape ≠ x.shape →
      SDaxpy serial alpha x y = .error (.shapeMismatch, y) := by
    intro h
    unfold SDaxpy
    rw [if_pos ⟨h.1, fun e => h.2 e.symm⟩]
  refine ⟨⟨?_, fun h => ⟨y, hmis h⟩⟩, hmis, ?_⟩
  · rintro ⟨s, hs⟩
    by_contra hne
    have hn : ¬ (0 < y.size ∧ x.shape ≠ y.shape) := fun h => hne ⟨h.1, fun e => h.2 e.symm⟩
    rw [SDaxpy_loops serial alpha x y hn] at hs
    exact (axpy_loops_shape serial alpha x _).2 s hs
  · intro h0
    have hn : ¬ (0 < y.size ∧ x.shape ≠ y.shape) := fun h => by omega
    have hn2 : ¬ (0 < (y.resize x.shape).size ∧ x.shape ≠ (y.resize x.shape).shape) :=
      fun h => h.2 rfl
    have h1 : ¬ 0 < y.size := by omega
    have h2 : ¬ 0 < (y.resize x.shape).size := by
      show ¬ 0 < ([] : List (Int × DArray)).length
      simp
    have hres : (y.resize x.shape).resize x.shape = y.resize x.shape := rfl
    rw [SDaxpy_loops serial alpha x y hn, SDaxpy_loops serial alpha x _ hn2, if_neg h1,
      if_neg h2, hres]
    exact ⟨rfl, axpy_loops_shape serial alpha x (y.resize x.shape)⟩


/-! ## `SDcopy` and a block that cannot be reserved -/

theorem copy_loops_returned (serial : Bool) (x y : SDArray) (Do_up_cast : Bool) :
    returned (if serial = true then SerialSDcopy x y Do_up_cast
        else ThreadSDcopy x y Do_up_cast)
      = returned (forLoop (l1Body (fun a d => some (Dcopy a d)) Do_up_cast) x.store y) := by
  cases serial with
  | true => simp only [if_true]; rw [SerialSDcopy_eq]
  | false =>
    simp only [Bool.false_eq_true, if_false]
    rw [ThreadSDcopy_returned, SerialSDcopy_eq]

theorem axpy_loops_returned (serial : Bool) (alpha : Int) (x y : SDArray) :
    returned (if serial = true then SerialSDaxpy alpha x y else ThreadSDaxpy alpha x y)
      = returned (forLoop (l1Body (Daxpy alpha) false) x.store y) := by
  cases serial with
  | true => simp only [if_true]; rw [SerialSDaxpy_eq]
  | false =>
    simp only [Bool.false_eq_true, if_false]
    rw [ThreadSDaxpy_returned, SerialSDaxpy_eq]

/-- A serial level-1 loop whose dense kernel never throws returns, unless a
reservation fails and is not tolerated. -/
theorem l1_serial_ok_of_total (kernel : DArray → DArray → Option DArray) (tol : Bool)
    (htot : ∀ a d, ∃ d1, kernel a d = some d1)
    (xs : List (Int × DArray)) (y : SDArray)
    (hr : tol = true ∨ ∀ p ∈ xs, (y.reserve p.1).isSome = true) :
    ∃ y1, forLoop (l1Body kernel tol) xs y = .ok y1 := by
  induction xs generalizing y with
  | nil => exact ⟨y, rfl⟩
  | cons a as ih =>
    cases ha : y.reserve a.1 with
    | none =>
      have htol : tol = true := by
        rcases hr with hr | hr
        · exact hr
        · have := hr a (List.mem_cons_self _ _)
          rw [ha] at this
          exact Bool.noConfusion this
      simp only [forLoop, l1Body, ha, htol, if_true]
      rw [htol] at ih
      exact ih y (Or.inl rfl)
    | some y1 =>
      obtain ⟨d, hd, hrun⟩ := l1Run_after_reserve kernel a y y1 ha
      obtain ⟨d1, hd1⟩ := htot a.2 d
      simp only [forLoop, l1Body_some _ _ _ _ _ ha, hrun, hd1]
      apply ih
      rcases hr with hr | hr
      · exact Or.inl hr
      · right
        intro q hq
        rw [SDArray.sameFrame_reserve_isSome _ _ (SDArray.sameFrame_setBlock y1 a.1 d1),
          SDArray.reserve_isSome_congr y y1 a.1 ha]
        exact hr q (List.mem_cons_of_mem _ hq)

theorem copy_loops_error (serial : Bool) (x y : SDArray)
    (h : ∃ t ∈ x.tags, (y.reserve t).isSome = false) :
    ∃ s, (if serial = true then SerialSDcopy x y false else ThreadSDcopy x y false)
      = .error (.blockUnavailable, s) := by
  obtain ⟨t, ht, hres⟩ := h
  obtain ⟨p, hp, hpt⟩ := List.mem_map.mp ht
  rw [← hpt] at hres
  cases serial with
  | true =>
    simp only [if_true]
    rw [SerialSDcopy_eq]
    obtain ⟨e, s, hes, hkind⟩ := l1_serial_error (fun a d => some (Dcopy a d)) x.store y p hp hres
    rcases hkind with hkind | ⟨_, q, _, d, hqd⟩
    · rw [hkind] at hes
      exact ⟨s, hes⟩
    · cases hqd
  | false =>
    simp only [Bool.false_eq_true, if_false]
    rw [ThreadSDcopy_eq]
    exact (l1_thread_blockUnavailable _ Dcopy_arglist.call (fun l => some l.m_arglist.2)
      (fun l => kernelRun fun d => some (Dcopy l.m_arglist.1 d)) (fun _ _ => rfl)
      x.store y).mpr ⟨p, hp, hres⟩

theorem find_none_of_unreservable (y : SDArray) (t : Int)
    (h : (y.reserve t).isSome = false) : y.find t = none := by
  rw [SDArray.find_eq_none_iff]
  intro hm
  have := (SDArray.reserve_isSome_iff y t).mpr (Or.inl hm)
  rw [h] at this
  exact Bool.noConfusion this

/-- The up-cast loops return, with the reservable blocks of `x` copied and the
others passed over. -/
theorem copy_loops_up_cast (serial : Bool) (x y : SDArray) (hx : x.Sorted) :
    ∃ y1, (if serial = true then SerialSDcopy x y true else ThreadSDcopy x y true) = .ok y1 ∧
      (∀ p ∈ x.store, (y.reserve p.1).isSome = true →
        y1.find p.1 = some (Dcopy p.2 (destBlock y p.1))) ∧
      (∀ p ∈ x.store, (y.reserve p.1).isSome = false → y1.find p.1 = none) := by
  obtain ⟨y1, hy1⟩ := l1_serial_ok_of_total (fun a d => some (Dcopy a d)) true
    (fun a d => ⟨_, rfl⟩) x.store y (Or.inl rfl)
  have hret : returned (if serial = true then SerialSDcopy x y true
      else ThreadSDcopy x y true) = some y1 := by
    rw [copy_loops_returned, hy1]
    rfl
  obtain ⟨_, _, hfind, hother⟩ := l1_returned_find (fun a d => some (Dcopy a d)) true x.store y y1
    (SDArray.store_keys_nodup x hx) (by rw [hy1]; rfl)
  refine ⟨y1, (returned_some_iff _ _).mp hret, ?_, ?_⟩
  · intro p hp hres
    obtain ⟨d1, hk, hf⟩ := hfind p hp hres
    cases hk
    exact hf
  · intro p hp hres
    rw [hother p.1 (fun _ _ _ => hres)]
    exact find_none_of_unreservable y p.1 hres

/-- C12: for `SDcopy(x, y, Do_up_cast)` and a stored tag of `x` whose
reservation in `y` returns absent. Without up-cast (where `y` is first resized
to the shape of `x`) the call throws "requested block ... could not be
reserved". With up-cast (on tensors of one shape, so that the loop is reached)
the call returns; the block is passed over, no block is stored at its tag;
every block of `x` whose tag can be reserved is copied by `Dcopy` to that tag,
which makes the block of `y` equal to a block of `x` that has elements. -/
theorem SDcopy_missing_block (serial : Bool) (x y : SDArray) (hx : x.Sorted) :
    ((∃ t ∈ x.tags, ((y.resize x.shape).reserve t).isSome = false) →
        ∃ s, SDcopy serial x y false = .error (.blockUnavailable, s)) ∧
    (x.shape = y.shape → ∃ y1, SDcopy serial x y true = .ok y1 ∧
        (∀ p ∈ x.store, (y.reserve p.1).isSome = true →
            y1.find p.1 = some (Dcopy p.2 (destBlock y p.1)) ∧
            (p.2.WF → 0 < p.2.size → y1.find p.1 = some p.2)) ∧
        (∀ p ∈ x.store, (y.reserve p.1).isSome = false → y1.find p.1 = none)) := by
  constructor
  · intro h
    rw [SDcopy_no_up_cast]
    exact copy_loops_error serial x _ h
  · intro hsh
    rw [SDcopy_up_cast serial x y hsh]
    obtain ⟨y1, hok, hcopied, hskipped⟩ := copy_loops_up_cast serial x y hx
    refine ⟨y1, hok, ?_, hskipped⟩
    intro p hp hres
    refine ⟨hcopied p hp hres, ?_⟩
    intro hw hpos
    rw [hcopied p hp hres, Dcopy_eq p.2 _ hw hpos]

/-- Witness of C12: the two-block source `pairX` and the empty destination
`gateY`, which allows tag `0` only. Without up-cast the call throws
"could not be reserved"; with up-cast it returns, the block at tag `0` is
copied and nothing is stored at tag `1`. -/
theorem SDcopy_missing_block_witness :
    pairX.Sorted ∧
      (∃ s, SDcopy false pairX gateY false = .error (.blockUnavailable, s)) ∧
      (∃ y1, SDcopy false pairX gateY true = .ok y1 ∧
        y1.find 0 = some ⟨[2], [1, 2]⟩ ∧ y1.find 1 = none) := by
  have h := SDcopy_missing_block false pairX gateY (by decide)
  refine ⟨by decide, h.1 ⟨1, by decide, by decide⟩, ?_⟩
  obtain ⟨y1, hok, hcopied, hskipped⟩ := h.2 rfl
  refine ⟨y1, hok, ?_, ?_⟩
  · exact (hcopied (0, ⟨[2], [1, 2]⟩) (by decide) (by decide)).2 (by decide) (by decide)
  · exact hskipped (1, ⟨[2], [3, 4]⟩) (by decide) (by decide)


/-! ## Blocks of the destination after `SDaxpy` -/

theorem SDaxpy_same_shape (serial : Bool) (alpha : Int) (x y : SDArray)
    (hsh : x.shape = y.shape) :
    SDaxpy serial alpha x y
      = if serial = true then SerialSDaxpy alpha x y else ThreadSDaxpy alpha x y := by
  rw [SDaxpy_loops serial alpha x y (fun h => h.2 hsh)]
  by_cases h0 : 0 < y.size
  · simp only [if_pos h0]
  · simp only [if_neg h0]
    rw [SDArray.resize_of_empty y x.shape (by omega) hsh]

/-- The tensor the loop of `SDaxpy` starts from stores what `y` stores. -/
theorem axpy_start (x y : SDArray) :
    (if 0 < y.size then y else y.resize x.shape).store = y.store ∧
    (if 0 < y.size then y else y.resize x.shape).allowed = y.allowed ∧
    (if 0 < y.size then y else y.resize x.shape).blockShape = y.blockShape := by
  by_cases h0 : 0 < y.size
  · simp only [if_pos h0, and_self]
  · simp only [if_neg h0]
    have : y.store = [] := List.length_eq_zero.mp (by unfold SDArray.size at h0; omega)
    exact ⟨by rw [this]; rfl, rfl, rfl⟩

theorem find_congr_store (y0 y : SDArray) (h : y0.store = y.store) (t : Int) :
    y0.find t = y.find t := by
  unfold SDArray.find
  rw [h]

theorem destBlock_congr (y0 y : SDArray) (h : y0.store = y.store)
    (hb : y0.blockShape = y.blockShape) (t : Int) : destBlock y0 t = destBlock y t := by
  unfold destBlock
  rw [find_congr_store y0 y h, hb]

/-- The destination of an `SDaxpy` that returns, serial or threaded: its tags
are those of `y` and of `x`; the block at a tag of `x` is what `Daxpy` makes
of the block found there; the other blocks are those of `y`. -/
theorem SDaxpy_returned_find (serial : Bool) (alpha : Int) (x y y1 : SDArray)
    (hx : x.Sorted) (h : SDaxpy serial alpha x y = .ok y1) :
    (∀ t, t ∈ y1.tags ↔ t ∈ y.tags ∨ t ∈ x.tags) ∧
    (∀ p ∈ x.store, ∃ d1, Daxpy alpha p.2 (destBlock y p.1) = some d1 ∧
        y1.find p.1 = some d1) ∧
    (∀ t, t ∉ x.tags → y1.find t = y.find t) ∧
    y1.shape = x.shape ∧ y1.allowed = y.allowed ∧ y1.blockShape = y.blockShape := by
  have hn : ¬ (0 < y.size ∧ x.shape ≠ y.shape) := by
    intro hm
    unfold SDaxpy at h
    rw [if_pos hm] at h
    cases h
  rw [SDaxpy_loops serial alpha x y hn] at h
  obtain ⟨hst, hal, hbs⟩ := axpy_start x y
  have hsh0 : (if 0 < y.size then y else y.resize x.shape).shape = x.shape := by
    by_cases h0 : 0 < y.size
    · simp only [if_pos h0]
      by_contra hne
      exact hn ⟨h0, fun e => hne e.symm⟩
    · simp only [if_neg h0]
      rfl
  have hret := axpy_loops_returned serial alpha x (if 0 < y.size then y else y.resize x.shape)
  rw [h] at hret
  have hret2 : returned (forLoop (l1Body (Daxpy alpha) false) x.store
      (if 0 < y.size then y else y.resize x.shape)) = some y1 := hret.symm
  have hres := l1_serial_returned_reservable (Daxpy alpha) x.store _ y1 hret2
  obtain ⟨⟨h1al, h1sh, h1bs⟩, htags, hfind, hother⟩ := l1_returned_find (Daxpy alpha) false
    x.store _ y1 (SDArray.store_keys_nodup x hx) hret2
  have htags0 : (if 0 < y.size then y else y.resize x.shape).tags = y.tags := by
    unfold SDArray.tags
    rw [hst]
  refine ⟨?_, ?_, ?_, by rw [h1sh, hsh0], by rw [h1al, hal], by rw [h1bs, hbs]⟩
  · intro t
    rw [htags, htags0]
    constructor
    · rintro (h1 | ⟨p, hp, hpt, _⟩)
      · exact Or.inl h1
      · exact Or.inr (by rw [← hpt]; exact List.mem_map_of_mem _ hp)
    · rintro (h1 | h1)
      · exact Or.inl h1
      · obtain ⟨p, hp, hpt⟩ := List.mem_map.mp h1
        exact Or.inr ⟨p, hp, hpt, by rw [← hpt]; exact hres p hp⟩
  · intro p hp
    obtain ⟨d1, hk, hf⟩ := hfind p hp (hres p hp)
    rw [destBlock_congr _ y hst hbs] at hk
    exact ⟨d1, hk, hf⟩
  · intro t ht
    rw [hother t (fun p hp hpt => absurd (by rw [← hpt]; exact List.mem_map_of_mem _ hp) ht),
      find_congr_store _ y hst]

theorem destBlock_wf (y : SDArray) (hw : ∀ t d, y.find t = some d → d.WF) (t : Int) :
    (destBlock y t).WF := by
  unfold destBlock
  cases hf : y.find t with
  | some d => exact hw t d hf
  | none => exact (zeros_facts _).1

theorem destBlock_zero (y : SDArray) (t : Int) (h : t ∉ y.tags) (i : Nat) :
    at0 (destBlock y t).data i = 0 := by
  rw [destBlock_of_not_mem y t h]
  exact (zeros_facts _).2.2.2.2.2 i

/-- C15: after an `SDaxpy(alpha, x, y)` that returns, serial or threaded, on
well-formed blocks. At every tag `t` stored in `x` the block of `y` has the
entries `alpha * x[t][i] + y_before[t][i]` (and the shape of `x[t]` when that
has elements), where `y_before[t]` is `destBlock y t`: the block `y` stored
at `t`, or the zero block when `t` was not stored; a block of `y` at a tag
not stored in `x` is unchanged, none appears there; the stored tags are those
of `y` before together with those of `x`. -/
theorem SDaxpy_blocks (serial : Bool) (alpha : Int) (x y y1 : SDArray)
    (hx : x.Sorted) (hxw : x.BlocksWF) (hyw : y.BlocksWF)
    (h : SDaxpy serial alpha x y = .ok y1) :
    (∀ p ∈ x.store, ∃ d1, y1.find p.1 = some d1 ∧
        (0 < p.2.size → d1.shape = p.2.shape) ∧
        ∀ i, at0 d1.data i = alpha * at0 p.2.data i + at0 (destBlock y p.1).data i) ∧
    (∀ t d, y.find t = some d → destBlock y t = d) ∧
    (∀ t, t ∉ y.tags → ∀ i, at0 (destBlock y t).data i = 0) ∧
    (∀ t, t ∉ x.tags → y1.find t = y.find t) ∧
    (∀ t, t ∈ y1.tags ↔ t ∈ y.tags ∨ t ∈ x.tags) := by
  obtain ⟨htags, hfind, hother, _⟩ := SDaxpy_returned_find serial alpha x y y1 hx h
  refine ⟨?_, destBlock_of_find y, destBlock_zero y, hother, htags⟩
  intro p hp
  obtain ⟨d1, hk, hf⟩ := hfind p hp
  obtain ⟨_, hshape, _, _, hent⟩ := Daxpy_entries alpha p.2 (destBlock y p.1) d1 (hxw p hp)
    (destBlock_wf y (SDArray.wf_of_find y hyw) p.1) hk
  exact ⟨d1, hf, hshape, hent⟩

/-- Witness of C15: `SDaxpy(2, pairX, halfY)` returns `halfY + 2 * pairX`; tag
`1`, which `halfY` did not store, holds `2 * pairX[1]`. -/
theorem SDaxpy_blocks_witness :
    pairX.Sorted ∧ pairX.BlocksWF ∧ halfY.BlocksWF ∧
      SDaxpy false 2 pairX halfY = .ok halfY2 ∧
      (∀ t, t ∈ halfY2.tags ↔ t ∈ halfY.tags ∨ t ∈ pairX.tags) :=
  have h : SDaxpy false 2 pairX halfY = .ok halfY2 := rfl
  ⟨by decide, by decide, by decide, h,
    (SDaxpy_blocks false 2 pairX halfY halfY2 (by decide) (by decide) (by decide) h).2.2.2.2⟩


/-! ## `SDaxpy` and a block that cannot be reserved -/

/-- Counterexample to C16 as stated: in the serial build, `pairX` and `misfitY`
have one shape and tag `1` of `pairX` cannot be reserved in `misfitY`, yet the
call does not throw "could not be reserved": `Daxpy` throws first, on the block
at tag `0`. -/
theorem SDaxpy_block_unavailable_counterexample :
    pairX.shape = misfitY.shape ∧
    (∃ t ∈ pairX.tags, (misfitY.reserve t).isSome = false) ∧
    thrown (SDaxpy true 1 pairX misfitY) = some .denseShapeMismatch ∧
    ¬ ∃ s, SDaxpy true 1 pairX misfitY = .error (.blockUnavailable, s) := by
  have hthrown : thrown (SDaxpy true 1 pairX misfitY) = some .denseShapeMismatch := by decide
  refine ⟨rfl, ⟨1, by decide, by decide⟩, hthrown, ?_⟩
  rintro ⟨s, hs⟩
  rw [hs] at hthrown
  simp [thrown] at hthrown

/-- C16, amended: for `x` and `y` of one shape. The threaded `SDaxpy` throws
"could not be reserved" if and only if some tag stored in `x` cannot be
reserved in `y`. The serial `SDaxpy` throws it only then; and when some tag of
`x` cannot be reserved the serial call never returns: it throws "could not be
reserved", unless `Daxpy` throws on a block of `x` visited before. There is no
argument of the call that tolerates the missing block. -/
theorem SDaxpy_block_unavailable (alpha : Int) (x y : SDArray) (hsh : x.shape = y.shape) :
    ((∃ s, SDaxpy false alpha x y = .error (.blockUnavailable, s)) ↔
        ∃ t ∈ x.tags, (y.reserve t).isSome = false) ∧
    ((∃ s, SDaxpy true alpha x y = .error (.blockUnavailable, s)) →
        ∃ t ∈ x.tags, (y.reserve t).isSome = false) ∧
    ((∃ t ∈ x.tags, (y.reserve t).isSome = false) →
        ∃ e s, SDaxpy true alpha x y = .error (e, s) ∧
          (e = .blockUnavailable ∨
            (e = .denseShapeMismatch ∧ ∃ q ∈ x.store, ∃ d, Daxpy alpha q.2 d = none))) := by
  have hmem : (∃ p ∈ x.store, (y.reserve p.1).isSome = false) ↔
      ∃ t ∈ x.tags, (y.reserve t).isSome = false := by
    constructor
    · rintro ⟨p, hp, hr⟩
      exact ⟨p.1, List.mem_map_of_mem _ hp, hr⟩
    · rintro ⟨t, ht, hr⟩
      obtain ⟨p, hp, hpt⟩ := List.mem_map.mp ht
      exact ⟨p, hp, by rw [hpt]; exact hr⟩
  refine ⟨?_, ?_, ?_⟩
  · rw [SDaxpy_same_shape false alpha x y hsh, ← hmem]
    simp only [Bool.false_eq_true, if_false]
    rw [ThreadSDaxpy_eq]
    exact l1_thread_blockUnavailable _ Daxpy_arglist.call (fun l => some l.m_arglist.2)
      (fun l => kernelRun (Daxpy l.m_alpha l.m_arglist.1)) (fun _ _ => rfl) x.store y
  · rw [SDaxpy_same_shape true alpha x y hsh, ← hmem]
    simp only [if_true]
    rw [SerialSDaxpy_eq]
    rintro ⟨s, hs⟩
    exact (l1_serial_blockUnavailable (Daxpy alpha) false x.store y s hs).2
  · rw [SDaxpy_same_shape true alpha x y hsh, ← hmem]
    simp only [if_true]
    rw [SerialSDaxpy_eq]
    rintro ⟨p, hp, hr⟩
    exact l1_serial_error (Daxpy alpha) x.store y p hp hr

/-- Witness of C16 (amended): `pairX` into `gateY`, which allows tag `0` only;
the threaded call throws "could not be reserved". -/
theorem SDaxpy_block_unavailable_witness :
    pairX.shape = gateY.shape ∧
      ∃ s, SDaxpy false 1 pairX gateY = .error (.blockUnavailable, s) :=
  ⟨rfl, (SDaxpy_block_unavailable 1 pairX gateY rfl).1.mpr ⟨1, by decide, by decide⟩⟩


/-! ## `SDaxpy` with `alpha = 0`, and the round trip `alpha`, `-alpha` -/

/-- Blocks after an `SDaxpy` that returns, when the blocks `y` returns are
well-formed: the new block at a tag of `x` is well-formed, keeps the shape of
a block with elements found there, and has the entries
`alpha * x[t][i] + y_before[t][i]`. -/
theorem SDaxpy_entries (serial : Bool) (alpha : Int) (x y y1 : SDArray)
    (hx : x.Sorted) (hxw : x.BlocksWF) (hyw : ∀ t d, y.find t = some d → d.WF)
    (h : SDaxpy serial alpha x y = .ok y1) :
    (∀ p ∈ x.store, ∃ d1, y1.find p.1 = some d1 ∧ d1.WF ∧
        (0 < (destBlock y p.1).size → d1.shape = (destBlock y p.1).shape) ∧
        ∀ i, at0 d1.data i = alpha * at0 p.2.data i + at0 (destBlock y p.1).data i) ∧
    (∀ t d, y1.find t = some d → d.WF) := by
  obtain ⟨htags, hfind, hother, _⟩ := SDaxpy_returned_find serial alpha x y y1 hx h
  have hfirst : ∀ p ∈ x.store, ∃ d1, y1.find p.1 = some d1 ∧ d1.WF ∧
      (0 < (destBlock y p.1).size → d1.shape = (destBlock y p.1).shape) ∧
      ∀ i, at0 d1.data i = alpha * at0 p.2.data i + at0 (destBlock y p.1).data i := by
    intro p hp
    obtain ⟨d1, hk, hf⟩ := hfind p hp
    obtain ⟨hwf, _, hshape, _, hent⟩ := Daxpy_entries alpha p.2 (destBlock y p.1) d1
      (hxw p hp) (destBlock_wf y hyw p.1) hk
    exact ⟨d1, hf, hwf, hshape, hent⟩
  refine ⟨hfirst, ?_⟩
  intro t d hd
  by_cases ht : t ∈ x.tags
  · obtain ⟨p, hp, hpt⟩ := List.mem_map.mp ht
    obtain ⟨d1, hf, hwf, _⟩ := hfirst p hp
    rw [hpt, hd] at hf
    cases hf
    exact hwf
  · rw [hother t ht] at hd
    exact hyw t d hd

/-- Counterexample to C18 as stated: `pairX` and the empty `scenarioY 2` have
one shape and every tag of `pairX` can be reserved, yet after
`SDaxpy(0, pairX, scenarioY 2)` the destination stores two (all-zero) blocks
where it stored none. -/
theorem SDaxpy_zero_counterexample :
    pairX.shape = (scenarioY 2).shape ∧
    (∀ t ∈ pairX.tags, (((scenarioY 2).reserve t).isSome = true)) ∧
    SDaxpy false 0 pairX (scenarioY 2) = .ok zeroPair ∧
    SDaxpy true 0 pairX (scenarioY 2) = .ok zeroPair ∧
    zeroPair.tags ≠ (scenarioY 2).tags :=
  ⟨rfl, by decide, rfl, rfl, by decide⟩

/-- C18, amended: an `SDaxpy(0, x, y)` that returns, serial or threaded, on
well-formed blocks. Every block `y` stored is still stored with the same
entries, and is the same block when it has elements; at every tag of `x` that
`y` did not store, `y` now stores an all-zero block: the stored tags are those
of `y` together with those of `x`, and they are the stored tags of `y` before
the call only when `y` stored every tag of `x`. -/
theorem SDaxpy_zero (serial : Bool) (x y y1 : SDArray)
    (hx : x.Sorted) (hxw : x.BlocksWF) (hyw : y.BlocksWF)
    (h : SDaxpy serial 0 x y = .ok y1) :
    (∀ t, t ∈ y1.tags ↔ t ∈ y.tags ∨ t ∈ x.tags) ∧
    (∀ t d, y.find t = some d → ∃ d1, y1.find t = some d1 ∧
        (∀ i, at0 d1.data i = at0 d.data i) ∧ (0 < d.size → d1 = d)) ∧
    (∀ t, t ∈ x.tags → t ∉ y.tags → ∃ d1, y1.find t = some d1 ∧
        ∀ i, at0 d1.data i = 0) := by
  obtain ⟨htags, _, hother, _⟩ := SDaxpy_returned_find serial 0 x y y1 hx h
  obtain ⟨hent, _⟩ := SDaxpy_entries serial 0 x y y1 hx hxw (SDArray.wf_of_find y hyw) h
  refine ⟨htags, ?_, ?_⟩
  · intro t d hd
    by_cases ht : t ∈ x.tags
    · obtain ⟨p, hp, hpt⟩ := List.mem_map.mp ht
      obtain ⟨d1, hf, hwf, hshape, hi⟩ := hent p hp
      rw [hpt] at hf hshape hi
      rw [destBlock_of_find y t d hd] at hshape hi
      have hsame : ∀ i, at0 d1.data i = at0 d.data i := by
        intro i
        rw [hi i]
        ring
      exact ⟨d1, hf, hsame, fun hpos =>
        darray_eq_of_entries d1 d hwf (SDArray.wf_of_find y hyw t d hd) (hshape hpos) hsame⟩
    · exact ⟨d, by rw [hother t ht]; exact hd, fun _ => rfl, fun _ => rfl⟩
  · intro t ht hny
    obtain ⟨p, hp, hpt⟩ := List.mem_map.mp ht
    obtain ⟨d1, hf, _, _, hi⟩ := hent p hp
    rw [hpt] at hf hi
    refine ⟨d1, hf, ?_⟩
    intro i
    rw [hi i, destBlock_zero y t hny i]
    ring

/-- Witness of C18 (amended): `SDaxpy(0, pairX, halfY)` returns `halfY` with an
all-zero block added at tag `1`; the block at tag `0` is unchanged. -/
theorem SDaxpy_zero_witness :
    pairX.Sorted ∧ pairX.BlocksWF ∧ halfY.BlocksWF ∧
      SDaxpy false 0 pairX halfY = .ok halfY0 ∧
      (∀ t, t ∈ halfY0.tags ↔ t ∈ halfY.tags ∨ t ∈ pairX.tags) :=
  have h : SDaxpy false 0 pairX halfY = .ok halfY0 := rfl
  ⟨by decide, by decide, by decide, h,
    (SDaxpy_zero false pairX halfY halfY0 (by decide) (by decide) (by decide) h).1⟩

/-- Counterexample to C19 as stated: `pairX` and the empty `scenarioY 2` have
one shape and every tag of `pairX` can be reserved, yet after
`SDaxpy(3, ...)` followed by `SDaxpy(-3, ...)` the destination stores two
(all-zero) blocks where it stored none. -/
theorem SDaxpy_round_trip_counterexample :
    pairX.shape = (scenarioY 2).shape ∧
    (∀ t ∈ pairX.tags, (((scenarioY 2).reserve t).isSome = true)) ∧
    SDaxpy false 3 pairX (scenarioY 2) = .ok triplePair ∧
    SDaxpy false (-3) pairX triplePair = .ok zeroPair ∧
    zeroPair.tags ≠ (scenarioY 2).tags :=
  ⟨rfl, by decide, rfl, rfl, by decide⟩

/-- C19, amended: `SDaxpy(alpha, x, y)` followed by `SDaxpy(-alpha, x, y)`,
both returning, serial or threaded, on well-formed blocks. Every block `y`
stored before the two calls is stored after them with the same entries, and is
the same block when it has elements; at every tag of `x` that `y` did not
store, `y` ends with an all-zero block: the stored tags are those of `y`
before together with those of `x`. -/
theorem SDaxpy_round_trip (serial : Bool) (alpha : Int) (x y y1 y2 : SDArray)
    (hx : x.Sorted) (hxw : x.BlocksWF) (hyw : y.BlocksWF)
    (h1 : SDaxpy serial alpha x y = .ok y1) (h2 : SDaxpy serial (-alpha) x y1 = .ok y2) :
    (∀ t, t ∈ y2.tags ↔ t ∈ y.tags ∨ t ∈ x.tags) ∧
    (∀ t d, y.find t = some d → ∃ d2, y2.find t = some d2 ∧
        (∀ i, at0 d2.data i = at0 d.data i) ∧ (0 < d.size → d2 = d)) ∧
    (∀ t, t ∈ x.tags → t ∉ y.tags → ∃ d2, y2.find t = some d2 ∧
        ∀ i, at0 d2.data i = 0) := by
  obtain ⟨htags1, _, hother1, _⟩ := SDaxpy_returned_find serial alpha x y y1 hx h1
  obtain ⟨htags2, _, hother2, _⟩ := SDaxpy_returned_find serial (-alpha) x y1 y2 hx h2
  obtain ⟨hent1, hwf1⟩ := SDaxpy_entries serial alpha x y y1 hx hxw
    (SDArray.wf_of_find y hyw) h1
  obtain ⟨hent2, _⟩ := SDaxpy_entries serial (-alpha) x y1 y2 hx hxw hwf1 h2
  have hboth : ∀ p ∈ x.store, ∃ d1 d2, y1.find p.1 = some d1 ∧ y2.find p.1 = some d2 ∧
      d1.WF ∧ d2.WF ∧
      (0 < (destBlock y p.1).size → d1.shape = (destBlock y p.1).shape) ∧
      (0 < d1.size → d2.shape = d1.shape) ∧
      ∀ i, at0 d2.data i = at0 (destBlock y p.1).data i := by
    intro p hp
    obtain ⟨d1, hf1, hw1, hs1, hi1⟩ := hent1 p hp
    obtain ⟨d2, hf2, hw2, hs2, hi2⟩ := hent2 p hp
    rw [destBlock_of_find y1 p.1 d1 hf1] at hs2 hi2
    refine ⟨d1, d2, hf1, hf2, hw1, hw2, hs1, hs2, ?_⟩
    intro i
    rw [hi2 i, hi1 i]
    ring
  refine ⟨?_, ?_, ?_⟩
  · intro t
    rw [htags2, htags1]
    tauto
  · intro t d hd
    by_cases ht : t ∈ x.tags
    · obtain ⟨p, hp, hpt⟩ := List.mem_map.mp ht
      obtain ⟨d1, d2, _, hf2, hw1, hw2, hs1, hs2, hi⟩ := hboth p hp
      rw [hpt] at hf2 hs1 hi
      rw [destBlock_of_find y t d hd] at hs1 hi
      refine ⟨d2, hf2, hi, ?_⟩
      intro hpos
      have hwd := SDArray.wf_of_find y hyw t d hd
      have hsh1 := hs1 hpos
      have hpos1 : 0 < d1.size := by
        unfold DArray.size at hpos ⊢
        unfold DArray.WF at hw1 hwd
        rw [hw1, hsh1, ← hwd]
        exact hpos
      exact darray_eq_of_entries d2 d hw2 hwd (by rw [hs2 hpos1, hsh1]) hi
    · exact ⟨d, by rw [hother2 t ht, hother1 t ht]; exact hd, fun _ => rfl, fun _ => rfl⟩
  · intro t ht hny
    obtain ⟨p, hp, hpt⟩ := List.mem_map.mp ht
    obtain ⟨d1, d2, _, hf2, _, _, _, _, hi⟩ := hboth p hp
    rw [hpt] at hf2 hi
    refine ⟨d2, hf2, ?_⟩
    intro i
    rw [hi i, destBlock_zero y t hny i]

/-- Witness of C19 (amended): `SDaxpy(2, pairX, halfY)` then
`SDaxpy(-2, pairX, ...)` ends in `halfY` with an all-zero block added at tag
`1`; the block at tag `0` is restored. -/
theorem SDaxpy_round_trip_witness :
    pairX.Sorted ∧ pairX.BlocksWF ∧ halfY.BlocksWF ∧
      SDaxpy false 2 pairX halfY = .ok halfY2 ∧
      SDaxpy false (-2) pairX halfY2 = .ok halfY0 ∧
      (∀ t, t ∈ halfY0.tags ↔ t ∈ halfY.tags ∨ t ∈ pairX.tags) :=
  have h1 : SDaxpy false 2 pairX halfY = .ok halfY2 := rfl
  have h2 : SDaxpy false (-2) pairX halfY2 = .ok halfY0 := rfl
  ⟨by decide, by decide, by decide, h1, h2,
    (SDaxpy_round_trip false 2 pairX halfY halfY2 halfY0 (by decide) (by decide)
      (by decide) h1 h2).1⟩


/-! ## `SDdot` as a sum over the common tags -/

theorem SerialSDdot_loop (y : SDArray) (xs : List (Int × DArray)) (acc : Int) :
    forLoop (SerialSDdot_body y) xs acc
      = sumDots (xs.filterMap fun ix => (y.find ix.1).map fun iy => (ix.2, iy)) acc := by
  induction xs generalizing acc with
  | nil => rfl
  | cons ix rest ih =>
    simp only [forLoop, SerialSDdot_body, List.filterMap_cons]
    cases hf : y.find ix.1 with
    | none =>
      simp only [Option.map_none']
      exact ih acc
    | some iy =>
      simp only [Option.map_some', sumDots]
      cases Ddot ix.2 iy with
      | none => rfl
      | some v => exact ih (acc + v)

theorem SerialSDdot_eq (x y : SDArray) : SerialSDdot x y = sumDots (commonBlocks x y) 0 :=
  SerialSDdot_loop y x.store 0

theorem sumDots_ok (l : List (DArray × DArray)) (acc : Int)
    (h : ∀ pr ∈ l, pr.1.shape = pr.2.shape) :
    sumDots l acc
      = .ok (acc + (l.map fun pr => detail.dot pr.1.size pr.1.data pr.2.data).sum) := by
  induction l generalizing acc with
  | nil => simp [sumDots]
  | cons pr rest ih =>
    simp only [sumDots, Ddot_of_shape pr.1 pr.2 (h pr (List.mem_cons_self _ _))]
    rw [ih _ (fun q hq => h q (List.mem_cons_of_mem _ hq))]
    simp only [List.map_cons, List.sum_cons]
    rw [Int.add_assoc]

theorem filter_map_eq_filterMap {α β γ : Type} (l : List α) (k : α → β) (P : β → Bool)
    (f : β → γ) :
    ((l.map k).filter P).map f
      = l.filterMap fun a => if P (k a) = true then some (f (k a)) else none := by
  induction l with
  | nil => rfl
  | cons a as ih =>
    simp only [List.map_cons, List.filter_cons, List.filterMap_cons]
    cases hP : P (k a) with
    | true => simp only [if_true, List.map_cons, ih]
    | false => simp only [Bool.false_eq_true, if_false, ih]

/-- On a sorted `x` the block pairs `SerialSDdot` multiplies are the pairs
`(x[t], y[t])` over the common tags `t`, in ascending order. -/
theorem commonBlocks_eq (x y : SDArray) (hx : x.Sorted) :
    commonBlocks x y = (commonTags x y).map fun t => (destBlock x t, destBlock y t) := by
  unfold commonBlocks commonTags SDArray.tags
  rw [filter_map_eq_filterMap]
  apply List.filterMap_congr
  intro ix hix
  cases hf : y.find ix.1 with
  | none =>
    have hnot : ix.1 ∉ List.map Prod.fst y.store := (SDArray.find_eq_none_iff y ix.1).mp hf
    simp only [Option.map_none', decide_eq_true_eq]
    rw [if_neg hnot]
  | some iy =>
    have hmem : ix.1 ∈ List.map Prod.fst y.store := by
      have h1 : ix.1 ∈ y.tags := by
        rw [← SDArray.find_isSome_iff, hf]
        rfl
      exact h1
    simp only [Option.map_some', decide_eq_true_eq]
    rw [if_pos hmem, destBlock_of_find x ix.1 ix.2 (SDArray.find_of_mem_store x hx ix hix),
      destBlock_of_find y ix.1 iy hf]

theorem mem_commonTags (x y : SDArray) (t : Int) :
    t ∈ commonTags x y ↔ t ∈ x.tags ∧ t ∈ y.tags := by
  unfold commonTags
  simp [List.mem_filter]

/-- C20: `SDdot(x, y)` on a sorted `x`. The tags stored in both tensors,
`commonTags x y`, are visited in ascending order, and the blocks found there
are `x[t]` and `y[t]`. For operands of one shape the result is the dense dot
products `Ddot(x[t], y[t])` over these tags added up in that order, throwing
when a `Ddot` throws; it is the sum of the element-wise products when the
blocks of every common tag have one shape, and `0` when no tag is common. For
operands of different shapes the call throws the size-mismatch error. `SDdot`
reads its operands through `find` and returns a number only: no block is
stored in `x` or `y`. -/
theorem SDdot_sum (x y : SDArray) (hx : x.Sorted) :
    (commonTags x y).Pairwise (· < ·) ∧
    (∀ t, t ∈ commonTags x y ↔ t ∈ x.tags ∧ t ∈ y.tags) ∧
    (∀ t ∈ commonTags x y,
        x.find t = some (destBlock x t) ∧ y.find t = some (destBlock y t)) ∧
    (x.shape = y.shape →
        SDdot x y
          = sumDots ((commonTags x y).map fun t => (destBlock x t, destBlock y t)) 0) ∧
    (x.shape = y.shape →
        (∀ t ∈ commonTags x y, (destBlock x t).shape = (destBlock y t).shape) →
        SDdot x y = .ok ((commonTags x y).map fun t =>
          detail.dot (destBlock x t).size (destBlock x t).data (destBlock y t).data).sum) ∧
    (x.shape = y.shape → (∀ t ∈ x.tags, t ∉ y.tags) → SDdot x y = .ok 0) ∧
    (x.shape ≠ y.shape → SDdot x y = .error .shapeMismatch) := by
  have hdot : x.shape = y.shape →
      SDdot x y
        = sumDots ((commonTags x y).map fun t => (destBlock x t, destBlock y t)) 0 := by
    intro hsh
    unfold SDdot
    rw [if_neg (fun h => h hsh), SerialSDdot_eq, commonBlocks_eq x y hx]
  refine ⟨?_, mem_commonTags x y, ?_, hdot, ?_, ?_, ?_⟩
  · exact List.Pairwise.sublist (List.filter_sublist _) hx
  · intro t ht
    obtain ⟨h1, h2⟩ := (mem_commonTags x y t).mp ht
    obtain ⟨d, hd⟩ := SDArray.find_of_mem_tags x t h1
    obtain ⟨e, he⟩ := SDArray.find_of_mem_tags y t h2
    rw [destBlock_of_find x t d hd, destBlock_of_find y t e he]
    exact ⟨hd, he⟩
  · intro hsh hblocks
    rw [hdot hsh, sumDots_ok]
    · simp only [List.map_map, Int.zero_add]
      rfl
    · intro pr hpr
      obtain ⟨t, ht, rfl⟩ := List.mem_map.mp hpr
      exact hblocks t ht
  · intro hsh hdis
    have hnil : commonTags x y = [] := by
      apply List.eq_nil_iff_forall_not_mem.mpr
      intro t ht
      obtain ⟨h1, h2⟩ := (mem_commonTags x y t).mp ht
      exact hdis t h1 h2
    rw [hdot hsh, hnil]
    rfl
  · intro hsh
    unfold SDdot
    rw [if_pos hsh]

/-- Witness of C20: `pairX` and `halfY` have tag `0` in common;
`SDdot = 1 * 10 + 2 * 20`. -/
theorem SDdot_sum_witness : pairX.Sorted ∧ SDdot pairX halfY = .ok 50 :=
  ⟨by decide,
    ((SDdot_sum pairX halfY (by decide)).2.2.2.2.1 rfl (by decide)).trans rfl⟩


/-! ## `SDcopy` followed by `SDdot` -/

theorem commonBlocks_of_copy (x z : SDArray) (h : ∀ p ∈ x.store, z.find p.1 = some p.2) :
    commonBlocks x z = x.store.map fun p => (p.2, p.2) := by
  unfold commonBlocks
  rw [← List.filterMap_eq_map]
  apply List.filterMap_congr
  intro p hp
  rw [h p hp]
  rfl

/-- Counterexample to C14 as stated: `hollowX` stores a block without
elements, of shape `0 × 3`. `SDcopy(hollowX, hollowY)` returns; `Dcopy` has
cleared the block of the destination, whose shape is then not `0 × 3`, so
`SDdot` of `hollowX` and the copy throws in `Ddot`, while
`SDdot(hollowX, hollowX)` is `0`. -/
theorem SDcopy_then_SDdot_counterexample :
    SDcopy false hollowX hollowY false = .ok hollowCopy ∧
    SDcopy true hollowX hollowY false = .ok hollowCopy ∧
    SDdot hollowX hollowCopy = .error .denseShapeMismatch ∧
    SDdot hollowX hollowX = .ok 0 ∧
    SDdot hollowX hollowCopy ≠ SDdot hollowX hollowX := by
  have h1 : SDdot hollowX hollowCopy = .error .denseShapeMismatch := rfl
  have h2 : SDdot hollowX hollowX = .ok 0 := rfl
  refine ⟨rfl, rfl, h1, h2, ?_⟩
  rw [h1, h2]
  intro h
  cases h

/-- C14, amended: for a sorted `x` whose stored blocks are well-formed and
have at least one element each, and every `y`: after an `SDcopy(x, y)` without
up-cast that returns, serial or threaded, `y` stores at every tag stored in
`x` the block of `x`, and `SDdot(x, y)` equals `SDdot(x, x)`, the sum of the
squares of the elements of `x`. -/
theorem SDcopy_then_SDdot (serial : Bool) (x y y1 : SDArray) (hx : x.Sorted)
    (hxw : x.BlocksWF) (hne : ∀ p ∈ x.store, 0 < p.2.size)
    (h : SDcopy serial x y false = .ok y1) :
    (∀ p ∈ x.store, y1.find p.1 = some p.2) ∧
    SDdot x y1 = SDdot x x ∧
    SDdot x x = .ok (x.store.map fun p => detail.dot p.2.size p.2.data p.2.data).sum := by
  rw [SDcopy_no_up_cast] at h
  have hret := copy_loops_returned serial x (y.resize x.shape) false
  rw [h] at hret
  have hret2 : returned (forLoop (l1Body (fun a d => some (Dcopy a d)) false) x.store
      (y.resize x.shape)) = some y1 := hret.symm
  have hres := l1_serial_returned_reservable _ x.store _ y1 hret2
  obtain ⟨⟨_, hsh, _⟩, _, hfind, _⟩ := l1_returned_find (fun a d => some (Dcopy a d)) false
    x.store _ y1 (SDArray.store_keys_nodup x hx) hret2
  have hcopied : ∀ p ∈ x.store, y1.find p.1 = some p.2 := by
    intro p hp
    obtain ⟨d1, hk, hf⟩ := hfind p hp (hres p hp)
    cases hk
    rw [hf, Dcopy_eq p.2 _ (hxw p hp) (hne p hp)]
  have hshape : x.shape = y1.shape := by
    rw [hsh]
    rfl
  have hself : SDdot x x = sumDots (x.store.map fun p => (p.2, p.2)) 0 := by
    unfold SDdot
    rw [if_neg (fun h => h rfl), SerialSDdot_eq,
      commonBlocks_of_copy x x (fun p hp => SDArray.find_of_mem_store x hx p hp)]
  refine ⟨hcopied, ?_, ?_⟩
  · rw [hself]
    unfold SDdot
    rw [if_neg (fun h => h hshape), SerialSDdot_eq, commonBlocks_of_copy x y1 hcopied]
  · rw [hself, sumDots_ok]
    · simp only [List.map_map, Int.zero_add]
      rfl
    · intro pr hpr
      obtain ⟨p, _, rfl⟩ := List.mem_map.mp hpr
      rfl

/-- Witness of C14 (amended): `pairX` copied into `halfY`; both dot products
are `1 + 4 + 9 + 16`. -/
theorem SDcopy_then_SDdot_witness :
    pairX.Sorted ∧ pairX.BlocksWF ∧ (∀ p ∈ pairX.store, 0 < p.2.size) ∧
      SDcopy false pairX halfY false = .ok pairCopy ∧
      SDdot pairX pairCopy = SDdot pairX pairX ∧ SDdot pairX pairX = .ok 30 :=
  have h : SDcopy false pairX halfY false = .ok pairCopy := rfl
  have hc := SDcopy_then_SDdot false pairX halfY pairCopy (by decide) (by decide)
    (by decide) h
  ⟨by decide, by decide, by decide, h, hc.2.1, hc.2.2.trans rfl⟩


/-! ## The dense `Axpy` case by case -/

theorem at0_map_mul (alpha : Int) (l : List Int) (i : Nat) :
    at0 (l.map (alpha * ·)) i = alpha * at0 l i := by
  unfold at0
  by_cases h : i < l.length
  · rw [List.getD_eq_getElem _ _ (by rw [List.length_map]; exact h),
      List.getD_eq_getElem _ _ h, List.getElem_map]
  · rw [List.getD_eq_default _ _ (by rw [List.length_map]; omega),
      List.getD_eq_default _ _ (by omega)]
    ring

/-- C25: the dense `Axpy(alpha, x, y)` on well-formed arrays. An `x` without
elements leaves `y` as it is. Otherwise a `y` without elements ends with the
shape of `x` and the elements `alpha * x[i]`; and when both have elements the
call throws if and only if the shapes differ, and on equal shapes `y` keeps
its shape and element `i` becomes `alpha * x[i] + y[i]`. -/
theorem Axpy_cases (alpha : Int) (x y : DArray) (hx : x.WF) (hy : y.WF) :
    (x.size = 0 → Axpy alpha x y = some y) ∧
    (0 < x.size → y.size = 0 →
        Axpy alpha x y = some ⟨x.shape, x.data.map (alpha * ·)⟩) ∧
    (0 < x.size → 0 < y.size → (Axpy alpha x y = none ↔ x.shape ≠ y.shape)) ∧
    (0 < x.size → 0 < y.size → x.shape = y.shape →
        ∃ d, Axpy alpha x y = some d ∧ d.shape = y.shape ∧
          d.data.length = y.data.length ∧
          ∀ i < y.data.length, at0 d.data i = alpha * at0 x.data i + at0 y.data i) := by
  refine ⟨?_, ?_, ?_, ?_⟩
  · intro h0
    unfold Axpy
    rw [if_pos h0]
  · intro hpos h0
    have hcall : Axpy alpha x y = some ⟨x.shape,
        detail.axpy x.size alpha x.data (DArray.zeros x.shape).data⟩ := by
      unfold Axpy
      rw [if_neg (by omega), if_neg (by omega)]
    obtain ⟨hwf, _, _, _, hent⟩ := Axpy_entries alpha x y _ hx hy hcall
    rw [hcall]
    congr 1
    have hyd : y.data = [] := List.length_eq_zero.mp h0
    refine darray_eq_of_entries _ ⟨x.shape, x.data.map (alpha * ·)⟩ hwf ?_ rfl ?_
    · unfold DArray.WF at hx ⊢
      simp only [List.length_map]
      exact hx
    · intro i
      rw [hent i, hyd, at0_nil, at0_map_mul]
      ring
  · intro hpos hypos
    unfold Axpy
    rw [if_neg (by omega), if_pos hypos]
    by_cases hsh : x.shape = y.shape
    · simp [hsh]
    · simp [hsh]
  · intro hpos hypos hsh
    have hcall : Axpy alpha x y
        = some { y with data := detail.axpy x.size alpha x.data y.data } := by
      unfold Axpy
      rw [if_neg (by omega), if_pos hypos, if_pos hsh]
    obtain ⟨_, _, _, _, hent⟩ := Axpy_entries alpha x y _ hx hy hcall
    exact ⟨_, hcall, rfl, length_axpy _ _ _ _, fun i _ => hent i⟩

/-- Witness of C25: `Axpy(3, (1, 2), (10, 20))` ends with `(13, 26)`. -/
theorem Axpy_cases_witness :
    vec12.WF ∧ vec1020.WF ∧ Axpy 3 vec12 vec1020 = some ⟨[2], [13, 26]⟩ ∧
      ∃ d, Axpy 3 vec12 vec1020 = some d ∧ d.shape = vec1020.shape ∧
        d.data.length = vec1020.data.length ∧
        ∀ i < vec1020.data.length,
          at0 d.data i = 3 * at0 vec12.data i + at0 vec1020.data i :=
  ⟨by decide, by decide, by decide,
    (Axpy_cases 3 vec12 vec1020 (by decide) (by decide)).2.2.2 (by decide) (by decide) rfl⟩

/-! ## The dense `Gemm` case by case -/

/-- Counterexample to C26 as stated: `thinA` (`2 × 0`) and `thinB` (`0 × 2`)
fit the contraction with a zero contracted extent, and have no element, so
`Gemm` returns at once. A `2 × 2` destination of ones is not multiplied by
`beta = 2` (entry `0` stays `1`, where `alpha * op(a) * op(b) + beta * c` is
`2`); a destination without elements is not resized to `2 × 2`; and a
non-empty destination of another shape does not make the call throw. -/
theorem Gemm_cases_counterexample :
    Gemm .NoTrans .NoTrans 1 thinA thinB 2 ones2 = some ones2 ∧
    at0 ones2.data 0 ≠ 1 * Gemm_product .NoTrans .NoTrans thinA thinB 2 0
      + 2 * at0 ones2.data 0 ∧
    (gemm_contract_shape .NoTrans .NoTrans 1 thinA.shape thinB.shape).2 = [2, 2] ∧
    Gemm .NoTrans .NoTrans 1 thinA thinB 2 none2 = some none2 ∧
    Gemm .NoTrans .NoTrans 1 thinA thinB 2 row3 = some row3 := by
  refine ⟨by decide, by decide, by decide, by decide, by decide⟩

/-- C26, amended: the dense `Gemm` case by case. When `a` or `b` has no
element the call returns at once and `c` is left as it is. When both have
elements, the call throws if and only if `c` has elements and a shape other
than the contraction shape; otherwise a `c` without elements is first resized
to the contraction shape and zero-filled, and element `idx` of the result is
`alpha * (op(a) * op(b))[idx] + beta * c[idx]`. -/
theorem Gemm_cases (transa transb : BTAS_TRANSPOSE) (alpha : Int) (a b : DArray)
    (beta : Int) (c : DArray) :
    ((a.size = 0 ∨ b.size = 0) → Gemm transa transb alpha a b beta c = some c) ∧
    (a.size ≠ 0 → b.size ≠ 0 →
      (Gemm transa transb alpha a b beta c = none ↔
        (0 < c.size ∧ c.shape ≠ (gemm_contract_shape transa transb
          ((a.rank + b.rank - c.rank) / 2) a.shape b.shape).2))) ∧
    (a.size ≠ 0 → b.size ≠ 0 → ∀ c1, Gemm transa transb alpha a b beta c = some c1 →
      c1.shape = (if 0 < c.size then c.shape
        else (gemm_contract_shape transa transb ((a.rank + b.rank - c.rank) / 2)
          a.shape b.shape).2) ∧
      c1.data.length = (gemm_contract_shape transa transb ((a.rank + b.rank - c.rank) / 2)
          a.shape b.shape).2.prod ∧
      ∀ idx < c1.data.length,
        at0 c1.data idx = alpha * Gemm_product transa transb a b c.rank idx
          + beta * (if 0 < c.size then at0 c.data idx else 0)) := by
  refine ⟨?_, ?_, ?_⟩
  · intro h0
    unfold Gemm
    simp only
    rw [if_pos h0]
  · intro ha hb
    unfold Gemm
    simp only
    rw [if_neg (by rw [not_or]; exact ⟨ha, hb⟩)]
    split
    · rename_i hc
      exact ⟨fun _ => hc, fun _ => rfl⟩
    · rename_i hc
      exact ⟨fun h => absurd h (by simp), fun h => absurd h hc⟩
  · intro ha hb c1 h
    rcases Gemm_some transa transb alpha a b beta c c1 h with ⟨h0, _⟩ | ⟨_, _, h1, h2, h3⟩
    · rcases h0 with h0 | h0
      · exact absurd h0 ha
      · exact absurd h0 hb
    · exact ⟨h1, h2, h3⟩


/-! ## Symmetry of `SDdot` -/

theorem sorted_list_ext (l1 l2 : List Int) (h1 : l1.Pairwise (· < ·))
    (h2 : l2.Pairwise (· < ·)) (h : ∀ t, t ∈ l1 ↔ t ∈ l2) : l1 = l2 :=
  List.eq_of_perm_of_sorted ((List.perm_ext_iff_of_nodup h1.nodup h2.nodup).mpr h) h1 h2

theorem commonTags_sorted (x y : SDArray) (hx : x.Sorted) :
    (commonTags x y).Pairwise (· < ·) :=
  List.Pairwise.sublist (List.filter_sublist _) hx

/-- The tags stored in both tensors are met in one order from either side. -/
theorem commonTags_comm (x y : SDArray) (hx : x.Sorted) (hy : y.Sorted) :
    commonTags x y = commonTags y x := by
  apply sorted_list_ext _ _ (commonTags_sorted x y hx) (commonTags_sorted y x hy)
  intro t
  rw [mem_commonTags, mem_commonTags]
  exact And.comm

/-- The dense dot product of well-formed arrays is symmetric. -/
theorem Ddot_comm (d e : DArray) (hd : d.WF) (he : e.WF) : Ddot d e = Ddot e d := by
  unfold Ddot Dot
  by_cases hsh : d.shape = e.shape
  · rw [if_pos hsh, if_pos hsh.symm]
    have hsz : d.size = e.size := by
      unfold DArray.size
      unfold DArray.WF at hd he
      rw [hd, he, hsh]
    unfold detail.dot
    rw [hsz]
    congr 2
    apply List.map_congr_left
    intro i _
    ring
  · rw [if_neg hsh, if_neg (fun h => hsh h.symm)]

theorem sumDots_congr (ts : List Int) (F G : Int → DArray × DArray) (acc : Int)
    (h : ∀ t ∈ ts, Ddot (F t).1 (F t).2 = Ddot (G t).1 (G t).2) :
    sumDots (ts.map F) acc = sumDots (ts.map G) acc := by
  induction ts generalizing acc with
  | nil => rfl
  | cons t rest ih =>
    simp only [List.map_cons, sumDots]
    rw [h t (List.mem_cons_self _ _)]
    cases Ddot (G t).1 (G t).2 with
    | none => rfl
    | some v => exact ih _ (fun q hq => h q (List.mem_cons_of_mem _ hq))

theorem SDdot_eq_sum (x y : SDArray) (hx : x.Sorted) (hsh : x.shape = y.shape) :
    SDdot x y = sumDots ((commonTags x y).map fun t => (destBlock x t, destBlock y t)) 0 := by
  unfold SDdot
  rw [if_neg (fun h => h hsh), SerialSDdot_eq, commonBlocks_eq x y hx]

/-- C21: `SDdot(x, y) = SDdot(y, x)` for sorted tensors. Both calls visit the
same list of common tags, in ascending order, and add the dense dot products
of the blocks found there in that order; so the results agree when `Ddot`
is symmetric on the block pair of every common tag, which it is on
well-formed blocks. (When the shapes differ both calls throw the
size-mismatch error.) -/
theorem SDdot_symm (x y : SDArray) (hx : x.Sorted) (hy : y.Sorted) :
    commonTags x y = commonTags y x ∧
    (commonTags x y).Pairwise (· < ·) ∧
    ((∀ t ∈ commonTags x y,
        Ddot (destBlock x t) (destBlock y t) = Ddot (destBlock y t) (destBlock x t)) →
      SDdot x y = SDdot y x) ∧
    (x.BlocksWF → y.BlocksWF → SDdot x y = SDdot y x) := by
  have hcomm := commonTags_comm x y hx hy
  have hsym : (∀ t ∈ commonTags x y,
        Ddot (destBlock x t) (destBlock y t) = Ddot (destBlock y t) (destBlock x t)) →
      SDdot x y = SDdot y x := by
    intro hd
    by_cases hsh : x.shape = y.shape
    · rw [SDdot_eq_sum x y hx hsh, SDdot_eq_sum y x hy hsh.symm, ← hcomm]
      exact sumDots_congr _ _ _ 0 hd
    · unfold SDdot
      rw [if_pos hsh, if_pos (fun h => hsh h.symm)]
  refine ⟨hcomm, commonTags_sorted x y hx, hsym, ?_⟩
  intro hxw hyw
  apply hsym
  intro t _
  exact Ddot_comm _ _ (destBlock_wf x (SDArray.wf_of_find x hxw) t)
    (destBlock_wf y (SDArray.wf_of_find y hyw) t)

/-- Witness of C21: `pairX` and `halfY`, with tag `0` in common. -/
theorem SDdot_symm_witness :
    pairX.Sorted ∧ halfY.Sorted ∧ SDdot pairX halfY = SDdot halfY pairX ∧
      SDdot halfY pairX = .ok 50 :=
  ⟨by decide, by decide,
    (SDdot_symm pairX halfY (by decide) (by decide)).2.2.2 (by decide) (by decide), rfl⟩


/-! ## `SDscal`: serial and threaded -/

theorem SerialSDscal_eq (alpha : Int) (x : SDArray) : SerialSDscal alpha x = SDscal alpha x :=
  rfl

theorem setBlock_store_of_not_mem (l : List (Int × DArray)) (t : Int) (b : DArray)
    (h : t ∉ l.map Prod.fst) :
    (l.map fun p => if p.1 == t then (p.1, b) else p) = l := by
  induction l with
  | nil => rfl
  | cons p ps ih =>
    rw [List.map_cons, List.mem_cons, not_or] at h
    have hb : (p.1 == t) = false := by simpa using Ne.symm h.1
    simp only [List.map_cons, hb]
    rw [ih h.2]
    rfl

/-- Running the tasks of the entries `rest` on a store whose entries before
them are already scaled scales the remaining ones. -/
theorem ThreadSDscal_loop (alpha : Int) (x : SDArray) (done rest : List (Int × DArray))
    (hnd : ((done ++ rest).map Prod.fst).Nodup) :
    forLoop Dscal_arglist.call (rest.map fun ix => (⟨alpha, (ix.2, ix.1)⟩ : Dscal_arglist))
        { x with store := (done.map fun ix => (ix.1, Dscal alpha ix.2)) ++ rest }
      = .ok { x with store := (done ++ rest).map fun ix => (ix.1, Dscal alpha ix.2) } := by
  induction rest generalizing done with
  | nil =>
    simp only [List.map_nil, forLoop, List.append_nil]
  | cons p ps ih =>
    have hnd2 : (((done ++ [p]) ++ ps).map Prod.fst).Nodup := by
      rw [List.append_assoc]
      exact hnd
    have hp_done : p.1 ∉ (done.map fun ix => (ix.1, Dscal alpha ix.2)).map Prod.fst := by
      rw [List.map_append, List.map_cons, List.nodup_append] at hnd
      intro hm
      rw [List.map_map] at hm
      exact hnd.2.2 hm (List.mem_cons_self _ _)
    have hp_ps : p.1 ∉ ps.map Prod.fst := by
      rw [List.map_append, List.map_cons, List.nodup_append, List.nodup_cons] at hnd
      exact hnd.2.1.1
    have hfind : ({ x with store := (done.map fun ix => (ix.1, Dscal alpha ix.2)) ++ p :: ps }
        : SDArray).find p.1 = some p.2 := by
      unfold SDArray.find
      simp only
      rw [List.find?_append]
      have hnone : List.find? (fun q => q.1 == p.1)
          (done.map fun ix => (ix.1, Dscal alpha ix.2)) = none := by
        rw [List.find?_eq_none]
        intro q hq hqp
        exact hp_done (by
          have : q.1 = p.1 := by simpa using hqp
          rw [← this]
          exact List.mem_map_of_mem _ hq)
      rw [hnone]
      simp
    have hstep : Dscal_arglist.call ⟨alpha, (p.2, p.1)⟩
        { x with store := (done.map fun ix => (ix.1, Dscal alpha ix.2)) ++ p :: ps }
        = .ok { x with store := ((done ++ [p]).map fun ix => (ix.1, Dscal alpha ix.2)) ++ ps } := by
      unfold Dscal_arglist.call blockCall kernelRun
      simp only [hfind]
      congr 1
      unfold SDArray.setBlock
      simp only [List.map_append, List.map_cons, List.map_nil, beq_self_eq_true, if_true,
        List.append_assoc, List.singleton_append]
      rw [setBlock_store_of_not_mem _ p.1 _ hp_done, setBlock_store_of_not_mem _ p.1 _ hp_ps]
    simp only [List.map_cons, forLoop]
    rw [hstep]
    simp only
    rw [ih (done ++ [p]) hnd2, List.append_assoc, List.singleton_append]

/-- `ThreadSDscal` returns the tensor `SerialSDscal` leaves. -/
theorem ThreadSDscal_eq (alpha : Int) (x : SDArray) (hx : x.Sorted) :
    ThreadSDscal alpha x = .ok (SerialSDscal alpha x) := by
  have h := ThreadSDscal_loop alpha x [] x.store (by
    rw [List.nil_append]
    exact SDArray.store_keys_nodup x hx)
  simp only [List.map_nil, List.nil_append] at h
  unfold ThreadSDscal ThreadSDscal_tasks parallel_call SerialSDscal
  exact h

theorem Dscal_data (alpha : Int) (d : DArray) :
    (Dscal alpha d).shape = d.shape ∧ (Dscal alpha d).data = d.data.map (alpha * ·) := by
  unfold Dscal Scal
  by_cases h0 : d.size = 0
  · rw [if_pos h0]
    have : d.data = [] := List.length_eq_zero.mp h0
    rw [this]
    exact ⟨rfl, rfl⟩
  · rw [if_neg h0]
    exact ⟨rfl, rfl⟩

theorem Dscal_zero (d : DArray) (hw : d.WF) : Dscal 0 d = DArray.zeros d.shape := by
  obtain ⟨hsh, hdata⟩ := Dscal_data 0 d
  have hz := zeros_facts d.shape
  apply darray_eq_of_entries _ _ ?_ hz.1 (by rw [hsh, hz.2.2.2.2.1])
  · intro i
    rw [hdata, at0_map_mul, hz.2.2.2.2.2]
    ring
  · unfold DArray.WF at hw ⊢
    rw [hsh, hdata, List.length_map]
    exact hw

/-- C22: `SDscal(alpha, x)` on a sorted `x`, serial and threaded. The serial
loop is a total function and the threaded call returns, with the same tensor
`SDscal alpha x`. That tensor has the shape, the legality and the stored tags
of `x`, and at every tag the block `alpha * x[t]` (same shape, every element
multiplied by `alpha`); for `alpha = 0` the tags stay stored, with all-zero
blocks. -/
theorem SDscal_total (alpha : Int) (x : SDArray) (hx : x.Sorted) :
    SerialSDscal alpha x = SDscal alpha x ∧
    ThreadSDscal alpha x = .ok (SDscal alpha x) ∧
    (SDscal alpha x).shape = x.shape ∧ (SDscal alpha x).tags = x.tags ∧
    (∀ t, (SDscal alpha x).find t = (x.find t).map (Dscal alpha)) ∧
    (∀ d, (Dscal alpha d).shape = d.shape ∧ (Dscal alpha d).data = d.data.map (alpha * ·)) ∧
    ((SDscal 0 x).tags = x.tags ∧
      ∀ t d, x.find t = some d → d.WF →
        (SDscal 0 x).find t = some (DArray.zeros d.shape)) := by
  obtain ⟨htags, _, hsh, _⟩ := SDscal_frame alpha x
  refine ⟨rfl, ?_, hsh, htags, find_SDscal alpha x, Dscal_data alpha, (SDscal_frame 0 x).1, ?_⟩
  · rw [ThreadSDscal_eq alpha x hx]
    rfl
  · intro t d hd hw
    rw [find_SDscal, hd, Option.map_some', Dscal_zero d hw]

/-- Witness of C22: `pairX` scaled by `3`, serial and threaded. -/
theorem SDscal_total_witness :
    pairX.Sorted ∧ SerialSDscal 3 pairX = triplePair ∧
      ThreadSDscal 3 pairX = .ok (SDscal 3 pairX) ∧ (SDscal 3 pairX).tags = pairX.tags :=
  have h := SDscal_total 3 pairX (by decide)
  ⟨by decide, rfl, h.2.1, h.2.2.2.1⟩


/-! ## Serial and threaded level-1 routines, tasks in any order -/

theorem ThreadSDcopy_tasks_eq (x y : SDArray) (Do_up_cast : Bool) :
    ThreadSDcopy_tasks x y Do_up_cast
      = forLoop (l1TaskBody (fun ix => (⟨(ix.2, ix.1)⟩ : Dcopy_arglist)) Do_up_cast)
          x.store ([], y) := rfl

theorem ThreadSDaxpy_tasks_eq (alpha : Int) (x y : SDArray) :
    ThreadSDaxpy_tasks alpha x y
      = forLoop (l1TaskBody (fun ix => (⟨alpha, (ix.2, ix.1)⟩ : Daxpy_arglist)) false)
          x.store ([], y) := by
  have hbody : ThreadSDaxpy_body alpha
      = l1TaskBody (fun ix => (⟨alpha, (ix.2, ix.1)⟩ : Daxpy_arglist)) false := by
    funext ix st
    unfold ThreadSDaxpy_body l1TaskBody
    cases st.2.reserve ix.1 <;> rfl
  unfold ThreadSDaxpy_tasks
  rw [hbody]

/-- The tasks of a level-1 task list, run in any order on the destination the
construction leaves, return what the serial loop returns. -/
theorem l1_tasks_perm {τ : Type} (mk : Int × DArray → τ)
    (call : τ → SDArray → Outcome SDArray) (kernel : DArray → DArray → Option DArray)
    (tol : Bool) (hcall : ∀ ix c, call (mk ix) c = l1Run kernel ix c)
    (key : τ → Option Int) (run : τ → DArray → Except DArray DArray)
    (hblock : ∀ t c, call t c = blockCall (key t) (run t) c)
    (hkey : ∀ ix, key (mk ix) = some ix.1)
    (xs : List (Int × DArray)) (y : SDArray) (hnd : (xs.map Prod.fst).Nodup)
    (st : List τ × SDArray) (h : forLoop (l1TaskBody mk tol) xs ([], y) = .ok st)
    (tl : List τ) (hp : tl.Perm st.1) :
    returned (parallel_call call tl st.2) = returned (forLoop (l1Body kernel tol) xs y) := by
  have hspec := l1Tasks_spec mk tol xs ([], y) st h
  simp only [List.nil_append] at hspec
  have hthread : returned (l1Thread mk call tol xs y)
      = returned (parallel_call call st.1 st.2) := by
    unfold l1Thread
    rw [h]
  rw [← l1_thread_returned mk call kernel tol hcall xs y, hthread]
  unfold parallel_call
  apply returned_forLoop_perm call key ?_ tl st.1 hp ?_ st.2
  · intro a b c hab
    rw [hblock a, hblock b]
    simp only [hblock]
    exact blockCall_comm _ _ _ _ c hab
  · rw [hspec]
    simp only [List.map_map]
    have hfun : (key ∘ mk) = (fun ix : Int × DArray => some ix.1) := by
      funext ix
      exact hkey ix
    rw [hfun]
    have hsub : ((reservableBlocks y xs).map Prod.fst).Nodup := by
      unfold reservableBlocks
      exact List.Nodup.sublist (List.Sublist.map _ (List.filter_sublist _)) hnd
    have : (reservableBlocks y xs).map (fun ix : Int × DArray => some ix.1)
        = ((reservableBlocks y xs).map Prod.fst).map some := by
      rw [List.map_map]
      rfl
    rw [this]
    exact List.Nodup.map (Option.some_injective _) hsub

theorem ok_iff_of_returned (r1 r2 : Outcome SDArray) (h : returned r1 = returned r2)
    (y1 : SDArray) : r1 = .ok y1 ↔ r2 = .ok y1 := by
  rw [← returned_some_iff, ← returned_some_iff, h]

/-- C24: on a sorted source the serial and the threaded level-1 routines
return the same destination, and one returns exactly when the other does:
`SerialSDcopy` and `ThreadSDcopy`, `SerialSDaxpy` and `ThreadSDaxpy`,
`SerialSDscal` and `ThreadSDscal`. The same holds when `parallel_call` runs
the tasks of the list, each once, in any other order (any permutation of the
task list). -/
theorem serial_thread_same (alpha : Int) (x y : SDArray) (Do_up_cast : Bool)
    (hx : x.Sorted) :
    (∀ y1, SerialSDcopy x y Do_up_cast = .ok y1 ↔ ThreadSDcopy x y Do_up_cast = .ok y1) ∧
    (∀ y1, SerialSDaxpy alpha x y = .ok y1 ↔ ThreadSDaxpy alpha x y = .ok y1) ∧
    ThreadSDscal alpha x = .ok (SerialSDscal alpha x) ∧
    (∀ st tl, ThreadSDcopy_tasks x y Do_up_cast = .ok st → tl.Perm st.1 →
      ∀ y1, parallel_call Dcopy_arglist.call tl st.2 = .ok y1 ↔
        SerialSDcopy x y Do_up_cast = .ok y1) ∧
    (∀ st tl, ThreadSDaxpy_tasks alpha x y = .ok st → tl.Perm st.1 →
      ∀ y1, parallel_call Daxpy_arglist.call tl st.2 = .ok y1 ↔
        SerialSDaxpy alpha x y = .ok y1) ∧
    (∀ tl, tl.Perm (ThreadSDscal_tasks alpha x) →
      parallel_call Dscal_arglist.call tl x = .ok (SerialSDscal alpha x)) := by
  have hnd := SDArray.store_keys_nodup x hx
  refine ⟨?_, ?_, ThreadSDscal_eq alpha x hx, ?_, ?_, ?_⟩
  · intro y1
    exact (ok_iff_of_returned _ _ (ThreadSDcopy_returned x y Do_up_cast) y1).symm
  · intro y1
    exact (ok_iff_of_returned _ _ (ThreadSDaxpy_returned alpha x y) y1).symm
  · intro st tl hst hp y1
    rw [ThreadSDcopy_tasks_eq] at hst
    rw [SerialSDcopy_eq]
    exact ok_iff_of_returned _ _ (l1_tasks_perm
      (fun ix => (⟨(ix.2, ix.1)⟩ : Dcopy_arglist)) Dcopy_arglist.call
      (fun a d => some (Dcopy a d)) Do_up_cast (fun _ _ => rfl)
      (fun l => some l.m_arglist.2)
      (fun l => kernelRun fun d => some (Dcopy l.m_arglist.1 d)) (fun _ _ => rfl)
      (fun _ => rfl) x.store y hnd st hst tl hp) y1
  · intro st tl hst hp y1
    rw [ThreadSDaxpy_tasks_eq] at hst
    rw [SerialSDaxpy_eq]
    exact ok_iff_of_returned _ _ (l1_tasks_perm
      (fun ix => (⟨alpha, (ix.2, ix.1)⟩ : Daxpy_arglist)) Daxpy_arglist.call
      (Daxpy alpha) false (fun _ _ => rfl)
      (fun l => some l.m_arglist.2)
      (fun l => kernelRun (Daxpy l.m_alpha l.m_arglist.1)) (fun _ _ => rfl)
      (fun _ => rfl) x.store y hnd st hst tl hp) y1
  · intro tl hp
    have hperm := returned_forLoop_perm Dscal_arglist.call (fun l => some l.m_arglist.2)
      (by
        intro a b c hab
        exact blockCall_comm _ _ _ _ c hab) tl (ThreadSDscal_tasks alpha x) hp (by
        unfold ThreadSDscal_tasks
        rw [List.map_map]
        have : x.store.map ((fun l : Dscal_arglist => some l.m_arglist.2) ∘
            fun ix : Int × DArray => (⟨alpha, (ix.2, ix.1)⟩ : Dscal_arglist))
            = (x.store.map Prod.fst).map some := by
          rw [List.map_map]
          rfl
        rw [this]
        exact List.Nodup.map (Option.some_injective _) hnd) x
    have hthread := ThreadSDscal_eq alpha x hx
    unfold ThreadSDscal parallel_call at hthread
    rw [hthread] at hperm
    exact (returned_some_iff _ _).mp hperm

/-- Witness of C24: `pairX` copied into, added to, and scaled, serial against
threaded. -/
theorem serial_thread_same_witness :
    pairX.Sorted ∧
      (SerialSDcopy pairX halfY false = .ok pairCopy ↔
        ThreadSDcopy pairX halfY false = .ok pairCopy) ∧
      ThreadSDaxpy 2 pairX halfY = .ok halfY2 ∧
      ThreadSDscal 3 pairX = .ok (SerialSDscal 3 pairX) :=
  have h := serial_thread_same 2 pairX halfY false (by decide)
  have h3 := serial_thread_same 3 pairX halfY false (by decide)
  ⟨by decide, h.1 pairCopy, (h.2.1 halfY2).mp rfl, h3.2.2.1⟩


/-! ## The destination when `SDaxpy` throws "could not be reserved" -/

/-- The serial loop that throws "could not be reserved" has returned from the
source blocks before the first one whose tag cannot be reserved. -/
theorem l1_serial_error_state (kernel : DArray → DArray → Option DArray)
    (xs : List (Int × DArray)) (y s : SDArray)
    (h : forLoop (l1Body kernel false) xs y = .error (.blockUnavailable, s)) :
    ∃ pre p post, xs = pre ++ p :: post ∧ (y.reserve p.1).isSome = false ∧
      forLoop (l1Body kernel false) pre y = .ok s := by
  induction xs generalizing y with
  | nil => simp [forLoop] at h
  | cons a as ih =>
    cases ha : y.reserve a.1 with
    | none =>
      simp only [forLoop, l1Body, ha] at h
      simp only [Bool.false_eq_true, if_false, Except.error.injEq, Prod.mk.injEq,
        true_and] at h
      subst h
      exact ⟨[], a, as, rfl, (by rw [ha]; rfl), rfl⟩
    | some y1 =>
      obtain ⟨d, hd, hrun⟩ := l1Run_after_reserve kernel a y y1 ha
      simp only [forLoop, l1Body_some _ _ _ _ _ ha, hrun] at h
      cases hk : kernel a.2 d with
      | none =>
        rw [hk] at h
        simp at h
      | some d1 =>
        rw [hk] at h
        simp only at h
        obtain ⟨pre, p, post, hxs, hpr, hpre⟩ := ih _ h
        refine ⟨a :: pre, p, post, by rw [hxs]; rfl, ?_, ?_⟩
        · rw [← SDArray.reserve_isSome_congr y y1 a.1 ha,
            ← SDArray.sameFrame_reserve_isSome _ _ (SDArray.sameFrame_setBlock y1 a.1 d1)]
          exact hpr
        · simp only [forLoop, l1Body_some _ _ _ _ _ ha, hrun, hk]
          exact hpre

/-- The task-list construction that throws has reserved the tags of the source
blocks before the first one whose tag cannot be reserved, and nothing else. -/
theorem l1Tasks_error_state {τ : Type} (mk : Int × DArray → τ)
    (xs : List (Int × DArray)) (st : List τ × SDArray) (e : BtasError × SDArray)
    (h : forLoop (l1TaskBody mk false) xs st = .error e) :
    ∃ pre p post, xs = pre ++ p :: post ∧ (st.2.reserve p.1).isSome = false ∧
      (∀ q ∈ pre, (st.2.reserve q.1).isSome = true) ∧
      e = (.blockUnavailable, reserveAll st.2 (pre.map Prod.fst)) := by
  induction xs generalizing st with
  | nil => simp [forLoop] at h
  | cons a as ih =>
    cases ha : st.2.reserve a.1 with
    | none =>
      simp only [forLoop, l1TaskBody, ha] at h
      simp only [Bool.false_eq_true, if_false, Except.error.injEq] at h
      exact ⟨[], a, as, rfl, (by rw [ha]; rfl), (fun q hq => by cases hq), h.symm⟩
    | some y1 =>
      simp only [forLoop, l1TaskBody, ha] at h
      obtain ⟨pre, p, post, hxs, hpr, hall, he⟩ := ih _ h
      have hcong := SDArray.reserve_isSome_congr st.2 y1 a.1 ha
      refine ⟨a :: pre, p, post, by rw [hxs]; rfl, ?_, ?_, ?_⟩
      · rw [← hcong]
        exact hpr
      · intro q hq
        rcases List.mem_cons.mp hq with hqa | hqa
        · subst hqa; rw [ha]; rfl
        · rw [← hcong]
          exact hall q hqa
      · rw [he, List.map_cons, reserveAll_cons, ha]
        rfl

theorem reserveAll_find_other (c : SDArray) (ts : List Int) (t : Int) (h : t ∉ ts) :
    (reserveAll c ts).find t = c.find t := by
  by_cases hmem : t ∈ c.tags
  · exact reserveAll_find_old c ts t hmem
  · rw [(SDArray.find_eq_none_iff c t).mpr hmem, SDArray.find_eq_none_iff]
    intro hin
    rcases mem_tags_reserveAll c ts t hin with h1 | h1
    · exact hmem h1
    · exact h h1

theorem reserveAll_find_dest (c : SDArray) (ts : List Int) (t : Int) (ht : t ∈ ts)
    (hr : ∀ q ∈ ts, (c.reserve q).isSome = true) :
    (reserveAll c ts).find t = some (destBlock c t) := by
  by_cases hmem : t ∈ c.tags
  · rw [reserveAll_find_old c ts t hmem]
    obtain ⟨d, hd⟩ := SDArray.find_of_mem_tags c t hmem
    rw [hd, destBlock_of_find c t d hd]
  · rw [destBlock_of_not_mem c t hmem]
    apply reserveAll_find_new c ts t hmem
    rw [mem_tags_reserveAll_iff c ts hr]
    exact Or.inr ht

/-- Counterexample to C23 as stated: in the threaded build `SDaxpy(1, pairX,
gateY)` throws because tag `1` cannot be reserved. Tag `0` of `pairX` is
smaller; `gateY` stored nothing there; at the throw the destination holds an
all-zero block at tag `0`, allocated by the reservation and not written,
where the final value `1 * pairX[0] + 0` is `(1, 2)`. -/
theorem SDaxpy_failed_state_counterexample :
    SDaxpy false 1 pairX gateY = .error (.blockUnavailable, gateY0) ∧
    (gateY.reserve 1).isSome = false ∧ (gateY.reserve 0).isSome = true ∧
    gateY.find 0 = none ∧
    Daxpy 1 ⟨[2], [1, 2]⟩ (destBlock gateY 0) = some ⟨[2], [1, 2]⟩ ∧
    gateY0.find 0 = some ⟨[2], [0, 0]⟩ ∧
    gateY0.find 0 ≠ some ⟨[2], [1, 2]⟩ :=
  ⟨rfl, by decide, by decide, by decide, by decide, by decide, by decide⟩

/-- C23, amended: `SDaxpy(alpha, x, y)` on a sorted `x` throws "could not be
reserved" at the first stored tag `p.1` of `x` that cannot be reserved; `pre`
are the blocks of `x` at the smaller tags. The destination at the throw has,
at every tag that is not one of `pre`, what `y` had before the call. In the
serial build the block at each tag of `pre` holds its final value, the result
of `Daxpy` on the block found there. In the threaded build no `Daxpy` has run:
at each tag of `pre` the destination holds the block `y` stored before, or
the all-zero block the reservation allocated when `y` stored none. -/
theorem SDaxpy_failed_state (serial : Bool) (alpha : Int) (x y s : SDArray)
    (hx : x.Sorted) (h : SDaxpy serial alpha x y = .error (.blockUnavailable, s)) :
    ∃ pre p post, x.store = pre ++ p :: post ∧
      ((if 0 < y.size then y else y.resize x.shape).reserve p.1).isSome = false ∧
      (∀ q ∈ pre, q.1 < p.1) ∧ (∀ q ∈ post, p.1 < q.1) ∧
      (∀ t, t ∉ pre.map Prod.fst → s.find t = y.find t) ∧
      (serial = true → ∀ q ∈ pre, ∃ d1,
        Daxpy alpha q.2 (destBlock y q.1) = some d1 ∧ s.find q.1 = some d1) ∧
      (serial = false → ∀ q ∈ pre, s.find q.1 = some (destBlock y q.1)) := by
  have hn : ¬ (0 < y.size ∧ x.shape ≠ y.shape) := by
    intro hm
    unfold SDaxpy at h
    rw [if_pos hm] at h
    simp at h
  rw [SDaxpy_loops serial alpha x y hn] at h
  obtain ⟨hst, _, hbs⟩ := axpy_start x y
  have hsplit : ∀ pre p post, x.store = pre ++ p :: post →
      (∀ q ∈ pre, q.1 < p.1) ∧ (∀ q ∈ post, p.1 < q.1) ∧ (pre.map Prod.fst).Nodup := by
    intro pre p post hxs
    have hs : (x.store.map Prod.fst).Pairwise (· < ·) := hx
    rw [hxs, List.map_append, List.map_cons, List.pairwise_append] at hs
    obtain ⟨hpre, hpost, hcross⟩ := hs
    rw [List.pairwise_cons] at hpost
    refine ⟨?_, ?_, hpre.nodup⟩
    · intro q hq
      exact hcross q.1 (List.mem_map_of_mem _ hq) p.1 (List.mem_cons_self _ _)
    · intro q hq
      exact hpost.1 q.1 (List.mem_map_of_mem _ hq)
  cases serial with
  | true =>
    simp only [if_true] at h
    rw [SerialSDaxpy_eq] at h
    obtain ⟨pre, p, post, hxs, hpr, hpre⟩ := l1_serial_error_state (Daxpy alpha) x.store _ s h
    obtain ⟨hlt, hgt, hnd⟩ := hsplit pre p post hxs
    have hret : returned (forLoop (l1Body (Daxpy alpha) false) pre
        (if 0 < y.size then y else y.resize x.shape)) = some s := by
      rw [hpre]; rfl
    have hres := l1_serial_returned_reservable (Daxpy alpha) pre _ s hret
    obtain ⟨_, _, hfind, hother⟩ := l1_returned_find (Daxpy alpha) false pre _ s hnd hret
    refine ⟨pre, p, post, hxs, hpr, hlt, hgt, ?_, ?_, ?_⟩
    · intro t ht
      rw [hother t (fun q hq hqt => absurd (by rw [← hqt]; exact List.mem_map_of_mem _ hq) ht),
        find_congr_store _ y hst]
    · intro _ q hq
      obtain ⟨d1, hk, hf⟩ := hfind q hq (hres q hq)
      rw [destBlock_congr _ y hst hbs] at hk
      exact ⟨d1, hk, hf⟩
    · intro hf
      cases hf
  | false =>
    simp only [Bool.false_eq_true, if_false] at h
    rw [ThreadSDaxpy_eq] at h
    unfold l1Thread at h
    cases hb : forLoop (l1TaskBody (fun ix => (⟨alpha, (ix.2, ix.1)⟩ : Daxpy_arglist)) false)
        x.store ([], if 0 < y.size then y else y.resize x.shape) with
    | ok st =>
      rw [hb] at h
      simp only [parallel_call] at h
      have := forLoop_blockCall_error_kind Daxpy_arglist.call (fun l => some l.m_arglist.2)
        (fun l => kernelRun (Daxpy l.m_alpha l.m_arglist.1)) (fun _ _ => rfl) _ _ _ h
      simp at this
    | error e =>
      rw [hb] at h
      simp only [Except.error.injEq] at h
      obtain ⟨pre, p, post, hxs, hpr, hall, he⟩ := l1Tasks_error_state _ x.store _ e hb
      obtain ⟨hlt, hgt, _⟩ := hsplit pre p post hxs
      rw [h] at he
      simp only [Prod.mk.injEq, true_and] at he
      refine ⟨pre, p, post, hxs, hpr, hlt, hgt, ?_, ?_, ?_⟩
      · intro t ht
        rw [he, reserveAll_find_other _ _ t ht, find_congr_store _ y hst]
      · intro hf
        cases hf
      · intro _ q hq
        rw [he, reserveAll_find_dest _ _ q.1 (List.mem_map_of_mem _ hq) (by
          intro t ht
          obtain ⟨r, hr, hrt⟩ := List.mem_map.mp ht
          rw [← hrt]
          exact hall r hr), destBlock_congr _ y hst hbs]

/-- Witness of C23 (amended): the serial `SDaxpy(1, pairX, gateY)` throws at
tag `1`; the destination at the throw holds the written block at tag `0`. -/
theorem SDaxpy_failed_state_witness :
    pairX.Sorted ∧ SDaxpy true 1 pairX gateY = .error (.blockUnavailable, gateY1) ∧
      ∃ pre p post, pairX.store = pre ++ p :: post ∧
        ((if 0 < gateY.size then gateY else gateY.resize pairX.shape).reserve p.1).isSome
          = false ∧
        (∀ q ∈ pre, q.1 < p.1) ∧ (∀ q ∈ post, p.1 < q.1) ∧
        (∀ t, t ∉ pre.map Prod.fst → gateY1.find t = gateY.find t) ∧
        (true = true → ∀ q ∈ pre, ∃ d1,
          Daxpy 1 q.2 (destBlock gateY q.1) = some d1 ∧ gateY1.find q.1 = some d1) ∧
        (true = false → ∀ q ∈ pre, gateY1.find q.1 = some (destBlock gateY q.1)) :=
  have h : SDaxpy true 1 pairX gateY = .error (.blockUnavailable, gateY1) := rfl
  ⟨by decide, h, SDaxpy_failed_state true 1 pairX gateY gateY1 (by decide) h⟩


/-! ## The "could not be allocated" branch of the contraction routines -/

theorem Dger_call_eq_blockCall (l : Dger_arglist) (c : SDArray) :
    l.call c = blockCall l.m_c_ptr (l.callLoop (l.m_arglist.zip l.m_scale)) c := rfl

/-- A run of tasks never throws "could not be reserved / allocated". -/
theorem thrown_parallel_call {τ : Type} (call : τ → SDArray → Outcome SDArray)
    (key : τ → Option Int) (run : τ → DArray → Except DArray DArray)
    (hcall : ∀ x c, call x c = blockCall (key x) (run x) c)
    (tasks : List τ) (c : SDArray) :
    thrown (parallel_call call tasks c) ≠ some .blockUnavailable := by
  unfold parallel_call
  cases h : forLoop call tasks c with
  | ok c1 => simp [thrown]
  | error e =>
    rcases forLoop_blockCall_error_kind call key run hcall tasks c e h with h1 | h1 <;>
      simp [thrown, h1]

theorem grid_tag_lt (nrows ncols i j : Nat) (hi : i < nrows) (hj : j < ncols) :
    (0 : Int) ≤ (i : Int) * (ncols : Int) + (j : Int) ∧
      (i : Int) * (ncols : Int) + (j : Int) < ((nrows * ncols : Nat) : Int) := by
  have h1 : i * ncols + j < nrows * ncols := by
    calc i * ncols + j < i * ncols + ncols := by omega
      _ = (i + 1) * ncols := by ring
      _ ≤ nrows * ncols := Nat.mul_le_mul_right _ hi
  constructor
  · positivity
  · exact_mod_cast h1

theorem outer_tag_lt (n s : Nat) (ta tb : Int) (ha0 : 0 ≤ ta) (ha : ta < (n : Int))
    (hb0 : 0 ≤ tb) (hb : tb < (s : Int)) :
    0 ≤ ta * (s : Int) + tb ∧ ta * (s : Int) + tb < ((n * s : Nat) : Int) := by
  have hs : (0 : Int) ≤ (s : Int) := Int.natCast_nonneg s
  constructor
  · positivity
  · push_cast
    nlinarith

theorem take_length_take (n : Nat) (l : List Nat) : l.take (l.take n).length = l.take n := by
  rw [List.length_take]
  rcases Nat.le_total n l.length with h | h
  · rw [Nat.min_eq_left h]
  · rw [Nat.min_eq_right h, List.take_of_length_le h, List.take_of_length_le (le_refl _)]

/-! ## `beta` of a task and the accumulation over its operand pairs -/

theorem betaChain_cons (beta t : Int) (ts : List Int) (d0 : Int) :
    betaChain beta (t :: ts) d0 = betaChain beta ts (t + beta * d0) := rfl

/-- The start value of an accumulation is multiplied by `beta` once per term. -/
theorem betaChain_pow (beta : Int) (terms : List Int) (d0 : Int) :
    betaChain beta terms d0 = beta ^ terms.length * d0 + betaChain beta terms 0 := by
  induction terms generalizing d0 with
  | nil => simp [betaChain]
  | cons t ts ih =>
    rw [betaChain_cons, betaChain_cons, ih (t + beta * d0), ih (t + beta * 0),
      List.length_cons, pow_succ]
    ring

theorem betaChain_one (terms : List Int) (d0 : Int) :
    betaChain 1 terms d0 = d0 + terms.sum := by
  induction terms generalizing d0 with
  | nil => simp [betaChain]
  | cons t ts ih =>
    rw [betaChain_cons, ih, List.sum_cons]
    ring

theorem sum_map_weight (alpha : Int) {α : Type} (l : List α) (w f : α → Int) :
    (l.map fun x => w x * alpha * f x).sum = alpha * (l.map fun x => w x * f x).sum := by
  induction l with
  | nil => simp
  | cons x xs ih =>
    simp only [List.map_cons, List.sum_cons, ih]
    ring

/-- Entries of `Gemm` on operands with elements and a destination with
elements: `alpha * (op(a) * op(b))[idx] + beta * d[idx]`. -/
theorem Gemm_beta (transa transb : BTAS_TRANSPOSE) (alpha : Int) (a b : DArray) (beta : Int)
    (d d1 : DArray) (h : Gemm transa transb alpha a b beta d = some d1) (hwf : d.WF)
    (hsz : 0 < d.size) (ha : a.size ≠ 0) (hb : b.size ≠ 0) :
    d1.shape = d.shape ∧ d1.WF ∧ 0 < d1.size ∧
      ∀ idx < d.data.length,
        at0 d1.data idx
          = alpha * Gemm_product transa transb a b d.rank idx + beta * at0 d.data idx := by
  rcases Gemm_some transa transb alpha a b beta d d1 h with ⟨h0, _⟩ | ⟨h1, h2, h3, h4, h5⟩
  · rcases h0 with h0 | h0
    · exact absurd h0 ha
    · exact absurd h0 hb
  · have hfit : d.shape = (gemm_contract_shape transa transb
        ((a.rank + b.rank - d.rank) / 2) a.shape b.shape).2 := by
      unfold Gemm at h
      simp only at h
      rw [if_neg (by rw [not_or]; exact ⟨h1, h2⟩)] at h
      by_contra hne
      rw [if_pos ⟨hsz, hne⟩] at h
      exact absurd h (by simp)
    rw [if_pos hsz] at h3
    have hlen : d1.data.length = d.data.length := by
      rw [h4, ← hfit]; exact hwf.symm
    refine ⟨h3, ?_, ?_, ?_⟩
    · unfold DArray.WF
      rw [h3, hlen]; exact hwf
    · unfold DArray.size
      rw [hlen]; exact hsz
    · intro idx hidx
      rw [h5 idx (by rw [hlen]; exact hidx), if_pos hsz]

/-- The loop of `call()` of a `Dgemm_arglist` with any `beta`, on operand pairs
with elements: every pair multiplies the destination by `beta` before it adds
its product. -/
theorem Dgemm_callLoop_beta (l : Dgemm_arglist)
    (pairs : List ((DArray × DArray) × Int)) (d d1 : DArray)
    (h : l.callLoop pairs d = .ok d1) (hwf : d.WF) (hsz : 0 < d.size)
    (hne : ∀ ps ∈ pairs, ps.1.1.size ≠ 0 ∧ ps.1.2.size ≠ 0) :
    d1.shape = d.shape ∧ d1.WF ∧ 0 < d1.size ∧
      ∀ idx < d.data.length,
        at0 d1.data idx = betaChain l.m_beta (pairs.map fun ps =>
          ps.2 * l.m_alpha * Gemm_product l.m_transa l.m_transb ps.1.1 ps.1.2 d.rank idx)
          (at0 d.data idx) := by
  induction pairs generalizing d with
  | nil =>
    simp only [Dgemm_arglist.callLoop, Except.ok.injEq] at h
    subst h
    exact ⟨rfl, hwf, hsz, fun idx _ => rfl⟩
  | cons ps rest ih =>
    obtain ⟨ab, s⟩ := ps
    simp only [Dgemm_arglist.callLoop] at h
    cases hg : Dgemm l.m_transa l.m_transb (s * l.m_alpha) ab.1 ab.2 l.m_beta d with
    | none => rw [hg] at h; exact absurd h (by simp)
    | some d2 =>
      rw [hg] at h
      simp only at h
      have hps := hne (ab, s) (List.mem_cons_self _ _)
      obtain ⟨g1, g2, g3, g4⟩ := Gemm_beta _ _ _ _ _ _ d d2 hg hwf hsz hps.1 hps.2
      obtain ⟨i1, i2, i3, i4⟩ := ih d2 h g2 g3
        (fun q hq => hne q (List.mem_cons_of_mem _ hq))
      have hlen : d2.data.length = d.data.length := by
        rw [g2, g1]; exact hwf.symm
      have hrank : d2.rank = d.rank := by unfold DArray.rank; rw [g1]
      refine ⟨i1.trans g1, i2, i3, ?_⟩
      intro idx hidx
      rw [i4 idx (by rw [hlen]; exact hidx), g4 idx hidx, hrank]
      simp only [List.map_cons, betaChain_cons]

/-- C28: every task `ThreadSDgemm` and `ThreadSDgemv` build carries
`beta = 1` (and the `alpha` of the call). The loop of `call()` of such a task
on a destination block `D` with elements leaves `D` with its shape and the
elements `D_before[idx] + alpha * sum_i s_i * (op(A_i) * op(B_i))[idx]`. For a
`Dgemm_arglist` with any other `beta` and pairs with elements, the loop
multiplies the destination by `beta` before each pair: `D_before` enters the
result with the factor `beta ^ n`, `n` the number of pairs. -/
theorem tasks_beta_one (transa transb : BTAS_TRANSPOSE) (alpha : Int) (a b c : SDArray) :
    (∀ st, ThreadSDgemm_tasks transa transb alpha a b c = .ok st →
      ∀ task ∈ st.1, task.m_beta = 1 ∧ task.m_alpha = alpha) ∧
    (∀ st, ThreadSDgemv_tasks transa alpha a b c = .ok st →
      ∀ task ∈ st.1, task.m_beta = 1 ∧ task.m_alpha = alpha) ∧
    (∀ (l : Dgemm_arglist) (d d1 : DArray), l.m_beta = 1 → d.WF → 0 < d.size →
      l.callLoop (l.m_arglist.zip l.m_scale) d = .ok d1 →
      d1.shape = d.shape ∧ ∀ idx < d.data.length,
        at0 d1.data idx = at0 d.data idx + l.m_alpha *
          ((l.m_arglist.zip l.m_scale).map fun ps =>
            ps.2 * Gemm_product l.m_transa l.m_transb ps.1.1 ps.1.2 d.rank idx).sum) ∧
    (∀ (l : Dgemv_arglist) (d d1 : DArray), l.m_beta = 1 → d.WF → 0 < d.size →
      (∀ ps ∈ l.m_arglist.zip l.m_scale, GemvFits l.m_transa ps.1.1 ps.1.2) →
      l.callLoop (l.m_arglist.zip l.m_scale) d = .ok d1 →
      d1.shape = d.shape ∧ ∀ idx < d.data.length,
        at0 d1.data idx = at0 d.data idx + l.m_alpha *
          ((l.m_arglist.zip l.m_scale).map fun ps =>
            ps.2 * Gemv_product l.m_transa ps.1.1 ps.1.2 idx).sum) ∧
    (∀ (l : Dgemm_arglist) (d d1 : DArray), d.WF → 0 < d.size →
      (∀ ps ∈ l.m_arglist.zip l.m_scale, ps.1.1.size ≠ 0 ∧ ps.1.2.size ≠ 0) →
      l.callLoop (l.m_arglist.zip l.m_scale) d = .ok d1 →
      d1.shape = d.shape ∧ ∀ idx < d.data.length,
        at0 d1.data idx
          = l.m_beta ^ (l.m_arglist.zip l.m_scale).length * at0 d.data idx +
            betaChain l.m_beta ((l.m_arglist.zip l.m_scale).map fun ps =>
              ps.2 * l.m_alpha * Gemm_product l.m_transa l.m_transb ps.1.1 ps.1.2
                d.rank idx) 0) := by
  refine ⟨?_, ?_, ?_, ?_, ?_⟩
  · intro st hst task htask
    rw [ThreadSDgemm_tasks_spec transa transb alpha a b c st hst] at htask
    obtain ⟨ij, _, rfl⟩ := List.mem_map.mp htask
    have hf := gemmTask_fields transa transb alpha a b (gemm_stride a b c) (gemm_ncols a b c)
      ij.1 ij.2
    exact ⟨hf.1, hf.2.1⟩
  · intro st hst task htask
    rw [ThreadSDgemv_tasks_spec transa alpha a b c st hst] at htask
    obtain ⟨i, _, rfl⟩ := List.mem_map.mp htask
    have hf := gemvTask_fields transa alpha a b (gemv_stride b) i
    exact ⟨hf.1, hf.2.1⟩
  · intro l d d1 hb hwf hsz h
    obtain ⟨h1, _, _, h4⟩ := Dgemm_callLoop_adds l hb _ d d1 h hwf hsz
    refine ⟨h1, ?_⟩
    intro idx hidx
    rw [h4 idx hidx, sum_map_weight]
  · intro l d d1 hb hwf hsz hfit h
    obtain ⟨h1, _, _, h4⟩ := Dgemv_callLoop_adds l hb _ d d1 h hwf hsz hfit
    refine ⟨h1, ?_⟩
    intro idx hidx
    rw [h4 idx hidx, sum_map_weight]
  · intro l d d1 hwf hsz hne h
    obtain ⟨h1, _, _, h4⟩ := Dgemm_callLoop_beta l _ d d1 h hwf hsz hne
    refine ⟨h1, ?_⟩
    intro idx hidx
    rw [h4 idx hidx, betaChain_pow, List.length_map]


/-! ## The operand pairs of a task by contracted sub-tag -/

theorem forLoop_rel {ι σ1 σ2 ε : Type} (R : σ1 → σ2 → Prop)
    (body1 : ι → σ1 → Except ε σ1) (body2 : ι → σ2 → Except ε σ2)
    (hb : ∀ i s1 s2, R s1 s2 → ExceptRel R (body1 i s1) (body2 i s2))
    (l : List ι) (s1 : σ1) (s2 : σ2) (h : R s1 s2) :
    ExceptRel R (forLoop body1 l s1) (forLoop body2 l s2) := by
  induction l generalizing s1 s2 with
  | nil => exact h
  | cons i is ih =>
    have hi := hb i s1 s2 h
    unfold forLoop
    cases h1 : body1 i s1 with
    | ok t1 =>
      cases h2 : body2 i s2 with
      | ok t2 =>
        rw [h1, h2] at hi
        exact ih t1 t2 hi
      | error e2 =>
        rw [h1, h2] at hi
        exact hi.elim
    | error e1 =>
      cases h2 : body2 i s2 with
      | ok t2 =>
        rw [h1, h2] at hi
        exact hi.elim
      | error e2 =>
        rw [h1, h2] at hi
        exact hi

theorem Dgemm_add_unweighted (gl1 gl2 : Dgemm_arglist) (x y : DArray) (w1 w2 : Int)
    (h : gl1.unweighted = gl2.unweighted) :
    (gl1.add x y w1).unweighted = (gl2.add x y w2).unweighted := by
  cases gl1
  cases gl2
  simp only [Dgemm_arglist.unweighted, Dgemm_arglist.add, Dgemm_arglist.mk.injEq] at h ⊢
  obtain ⟨h1, h2, _, h4, h5, h6, h7⟩ := h
  exact ⟨by rw [h1], h2, trivial, h4, h5, h6, h7⟩

theorem Dgemv_add_unweighted (gl1 gl2 : Dgemv_arglist) (x y : DArray) (w1 w2 : Int)
    (h : gl1.unweighted = gl2.unweighted) :
    (gl1.add x y w1).unweighted = (gl2.add x y w2).unweighted := by
  cases gl1
  cases gl2
  simp only [Dgemv_arglist.unweighted, Dgemv_arglist.add, Dgemv_arglist.mk.injEq] at h ⊢
  obtain ⟨h1, h2, _, h4, h5, h6⟩ := h
  exact ⟨by rw [h1], h2, trivial, h4, h5, h6⟩

theorem Dgemm_unweighted_size (gl1 gl2 : Dgemm_arglist)
    (h : gl1.unweighted = gl2.unweighted) :
    gl1.size = gl2.size ∧ ∀ t, (gl1.set t).unweighted = (gl2.set t).unweighted := by
  cases gl1
  cases gl2
  simp only [Dgemm_arglist.unweighted, Dgemm_arglist.size, Dgemm_arglist.set,
    Dgemm_arglist.mk.injEq] at h ⊢
  obtain ⟨h1, h2, _, h4, h5, h6, h7⟩ := h
  exact ⟨by rw [h1], fun t => ⟨h1, trivial, trivial, h4, h5, h6, h7⟩⟩

theorem Dgemv_unweighted_size (gl1 gl2 : Dgemv_arglist)
    (h : gl1.unweighted = gl2.unweighted) :
    gl1.size = gl2.size ∧ ∀ t, (gl1.set t).unweighted = (gl2.set t).unweighted := by
  cases gl1
  cases gl2
  simp only [Dgemv_arglist.unweighted, Dgemv_arglist.size, Dgemv_arglist.set,
    Dgemv_arglist.mk.injEq] at h ⊢
  obtain ⟨h1, h2, _, h4, h5, h6⟩ := h
  exact ⟨by rw [h1], fun t => ⟨h1, trivial, trivial, h4, h5, h6⟩⟩

theorem ThreadSDgemm_match_unweighted (f_scale : ScaleFunctor) (a b c : SDArray)
    (c_tag stride : Int) (R C : List (Int × DArray)) (gl1 gl2 : Dgemm_arglist)
    (h : gl1.unweighted = gl2.unweighted) :
    (ThreadSDgemm_match_f_scale f_scale a b c c_tag stride R C gl1).unweighted
      = (ThreadSDgemm_match stride R C gl2).unweighted := by
  unfold ThreadSDgemm_match_f_scale ThreadSDgemm_match
  induction R generalizing gl1 gl2 with
  | nil => exact h
  | cons ia rest ih =>
    rw [List.foldl_cons, List.foldl_cons]
    apply ih
    clear ih
    induction C generalizing gl1 gl2 with
    | nil => exact h
    | cons ib restC ihC =>
      rw [List.foldl_cons, List.foldl_cons]
      apply ihC
      by_cases hm : ia.1.tmod stride = ib.1.tmod stride
      · rw [if_pos hm, if_pos hm]
        exact Dgemm_add_unweighted _ _ _ _ _ _ h
      · rw [if_neg hm, if_neg hm]
        exact h

theorem ThreadSDgemv_match_unweighted (f_scale : ScaleFunctor) (a b : SDArray)
    (c_index : List Int) (stride : Int) (R : List (Int × DArray)) (gl1 gl2 : Dgemv_arglist)
    (h : gl1.unweighted = gl2.unweighted) :
    (ThreadSDgemv_match_f_scale f_scale a b c_index stride R gl1).unweighted
      = (ThreadSDgemv_match b stride R gl2).unweighted := by
  unfold ThreadSDgemv_match_f_scale ThreadSDgemv_match
  induction R generalizing gl1 gl2 with
  | nil => exact h
  | cons ia rest ih =>
    rw [List.foldl_cons, List.foldl_cons]
    apply ih
    cases b.find (ia.1.tmod stride) with
    | none => exact h
    | some ib => exact Dgemv_add_unweighted _ _ _ _ _ _ h

theorem map_append_singleton_congr {τ κ : Type} (key : τ → κ) (l1 l2 : List τ) (t1 t2 : τ)
    (hl : l1.map key = l2.map key) (ht : key t1 = key t2) :
    (l1 ++ [t1]).map key = (l2 ++ [t2]).map key := by
  rw [List.map_append, List.map_append, hl, List.map_singleton, List.map_singleton, ht]

theorem ThreadSDgemm_col_rel (f_scale : ScaleFunctor) (transa transb : BTAS_TRANSPOSE)
    (alpha : Int) (a b : SDArray) (stride c_irow : Int) (ialo iaup j : Nat)
    (s1 s2 : List Dgemm_arglist × SDArray)
    (h : s1.1.map Dgemm_arglist.unweighted = s2.1.map Dgemm_arglist.unweighted ∧ s1.2 = s2.2) :
    ExceptRel (fun s1 s2 : List Dgemm_arglist × SDArray =>
        s1.1.map Dgemm_arglist.unweighted = s2.1.map Dgemm_arglist.unweighted ∧ s1.2 = s2.2)
      (ThreadSDgemm_col_f_scale f_scale transa transb alpha a b stride c_irow ialo iaup j s1)
      (ThreadSDgemm_col transa transb alpha a b stride c_irow ialo iaup j s2) := by
  obtain ⟨l1, c1⟩ := s1
  obtain ⟨l2, c2⟩ := s2
  obtain ⟨hl, hc⟩ := h
  simp only at hl hc
  subst hc
  unfold ThreadSDgemm_col_f_scale ThreadSDgemm_col
  simp only
  have hm := ThreadSDgemm_match_unweighted f_scale a b c1 (c_irow + (j : Int)) stride
    (a.slab ialo iaup)
    (b.slab (b.lower_bound ((j : Int) * stride))
      (b.upper_bound ((j : Int) * stride + stride - 1)))
    (Dgemm_arglist.new transa transb alpha 1) (Dgemm_arglist.new transa transb alpha 1) rfl
  have hsz := Dgemm_unweighted_size _ _ hm
  split
  · exact ⟨hl, rfl⟩
  · split
    · exact ⟨hl, rfl⟩
    · rw [hsz.1]
      split
      · exact ⟨hl, rfl⟩
      · cases c1.reserve (c_irow + (j : Int)) with
        | none => exact rfl
        | some c3 => exact ⟨map_append_singleton_congr _ _ _ _ _ hl (hsz.2 _), rfl⟩

theorem ThreadSDgemm_row_rel (f_scale : ScaleFunctor) (transa transb : BTAS_TRANSPOSE)
    (alpha : Int) (a b : SDArray) (stride : Int) (ncols i : Nat)
    (s1 s2 : List Dgemm_arglist × SDArray)
    (h : s1.1.map Dgemm_arglist.unweighted = s2.1.map Dgemm_arglist.unweighted ∧ s1.2 = s2.2) :
    ExceptRel (fun s1 s2 : List Dgemm_arglist × SDArray =>
        s1.1.map Dgemm_arglist.unweighted = s2.1.map Dgemm_arglist.unweighted ∧ s1.2 = s2.2)
      (ThreadSDgemm_row_f_scale f_scale transa transb alpha a b stride ncols i s1)
      (ThreadSDgemm_row transa transb alpha a b stride ncols i s2) := by
  unfold ThreadSDgemm_row_f_scale ThreadSDgemm_row
  simp only
  split
  · exact h
  · exact forLoop_rel _ _ _
      (fun j t1 t2 ht => ThreadSDgemm_col_rel f_scale transa transb alpha a b stride _ _ _ j
        t1 t2 ht) _ s1 s2 h

theorem ThreadSDgemv_row_rel (f_scale : ScaleFunctor) (transa : BTAS_TRANSPOSE)
    (alpha : Int) (a b : SDArray) (stride : Int) (i : Nat)
    (s1 s2 : List Dgemv_arglist × SDArray)
    (h : s1.1.map Dgemv_arglist.unweighted = s2.1.map Dgemv_arglist.unweighted ∧ s1.2 = s2.2) :
    ExceptRel (fun s1 s2 : List Dgemv_arglist × SDArray =>
        s1.1.map Dgemv_arglist.unweighted = s2.1.map Dgemv_arglist.unweighted ∧ s1.2 = s2.2)
      (ThreadSDgemv_row_f_scale f_scale transa alpha a b stride i s1)
      (ThreadSDgemv_row transa alpha a b stride i s2) := by
  obtain ⟨l1, c1⟩ := s1
  obtain ⟨l2, c2⟩ := s2
  obtain ⟨hl, hc⟩ := h
  simp only at hl hc
  subst hc
  unfold ThreadSDgemv_row_f_scale ThreadSDgemv_row
  simp only
  have hm := ThreadSDgemv_match_unweighted f_scale a b (c1.index (i : Int)) stride
    (a.slab (a.lower_bound ((i : Int) * stride))
      (a.upper_bound ((i : Int) * stride + stride - 1)))
    (Dgemv_arglist.new transa alpha 1) (Dgemv_arglist.new transa alpha 1) rfl
  have hsz := Dgemv_unweighted_size _ _ hm
  split
  · exact ⟨hl, rfl⟩
  · split
    · exact ⟨hl, rfl⟩
    · rw [hsz.1]
      split
      · exact ⟨hl, rfl⟩
      · cases c1.reserve (i : Int) with
        | none => exact rfl
        | some c3 => exact ⟨map_append_singleton_congr _ _ _ _ _ hl (hsz.2 _), rfl⟩

theorem ThreadSDger_col_rel (f_scale : ScaleFunctor) (alpha : Int) (b : SDArray)
    (c_irow : Int) (a_index : List Int) (ia ib : Int × DArray)
    (s1 s2 : List Dger_arglist × SDArray)
    (h : s1.1.map Dger_arglist.unweighted = s2.1.map Dger_arglist.unweighted ∧ s1.2 = s2.2) :
    ExceptRel (fun s1 s2 : List Dger_arglist × SDArray =>
        s1.1.map Dger_arglist.unweighted = s2.1.map Dger_arglist.unweighted ∧ s1.2 = s2.2)
      (ThreadSDger_col_f_scale f_scale alpha b c_irow a_index ia ib s1)
      (ThreadSDger_col alpha c_irow ia ib s2) := by
  obtain ⟨l1, c1⟩ := s1
  obtain ⟨l2, c2⟩ := s2
  obtain ⟨hl, hc⟩ := h
  simp only at hl hc
  subst hc
  unfold ThreadSDger_col_f_scale ThreadSDger_col
  simp only
  split
  · exact ⟨hl, rfl⟩
  · cases c1.reserve (c_irow + ib.1) with
    | none => exact rfl
    | some c3 => exact ⟨map_append_singleton_congr _ _ _ _ _ hl rfl, rfl⟩

theorem ThreadSDger_row_rel (f_scale : ScaleFunctor) (alpha : Int) (a b : SDArray)
    (stride : Int) (ia : Int × DArray) (s1 s2 : List Dger_arglist × SDArray)
    (h : s1.1.map Dger_arglist.unweighted = s2.1.map Dger_arglist.unweighted ∧ s1.2 = s2.2) :
    ExceptRel (fun s1 s2 : List Dger_arglist × SDArray =>
        s1.1.map Dger_arglist.unweighted = s2.1.map Dger_arglist.unweighted ∧ s1.2 = s2.2)
      (ThreadSDger_row_f_scale f_scale alpha a b stride ia s1)
      (ThreadSDger_row alpha b stride ia s2) := by
  unfold ThreadSDger_row_f_scale ThreadSDger_row
  exact forLoop_rel _ _ _
    (fun ib t1 t2 ht => ThreadSDger_col_rel f_scale alpha b _ _ ia ib t1 t2 ht) _ s1 s2 h

theorem ThreadSDgemm_tasks_one (transa transb : BTAS_TRANSPOSE) (alpha : Int)
    (a b c : SDArray) :
    ThreadSDgemm_tasks_f_scale (fun _ _ _ => 1) transa transb alpha a b c
      = ThreadSDgemm_tasks transa transb alpha a b c := rfl

theorem ThreadSDgemv_tasks_one (transa : BTAS_TRANSPOSE) (alpha : Int) (a b c : SDArray) :
    ThreadSDgemv_tasks_f_scale (fun _ _ _ => 1) transa alpha a b c
      = ThreadSDgemv_tasks transa alpha a b c := rfl

theorem ThreadSDger_tasks_one (alpha : Int) (a b c : SDArray) :
    ThreadSDger_tasks_f_scale (fun _ _ _ => 1) alpha a b c
      = ThreadSDger_tasks alpha a b c := rfl


/-- C30. For every scaling functor `f_scale` and all operands, the task-list
construction of the `f_scale` overload of `ThreadSDgemm`, of `ThreadSDgemv`
and of `ThreadSDger` selects the same tasks as the plain routine
(`SameSelection`): both reserve the same destination blocks and their task
lists agree, task by task in list order, in the destination tag, in the
operand pairs and their order and in the fixed parameters, only the per-pair
weights being left out of the comparison; or both throw the same error with
the same destination. With `f_scale` constantly `1` the overloads build the
same task lists as, and return exactly the result of, the plain routines. -/
theorem f_scale_same_selection (f_scale : ScaleFunctor) (transa transb : BTAS_TRANSPOSE)
    (alpha : Int) (a b c : SDArray) :
    SameSelection Dgemm_arglist.unweighted
      (ThreadSDgemm_tasks_f_scale f_scale transa transb alpha a b c)
      (ThreadSDgemm_tasks transa transb alpha a b c) ∧
    SameSelection Dgemv_arglist.unweighted
      (ThreadSDgemv_tasks_f_scale f_scale transa alpha a b c)
      (ThreadSDgemv_tasks transa alpha a b c) ∧
    SameSelection Dger_arglist.unweighted
      (ThreadSDger_tasks_f_scale f_scale alpha a b c)
      (ThreadSDger_tasks alpha a b c) ∧
    ThreadSDgemm_tasks_f_scale (fun _ _ _ => 1) transa transb alpha a b c
      = ThreadSDgemm_tasks transa transb alpha a b c ∧
    ThreadSDgemv_tasks_f_scale (fun _ _ _ => 1) transa alpha a b c
      = ThreadSDgemv_tasks transa alpha a b c ∧
    ThreadSDger_tasks_f_scale (fun _ _ _ => 1) alpha a b c
      = ThreadSDger_tasks alpha a b c ∧
    ThreadSDgemm_f_scale (fun _ _ _ => 1) transa transb alpha a b c
      = ThreadSDgemm transa transb alpha a b c ∧
    ThreadSDgemv_f_scale (fun _ _ _ => 1) transa alpha a b c
      = ThreadSDgemv transa alpha a b c ∧
    ThreadSDger_f_scale (fun _ _ _ => 1) alpha a b c = ThreadSDger alpha a b c := by
  refine ⟨?_, ?_, ?_, rfl, rfl, rfl, ?_, ?_, ?_⟩
  · unfold SameSelection ThreadSDgemm_tasks_f_scale ThreadSDgemm_tasks
    exact forLoop_rel _ _ _
      (fun i t1 t2 ht => ThreadSDgemm_row_rel f_scale transa transb alpha a b _ _ i t1 t2 ht)
      _ _ _ ⟨rfl, rfl⟩
  · unfold SameSelection ThreadSDgemv_tasks_f_scale ThreadSDgemv_tasks
    exact forLoop_rel _ _ _
      (fun i t1 t2 ht => ThreadSDgemv_row_rel f_scale transa alpha a b _ i t1 t2 ht)
      _ _ _ ⟨rfl, rfl⟩
  · unfold SameSelection ThreadSDger_tasks_f_scale ThreadSDger_tasks
    exact forLoop_rel _ _ _
      (fun ia t1 t2 ht => ThreadSDger_row_rel f_scale alpha a b _ ia t1 t2 ht)
      _ _ _ ⟨rfl, rfl⟩
  · unfold ThreadSDgemm_f_scale ThreadSDgemm
    rw [ThreadSDgemm_tasks_one]
  · unfold ThreadSDgemv_f_scale ThreadSDgemv
    rw [ThreadSDgemv_tasks_one]
  · unfold ThreadSDger_f_scale ThreadSDger
    rw [ThreadSDger_tasks_one]

/-- Witness of C30 on the worked scenario with the weight `scenarioF`: the
overload of `ThreadSDgemm` builds tasks for the destination tags `0 .. 3` with
the weights `1, 1, 4, 4` where the plain routine has `1, 1, 1, 1`, and the two
constructions select the same tasks. -/
theorem f_scale_same_selection_witness :
    (∃ sf s, ThreadSDgemm_tasks_f_scale scenarioF .NoTrans .NoTrans 1 scenarioA scenarioB
          (scenarioC 2 2) = .ok sf ∧
        ThreadSDgemm_tasks .NoTrans .NoTrans 1 scenarioA scenarioB (scenarioC 2 2) = .ok s ∧
        sf.1.map (fun t : Dgemm_arglist => (t.m_c_ptr, t.m_scale))
          = [(some 0, [1]), (some 1, [1]), (some 2, [4]), (some 3, [4])] ∧
        s.1.map (fun t : Dgemm_arglist => (t.m_c_ptr, t.m_scale))
          = [(some 0, [1]), (some 1, [1]), (some 2, [1]), (some 3, [1])]) ∧
      SameSelection Dgemm_arglist.unweighted
        (ThreadSDgemm_tasks_f_scale scenarioF .NoTrans .NoTrans 1 scenarioA scenarioB
          (scenarioC 2 2))
        (ThreadSDgemm_tasks .NoTrans .NoTrans 1 scenarioA scenarioB (scenarioC 2 2)) :=
  ⟨⟨_, _, rfl, rfl, by decide, by decide⟩,
    (f_scale_same_selection scenarioF .NoTrans .NoTrans 1 scenarioA scenarioB
      (scenarioC 2 2)).1⟩


/-- Witness of C26 (amended): `Gemm(1, eye2, ones2, 2, ones2)`, both operands
with elements and a destination of the contraction shape, ends with every
element `1 * 1 + 2 * 1 = 3`. -/
theorem Gemm_cases_witness :
    eye2.size ≠ 0 ∧ ones2.size ≠ 0 ∧
    Gemm .NoTrans .NoTrans 1 eye2 ones2 2 ones2 = some ⟨[2, 2], [3, 3, 3, 3]⟩ ∧
    (∀ idx < 4, at0 [3, 3, 3, 3] idx
      = 1 * Gemm_product .NoTrans .NoTrans eye2 ones2 2 idx
        + 2 * (if 0 < ones2.size then at0 ones2.data idx else 0)) :=
  ⟨by decide, by decide, by decide,
    ((Gemm_cases .NoTrans .NoTrans 1 eye2 ones2 2 ones2).2.2 (by decide) (by decide)
      ⟨[2, 2], [3, 3, 3, 3]⟩ (by decide)).2.2⟩

/-- Witness of C28: the loop of `call()` of `pairTask` (`beta = 1`,
`alpha = 3`, weights `1` and `2`) on a block of ones returns the block of
tens, `1 + 3 * (1 * 1 + 2 * 1)` in every element. -/
theorem tasks_beta_one_witness :
    pairTask.m_beta = 1 ∧ ones2.WF ∧ 0 < ones2.size ∧
    pairTask.callLoop (pairTask.m_arglist.zip pairTask.m_scale) ones2
      = .ok ⟨[2, 2], [10, 10, 10, 10]⟩ ∧
    (∀ idx < 4, at0 [10, 10, 10, 10] idx = at0 ones2.data idx + pairTask.m_alpha *
      ((pairTask.m_arglist.zip pairTask.m_scale).map fun ps =>
        ps.2 * Gemm_product pairTask.m_transa pairTask.m_transb ps.1.1 ps.1.2
          ones2.rank idx).sum) :=
  ⟨rfl, by decide, by decide, rfl,
    ((tasks_beta_one .NoTrans .NoTrans 1 scenarioA scenarioB (scenarioC 2 2)).2.2.1
      pairTask ones2 ⟨[2, 2], [10, 10, 10, 10]⟩ rfl (by decide) (by decide) rfl).2⟩

/-! ## The dense `Dimm` -/

theorem at0_set (l : List Int) (i : Nat) (v : Int) (q : Nat) :
    at0 (l.set i v) q = if q = i ∧ i < l.length then v else at0 l q := by
  unfold at0
  by_cases hq : q = i
  · subst hq
    by_cases hl : q < l.length
    · rw [if_pos ⟨rfl, hl⟩, List.getD_eq_getElem _ _ (by rw [List.length_set]; exact hl),
        List.getElem_set_self]
    · rw [if_neg (fun h => hl h.2), List.getD_eq_default _ _ (by rw [List.length_set]; omega),
        List.getD_eq_default _ _ (by omega)]
  · rw [if_neg (fun h => hq h.1)]
    by_cases hl : q < l.length
    · rw [List.getD_eq_getElem _ _ (by rw [List.length_set]; exact hl),
        List.getD_eq_getElem _ _ hl, List.getElem_set_ne (fun h => hq h.symm)]
    · rw [List.getD_eq_default _ _ (by rw [List.length_set]; omega),
        List.getD_eq_default _ _ (by omega)]

theorem dimm_cols_spec (b : List Int) (n : Nat) (st : Nat × List Int) :
    (T_dimm_helper_true.cols b n st).1 = st.1 + n ∧
    (T_dimm_helper_true.cols b n st).2.length = st.2.length ∧
    ∀ q, at0 (T_dimm_helper_true.cols b n st).2 q
      = if st.1 ≤ q ∧ q < st.1 + n ∧ q < st.2.length then at0 st.2 q * at0 b (q - st.1)
        else at0 st.2 q := by
  unfold T_dimm_helper_true.cols
  induction n with
  | zero =>
    refine ⟨rfl, rfl, ?_⟩
    intro q
    rw [if_neg (by omega)]
    rfl
  | succ n ih =>
    rw [List.range_succ, List.foldl_append]
    simp only [List.foldl_cons, List.foldl_nil]
    obtain ⟨h1, h2, h3⟩ := ih
    refine ⟨by rw [h1]; omega, by rw [List.length_set, h2], ?_⟩
    intro q
    rw [at0_set, h1, h2, h3 q, h3 (st.1 + n)]
    by_cases hq : q = st.1 + n
    · subst hq
      by_cases hl : st.1 + n < st.2.length
      · rw [if_pos ⟨rfl, hl⟩, if_neg (by omega), if_pos ⟨by omega, by omega, hl⟩]
        congr 2
        omega
      · rw [if_neg (fun h => hl h.2), if_neg (by omega), if_neg (by omega)]
    · rw [if_neg (fun h => hq h.1)]
      by_cases hc : st.1 ≤ q ∧ q < st.1 + n ∧ q < st.2.length
      · rw [if_pos hc, if_pos ⟨hc.1, by omega, hc.2.2⟩]
      · rw [if_neg hc, if_neg (by omega)]

theorem dimm_rows_spec (b : List Int) (colsA m : Nat) (a : List Int) :
    ((List.range m).foldl (fun st _ => T_dimm_helper_true.cols b colsA st) (0, a)).1
        = m * colsA ∧
    ((List.range m).foldl (fun st _ => T_dimm_helper_true.cols b colsA st) (0, a)).2.length
        = a.length ∧
    ∀ q, at0 ((List.range m).foldl
        (fun st _ => T_dimm_helper_true.cols b colsA st) (0, a)).2 q
      = if q < m * colsA ∧ q < a.length then at0 a q * at0 b (q % colsA) else at0 a q := by
  induction m with
  | zero =>
    refine ⟨by simp, rfl, ?_⟩
    intro q
    rw [if_neg (by omega)]
    rfl
  | succ m ih =>
    rw [List.range_succ, List.foldl_append]
    simp only [List.foldl_cons, List.foldl_nil]
    obtain ⟨h1, h2, h3⟩ := ih
    obtain ⟨g1, g2, g3⟩ := dimm_cols_spec b colsA
      ((List.range m).foldl (fun st _ => T_dimm_helper_true.cols b colsA st) (0, a))
    refine ⟨by rw [g1, h1]; ring, by rw [g2, h2], ?_⟩
    intro q
    rw [g3 q, h1, h2, h3 q]
    have hsucc : (m + 1) * colsA = m * colsA + colsA := by ring
    by_cases hc : m * colsA ≤ q ∧ q < m * colsA + colsA ∧ q < a.length
    · rw [if_pos hc, if_neg (by omega), if_pos ⟨by omega, hc.2.2⟩]
      congr 2
      have hq : q = (q - m * colsA) + colsA * m := by rw [Nat.mul_comm colsA m]; omega
      conv_rhs => rw [hq]
      rw [Nat.add_mul_mod_self_left, Nat.mod_eq_of_lt (by omega)]
    · rw [if_neg hc]
      by_cases hd : q < m * colsA ∧ q < a.length
      · rw [if_pos hd, if_pos ⟨by omega, hd.2⟩]
      · rw [if_neg hd, if_neg (by omega)]

theorem at0_scal (n : Nat) (alpha : Int) (x : List Int) (off q : Nat) :
    at0 (detail.scal n alpha x off) q
      = if off ≤ q ∧ q < off + n ∧ q < x.length then alpha * at0 x q else at0 x q := by
  unfold detail.scal
  by_cases hl : q < x.length
  · rw [at0_map_range _ _ _ hl]
    by_cases hc : off ≤ q ∧ q < off + n
    · rw [if_pos hc, if_pos ⟨hc.1, hc.2, hl⟩]
    · rw [if_neg hc, if_neg (fun h => hc ⟨h.1, h.2.1⟩)]
  · rw [if_neg (fun h => hl h.2.2), at0_of_length_le _ _ (by simp; omega),
      at0_of_length_le _ _ (by omega)]

theorem length_scal (n : Nat) (alpha : Int) (x : List Int) (off : Nat) :
    (detail.scal n alpha x off).length = x.length := by
  unfold detail.scal
  simp

theorem dimm_scal_rows_spec (a : List Int) (colsB m : Nat) (b : List Int) :
    ∀ r, r = (List.range m).foldl
        (fun (st : Nat × Nat × List Int) _ =>
          (st.1 + 1, st.2.1 + colsB, detail.scal colsB (at0 a st.1) st.2.2 st.2.1))
        (0, 0, b) →
    r.1 = m ∧ r.2.1 = m * colsB ∧ r.2.2.length = b.length ∧
    ∀ q, at0 r.2.2 q
      = if q < m * colsB ∧ q < b.length then at0 a (q / colsB) * at0 b q else at0 b q := by
  induction m with
  | zero =>
    intro r hr
    subst hr
    refine ⟨rfl, by simp, rfl, ?_⟩
    intro q
    rw [if_neg (by omega)]
    rfl
  | succ m ih =>
    intro r hr
    rw [List.range_succ, List.foldl_append] at hr
    simp only [List.foldl_cons, List.foldl_nil] at hr
    obtain ⟨h1, h2, h3, h4⟩ := ih _ rfl
    subst hr
    simp only
    rw [h1, h2]
    refine ⟨rfl, by ring, by rw [length_scal, h3], ?_⟩
    intro q
    rw [at0_scal, h3, h4 q]
    have hsucc : (m + 1) * colsB = m * colsB + colsB := by ring
    by_cases hc : m * colsB ≤ q ∧ q < m * colsB + colsB ∧ q < b.length
    · rw [if_pos hc, if_neg (by omega), if_pos ⟨by omega, hc.2.2⟩]
      congr 2
      have hpos : 0 < colsB := by omega
      have hq : q = (q - m * colsB) + colsB * m := by rw [Nat.mul_comm colsB m]; omega
      conv_rhs => rw [hq]
      rw [Nat.add_mul_div_left _ _ hpos, Nat.div_eq_of_lt (by omega)]
      simp
    · rw [if_neg hc]
      by_cases hd : q < m * colsB ∧ q < b.length
      · rw [if_pos hd, if_pos ⟨by omega, hd.2⟩]
      · rw [if_neg hd, if_neg (by omega)]


/-- C38: the dense `Dimm(a, b)` on well-formed arrays, `M` and `N` the ranks
of `a` and `b`. For `M > N` the call throws if and only if the shape of `b`
is not the trailing `N` extents of `a`; otherwise `b` is as before, `a` keeps
its shape and, with `i` over the flattened leading `M - N` indices and `j`
over the elements of `b`, element `a[i, j]` is multiplied by `b[j]` (these are
all the elements of `a`). For `M <= N` the call throws if and only if the
shape of `a` is not the leading `M` extents of `b`; otherwise `a` is as
before, `b` keeps its shape and element `b[i, j]`, `i` over the elements of
`a`, is multiplied by `a[i]` (these are all the elements of `b`). -/
theorem Dimm_cases (a b : DArray) (ha : a.WF) (hb : b.WF) :
    (b.rank < a.rank →
      (Dimm a b = none ↔ b.shape ≠ a.shape.drop (a.rank - b.rank)) ∧
      ∀ r, Dimm a b = some r →
        r.2 = b ∧ r.1.shape = a.shape ∧ r.1.data.length = a.data.length ∧
        a.data.length = (a.shape.take (a.rank - b.rank)).prod * b.size ∧
        ∀ i j, i < (a.shape.take (a.rank - b.rank)).prod → j < b.size →
          at0 r.1.data (i * b.size + j) = at0 a.data (i * b.size + j) * at0 b.data j) ∧
    (a.rank ≤ b.rank →
      (Dimm a b = none ↔ a.shape ≠ b.shape.take a.rank) ∧
      ∀ r, Dimm a b = some r →
        r.1 = a ∧ r.2.shape = b.shape ∧ r.2.data.length = b.data.length ∧
        b.data.length = a.size * (b.shape.drop a.rank).prod ∧
        ∀ i j, i < a.size → j < (b.shape.drop a.rank).prod →
          at0 r.2.data (i * (b.shape.drop a.rank).prod + j)
            = at0 a.data i * at0 b.data (i * (b.shape.drop a.rank).prod + j)) := by
  constructor
  · intro hlt
    unfold Dimm
    rw [if_pos hlt]
    unfold T_dimm_helper_true.call
    simp only
    by_cases hs : b.shape = a.shape.drop (a.rank - b.rank)
    · rw [if_neg (fun h => h hs)]
      refine ⟨⟨fun h => by simp at h, fun h => absurd hs h⟩, ?_⟩
      intro r hr
      simp only [Option.map_some', Option.some.injEq] at hr
      subst hr
      obtain ⟨_, g2, g3⟩ := dimm_rows_spec b.data b.size
        (a.shape.take (a.rank - b.rank)).prod a.data
      have hlen : a.data.length = (a.shape.take (a.rank - b.rank)).prod * b.size := by
        have h1 : a.data.length = a.shape.prod := ha
        have h2 : b.size = (a.shape.drop (a.rank - b.rank)).prod := by
          unfold DArray.size
          rw [hb, hs]
        rw [h1, h2, List.prod_take_mul_prod_drop]
      refine ⟨rfl, rfl, g2, hlen, ?_⟩
      intro i j hi hj
      simp only
      rw [g3 (i * b.size + j)]
      have hq : i * b.size + j < (a.shape.take (a.rank - b.rank)).prod * b.size := by
        have : (i + 1) * b.size ≤ (a.shape.take (a.rank - b.rank)).prod * b.size :=
          Nat.mul_le_mul_right _ hi
        have h3 : (i + 1) * b.size = i * b.size + b.size := by ring
        omega
      rw [if_pos ⟨hq, by rw [hlen]; exact hq⟩]
      congr 2
      rw [Nat.mul_comm i b.size, Nat.mul_add_mod, Nat.mod_eq_of_lt hj]
    · rw [if_pos hs]
      exact ⟨⟨fun _ => hs, fun _ => rfl⟩, fun r hr => by simp at hr⟩
  · intro hle
    unfold Dimm
    rw [if_neg (by omega)]
    unfold T_dimm_helper_false.call
    simp only
    by_cases hs : a.shape = b.shape.take a.rank
    · rw [if_neg (fun h => h hs)]
      refine ⟨⟨fun h => by simp at h, fun h => absurd hs h⟩, ?_⟩
      intro r hr
      simp only [Option.map_some', Option.some.injEq] at hr
      subst hr
      obtain ⟨_, _, g3, g4⟩ := dimm_scal_rows_spec a.data (b.shape.drop a.rank).prod
        a.size b.data _ rfl
      have hlen : b.data.length = a.size * (b.shape.drop a.rank).prod := by
        have h1 : b.data.length = b.shape.prod := hb
        have h2 : a.size = (b.shape.take a.rank).prod := by
          unfold DArray.size
          rw [ha, hs]
        rw [h1, h2, List.prod_take_mul_prod_drop]
      refine ⟨rfl, rfl, g3, hlen, ?_⟩
      intro i j hi hj
      simp only
      rw [g4 (i * (b.shape.drop a.rank).prod + j)]
      have hq : i * (b.shape.drop a.rank).prod + j < a.size * (b.shape.drop a.rank).prod := by
        have : (i + 1) * (b.shape.drop a.rank).prod ≤ a.size * (b.shape.drop a.rank).prod :=
          Nat.mul_le_mul_right _ hi
        have h3 : (i + 1) * (b.shape.drop a.rank).prod
            = i * (b.shape.drop a.rank).prod + (b.shape.drop a.rank).prod := by ring
        omega
      rw [if_pos ⟨hq, by rw [hlen]; exact hq⟩]
      congr 2
      rw [Nat.mul_comm i _, Nat.mul_add_div (by omega), Nat.div_eq_of_lt hj]
      simp
    · rw [if_pos hs]
      exact ⟨⟨fun _ => hs, fun _ => rfl⟩, fun r hr => by simp at hr⟩

/-- Witness of C38: the `2 × 3` array `grid23` with the diagonal `diag3` on
its columns (`M > N`), and the diagonal `diag2` on its rows (`M <= N` is the
call `Dimm(diag2, grid23)`). -/
theorem Dimm_cases_witness :
    grid23.WF ∧ diag3.WF ∧ diag2.WF ∧
    Dimm grid23 diag3 = some (⟨[2, 3], [10, 40, 90, 40, 100, 180]⟩, diag3) ∧
    Dimm diag2 grid23 = some (diag2, ⟨[2, 3], [10, 20, 30, 80, 100, 120]⟩) ∧
    (Dimm grid23 diag3 = none ↔ diag3.shape ≠ grid23.shape.drop (grid23.rank - diag3.rank)) ∧
    (Dimm diag2 grid23 = none ↔ diag2.shape ≠ grid23.shape.take diag2.rank) ∧
    Dimm grid23 diag2 = none :=
  ⟨by decide, by decide, by decide, by decide, by decide,
    ((Dimm_cases grid23 diag3 (by decide) (by decide)).1 (by decide)).1,
    ((Dimm_cases diag2 grid23 (by decide) (by decide)).2 (by decide)).1, by decide⟩


/-! ## `SDdimd` and `SDdidm` -/

/-- C37: `SDcopy(x, y, true)` on a sorted `x`, serial and threaded. The shape
of `y` is unchanged whether the call returns or throws, and a shape mismatch
throws with `y` untouched. On tensors of one shape the call returns; every
block of `y` at a tag that `x` does not store is exactly as it was; at a tag
of `x` that could be reserved `y` holds the copy `Dcopy` makes of the block of
`x` (that block itself when it has elements), and nothing at a tag of `x`
that could not be reserved; so `y` is not `x` when it stored a tag that `x`
does not store. -/
theorem SDcopy_up_cast_frame (serial : Bool) (x y : SDArray) (hx : x.Sorted) :
    (Outcome.final (SDcopy serial x y true)).shape = y.shape ∧
    (x.shape ≠ y.shape → SDcopy serial x y true = .error (.shapeMismatch, y)) ∧
    (x.shape = y.shape → ∃ y1, SDcopy serial x y true = .ok y1 ∧
      y1.shape = y.shape ∧
      (∀ t, t ∉ x.tags → y1.find t = y.find t) ∧
      (∀ p ∈ x.store, (y.reserve p.1).isSome = true →
        y1.find p.1 = some (Dcopy p.2 (destBlock y p.1)) ∧
        (p.2.WF → 0 < p.2.size → y1.find p.1 = some p.2)) ∧
      (∀ p ∈ x.store, (y.reserve p.1).isSome = false → y1.find p.1 = none) ∧
      ((∃ t ∈ y.tags, t ∉ x.tags) → y1.tags ≠ x.tags)) := by
  have hgen : x.shape = y.shape → ∃ y1, SDcopy serial x y true = .ok y1 ∧
      y1.shape = y.shape ∧
      (∀ t, t ∉ x.tags → y1.find t = y.find t) ∧
      (∀ p ∈ x.store, (y.reserve p.1).isSome = true →
        y1.find p.1 = some (Dcopy p.2 (destBlock y p.1)) ∧
        (p.2.WF → 0 < p.2.size → y1.find p.1 = some p.2)) ∧
      (∀ p ∈ x.store, (y.reserve p.1).isSome = false → y1.find p.1 = none) ∧
      ((∃ t ∈ y.tags, t ∉ x.tags) → y1.tags ≠ x.tags) := by
    intro hsh
    rw [SDcopy_up_cast serial x y hsh]
    obtain ⟨y1, hok, hcopied, hskipped⟩ := copy_loops_up_cast serial x y hx
    have hret : returned (forLoop (l1Body (fun a d => some (Dcopy a d)) true) x.store y)
        = some y1 := by
      rw [← copy_loops_returned, hok]
      rfl
    obtain ⟨hfr, _, _, hother⟩ := l1_returned_find (fun a d => some (Dcopy a d)) true
      x.store y y1 (SDArray.store_keys_nodup x hx) hret
    have hframe : ∀ t, t ∉ x.tags → y1.find t = y.find t := by
      intro t ht
      apply hother
      intro p hp hpt
      exact absurd (by rw [← hpt]; exact List.mem_map_of_mem _ hp) ht
    refine ⟨y1, hok, hfr.2.1, hframe, ?_, hskipped, ?_⟩
    · intro p hp hres
      refine ⟨hcopied p hp hres, ?_⟩
      intro hw hpos
      rw [hcopied p hp hres, Dcopy_eq p.2 _ hw hpos]
    · rintro ⟨t, hty, htx⟩ heq
      have h1 : (y1.find t).isSome = true := by
        rw [hframe t htx]
        exact (SDArray.find_isSome_iff y t).mpr hty
      exact htx (by rw [← heq]; exact (SDArray.find_isSome_iff y1 t).mp h1)
  refine ⟨?_, ?_, hgen⟩
  · by_cases hsh : x.shape = y.shape
    · obtain ⟨y1, hok, hshape, _⟩ := hgen hsh
      rw [hok]
      exact hshape
    · unfold SDcopy
      simp only [if_true, ne_eq, hsh, not_false_eq_true]
      rfl
  · intro hsh
    unfold SDcopy
    simp only [if_true, ne_eq, hsh, not_false_eq_true]

/-- Witness of C37: the up-cast copy of `halfY` (one block, at tag `0`) into
`pairX` (blocks at the tags `0` and `1`) returns; the block at tag `0` is
the block of `halfY`, the block at tag `1` is as before, and the result does
not have the tags of the source. -/
theorem SDcopy_up_cast_frame_witness :
    halfY.Sorted ∧ halfY.shape = pairX.shape ∧
    ∃ y1, SDcopy false halfY pairX true = .ok y1 ∧ y1.shape = pairX.shape ∧
      y1.find 1 = pairX.find 1 ∧ y1.find 0 = some ⟨[2], [10, 20]⟩ ∧ y1.tags ≠ halfY.tags := by
  obtain ⟨y1, hok, hshape, hframe, hcopied, _, hne⟩ :=
    (SDcopy_up_cast_frame false halfY pairX (by decide)).2.2 rfl
  exact ⟨by decide, rfl, y1, hok, hshape, hframe 1 (by decide),
    ((hcopied (0, ⟨[2], [10, 20]⟩) (by decide) (by decide)).2 (by decide) (by decide)),
    hne ⟨1, by decide, by decide⟩⟩


/-! ## The tag invariant of the destination -/

theorem tagsInRange_of_reserveAll (c f : SDArray) (ts : List Int) (hc : c.TagsInRange)
    (hts : ∀ t ∈ ts, 0 ≤ t ∧ t < (c.size_total : Int))
    (hf : SDArray.SameFrame f (reserveAll c ts)) : f.TagsInRange := by
  intro t ht
  have hshape : f.shape = c.shape := hf.2.2.1.trans (reserveAll_frame c ts).2.1
  have hsz : f.size_total = c.size_total := by
    unfold SDArray.size_total
    rw [hshape]
  rw [hsz]
  have ht1 : t ∈ (reserveAll c ts).tags := by rw [← hf.1]; exact ht
  rcases mem_tags_reserveAll c ts t ht1 with h | h
  · exact hc t h
  · exact hts t h

theorem gerTask_dest (alpha : Int) (stride : Int) (ia ib : Int × DArray) :
    (gerTask alpha stride ia ib).m_c_ptr = some (ia.1 * stride + ib.1) := rfl

/-! ## No modulo by a zero stride -/

theorem forLoopChecked_some {ι σ ε : Type} (bodyC : ι → σ → Option (Except ε σ))
    (body : ι → σ → Except ε σ) (h : ∀ i s, bodyC i s = some (body i s))
    (l : List ι) (s : σ) : forLoopChecked bodyC l s = some (forLoop body l s) := by
  induction l generalizing s with
  | nil => rfl
  | cons i is ih =>
    unfold forLoopChecked forLoop
    rw [h i s]
    cases body i s with
    | ok s1 => exact ih s1
    | error e => rfl

theorem forLoop_skip {ι σ ε : Type} (body : ι → σ → Except ε σ)
    (h : ∀ i s, body i s = .ok s) (l : List ι) (s : σ) : forLoop body l s = .ok s := by
  induction l with
  | nil => rfl
  | cons i is ih =>
    unfold forLoop
    rw [h i s]
    exact ih

/-- With stride `0` the bounds of every row are `[0, -1]`, and the first
stored tag not below `0` is the first one above `-1`. -/
theorem bounds_stride_zero (x : SDArray) (i : Nat) :
    x.lower_bound ((i : Int) * 0) = x.upper_bound ((i : Int) * 0 + 0 - 1) := by
  unfold SDArray.lower_bound SDArray.upper_bound
  congr 2
  funext p
  rw [decide_eq_decide]
  omega

theorem foldlM_some {α β : Type} (f : β → α → β) (l : List α) (g : β) :
    l.foldlM (fun g x => some (f g x)) g = some (l.foldl f g) := by
  induction l generalizing g with
  | nil => rfl
  | cons x xs ih =>
    rw [List.foldlM_cons, List.foldl_cons]
    simp only [Option.bind_eq_bind, Option.some_bind]
    exact ih _

theorem ThreadSDgemm_match_checked_eq (stride : Int) (hs : stride ≠ 0)
    (rowSlab colSlab : List (Int × DArray)) (gl : Dgemm_arglist) :
    ThreadSDgemm_match_checked stride rowSlab colSlab gl
      = some (ThreadSDgemm_match stride rowSlab colSlab gl) := by
  unfold ThreadSDgemm_match_checked ThreadSDgemm_match
  have hmod : ∀ x, checkedMod x stride = some (x.tmod stride) := by
    intro x
    unfold checkedMod
    rw [if_neg hs]
  have hfun : (fun (gl : Dgemm_arglist) (ia : Int × DArray) =>
      colSlab.foldlM (fun gl ib =>
        match checkedMod ia.1 stride, checkedMod ib.1 stride with
        | some ra, some rb => some (if ra = rb then gl.add ia.2 ib.2 1 else gl)
        | _, _ => none) gl)
      = fun gl ia => some (colSlab.foldl (fun gl ib =>
          if ia.1.tmod stride = ib.1.tmod stride then gl.add ia.2 ib.2 1 else gl) gl) := by
    funext g ia
    simp only [hmod]
    exact foldlM_some _ _ _
  rw [hfun]
  exact foldlM_some _ _ _

theorem ThreadSDgemv_match_checked_eq (b : SDArray) (stride : Int) (hs : stride ≠ 0)
    (rowSlab : List (Int × DArray)) (gl : Dgemv_arglist) :
    ThreadSDgemv_match_checked b stride rowSlab gl
      = some (ThreadSDgemv_match b stride rowSlab gl) := by
  unfold ThreadSDgemv_match_checked ThreadSDgemv_match
  have hmod : ∀ x, checkedMod x stride = some (x.tmod stride) := by
    intro x
    unfold checkedMod
    rw [if_neg hs]
  have hfun : (fun (gl : Dgemv_arglist) (ia : Int × DArray) =>
      match checkedMod ia.1 stride with
      | none => none
      | some r =>
        match b.find r with
        | some ib => some (gl.add ia.2 ib 1)
        | none => some gl)
      = fun gl ia => some (match b.find (ia.1.tmod stride) with
          | some ib => gl.add ia.2 ib 1
          | none => gl) := by
    funext g ia
    simp only [hmod]
    cases b.find (ia.1.tmod stride) <;> rfl
  rw [hfun]
  exact foldlM_some _ _ _

theorem ThreadSDgemm_col_checked_eq (transa transb : BTAS_TRANSPOSE) (alpha : Int)
    (a b : SDArray) (stride : Int) (hs : stride ≠ 0) (c_irow : Int) (ialo iaup j : Nat)
    (st : List Dgemm_arglist × SDArray) :
    ThreadSDgemm_col_checked transa transb alpha a b stride c_irow ialo iaup j st
      = some (ThreadSDgemm_col transa transb alpha a b stride c_irow ialo iaup j st) := by
  unfold ThreadSDgemm_col_checked ThreadSDgemm_col
  simp only [ThreadSDgemm_match_checked_eq stride hs]
  split
  · rfl
  · split
    · rfl
    · split
      · rfl
      · cases st.2.reserve (c_irow + (j : Int)) <;> rfl

theorem ThreadSDgemm_row_checked_eq (transa transb : BTAS_TRANSPOSE) (alpha : Int)
    (a b : SDArray) (stride ncols i : Nat) (st : List Dgemm_arglist × SDArray) :
    ThreadSDgemm_row_checked transa transb alpha a b (stride : Int) ncols i st
      = some (ThreadSDgemm_row transa transb alpha a b (stride : Int) ncols i st) := by
  unfold ThreadSDgemm_row_checked ThreadSDgemm_row
  simp only
  rcases Nat.eq_zero_or_pos stride with h0 | hpos
  · subst h0
    have hb := bounds_stride_zero a i
    simp only [Nat.cast_zero]
    rw [if_pos hb, if_pos hb]
  · split
    · rfl
    · exact forLoopChecked_some _ _
        (fun j s => ThreadSDgemm_col_checked_eq transa transb alpha a b (stride : Int)
          (by omega) _ _ _ j s) _ _

theorem ThreadSDgemv_row_checked_eq (transa : BTAS_TRANSPOSE) (alpha : Int)
    (a b : SDArray) (stride i : Nat) (st : List Dgemv_arglist × SDArray) :
    ThreadSDgemv_row_checked transa alpha a b (stride : Int) i st
      = some (ThreadSDgemv_row transa alpha a b (stride : Int) i st) := by
  unfold ThreadSDgemv_row_checked ThreadSDgemv_row
  simp only
  rcases Nat.eq_zero_or_pos stride with h0 | hpos
  · subst h0
    have hb := bounds_stride_zero a i
    simp only [Nat.cast_zero]
    rw [if_pos hb, if_pos hb]
  · rw [ThreadSDgemv_match_checked_eq b (stride : Int) (by omega)]
    split
    · rfl
    · split
      · rfl
      · simp only
        split
        · rfl
        · cases st.2.reserve (i : Int) <;> rfl

theorem ThreadSDgemm_row_zero (transa transb : BTAS_TRANSPOSE) (alpha : Int)
    (a b : SDArray) (ncols i : Nat) (st : List Dgemm_arglist × SDArray) :
    ThreadSDgemm_row transa transb alpha a b ((0 : Nat) : Int) ncols i st = .ok st := by
  unfold ThreadSDgemm_row
  simp only [Nat.cast_zero]
  rw [if_pos (bounds_stride_zero a i)]

theorem ThreadSDgemv_row_zero (transa : BTAS_TRANSPOSE) (alpha : Int)
    (a b : SDArray) (i : Nat) (st : List Dgemv_arglist × SDArray) :
    ThreadSDgemv_row transa alpha a b ((0 : Nat) : Int) i st = .ok st := by
  unfold ThreadSDgemv_row
  simp only [Nat.cast_zero]
  rw [if_pos (bounds_stride_zero a i)]


/-- C34: in the task-list constructions of `ThreadSDgemm` and `ThreadSDgemv`
with every `tag % stride` evaluated through `checkedMod`, which has no value
for a zero divisor, no evaluation is without value, for any input: the checked
construction yields the result of the construction. With stride `0` the
bounds of every row are `[0, -1]`, `lower_bound(0)` equals `upper_bound(-1)`
in every tensor, every row is skipped before the matching loop, and the task
list stays empty. -/
theorem modulo_only_positive_stride (transa transb : BTAS_TRANSPOSE) (alpha : Int)
    (a b c : SDArray) :
    (∀ x s, checkedMod x s = none ↔ s = 0) ∧
    ThreadSDgemm_tasks_checked transa transb alpha a b c
      = some (ThreadSDgemm_tasks transa transb alpha a b c) ∧
    ThreadSDgemv_tasks_checked transa alpha a b c
      = some (ThreadSDgemv_tasks transa alpha a b c) ∧
    (∀ i : Nat, a.lower_bound ((i : Int) * 0) = a.upper_bound ((i : Int) * 0 + 0 - 1)) ∧
    (gemm_stride a b c = 0 → ThreadSDgemm_tasks transa transb alpha a b c = .ok ([], c)) ∧
    (gemv_stride b = 0 → ThreadSDgemv_tasks transa alpha a b c = .ok ([], c)) := by
  refine ⟨?_, ?_, ?_, bounds_stride_zero a, ?_, ?_⟩
  · intro x s
    unfold checkedMod
    by_cases h : s = 0
    · rw [if_pos h]
      exact ⟨fun _ => h, fun _ => rfl⟩
    · rw [if_neg h]
      exact ⟨fun e => (by cases e), fun e => absurd e h⟩
  · unfold ThreadSDgemm_tasks_checked ThreadSDgemm_tasks
    exact forLoopChecked_some _ _
      (fun i s => ThreadSDgemm_row_checked_eq transa transb alpha a b _ _ i s) _ _
  · unfold ThreadSDgemv_tasks_checked ThreadSDgemv_tasks
    exact forLoopChecked_some _ _
      (fun i s => ThreadSDgemv_row_checked_eq transa alpha a b _ i s) _ _
  · intro h0
    unfold ThreadSDgemm_tasks
    rw [h0]
    exact forLoop_skip _ (fun i s => ThreadSDgemm_row_zero transa transb alpha a b _ i s) _ _
  · intro h0
    unfold ThreadSDgemv_tasks
    rw [h0]
    exact forLoop_skip _ (fun i s => ThreadSDgemv_row_zero transa alpha a b i s) _ _

/-- Witness of C34: `flatA` declares the shape `2 × 0`, so the stride of the
contraction is `0` while there are two rows; the checked construction has a
value and builds no task. -/
theorem modulo_only_positive_stride_witness :
    gemm_stride flatA scenarioB (scenarioC 2 2) = 0 ∧
    gemm_nrows flatA scenarioB (scenarioC 2 2) = 2 ∧
    ThreadSDgemm_tasks_checked .NoTrans .NoTrans 1 flatA scenarioB (scenarioC 2 2)
      = some (.ok ([], scenarioC 2 2)) := by
  have h := modulo_only_positive_stride .NoTrans .NoTrans 1 flatA scenarioB (scenarioC 2 2)
  refine ⟨by decide, by decide, ?_⟩
  rw [h.2.1, h.2.2.2.2.1 (by decide)]


/-! ## The estimated cost of a pair -/

theorem foldl_mul_eq (l : List Nat) (init : Nat) :
    l.foldl (fun acc e => acc * e) init = init * l.prod := by
  induction l generalizing init with
  | nil => simp
  | cons x xs ih =>
    rw [List.foldl_cons, ih, List.prod_cons, Nat.mul_assoc]

theorem mf_compute_flops_eq (l : Dgemm_arglist) (NC : Nat) (a b : DArray) :
    l.mf_compute_flops NC a b = a.size *
      (if l.m_transb = .NoTrans then (b.shape.drop ((a.rank + b.rank - NC) / 2)).prod
        else (b.shape.take (b.rank - (a.rank + b.rank - NC) / 2)).prod) := by
  unfold Dgemm_arglist.mf_compute_flops
  simp only
  split
  · exact foldl_mul_eq _ _
  · exact foldl_mul_eq _ _

/-- C31: the cost `Dgemm_arglist::add` records for a pair is the number of
elements of the `a` block times the product of the free extents of the `b`
block: of `b.shape[K ..]` when `transb` is `NoTrans` and of
`b.shape[0 .. NB - K)` otherwise, `K = (NA + NB - NC) / 2`. For an `M × Kc`
block `a` and a block `b` of shape `Kc × Nc` (`NoTrans`) or `Nc × Kc`
(otherwise) this is `M * Kc * Nc`. The costs recorded in a task are these
costs of its pairs, in order. The cost does not enter the computed blocks:
the tasks built by `ThreadSDgemm`, run in the order of decreasing cost for
any cost function whatever, return exactly when the run in list order
returns, with the same tensor. -/
theorem recorded_cost (l : Dgemm_arglist) (NC : Nat) (a b : DArray) :
    l.mf_compute_flops NC a b = a.size *
      (if l.m_transb = .NoTrans then (b.shape.drop ((a.rank + b.rank - NC) / 2)).prod
        else (b.shape.take (b.rank - (a.rank + b.rank - NC) / 2)).prod) ∧
    (∀ M Kc Nc : Nat, a.shape = [M, Kc] → a.WF →
      (l.m_transb = .NoTrans → b.shape = [Kc, Nc] →
        l.mf_compute_flops 2 a b = M * Kc * Nc) ∧
      (l.m_transb ≠ .NoTrans → b.shape = [Nc, Kc] →
        l.mf_compute_flops 2 a b = M * Kc * Nc)) ∧
    l.costs NC = l.m_arglist.map (fun p => p.1.size *
      (if l.m_transb = .NoTrans
        then (p.2.shape.drop ((p.1.rank + p.2.rank - NC) / 2)).prod
        else (p.2.shape.take (p.2.rank - (p.1.rank + p.2.rank - NC) / 2)).prod)) ∧
    (∀ (transa transb : BTAS_TRANSPOSE) (alpha : Int) (x y c : SDArray)
        (st : List Dgemm_arglist × SDArray) (cost : Dgemm_arglist → Nat),
      ThreadSDgemm_tasks transa transb alpha x y c = .ok st →
      returned (parallel_call Dgemm_arglist.call (scheduleByCost cost st.1) st.2)
        = returned (parallel_call Dgemm_arglist.call st.1 st.2)) := by
  refine ⟨mf_compute_flops_eq l NC a b, ?_, ?_, ?_⟩
  · intro M Kc Nc hsa hwa
    have hsize : a.size = M * Kc := by
      unfold DArray.size
      rw [hwa, hsa]
      simp
    constructor
    · intro ht hsb
      rw [mf_compute_flops_eq, if_pos ht, hsize]
      unfold DArray.rank
      rw [hsa, hsb]
      simp
    · intro ht hsb
      rw [mf_compute_flops_eq, if_neg ht, hsize]
      unfold DArray.rank
      rw [hsa, hsb]
      simp
  · unfold Dgemm_arglist.costs
    apply List.map_congr_left
    intro p _
    exact mf_compute_flops_eq l NC p.1 p.2
  · intro transa transb alpha x y c st cost h
    unfold parallel_call
    apply returned_forLoop_perm Dgemm_arglist.call (fun task => task.m_c_ptr) _ _ st.1
      (List.perm_insertionSort _ _)
    · have hspec := ThreadSDgemm_tasks_spec transa transb alpha x y c st h
      have hptr : (st.1.map fun task => task.m_c_ptr)
          = ((gemmDests c.allowed x y (gemm_stride x y c) (gemm_ncols x y c)
              (gemm_nrows x y c)).map fun ij : Nat × Nat =>
                (ij.1 : Int) * (gemm_ncols x y c : Int) + (ij.2 : Int)).map some := by
        rw [hspec]
        simp [List.map_map, Function.comp_def, gemmTask_ptr]
      rw [hptr]
      exact (gemmDests_tags_nodup _ _ _ _ _ _).map (Option.some_injective _)
    · intro t1 t2 c1 hne
      simp only [Dgemm_call_eq_blockCall]
      exact blockCall_comm _ _ _ _ c1 hne

/-- Witness of C31: a `3 × 2` block `a` with a `2 × 5` block `b` (`NoTrans`)
and with a `5 × 2` block `b` (`Trans`) has the cost `3 * 2 * 5 = 30`. -/
theorem recorded_cost_witness :
    (Dgemm_arglist.new .NoTrans .NoTrans 1 1).mf_compute_flops 2 ones32 ones25 = 30 ∧
    (Dgemm_arglist.new .NoTrans .Trans 1 1).mf_compute_flops 2 ones32 ones52 = 30 ∧
    (Dgemm_arglist.new .NoTrans .NoTrans 1 1).mf_compute_flops 2 ones32 ones25 = 3 * 2 * 5 ∧
    pairTask.costs 2 = [8, 8] :=
  ⟨by decide, by decide,
    ((recorded_cost (Dgemm_arglist.new .NoTrans .NoTrans 1 1) 2 ones32 ones25).2.1 3 2 5 rfl
      (by decide)).1 rfl rfl,
    by decide⟩


/-! ## The transposed view -/

theorem gerTask_pairs (alpha : Int) (stride : Int) (ia ib : Int × DArray) :
    (gerTask alpha stride ia ib).m_arglist = [(ia.2, ib.2)] ∧
    (gerTask alpha stride ia ib).m_scale = [1] ∧
    (gerTask alpha stride ia ib).m_alpha = alpha := ⟨rfl, rfl, rfl⟩

theorem int32_of_fits (x : Int) (h : FitsInt x) : int32 x = x := by
  unfold FitsInt INT_MAX at h
  unfold int32
  omega

theorem fitsInt_of_nat_le (x : Int) (h0 : 0 ≤ x) (h1 : x ≤ INT_MAX) : FitsInt x := by
  unfold FitsInt INT_MAX at *
  omega

theorem int32_mul_int32 (x y : Int) : int32 (int32 x * y) = int32 (x * y) := by
  unfold int32
  have h : (x + 2147483648) % 4294967296
      = x + 2147483648 - 4294967296 * ((x + 2147483648) / 4294967296) := by
    rw [Int.emod_def]
  rw [h]
  have h2 : (x + 2147483648 - 4294967296 * ((x + 2147483648) / 4294967296) - 2147483648) * y
      + 2147483648
      = (x * y + 2147483648) + 4294967296 * (-(((x + 2147483648) / 4294967296) * y)) := by
    ring
  rw [h2, Int.add_mul_emod_self_left]

theorem intProd_foldl (l : List Nat) (acc : Int) :
    l.foldl (fun (acc : Int) (n : Nat) => int32 (acc * (n : Int))) (int32 acc)
      = int32 (acc * ((l.prod : Nat) : Int)) := by
  induction l generalizing acc with
  | nil => simp
  | cons n l ih =>
    rw [List.foldl_cons, int32_mul_int32, ih, List.prod_cons]
    congr 1
    push_cast
    ring

/-- The `int` product of the extents is the reduction to `int` of their
product. -/
theorem intProd_eq (l : List Nat) : intProd l = int32 ((l.prod : Nat) : Int) := by
  unfold intProd
  have h := intProd_foldl l 1
  have h1 : int32 1 = 1 := by decide
  rw [h1, one_mul] at h
  exact h

theorem intProd_of_le (l : List Nat) (h : ((l.prod : Nat) : Int) ≤ INT_MAX) :
    intProd l = ((l.prod : Nat) : Int) := by
  rw [intProd_eq]
  exact int32_of_fits _ (fitsInt_of_nat_le _ (Int.natCast_nonneg _) h)

theorem forLoop_congr {ι σ ε : Type} (f g : ι → σ → Except ε σ) (l : List ι)
    (h : ∀ i ∈ l, ∀ s, f i s = g i s) (s : σ) : forLoop f l s = forLoop g l s := by
  induction l generalizing s with
  | nil => rfl
  | cons i is ih =>
    unfold forLoop
    rw [h i (List.mem_cons_self _ _) s]
    cases g i s with
    | ok s1 => exact ih (fun j hj => h j (List.mem_cons_of_mem _ hj)) s1
    | error e => rfl

/-- For tags inside the ranges of `a` and `b` whose outer product has a total
that is a value of `int`, `c_irow` and `c_tag` of `ThreadSDger` are values of
`int`. -/
theorem ger_tag_fits (n s : Nat) (ta tb : Int) (ha0 : 0 ≤ ta) (ha : ta < (n : Int))
    (hb0 : 0 ≤ tb) (hb : tb < (s : Int)) (hfit : ((n * s : Nat) : Int) ≤ INT_MAX) :
    FitsInt (ta * (s : Int)) ∧ FitsInt (ta * (s : Int) + tb) := by
  obtain ⟨h0, h1⟩ := outer_tag_lt n s ta tb ha0 ha hb0 hb
  have hs : (0 : Int) ≤ (s : Int) := Int.natCast_nonneg s
  have hm : 0 ≤ ta * (s : Int) := Int.mul_nonneg ha0 hs
  constructor
  · apply fitsInt_of_nat_le _ hm
    omega
  · apply fitsInt_of_nat_le _ h0
    omega

/-- The construction of `ThreadSDger` at the width of `int` is the one in
exact arithmetic when `a` and `b` satisfy the tag invariant and the total of
their outer product is a value of `int`. -/
theorem ThreadSDger_tasks_int32_eq (alpha : Int) (a b c : SDArray)
    (hat : a.TagsInRange) (hbt : b.TagsInRange) (hfit : gerFitsInt a b) :
    ThreadSDger_tasks_int32 alpha a b c = ThreadSDger_tasks alpha a b c := by
  unfold ThreadSDger_tasks_int32 ThreadSDger_tasks
  simp only
  unfold gerFitsInt SDArray.size_total at hfit
  cases hst : a.store with
  | nil => rfl
  | cons p ps =>
    have hp : p.1 ∈ a.tags := by
      unfold SDArray.tags
      rw [hst]
      exact List.mem_map_of_mem _ (List.mem_cons_self _ _)
    have hpos : 0 < a.shape.prod := by
      have := hat p.1 hp
      unfold SDArray.size_total at this
      omega
    have hs : ((b.shape.prod : Nat) : Int) ≤ INT_MAX := by
      have h1 : b.shape.prod ≤ a.shape.prod * b.shape.prod :=
        Nat.le_mul_of_pos_left _ hpos
      have h2 : ((b.shape.prod : Nat) : Int) ≤ ((a.shape.prod * b.shape.prod : Nat) : Int) := by
        exact_mod_cast h1
      omega
    rw [intProd_of_le _ hs, ← hst]
    apply forLoop_congr
    intro ia hia st
    unfold ThreadSDger_row_int32 ThreadSDger_row
    simp only
    obtain ⟨ha0, ha1⟩ := hat ia.1 (List.mem_map_of_mem _ hia)
    have hrow : int32 (ia.1 * ((b.shape.prod : Nat) : Int))
        = ia.1 * ((b.shape.prod : Nat) : Int) := by
      rcases b.store.eq_nil_or_concat with hb | ⟨l, q, hb⟩
      · -- no block of `b`: the product may be anything, the loop is empty
        by_cases hz : b.shape.prod = 0
        · rw [hz]
          simp only [Nat.cast_zero, mul_zero]
          decide
        · have hq : (0 : Int) < ((b.shape.prod : Nat) : Int) := by
            exact_mod_cast Nat.pos_of_ne_zero hz
          exact int32_of_fits _ (ger_tag_fits a.shape.prod b.shape.prod ia.1 0 ha0 ha1
            (le_refl _) hq hfit).1
      · have hq : q.1 ∈ b.tags := by
          unfold SDArray.tags
          rw [hb]
          exact List.mem_map_of_mem _ (by simp)
        obtain ⟨hb0, hb1⟩ := hbt q.1 hq
        exact int32_of_fits _ (ger_tag_fits a.shape.prod b.shape.prod ia.1 q.1 ha0 ha1
          hb0 hb1 hfit).1
    rw [hrow]
    apply forLoop_congr
    intro ib hib st1
    obtain ⟨hb0, hb1⟩ := hbt ib.1 (List.mem_map_of_mem _ hib)
    unfold ThreadSDger_col_int32 ThreadSDger_col
    simp only
    rw [int32_of_fits _ (ger_tag_fits a.shape.prod b.shape.prod ia.1 ib.1 ha0 ha1
      hb0 hb1 hfit).2]

theorem ThreadSDger_int32_eq (alpha : Int) (a b c : SDArray)
    (hat : a.TagsInRange) (hbt : b.TagsInRange) (hfit : gerFitsInt a b) :
    ThreadSDger_int32 alpha a b c = ThreadSDger alpha a b c := by
  unfold ThreadSDger_int32 ThreadSDger
  rw [ThreadSDger_tasks_int32_eq alpha a b c hat hbt hfit]

/-- The bounds `i * stride` and `i * stride + stride - 1` of row `i < nrows`
are values of `int` when `nrows * stride` is one. -/
theorem row_bounds_fit (n s i : Nat) (hi : i < n) (hfit : ((n * s : Nat) : Int) ≤ INT_MAX) :
    FitsInt ((i : Int) * (s : Int)) ∧ FitsInt ((i : Int) * (s : Int) + (s : Int)) ∧
      FitsInt ((i : Int) * (s : Int) + (s : Int) - 1) := by
  have h1 : (i + 1) * s ≤ n * s := Nat.mul_le_mul_right _ hi
  have h2 : (((i + 1) * s : Nat) : Int) ≤ ((n * s : Nat) : Int) := by exact_mod_cast h1
  have h3 : (((i + 1) * s : Nat) : Int) = (i : Int) * (s : Int) + (s : Int) := by
    push_cast
    ring
  have h4 : (0 : Int) ≤ (i : Int) * (s : Int) := by positivity
  have h5 : (0 : Int) ≤ (s : Int) := Int.natCast_nonneg s
  unfold FitsInt INT_MAX at *
  refine ⟨⟨?_, ?_⟩, ⟨?_, ?_⟩, ⟨?_, ?_⟩⟩ <;> omega

theorem ThreadSDgemv_row_int32_eq (transa : BTAS_TRANSPOSE) (alpha : Int) (a b : SDArray)
    (n s i : Nat) (hi : i < n) (hfit : ((n * s : Nat) : Int) ≤ INT_MAX)
    (st : List Dgemv_arglist × SDArray) :
    ThreadSDgemv_row_int32 transa alpha a b (s : Int) i st
      = ThreadSDgemv_row transa alpha a b (s : Int) i st := by
  obtain ⟨h1, h2, h3⟩ := row_bounds_fit n s i hi hfit
  unfold ThreadSDgemv_row_int32 ThreadSDgemv_row
  simp only
  rw [int32_of_fits _ h1, int32_of_fits _ h2, int32_of_fits _ h3]

/-- The construction of `ThreadSDgemv` at the width of `int` is the one in
exact arithmetic when `nrows * stride` and `nrows` are values of `int`. -/
theorem ThreadSDgemv_tasks_int32_eq (transa : BTAS_TRANSPOSE) (alpha : Int)
    (a b c : SDArray) (hfit : gemvFitsInt a b c) :
    ThreadSDgemv_tasks_int32 transa alpha a b c = ThreadSDgemv_tasks transa alpha a b c := by
  obtain ⟨h1, h2⟩ := hfit
  unfold ThreadSDgemv_tasks_int32 ThreadSDgemv_tasks
  simp only
  unfold gemv_nrows at h1 h2 ⊢
  unfold gemv_stride at h1 ⊢
  rw [intProd_of_le _ h2, Int.toNat_ofNat]
  rcases Nat.eq_zero_or_pos (a.shape.take c.shape.length).prod with hz | hpos
  · rw [hz]
    rfl
  · have hs : ((b.shape.prod : Nat) : Int) ≤ INT_MAX := by
      have h3 : b.shape.prod ≤ (a.shape.take c.shape.length).prod * b.shape.prod :=
        Nat.le_mul_of_pos_left _ hpos
      have h4 : ((b.shape.prod : Nat) : Int)
          ≤ (((a.shape.take c.shape.length).prod * b.shape.prod : Nat) : Int) := by
        exact_mod_cast h3
      omega
    rw [intProd_of_le _ hs]
    apply forLoop_congr
    intro i hi st
    exact ThreadSDgemv_row_int32_eq transa alpha a b _ _ i (List.mem_range.mp hi) h1 st

theorem ThreadSDgemv_int32_eq (transa : BTAS_TRANSPOSE) (alpha : Int)
    (a b c : SDArray) (hfit : gemvFitsInt a b c) :
    ThreadSDgemv_int32 transa alpha a b c = ThreadSDgemv transa alpha a b c := by
  unfold ThreadSDgemv_int32 ThreadSDgemv
  rw [ThreadSDgemv_tasks_int32_eq transa alpha a b c hfit]

theorem ThreadSDgemm_col_int32_eq (transa transb : BTAS_TRANSPOSE) (alpha : Int)
    (a b : SDArray) (n m s i j : Nat) (hi : i < n) (hj : j < m)
    (hms : ((m * s : Nat) : Int) ≤ INT_MAX) (hnm : ((n * m : Nat) : Int) ≤ INT_MAX)
    (ialo iaup : Nat) (st : List Dgemm_arglist × SDArray) :
    ThreadSDgemm_col_int32 transa transb alpha a b (s : Int) ((i : Int) * (m : Int))
        ialo iaup j st
      = ThreadSDgemm_col transa transb alpha a b (s : Int) ((i : Int) * (m : Int))
        ialo iaup j st := by
  obtain ⟨h1, h2, h3⟩ := row_bounds_fit m s j hj hms
  obtain ⟨g0, g1⟩ := grid_tag_lt n m i j hi hj
  have hc : FitsInt ((i : Int) * (m : Int) + (j : Int)) := by
    apply fitsInt_of_nat_le _ g0
    omega
  unfold ThreadSDgemm_col_int32 ThreadSDgemm_col
  simp only
  rw [int32_of_fits _ h1, int32_of_fits _ h2, int32_of_fits _ h3, int32_of_fits _ hc]

theorem ThreadSDgemm_row_int32_eq (transa transb : BTAS_TRANSPOSE) (alpha : Int)
    (a b : SDArray) (n m s i : Nat) (hi : i < n)
    (hns : ((n * s : Nat) : Int) ≤ INT_MAX)
    (hms : ((m * s : Nat) : Int) ≤ INT_MAX) (hnm : ((n * m : Nat) : Int) ≤ INT_MAX)
    (st : List Dgemm_arglist × SDArray) :
    ThreadSDgemm_row_int32 transa transb alpha a b (s : Int) (m : Int) i st
      = ThreadSDgemm_row transa transb alpha a b (s : Int) m i st := by
  obtain ⟨h1, h2, h3⟩ := row_bounds_fit n s i hi hns
  have hc : FitsInt ((i : Int) * (m : Int)) := by
    obtain ⟨g1, _, _⟩ := row_bounds_fit n m i hi hnm
    exact g1
  unfold ThreadSDgemm_row_int32 ThreadSDgemm_row
  simp only
  rw [int32_of_fits _ h1, int32_of_fits _ h2, int32_of_fits _ h3, int32_of_fits _ hc,
    Int.toNat_ofNat]
  split_ifs
  · rfl
  · apply forLoop_congr
    intro j hj st1
    exact ThreadSDgemm_col_int32_eq transa transb alpha a b n m s i j hi
      (List.mem_range.mp hj) hms hnm _ _ st1

/-- With an `int` stride of `0` every row of `ThreadSDgemm` at the width of
`int` is skipped. -/
theorem ThreadSDgemm_row_int32_zero (transa transb : BTAS_TRANSPOSE) (alpha : Int)
    (a b : SDArray) (ncols : Int) (i : Nat) (st : List Dgemm_arglist × SDArray) :
    ThreadSDgemm_row_int32 transa transb alpha a b 0 ncols i st = .ok st := by
  unfold ThreadSDgemm_row_int32
  have h0 : int32 0 = 0 := by decide
  have h1 : int32 (0 - 1) = 0 - 1 := by decide
  simp only [mul_zero, add_zero, h0, h1]
  have hb := bounds_stride_zero a i
  simp only [mul_zero, add_zero] at hb
  rw [if_pos hb]

theorem nat_le_of_mul_le (x y : Nat) (hy : 0 < y) (h : ((x * y : Nat) : Int) ≤ INT_MAX) :
    ((x : Nat) : Int) ≤ INT_MAX := by
  have h1 : x ≤ x * y := Nat.le_mul_of_pos_right _ hy
  have h2 : ((x : Nat) : Int) ≤ ((x * y : Nat) : Int) := by exact_mod_cast h1
  omega

/-- The construction of `ThreadSDgemm` at the width of `int` is the one in
exact arithmetic when `nrows * stride`, `ncols * stride` and `nrows * ncols`
are values of `int`. -/
theorem ThreadSDgemm_tasks_int32_eq (transa transb : BTAS_TRANSPOSE) (alpha : Int)
    (a b c : SDArray) (hfit : gemmFitsInt a b c) :
    ThreadSDgemm_tasks_int32 transa transb alpha a b c
      = ThreadSDgemm_tasks transa transb alpha a b c := by
  obtain ⟨hns, hms, hnm⟩ := hfit
  unfold ThreadSDgemm_tasks_int32 ThreadSDgemm_tasks
  simp only
  simp only [gemm_nrows, gemm_stride, gemm_ncols] at hns hms hnm ⊢
  generalize (a.shape.take (a.shape.length - contractedRank a b c)) = ln at *
  generalize (a.shape.drop (a.shape.length - contractedRank a b c)) = ls at *
  generalize (b.shape.take (b.shape.length - contractedRank a b c)) = lm at *
  rcases Nat.eq_zero_or_pos ln.prod with hn0 | hnpos
  · rw [intProd_eq ln, hn0]
    rfl
  · rcases Nat.eq_zero_or_pos ls.prod with hs0 | hspos
    · rw [intProd_eq ls, hs0]
      have h0 : int32 ((0 : Nat) : Int) = 0 := by decide
      rw [h0, forLoop_skip _ (fun i st => ThreadSDgemm_row_int32_zero transa transb alpha
        a b _ i st), forLoop_skip _ (fun i st => ThreadSDgemm_row_zero transa transb alpha
        a b _ i st)]
    · have hn : ((ln.prod : Nat) : Int) ≤ INT_MAX := nat_le_of_mul_le _ _ hspos hns
      have hs : ((ls.prod : Nat) : Int) ≤ INT_MAX := by
        rw [Nat.mul_comm] at hns
        exact nat_le_of_mul_le _ _ hnpos hns
      have hm : ((lm.prod : Nat) : Int) ≤ INT_MAX := nat_le_of_mul_le _ _ hspos hms
      rw [intProd_of_le _ hn, intProd_of_le _ hs, intProd_of_le _ hm, Int.toNat_ofNat]
      apply forLoop_congr
      intro i hi st
      exact ThreadSDgemm_row_int32_eq transa transb alpha a b _ _ _ i
        (List.mem_range.mp hi) hns hms hnm st

theorem ThreadSDgemm_int32_eq (transa transb : BTAS_TRANSPOSE) (alpha : Int)
    (a b c : SDArray) (hfit : gemmFitsInt a b c) :
    ThreadSDgemm_int32 transa transb alpha a b c = ThreadSDgemm transa transb alpha a b c := by
  unfold ThreadSDgemm_int32 ThreadSDgemm
  rw [ThreadSDgemm_tasks_int32_eq transa transb alpha a b c hfit]

/-! ## Destinations of `ThreadSDger` at the width of `int` -/

/-- The stride `total(b)` of `ThreadSDger` is a value of `int` when `a` stores
a block inside its tag range and the total of the outer product is one. -/
theorem ger_stride_fits (a b : SDArray) (hat : a.TagsInRange) (hfit : gerFitsInt a b)
    (ta : Int) (hta : ta ∈ a.tags) : ((b.shape.prod : Nat) : Int) ≤ INT_MAX := by
  unfold gerFitsInt SDArray.size_total at hfit
  have hpos : 0 < a.shape.prod := by
    have := hat ta hta
    unfold SDArray.size_total at this
    omega
  rw [Nat.mul_comm] at hfit
  exact nat_le_of_mul_le _ _ hpos hfit

/-- C10. Let `a` and `b` satisfy the tag invariant and let the total of their
outer product, `total(a) * total(b)`, be a value of `int`. The task-list
construction of `ThreadSDger` with every `int` at its width is then the one in
exact arithmetic, and the destination tag the source computes for the block of
`a` at `a_tag` and the block of `b` at `b_tag` is `a_tag * stride + b_tag`,
`stride` being the product of the extents of `b`; the task holds that one
pair. As `0 <= b_tag < stride`, the tag determines the pair, so the
destination tags of the task list are pairwise distinct: no two tasks write
the same destination block. -/
theorem ThreadSDger_distinct_destinations (alpha : Int) (a b c : SDArray)
    (ha : a.Sorted) (hb : b.Sorted) (hat : a.TagsInRange) (hbt : b.TagsInRange)
    (hfit : gerFitsInt a b) :
    ThreadSDger_tasks_int32 alpha a b c = ThreadSDger_tasks alpha a b c ∧
    (∀ ta ∈ a.tags, ∀ tb ∈ b.tags,
      int32 (int32 (ta * intProd b.shape) + tb) = ta * (b.size_total : Int) + tb) ∧
    (∀ ta ta1 tb tb1 : Int, tb ∈ b.tags → tb1 ∈ b.tags →
      ta * (b.size_total : Int) + tb = ta1 * (b.size_total : Int) + tb1 →
      ta = ta1 ∧ tb = tb1) ∧
    (∀ st1, ThreadSDger_tasks_int32 alpha a b c = .ok st1 →
      (st1.1.map fun task => (task.m_c_ptr, task.m_arglist))
        = (a.store.flatMap fun pa =>
            (b.store.filter fun pb => c.allowed (pa.1 * (b.size_total : Int) + pb.1)).map
              fun pb => (some (pa.1 * (b.size_total : Int) + pb.1), [(pa.2, pb.2)])) ∧
      (st1.1.map fun task => task.m_c_ptr).Nodup) := by
  have heq := ThreadSDger_tasks_int32_eq alpha a b c hat hbt hfit
  have hinj : ∀ ta ta1 tb tb1 : Int, tb ∈ b.tags → tb1 ∈ b.tags →
      ta * (b.size_total : Int) + tb = ta1 * (b.size_total : Int) + tb1 →
      ta = ta1 ∧ tb = tb1 := by
    intro ta ta1 tb tb1 h1 h2 h
    exact ger_tag_inj _ ta ta1 tb tb1 (hbt tb h1).1 (hbt tb h1).2 (hbt tb1 h2).1
      (hbt tb1 h2).2 h
  refine ⟨heq, ?_, hinj, ?_⟩
  · intro ta hta tb htb
    obtain ⟨ha0, ha1⟩ := hat ta hta
    obtain ⟨hb0, hb1⟩ := hbt tb htb
    obtain ⟨f1, f2⟩ := ger_tag_fits a.size_total b.size_total ta tb ha0 ha1 hb0 hb1 hfit
    rw [intProd_of_le _ (ger_stride_fits a b hat hfit ta hta)]
    unfold SDArray.size_total at f1 f2 ⊢
    rw [int32_of_fits _ f1, int32_of_fits _ f2]
  · intro st1 h
    rw [heq] at h
    have hspec := ThreadSDger_tasks_spec alpha a b c st1 h
    constructor
    · rw [hspec]
      simp [gerDests, List.map_flatMap, List.map_map, Function.comp_def, gerTask,
        Dger_arglist.set, Dger_arglist.add, Dger_arglist.new, SDArray.size_total]
    · have hptr : (st1.1.map fun task => task.m_c_ptr)
          = ((gerDests c.allowed a b (b.shape.prod : Nat)).map
              fun p => p.1.1 * ((b.shape.prod : Nat) : Int) + p.2.1).map some := by
        rw [hspec]
        simp [List.map_map, Function.comp_def, gerTask, Dger_arglist.set]
      rw [hptr]
      apply List.Nodup.map (Option.some_injective _)
      apply List.Nodup.map_on _ (gerDests_nodup _ a b _ ha hb)
      intro p hp q hq hpq
      rw [mem_gerDests] at hp hq
      have hp2 : p.2.1 ∈ b.tags := (mem_tags_iff b _).2 ⟨p.2.2, hp.2.1⟩
      have hq2 : q.2.1 ∈ b.tags := (mem_tags_iff b _).2 ⟨q.2.2, hq.2.1⟩
      obtain ⟨e1, e2⟩ := hinj p.1.1 q.1.1 p.2.1 q.2.1 hp2 hq2 hpq
      exact Prod.ext (store_entry_unique a ha _ _ hp.1 hq.1 e1)
        (store_entry_unique b hb _ _ hp.2.1 hq.2.1 e2)

/-- Witness of C10: the outer product of `scenarioA` with the block vector
`scenarioV`, of total `4 * 2`: the construction at the width of `int` returns
four tasks, bound to the tags `0`, `1`, `6` and `7`. -/
theorem ThreadSDger_distinct_destinations_witness :
    scenarioA.Sorted ∧ scenarioV.Sorted ∧ scenarioA.TagsInRange ∧ scenarioV.TagsInRange ∧
      gerFitsInt scenarioA scenarioV ∧
      ∃ st1, ThreadSDger_tasks_int32 1 scenarioA scenarioV scenarioG = .ok st1 ∧
        (st1.1.map fun task => task.m_c_ptr) = [some 0, some 1, some 6, some 7] ∧
        (st1.1.map fun task => task.m_c_ptr).Nodup := by
  have h := ThreadSDger_distinct_destinations 1 scenarioA scenarioV scenarioG
    (by decide) (by decide) (by decide) (by decide) (by decide)
  obtain ⟨st1, hst⟩ := ThreadSDger_tasks_ok 1 scenarioA scenarioV scenarioG (by decide)
  rw [← h.1] at hst
  refine ⟨by decide, by decide, by decide, by decide, by decide, st1, hst, ?_,
    (h.2.2.2 st1 hst).2⟩
  have hm := congrArg (List.map Prod.fst) (h.2.2.2 st1 hst).1
  rw [List.map_map] at hm
  exact hm.trans (by decide)

/-! ## The tag invariant of the destination at the width of `int` -/

/-- The destination tag `i * ncols + j` of `ThreadSDgemm`, computed at the
width of `int`, is the exact value when `nrows * ncols` is a value of `int`. -/
theorem grid_tag_int32 (n m i j : Nat) (hi : i < n) (hj : j < m)
    (hfit : ((n * m : Nat) : Int) ≤ INT_MAX) :
    int32 (int32 ((i : Int) * (m : Int)) + (j : Int)) = (i : Int) * (m : Int) + (j : Int) := by
  obtain ⟨g0, g1⟩ := grid_tag_lt n m i j hi hj
  obtain ⟨f1, _, _⟩ := row_bounds_fit n m i hi hfit
  rw [int32_of_fits _ f1]
  apply int32_of_fits
  apply fitsInt_of_nat_le _ g0
  omega

/-- C33: let `a` and `b` satisfy the tag invariant, let `c` have the
contraction shape of the operands the routine is given, and let the totals
the routine computes with be values of `int`. The task-list construction with
every `int` at its width is then the one in exact arithmetic. Every
destination tag of `ThreadSDgemm` (`i * ncols + j`), of `ThreadSDgemv` (`i`)
and of `ThreadSDger` (`a_tag * stride + b_tag`), as the source computes it, is
at least `0` and smaller than the product of the extents of `c`; the task-list
construction returns, every task it builds is bound to such a tag; and when
`c` satisfies the tag invariant before the call it satisfies it after the
call. -/
theorem reserved_tags_in_range (transa transb : BTAS_TRANSPOSE) (alpha : Int)
    (a b c : SDArray) (hat : a.TagsInRange) (hbt : b.TagsInRange) :
    (c.shape = (gemm_contract_shape .NoTrans .Trans (contractedRank a b c)
          a.shape b.shape).2 → gemmFitsInt a b c →
      ThreadSDgemm_tasks_int32 transa transb alpha a b c
        = ThreadSDgemm_tasks transa transb alpha a b c ∧
      c.size_total = gemm_nrows a b c * gemm_ncols a b c ∧
      (∀ i j : Nat, i < gemm_nrows a b c → j < gemm_ncols a b c →
        int32 (int32 ((i : Int) * (gemm_ncols a b c : Int)) + (j : Int))
          = (i : Int) * (gemm_ncols a b c : Int) + (j : Int) ∧
        0 ≤ (i : Int) * (gemm_ncols a b c : Int) + (j : Int) ∧
        (i : Int) * (gemm_ncols a b c : Int) + (j : Int) < (c.size_total : Int)) ∧
      (∃ st, ThreadSDgemm_tasks_int32 transa transb alpha a b c = .ok st ∧
        ∀ task ∈ st.1, ∃ t, task.m_c_ptr = some t ∧ 0 ≤ t ∧ t < (c.size_total : Int)) ∧
      (c.TagsInRange →
        (Outcome.final (ThreadSDgemm_int32 transa transb alpha a b c)).TagsInRange)) ∧
    (c.shape = gemv_contract_shape .NoTrans a.shape b.shape → gemvFitsInt a b c →
      ThreadSDgemv_tasks_int32 transa alpha a b c = ThreadSDgemv_tasks transa alpha a b c ∧
      c.size_total = gemv_nrows a c ∧
      (∃ st, ThreadSDgemv_tasks_int32 transa alpha a b c = .ok st ∧
        ∀ task ∈ st.1, ∃ t, task.m_c_ptr = some t ∧ 0 ≤ t ∧ t < (c.size_total : Int)) ∧
      (c.TagsInRange →
        (Outcome.final (ThreadSDgemv_int32 transa alpha a b c)).TagsInRange)) ∧
    (c.shape = ger_contract_shape a.shape b.shape → gerFitsInt a b →
      ThreadSDger_tasks_int32 alpha a b c = ThreadSDger_tasks alpha a b c ∧
      c.size_total = a.size_total * b.size_total ∧
      (∀ ta ∈ a.tags, ∀ tb ∈ b.tags,
        int32 (int32 (ta * intProd b.shape) + tb) = ta * ((b.shape.prod : Nat) : Int) + tb ∧
        0 ≤ ta * ((b.shape.prod : Nat) : Int) + tb ∧
        ta * ((b.shape.prod : Nat) : Int) + tb < (c.size_total : Int)) ∧
      (∃ st, ThreadSDger_tasks_int32 alpha a b c = .ok st ∧
        ∀ task ∈ st.1, ∃ t, task.m_c_ptr = some t ∧ 0 ≤ t ∧ t < (c.size_total : Int)) ∧
      (c.TagsInRange → (Outcome.final (ThreadSDger_int32 alpha a b c)).TagsInRange)) := by
  have hres : ∀ t, c.allowed t = true → 0 ≤ t → t < (c.size_total : Int) →
      (c.reserve t).isSome = true := by
    intro t h1 h2 h3
    exact (SDArray.reserve_isSome_iff c t).mpr (Or.inr ⟨h1, h2, h3⟩)
  refine ⟨?_, ?_, ?_⟩
  · intro hshape hfit
    have heq := ThreadSDgemm_tasks_int32_eq transa transb alpha a b c hfit
    rw [ThreadSDgemm_int32_eq transa transb alpha a b c hfit, heq]
    have hsz : c.size_total = gemm_nrows a b c * gemm_ncols a b c := by
      unfold SDArray.size_total gemm_nrows gemm_ncols
      conv_lhs => rw [hshape]
      simp [gemm_contract_shape, List.prod_append]
    have hgrid : ∀ i j : Nat, i < gemm_nrows a b c → j < gemm_ncols a b c →
        0 ≤ (i : Int) * (gemm_ncols a b c : Int) + (j : Int) ∧
        (i : Int) * (gemm_ncols a b c : Int) + (j : Int) < (c.size_total : Int) := by
      intro i j hi hj
      rw [hsz]
      exact grid_tag_lt _ _ i j hi hj
    have hdest : ∀ t ∈ (gemmDests c.allowed a b (gemm_stride a b c) (gemm_ncols a b c)
        (gemm_nrows a b c)).map
        (fun ij : Nat × Nat => (ij.1 : Int) * (gemm_ncols a b c : Int) + (ij.2 : Int)),
        0 ≤ t ∧ t < (c.size_total : Int) := by
      intro t ht
      obtain ⟨ij, hij, rfl⟩ := List.mem_map.mp ht
      have hlt := mem_gemmDests_lt _ _ _ _ _ _ ij hij
      exact hgrid ij.1 ij.2 hlt.1 hlt.2
    obtain ⟨st, hst⟩ := ThreadSDgemm_tasks_ok transa transb alpha a b c
      (gemmDests_reservable a b c (fun i j hi hj hal =>
        hres _ hal (hgrid i j hi hj).1 (hgrid i j hi hj).2))
    have hspec := ThreadSDgemm_tasks_spec transa transb alpha a b c st hst
    refine ⟨rfl, hsz, ?_, ⟨st, hst, ?_⟩, ?_⟩
    · intro i j hi hj
      exact ⟨grid_tag_int32 _ _ i j hi hj hfit.2.2, hgrid i j hi hj⟩
    · intro task htask
      rw [hspec] at htask
      obtain ⟨ij, hij, rfl⟩ := List.mem_map.mp htask
      exact ⟨_, gemmTask_ptr _ _ _ _ _ _ _ _ _, hdest _ (List.mem_map_of_mem _ hij)⟩
    · intro hc
      have hfr := ThreadSDgemm_final_tags transa transb alpha a b c st hst
      rw [hspec] at hfr
      exact tagsInRange_of_reserveAll c _ _ hc hdest hfr
  · intro hshape hfit
    have heq := ThreadSDgemv_tasks_int32_eq transa alpha a b c hfit
    rw [ThreadSDgemv_int32_eq transa alpha a b c hfit, heq]
    have hsz : c.size_total = gemv_nrows a c := by
      unfold SDArray.size_total gemv_nrows
      have : a.shape.take c.shape.length = c.shape := by
        conv_lhs => rw [hshape]
        conv_rhs => rw [hshape]
        unfold gemv_contract_shape
        simp only [if_true]
        exact take_length_take _ _
      rw [this]
    have hdest : ∀ t ∈ (gemvDests c.allowed a b (gemv_stride b) (gemv_nrows a c)).map
        (fun i : Nat => (i : Int)), 0 ≤ t ∧ t < (c.size_total : Int) := by
      intro t ht
      obtain ⟨i, hi, rfl⟩ := List.mem_map.mp ht
      rw [mem_gemvDests] at hi
      exact ⟨Int.natCast_nonneg i, by rw [hsz]; exact_mod_cast hi.1⟩
    obtain ⟨st, hst⟩ := ThreadSDgemv_tasks_ok transa alpha a b c (by
      intro i hi
      have hd := hdest _ (List.mem_map_of_mem (fun i : Nat => (i : Int)) hi)
      rw [mem_gemvDests] at hi
      exact hres _ hi.2.2.1 hd.1 hd.2)
    have hspec := ThreadSDgemv_tasks_spec transa alpha a b c st hst
    refine ⟨rfl, hsz, ⟨st, hst, ?_⟩, ?_⟩
    · intro task htask
      rw [hspec] at htask
      obtain ⟨i, hi, rfl⟩ := List.mem_map.mp htask
      exact ⟨_, gemvTask_ptr _ _ _ _ _ _,
        hdest _ (List.mem_map_of_mem (fun i : Nat => (i : Int)) hi)⟩
    · intro hc
      have hfr := ThreadSDgemv_final_tags transa alpha a b c st hst
      rw [hspec] at hfr
      exact tagsInRange_of_reserveAll c _ _ hc hdest hfr
  · intro hshape hfit
    have heq := ThreadSDger_tasks_int32_eq alpha a b c hat hbt hfit
    rw [ThreadSDger_int32_eq alpha a b c hat hbt hfit, heq]
    have hsz : c.size_total = a.size_total * b.size_total := by
      unfold SDArray.size_total
      rw [hshape]
      unfold ger_contract_shape
      rw [List.prod_append]
    have hpair : ∀ ta ∈ a.tags, ∀ tb ∈ b.tags,
        0 ≤ ta * ((b.shape.prod : Nat) : Int) + tb ∧
        ta * ((b.shape.prod : Nat) : Int) + tb < (c.size_total : Int) := by
      intro ta hta tb htb
      obtain ⟨ha0, ha1⟩ := hat ta hta
      obtain ⟨hb0, hb1⟩ := hbt tb htb
      rw [hsz]
      exact outer_tag_lt a.size_total b.shape.prod ta tb ha0 ha1 hb0 hb1
    have hdest : ∀ t ∈ (gerDests c.allowed a b (b.shape.prod : Nat)).map
        (fun p => p.1.1 * ((b.shape.prod : Nat) : Int) + p.2.1),
        0 ≤ t ∧ t < (c.size_total : Int) := by
      intro t ht
      obtain ⟨p, hp, rfl⟩ := List.mem_map.mp ht
      rw [mem_gerDests] at hp
      exact hpair _ (List.mem_map_of_mem _ hp.1) _ (List.mem_map_of_mem _ hp.2.1)
    obtain ⟨st, hst⟩ := ThreadSDger_tasks_ok alpha a b c (by
      intro p hp
      have hd := hdest _ (List.mem_map_of_mem
        (fun p : (Int × DArray) × (Int × DArray) =>
          p.1.1 * ((b.shape.prod : Nat) : Int) + p.2.1) hp)
      rw [mem_gerDests] at hp
      exact hres _ hp.2.2 hd.1 hd.2)
    have hspec := ThreadSDger_tasks_spec alpha a b c st hst
    refine ⟨rfl, hsz, ?_, ⟨st, hst, ?_⟩, ?_⟩
    · intro ta hta tb htb
      obtain ⟨ha0, ha1⟩ := hat ta hta
      obtain ⟨hb0, hb1⟩ := hbt tb htb
      obtain ⟨f1, f2⟩ := ger_tag_fits a.size_total b.size_total ta tb ha0 ha1 hb0 hb1 hfit
      refine ⟨?_, hpair ta hta tb htb⟩
      rw [intProd_of_le _ (ger_stride_fits a b hat hfit ta hta)]
      unfold SDArray.size_total at f1 f2
      rw [int32_of_fits _ f1, int32_of_fits _ f2]
    · intro task htask
      rw [hspec] at htask
      obtain ⟨p, hp, rfl⟩ := List.mem_map.mp htask
      exact ⟨_, gerTask_dest _ _ _ _, hdest _ (List.mem_map_of_mem
        (fun p : (Int × DArray) × (Int × DArray) =>
          p.1.1 * ((b.shape.prod : Nat) : Int) + p.2.1) hp)⟩
    · intro hc
      have hfr : SDArray.SameFrame (Outcome.final (ThreadSDger alpha a b c)) st.2 := by
        unfold ThreadSDger
        rw [hst]
        exact parallel_call_frame _ Dger_call_frame st.1 st.2
      rw [hspec] at hfr
      exact tagsInRange_of_reserveAll c _ _ hc hdest hfr

/-- Witness of C33 on the worked scenario: the operands satisfy the tag
invariant, the destinations have the contraction shapes, the totals are values
of `int`, and after `ThreadSDgemm`, `ThreadSDgemv` and `ThreadSDger` at the
width of `int` the destination satisfies the tag invariant. -/
theorem reserved_tags_in_range_witness :
    scenarioA.TagsInRange ∧ scenarioB.TagsInRange ∧ scenarioV.TagsInRange ∧
    (scenarioC 2 2).shape = (gemm_contract_shape .NoTrans .Trans
        (contractedRank scenarioA scenarioB (scenarioC 2 2))
        scenarioA.shape scenarioB.shape).2 ∧
    (scenarioY 2).shape = gemv_contract_shape .NoTrans scenarioA.shape scenarioV.shape ∧
    scenarioG.shape = ger_contract_shape scenarioA.shape scenarioV.shape ∧
    gemmFitsInt scenarioA scenarioB (scenarioC 2 2) ∧
    gemvFitsInt scenarioA scenarioV (scenarioY 2) ∧
    gerFitsInt scenarioA scenarioV ∧
    (Outcome.final (ThreadSDgemm_int32 .NoTrans .NoTrans 1 scenarioA scenarioB
      (scenarioC 2 2))).TagsInRange ∧
    (Outcome.final (ThreadSDgemv_int32 .NoTrans 1 scenarioA scenarioV
      (scenarioY 2))).TagsInRange ∧
    (Outcome.final (ThreadSDger_int32 1 scenarioA scenarioV scenarioG)).TagsInRange :=
  ⟨by decide, by decide, by decide, by decide, by decide, by decide, by decide, by decide,
    by decide,
    ((reserved_tags_in_range .NoTrans .NoTrans 1 scenarioA scenarioB (scenarioC 2 2)
      (by decide) (by decide)).1 (by decide) (by decide)).2.2.2.2 (by decide),
    ((reserved_tags_in_range .NoTrans .NoTrans 1 scenarioA scenarioV (scenarioY 2)
      (by decide) (by decide)).2.1 (by decide) (by decide)).2.2.2 (by decide),
    ((reserved_tags_in_range .NoTrans .NoTrans 1 scenarioA scenarioV scenarioG
      (by decide) (by decide)).2.2 (by decide) (by decide)).2.2.2.2 (by decide)⟩

/-! ## The "could not be allocated" branch at the width of `int` -/

/-- C29, amended: in the container a reservation returns a block whenever
the tag is allowed and inside the declared tag range. When moreover `c` has
the contraction shape of the operands the routine is given and the totals the
routine computes with are values of `int` (for `ThreadSDger`, on operands
whose tags lie in their ranges), the task-list construction of `ThreadSDgemm`,
`ThreadSDgemv` and `ThreadSDger` with every `int` at its width, which holds
the only "required block could not be allocated" throw of the routine,
returns, and the routine never throws that error: every tag it reserves has
passed `allowed` and lies inside the tag range of `c`. A dense kernel may
still throw inside a task. -/
theorem reserve_branch_unreachable (transa transb : BTAS_TRANSPOSE) (alpha : Int)
    (a b c : SDArray) :
    (∀ t, c.allowed t = true → 0 ≤ t → t < (c.size_total : Int) →
        (c.reserve t).isSome = true) ∧
    (c.shape = (gemm_contract_shape .NoTrans .Trans (contractedRank a b c)
          a.shape b.shape).2 → gemmFitsInt a b c →
      (∃ st, ThreadSDgemm_tasks_int32 transa transb alpha a b c = .ok st) ∧
        thrown (ThreadSDgemm_int32 transa transb alpha a b c) ≠ some .blockUnavailable) ∧
    (c.shape = gemv_contract_shape .NoTrans a.shape b.shape → gemvFitsInt a b c →
      (∃ st, ThreadSDgemv_tasks_int32 transa alpha a b c = .ok st) ∧
        thrown (ThreadSDgemv_int32 transa alpha a b c) ≠ some .blockUnavailable) ∧
    (a.TagsInRange → b.TagsInRange → c.shape = ger_contract_shape a.shape b.shape →
      gerFitsInt a b →
      (∃ st, ThreadSDger_tasks_int32 alpha a b c = .ok st) ∧
        thrown (ThreadSDger_int32 alpha a b c) ≠ some .blockUnavailable) := by
  have hres : ∀ t, c.allowed t = true → 0 ≤ t → t < (c.size_total : Int) →
      (c.reserve t).isSome = true := by
    intro t h1 h2 h3
    exact (SDArray.reserve_isSome_iff c t).mpr (Or.inr ⟨h1, h2, h3⟩)
  refine ⟨hres, ?_, ?_, ?_⟩
  · intro hshape hfit
    rw [ThreadSDgemm_int32_eq transa transb alpha a b c hfit,
      ThreadSDgemm_tasks_int32_eq transa transb alpha a b c hfit]
    have hsz : c.size_total = gemm_nrows a b c * gemm_ncols a b c := by
      unfold SDArray.size_total gemm_nrows gemm_ncols
      conv_lhs => rw [hshape]
      simp [gemm_contract_shape, List.prod_append]
    have hr := gemmDests_reservable a b c (by
      intro i j hi hj hal
      obtain ⟨h0, h1⟩ := grid_tag_lt _ _ i j hi hj
      exact hres _ hal h0 (by rw [hsz]; exact h1))
    obtain ⟨st, hst⟩ := ThreadSDgemm_tasks_ok transa transb alpha a b c hr
    refine ⟨⟨st, hst⟩, ?_⟩
    unfold ThreadSDgemm
    rw [hst]
    exact thrown_parallel_call Dgemm_arglist.call _ _ Dgemm_call_eq_blockCall _ _
  · intro hshape hfit
    rw [ThreadSDgemv_int32_eq transa alpha a b c hfit,
      ThreadSDgemv_tasks_int32_eq transa alpha a b c hfit]
    have hsz : c.size_total = gemv_nrows a c := by
      unfold SDArray.size_total gemv_nrows
      have : a.shape.take c.shape.length = c.shape := by
        conv_lhs => rw [hshape]
        conv_rhs => rw [hshape]
        unfold gemv_contract_shape
        simp only [if_true]
        exact take_length_take _ _
      rw [this]
    obtain ⟨st, hst⟩ := ThreadSDgemv_tasks_ok transa alpha a b c (by
      intro i hi
      rw [mem_gemvDests] at hi
      exact hres _ hi.2.2.1 (Int.natCast_nonneg i) (by rw [hsz]; exact_mod_cast hi.1))
    refine ⟨⟨st, hst⟩, ?_⟩
    unfold ThreadSDgemv
    rw [hst]
    exact thrown_parallel_call Dgemv_arglist.call _ _ Dgemv_call_eq_blockCall _ _
  · intro hat hbt hshape hfit
    rw [ThreadSDger_int32_eq alpha a b c hat hbt hfit,
      ThreadSDger_tasks_int32_eq alpha a b c hat hbt hfit]
    have hsz : c.size_total = a.size_total * b.shape.prod := by
      unfold SDArray.size_total
      rw [hshape]
      unfold ger_contract_shape
      rw [List.prod_append]
    obtain ⟨st, hst⟩ := ThreadSDger_tasks_ok alpha a b c (by
      intro p hp
      rw [mem_gerDests] at hp
      obtain ⟨ha0, ha1⟩ := hat p.1.1 (List.mem_map_of_mem _ hp.1)
      obtain ⟨hb0, hb1⟩ := hbt p.2.1 (List.mem_map_of_mem _ hp.2.1)
      obtain ⟨h0, h1⟩ := outer_tag_lt a.size_total b.shape.prod p.1.1 p.2.1 ha0 ha1 hb0 hb1
      exact hres _ hp.2.2 h0 (by rw [hsz]; exact h1))
    refine ⟨⟨st, hst⟩, ?_⟩
    unfold ThreadSDger
    rw [hst]
    exact thrown_parallel_call Dger_arglist.call _ _ Dger_call_eq_blockCall _ _

/-- Witness of C29, amended, on the worked scenario and on the destination
`wideC`: the destination has the contraction shape, the totals are values of
`int`, the task-list construction of `ThreadSDgemm` returns, and the routine
does not throw "required block could not be allocated". -/
theorem reserve_branch_unreachable_witness :
    (scenarioC 2 2).shape = (gemm_contract_shape .NoTrans .Trans
        (contractedRank scenarioA scenarioB (scenarioC 2 2))
        scenarioA.shape scenarioB.shape).2 ∧
    gemmFitsInt scenarioA scenarioB (scenarioC 2 2) ∧
    (∃ st, ThreadSDgemm_tasks_int32 .NoTrans .NoTrans 1 scenarioA scenarioB (scenarioC 2 2)
        = .ok st) ∧
    thrown (ThreadSDgemm_int32 .NoTrans .NoTrans 1 scenarioA scenarioB (scenarioC 2 2))
      ≠ some .blockUnavailable ∧
    thrown (ThreadSDgemm_int32 .NoTrans .NoTrans 1 scenarioA scenarioB wideC)
      ≠ some .blockUnavailable :=
  ⟨by decide, by decide,
    ((reserve_branch_unreachable .NoTrans .NoTrans 1 scenarioA scenarioB
      (scenarioC 2 2)).2.1 (by decide) (by decide)).1,
    ((reserve_branch_unreachable .NoTrans .NoTrans 1 scenarioA scenarioB
      (scenarioC 2 2)).2.1 (by decide) (by decide)).2,
    ((reserve_branch_unreachable .NoTrans .NoTrans 1 scenarioA scenarioB
      wideC).2.1 (by decide) (by decide)).2⟩

/-- Counterexample to C29 as stated: `wideC` returns a block from `reserve`
whenever the tag is allowed and inside its tag range, has the contraction
shape of `scenarioA` and `scenarioB`, whose tags lie in their ranges, and all
totals are values of `int`; yet `ThreadSDgemm` fails: the `3 × 3` block it
reserved at tag `0` does not have the shape of the product of two `2 × 2`
blocks, and the dense `Dgemm` of the first task throws. The routine does not
"never fail". -/
theorem reserve_branch_unreachable_counterexample :
    (∀ t, wideC.allowed t = true → 0 ≤ t → t < (wideC.size_total : Int) →
        (wideC.reserve t).isSome = true) ∧
    wideC.shape = (gemm_contract_shape .NoTrans .Trans
        (contractedRank scenarioA scenarioB wideC) scenarioA.shape scenarioB.shape).2 ∧
    scenarioA.TagsInRange ∧ scenarioB.TagsInRange ∧
    gemmFitsInt scenarioA scenarioB wideC ∧
    thrown (ThreadSDgemm_int32 .NoTrans .NoTrans 1 scenarioA scenarioB wideC)
      = some .denseShapeMismatch ∧
    thrown (ThreadSDgemm .NoTrans .NoTrans 1 scenarioA scenarioB wideC)
      = some .denseShapeMismatch ∧
    ¬ (∃ c1, ThreadSDgemm .NoTrans .NoTrans 1 scenarioA scenarioB wideC = .ok c1) := by
  refine ⟨?_, by decide, by decide, by decide, by decide, by decide, by decide, ?_⟩
  · intro t h1 h2 h3
    exact (SDArray.reserve_isSome_iff wideC t).mpr (Or.inr ⟨h1, h2, h3⟩)
  · rintro ⟨c1, h⟩
    have ht : thrown (ThreadSDgemm .NoTrans .NoTrans 1 scenarioA scenarioB wideC)
        = some .denseShapeMismatch := by decide
    rw [h] at ht
    cases ht

end btas
